import Mathlib

/-!
SysY to MIPS compiler: symbol table, IR model, optimizer passes, IR generation, MIPS
generation.

A shallow embedding of the middle and back end of the compiler:

* `SymbolTable.h`: scopes, the scope stack and the operations of the symbol table;
* `IR.h`: operands, opcodes, four-tuple instructions and their textual form;
* `Optimizer.cpp`: block construction, the four block-local passes, dead-code
  elimination, the fixed-point driver and the reassembly of the listing;
* `IRGenerator.cpp`: short-circuit lowering of conditions, variable operands, lowering
  of `printf`, and the per-function layout table;
* `MIPSGenerator.cpp`: the register allocator, address resolution, lowering of `PARAM`,
  `CALL`, `STORE`, `LOAD`, `GET_ADDR`, and the function prologue and epilogue.

C++ `int` is modelled by `Int` with an explicit wrap to 32 bits wherever the
code computes a new value. Pointers to heap objects become values; a null
pointer becomes `none`; a thrown exception becomes `Except.error`.
-/

namespace SysY

/-! ## Symbol table entries (SymbolTable.h) -/

/-- Kinds of symbols, `enum class SymbolType`. -/
inductive SymbolType where
  | ConstInt | Int | VoidFunc | IntFunc | ConstIntArray | IntArray | StaticInt | StaticIntArray
  deriving DecidableEq, Repr

/-- The fields of `struct SymbolEntry` that the symbol table, the IR, the optimizer and
the code generator read. The defaults of `offset`, `size`, `stackFrameSize` and
`arraySize` are the values the C++ constructor assigns. -/
structure SymbolEntry where
  name : String
  type : SymbolType
  scope : Int
  label : String := ""
  line : Int := 0
  isParam : Bool := false
  offset : Int := 0
  size : Int := 4
  stackFrameSize : Int := 0
  arraySize : Int := -1
  deriving DecidableEq, Repr

/-! ## IR model (IR.h) -/

/-- Opcodes, `enum class IROp`. The two shift opcodes `SLL` and `SRA` are the ones
`Optimizer.cpp` refers to as `IROp::SLL` and `IROp::SRA`. -/
inductive IROp where
  | ADD | SUB | MUL | DIV | MOD | NEG
  | NOT | GT | GE | LT | LE | EQ | NEQ
  | ASSIGN | LOAD | STORE | GET_ADDR
  | LABEL | JUMP | BEQZ
  | PARAM | CALL | RET
  | FUNC_ENTRY | FUNC_EXIT
  | GETINT | PRINTINT | PRINTSTR
  | SLL | SRA
  deriving DecidableEq, Repr

/-- Operand kinds, `enum class OperandType`. -/
inductive OperandType where
  | VAR | TEMP | IMM | LABEL
  deriving DecidableEq, Repr

/-- An operand, `struct Operand`. The `symbol` pointer is `none` when null. -/
structure Operand where
  type : OperandType
  name : String
  value : Int
  symbol : Option SymbolEntry
  deriving DecidableEq, Repr

/-- Constructor `Operand(int v)`. -/
def Operand.imm (v : Int) : Operand := ⟨OperandType.IMM, "", v, none⟩

/-- Constructor `Operand(std::string n, OperandType t)`. -/
def Operand.named (n : String) (t : OperandType) : Operand := ⟨t, n, 0, none⟩

/-- Constructor `Operand(SymbolEntry* s)`. -/
def Operand.ofSymbol (s : SymbolEntry) : Operand := ⟨OperandType.VAR, s.name, 0, some s⟩

/-- Text of an operand, `Operand::toString`: `#v` for an immediate, the name of the
symbol entry for a variable, the operand name otherwise. A variable operand
always carries its symbol entry in the generator; for a null symbol (which the
C++ would dereference) the operand name is returned. -/
def Operand.toString (o : Operand) : String :=
  if o.type = OperandType.IMM then "#" ++ ToString.toString o.value
  else if o.type = OperandType.VAR then
    (match o.symbol with
     | some s => s.name
     | none => o.name)
  else o.name

/-- A four-tuple instruction, `struct IRInstruction`. -/
structure IRInstruction where
  op : IROp
  result : Option Operand := none
  arg1 : Option Operand := none
  arg2 : Option Operand := none
  deriving DecidableEq, Repr

/-- Opcode names, `IRInstruction::getOpString`; the two shift opcodes print
under their enumerator names like every other opcode. -/
def IROp.getOpString : IROp → String
  | .ADD => "ADD" | .SUB => "SUB" | .MUL => "MUL" | .DIV => "DIV" | .MOD => "MOD"
  | .NEG => "NEG" | .NOT => "NOT" | .GT => "GT" | .GE => "GE" | .LT => "LT" | .LE => "LE"
  | .EQ => "EQ" | .NEQ => "NEQ" | .ASSIGN => "ASSIGN" | .LOAD => "LOAD" | .STORE => "STORE"
  | .GET_ADDR => "GET_ADDR" | .LABEL => "LABEL" | .JUMP => "JUMP" | .BEQZ => "BEQZ"
  | .PARAM => "PARAM" | .CALL => "CALL" | .RET => "RET" | .GETINT => "GETINT"
  | .PRINTINT => "PRINTINT" | .PRINTSTR => "PRINTSTR" | .FUNC_ENTRY => "FUNC_ENTRY"
  | .FUNC_EXIT => "FUNC_EXIT" | .SLL => "SLL" | .SRA => "SRA"

/-- Basic block, `struct BasicBlock`; predecessor and successor blocks are named by id. -/
structure BasicBlock where
  id : Nat
  instructions : List IRInstruction
  preds : List Nat := []
  succs : List Nat := []
  deriving DecidableEq, Repr

/-- Function, `struct Function`. -/
structure Function where
  name : String
  blocks : List BasicBlock
  deriving DecidableEq, Repr

/-! ## Machine integers -/

/-- Reduce an integer to the signed 32-bit range (two's-complement wrap). -/
def wrap32 (x : Int) : Int := (x + 2147483648) % 4294967296 - 2147483648

/-- Membership in the range of a C++ `int`. -/
def inInt32 (x : Int) : Prop := -2147483648 ≤ x ∧ x ≤ 2147483647

instance (x : Int) : Decidable (inInt32 x) := by unfold inInt32; infer_instance

/-! ## String-keyed maps (`std::map`, `std::unordered_map`) -/

/-- Lookup (`find` / `count`). -/
def mapFind {β : Type} : List (String × β) → String → Option β
  | [], _ => none
  | (k, v) :: rest, key => if k = key then some v else mapFind rest key

/-- Removal of a key (`erase`). -/
def mapErase {β : Type} : List (String × β) → String → List (String × β)
  | [], _ => []
  | (k, v) :: rest, key => if k = key then mapErase rest key else (k, v) :: mapErase rest key

/-- Assignment through `operator[]`. -/
def mapSet {β : Type} (m : List (String × β)) (key : String) (v : β) : List (String × β) :=
  (key, v) :: mapErase m key

/-! ## Pass 1: constant folding (Optimizer::passConstantFolding) -/

/-- The block-local constant table `constValues`. -/
abbrev ConstMap := List (String × Int)

/-- Memory instructions whose `arg1` is a base address. -/
def isMemBase (op : IROp) : Bool :=
  op = IROp.STORE || op = IROp.LOAD || op = IROp.GET_ADDR

/-- Opcodes whose `result` field is a use (as listed in the folding and
copy-propagation passes). -/
def isResultUse (op : IROp) : Bool :=
  op = IROp.STORE || op = IROp.RET || op = IROp.PARAM || op = IROp.PRINTINT || op = IROp.PRINTSTR

/-- Replace a non-immediate operand that has a table entry by the immediate. -/
def substOperand (m : ConstMap) (o : Option Operand) : Option Operand × Bool :=
  match o with
  | none => (none, false)
  | some a =>
    if a.type ≠ OperandType.IMM then
      match mapFind m a.toString with
      | some v => (some (Operand.imm v), true)
      | none => (some a, false)
    else (some a, false)

/-- Phases 1 and 2 of the loop body: substitution of `arg1` (unless it is a
memory base), of `arg2`, and of `result` when the opcode uses it. -/
def substituteUses (m : ConstMap) (instr : IRInstruction) : IRInstruction × Bool :=
  let a1 := if isMemBase instr.op then (instr.arg1, false) else substOperand m instr.arg1
  let a2 := substOperand m instr.arg2
  let r := if isResultUse instr.op then substOperand m instr.result else (instr.result, false)
  ({ op := instr.op, result := r.1, arg1 := a1.1, arg2 := a2.1 }, a1.2 || a2.2 || r.2)

/-- The `isSafeToFold` gate: temporaries, and local non-static variables. -/
def isSafeToFold (res : Operand) : Bool :=
  if res.type = OperandType.TEMP then true
  else if res.type = OperandType.VAR then
    (match res.symbol with
     | some s => decide (s.scope > 1) && decide (s.type ≠ SymbolType.StaticInt)
                   && decide (s.type ≠ SymbolType.StaticIntArray)
     | none => false)
  else false

/-- The `switch` of case B: the folded value, or `none` when not calculable.
Arithmetic wraps to 32 bits; division truncates toward zero (C++ `/` and `%`);
a shift count is taken modulo 32 (out-of-range counts are undefined in C++). On DIV
and MOD of `INT_MIN` by `-1` the C++ division traps and the pass does not return; this
is `divTraps`, and `passConstantFoldingRun` and `driverRun` are the pass and the driver
with the trap. The value given here for that pair is the wrapped quotient. -/
def foldBinary (op : IROp) (v1 v2 : Int) : Option Int :=
  match op with
  | .ADD => some (wrap32 (v1 + v2))
  | .SUB => some (wrap32 (v1 - v2))
  | .MUL => some (wrap32 (v1 * v2))
  | .DIV => if v2 ≠ 0 then some (wrap32 (Int.tdiv v1 v2)) else none
  | .MOD => if v2 ≠ 0 then some (wrap32 (Int.tmod v1 v2)) else none
  | .GT => some (if v1 > v2 then 1 else 0)
  | .GE => some (if v1 ≥ v2 then 1 else 0)
  | .LT => some (if v1 < v2 then 1 else 0)
  | .LE => some (if v1 ≤ v2 then 1 else 0)
  | .EQ => some (if v1 = v2 then 1 else 0)
  | .NEQ => some (if v1 ≠ v2 then 1 else 0)
  | .SLL => some (wrap32 (v1 * 2 ^ (v2 % 32).toNat))
  | .SRA => some (Int.fdiv v1 (2 ^ (v2 % 32).toNat))
  | _ => none

/-- The immediate value of an operand pointer that is non-null and immediate. -/
def immValue (o : Option Operand) : Option Int :=
  match o with
  | some a => if a.type = OperandType.IMM then some a.value else none
  | none => none

/-- Cases A to D of phase 3 for a result that passed the safety gate: the
instruction after folding, the constant recorded for the result, and whether
the instruction was rewritten. `none` when no constant is defined. -/
def tryFold (instr : IRInstruction) : Option (IRInstruction × Int × Bool) :=
  match immValue instr.arg1 with
  | some v1 =>
    if instr.op = IROp.ASSIGN then some (instr, v1, false)
    else
      match immValue instr.arg2 with
      | some v2 =>
        (match foldBinary instr.op v1 v2 with
         | some c =>
           some ({ op := IROp.ASSIGN, result := instr.result, arg1 := some (Operand.imm c),
                   arg2 := none }, c, true)
         | none => none)
      | none =>
        if instr.op = IROp.NEG then
          some ({ op := IROp.ASSIGN, result := instr.result,
                  arg1 := some (Operand.imm (wrap32 (-v1))), arg2 := instr.arg2 },
                wrap32 (-v1), true)
        else if instr.op = IROp.NOT then
          some ({ op := IROp.ASSIGN, result := instr.result,
                  arg1 := some (Operand.imm (if v1 = 0 then 1 else 0)), arg2 := instr.arg2 },
                (if v1 = 0 then 1 else 0), true)
        else none
  | none => none

/-- Phases 3 and 4 of the loop body: definition handling and invalidation. -/
def processDef (m : ConstMap) (instr : IRInstruction) : ConstMap × IRInstruction × Bool :=
  if isResultUse instr.op then (m, instr, false)
  else
    match instr.result with
    | none => (m, instr, false)
    | some res =>
      if res.type = OperandType.TEMP ∨ res.type = OperandType.VAR then
        match (if isSafeToFold res then tryFold instr else none) with
        | some (i2, c, ch) => (mapSet m res.toString c, i2, ch)
        | none => (mapErase m res.toString, instr, false)
      else (m, instr, false)

/-- One iteration of the loop of `passConstantFolding`. -/
def foldStep (m : ConstMap) (instr : IRInstruction) : ConstMap × IRInstruction × Bool :=
  let s := substituteUses m instr
  let d := processDef m s.1
  (d.1, d.2.1, s.2 || d.2.2)

/-- The loop of `passConstantFolding` from a given table. -/
def foldLoop : ConstMap → List IRInstruction → List IRInstruction × Bool
  | _, [] => ([], false)
  | m, i :: rest =>
    let s := foldStep m i
    let r := foldLoop s.1 rest
    (s.2.1 :: r.1, s.2.2 || r.2)

/-- The constant table after the loop has processed a list of instructions. -/
def constValuesAfter : ConstMap → List IRInstruction → ConstMap
  | m, [] => m
  | m, i :: rest => constValuesAfter (foldStep m i).1 rest

/-- Embedding of `Optimizer::passConstantFolding`: the rewritten block and the `changed` flag. -/
def passConstantFolding (block : BasicBlock) : BasicBlock × Bool :=
  let r := foldLoop [] block.instructions
  ({ block with instructions := r.1 }, r.2)

/-- An instruction redefines the table key `key`: its result field is a definition
(not a use), is a temporary or a variable, and prints as `key`. -/
def redefines (key : String) (K : IRInstruction) : Bool :=
  !isResultUse K.op &&
    (match K.result with
     | some r => (decide (r.type = OperandType.TEMP) || decide (r.type = OperandType.VAR)) &&
                   decide (r.toString = key)
     | none => false)

/-! ## Pass 2: algebraic simplification (Optimizer::passAlgebraicSimplification) -/

/-- The `while (n > 1)` loop of `isPowerOfTwo`, with the loop bound as first argument:
the number of right shifts added to `p`. -/
def pow2Loop : Nat → Nat → Nat → Nat
  | 0, _, p => p
  | f + 1, n, p => if n > 1 then pow2Loop f (n >>> 1) (p + 1) else p

/-- Embedding of `Optimizer::isPowerOfTwo(n, power)`: `some power` when it returns true. -/
def isPowerOfTwo (n : Int) : Option Int :=
  if n ≤ 0 then none
  else if n.toNat &&& (n.toNat - 1) = 0 then some ((pow2Loop n.toNat n.toNat 0 : Nat) : Int)
  else none

/-- Second part of the loop body of `passAlgebraicSimplification`, after the operand
swap: the rewriting by the value of an immediate `arg2`. `sw` is the `changed`
contribution of the swap. -/
def simplifyTable (op : IROp) (result : Option Operand) (b1 b2 : Operand) (sw : Bool) :
    IRInstruction × Bool :=
  let keep : IRInstruction × Bool :=
    ({ op := op, result := result, arg1 := some b1, arg2 := some b2 }, sw)
  let toAssign : IRInstruction × Bool :=
    ({ op := IROp.ASSIGN, result := result, arg1 := some b1, arg2 := none }, true)
  if b2.type = OperandType.IMM then
    if op = IROp.MUL then
      if b2.value = 0 then
        ({ op := IROp.ASSIGN, result := result, arg1 := some (Operand.imm 0), arg2 := none }, true)
      else if b2.value = 1 then toAssign
      else
        match isPowerOfTwo b2.value with
        | some k =>
          ({ op := IROp.SLL, result := result, arg1 := some b1, arg2 := some (Operand.imm k) },
            true)
        | none => keep
    else if op = IROp.DIV then
      if b2.value = 1 then toAssign else keep
    else if op = IROp.ADD then
      if b2.value = 0 then toAssign else keep
    else if op = IROp.SUB then
      if b2.value = 0 then toAssign else keep
    else keep
  else keep

/-- The loop body of `passAlgebraicSimplification`: the rewritten instruction and
whether it set `changed`. Instructions without two arguments are skipped; for
ADD and MUL an immediate `arg1` is swapped with a non-immediate `arg2` first. -/
def simplifyInstr (instr : IRInstruction) : IRInstruction × Bool :=
  match instr.arg1, instr.arg2 with
  | some a1, some a2 =>
    if a1.type = OperandType.IMM ∧ a2.type ≠ OperandType.IMM ∧
        (instr.op = IROp.ADD ∨ instr.op = IROp.MUL) then
      simplifyTable instr.op instr.result a2 a1 true
    else simplifyTable instr.op instr.result a1 a2 false
  | _, _ => (instr, false)

/-- The loop of `passAlgebraicSimplification`. -/
def simplifyLoop : List IRInstruction → List IRInstruction × Bool
  | [] => ([], false)
  | i :: rest =>
    let s := simplifyInstr i
    let r := simplifyLoop rest
    (s.1 :: r.1, s.2 || r.2)

/-- Embedding of `Optimizer::passAlgebraicSimplification` on values: what the
instructions read as when no operand object that another instruction points to is
freed. The `delete` statements of the pass are in `simplifyRef` and `simplifyRefLoop`,
the pass on operand objects. -/
def passAlgebraicSimplification (block : BasicBlock) : BasicBlock × Bool :=
  let r := simplifyLoop block.instructions
  ({ block with instructions := r.1 }, r.2)

/-! ### Value of an instruction under 32-bit two's-complement arithmetic -/

/-- Value of an operand in an environment giving each named operand a value. -/
def operandValue (ρ : String → Int) (o : Operand) : Int :=
  if o.type = OperandType.IMM then o.value else ρ o.toString

/-- The value an arithmetic, shift or copy instruction assigns to its result under
32-bit two's-complement arithmetic (`addu`, `subu`, `mul`, `div`, `rem`, `sll`, `move`);
`none` for a division by zero, a shift count outside 0..31, or any other opcode. -/
def evalInstr (ρ : String → Int) (I : IRInstruction) : Option Int :=
  match I.arg1 with
  | none => none
  | some a =>
    if I.op = IROp.ASSIGN then some (operandValue ρ a)
    else
      match I.arg2 with
      | none => none
      | some b =>
        match I.op with
        | .ADD => some (wrap32 (operandValue ρ a + operandValue ρ b))
        | .SUB => some (wrap32 (operandValue ρ a - operandValue ρ b))
        | .MUL => some (wrap32 (operandValue ρ a * operandValue ρ b))
        | .DIV => if operandValue ρ b = 0 then none
                  else some (wrap32 (Int.tdiv (operandValue ρ a) (operandValue ρ b)))
        | .MOD => if operandValue ρ b = 0 then none
                  else some (wrap32 (Int.tmod (operandValue ρ a) (operandValue ρ b)))
        | .SLL => if 0 ≤ operandValue ρ b ∧ operandValue ρ b < 32 then
                    some (wrap32 (operandValue ρ a * 2 ^ (operandValue ρ b).toNat))
                  else none
        | _ => none

/-- Every immediate operand of the instruction is a C++ `int`. -/
def immediatesInRange (I : IRInstruction) : Prop :=
  (∀ o, I.arg1 = some o → inInt32 o.value) ∧ (∀ o, I.arg2 = some o → inInt32 o.value)

/-- The operand swap of the specification: an ADD or MUL whose arg1 is an immediate
and whose arg2 is not has the two exchanged. -/
def specSwap (I : IRInstruction) : IRInstruction :=
  match I.arg1, I.arg2 with
  | some a1, some a2 =>
    if (I.op = IROp.ADD ∨ I.op = IROp.MUL) ∧ a1.type = OperandType.IMM ∧
        a2.type ≠ OperandType.IMM then
      { op := I.op, result := I.result, arg1 := some a2, arg2 := some a1 }
    else I
  | _, _ => I

/-- The rows of the specification's table as a relation between an instruction `N`
(operands already swapped) with `arg2 = #v` and its rewriting `J`. -/
def specTable (N J : IRInstruction) : Prop :=
  ∀ x y : Operand, N.arg1 = some x → N.arg2 = some y → y.type = OperandType.IMM →
    (N.op = IROp.MUL → y.value = 0 →
      J = { op := IROp.ASSIGN, result := N.result, arg1 := some (Operand.imm 0), arg2 := none }) ∧
    ((N.op = IROp.MUL ∨ N.op = IROp.DIV) → y.value = 1 →
      J = { op := IROp.ASSIGN, result := N.result, arg1 := some x, arg2 := none }) ∧
    (N.op = IROp.MUL → ∀ k : Nat, 1 ≤ k → y.value = 2 ^ k →
      J = { op := IROp.SLL, result := N.result, arg1 := some x,
            arg2 := some (Operand.imm (k : Int)) }) ∧
    ((N.op = IROp.ADD ∨ N.op = IROp.SUB) → y.value = 0 →
      J = { op := IROp.ASSIGN, result := N.result, arg1 := some x, arg2 := none })

/-- Some row of the specification's table applies to `N`. -/
def specTableApplies (N : IRInstruction) : Prop :=
  ∃ x y : Operand, N.arg1 = some x ∧ N.arg2 = some y ∧ y.type = OperandType.IMM ∧
    ((N.op = IROp.MUL ∧ (y.value = 0 ∨ y.value = 1 ∨ ∃ k : Nat, 1 ≤ k ∧ y.value = 2 ^ k)) ∨
     (N.op = IROp.DIV ∧ y.value = 1) ∨
     ((N.op = IROp.ADD ∨ N.op = IROp.SUB) ∧ y.value = 0))

/-! ## Pass 3: local common-subexpression elimination (Optimizer::passLocalCSE) -/

/-- The table `exprMap` from expression keys to result names. -/
abbrev ExprMap := List (String × String)

/-- Opcodes the pass skips with `continue`. -/
def cseSkips (op : IROp) : Bool :=
  op = IROp.CALL || op = IROp.LOAD || op = IROp.GETINT || op = IROp.GET_ADDR

/-- The pattern is an initial segment of the text. -/
def startsWith : List Char → List Char → Bool
  | _, [] => true
  | [], _ :: _ => false
  | c :: cs, q :: qs => decide (c = q) && startsWith cs qs

/-- First position at or after `i` (the position of the head of the text) where the
pattern occurs. -/
def findIn : List Char → List Char → Nat → Option Nat
  | [], pat, i => if pat = [] then some i else none
  | c :: cs, pat, i => if startsWith (c :: cs) pat then some i else findIn cs pat (i + 1)

/-- The call `hay.find(pat, start)` of `std::string`; `none` is `npos`. -/
def strFind (hay pat : List Char) (start : Nat) : Option Nat :=
  if start > hay.length then none else findIn (hay.drop start) pat start

/-- The `while (pos != npos)` loop of the invalidation: some occurrence of the
pattern, searched from `pos` on and each time from the end of the previous
occurrence, is followed by the end of the key or by an underscore. The first
argument bounds the number of iterations. -/
def wordScan : Nat → List Char → List Char → Option Nat → Bool
  | 0, _, _, _ => false
  | _ + 1, _, _, none => false
  | f + 1, key, pat, some pos =>
    let endPos := pos + pat.length
    if endPos = key.length ∨ key[endPos]? = some (Char.ofNat 95) then true
    else wordScan f key pat (strFind key pat endPos)

/-- The key mentions the pattern `_<name>` as a full word. -/
def keyMentions (key argPattern : String) : Bool :=
  wordScan (key.length + 1) key.data argPattern.data (strFind key.data argPattern.data 0)

/-- Invalidation for a defined name: entries whose result is the name, or whose key
mentions it, are erased. -/
def cseInvalidate (m : ExprMap) (definedVar : String) : ExprMap :=
  m.filter (fun e => !(decide (e.2 = definedVar) || keyMentions e.1 ("_" ++ definedVar)))

/-- The key `OP_arg1_arg2`. -/
def cseKey (op : IROp) (a1 a2 : Operand) : String :=
  op.getOpString ++ "_" ++ a1.toString ++ "_" ++ a2.toString

/-- One iteration of the loop of `passLocalCSE`, on values. The `delete` statements of
the rewriting at a hit are in `cseRewriteRef`. -/
def cseStep (m : ExprMap) (instr : IRInstruction) : ExprMap × IRInstruction × Bool :=
  if cseSkips instr.op then (m, instr, false)
  else
    let m1 := match instr.result with
      | some r => cseInvalidate m r.toString
      | none => m
    match instr.result, instr.arg1, instr.arg2 with
    | some r, some a1, some a2 =>
      let altKey := cseKey instr.op a2 a1
      let key :=
        if (instr.op = IROp.ADD ∨ instr.op = IROp.MUL) ∧ (mapFind m1 altKey).isSome then altKey
        else cseKey instr.op a1 a2
      match mapFind m1 key with
      | some prevRes =>
        (m1, { op := IROp.ASSIGN, result := some r,
               arg1 := some (Operand.named prevRes OperandType.TEMP), arg2 := none }, true)
      | none =>
        if instr.op ≠ IROp.ASSIGN then (mapSet m1 key r.toString, instr, false)
        else (m1, instr, false)
    | _, _, _ => (m1, instr, false)

/-- The loop of `passLocalCSE` from a given table. -/
def cseLoop : ExprMap → List IRInstruction → List IRInstruction × Bool
  | _, [] => ([], false)
  | m, i :: rest =>
    let s := cseStep m i
    let r := cseLoop s.1 rest
    (s.2.1 :: r.1, s.2.2 || r.2)

/-- Embedding of `Optimizer::passLocalCSE`. -/
def passLocalCSE (block : BasicBlock) : BasicBlock × Bool :=
  let r := cseLoop [] block.instructions
  ({ block with instructions := r.1 }, r.2)

/-! ## Pass 4: copy propagation (Optimizer::passCopyPropagation) -/

/-- The table `copies` from destination names to source operands. -/
abbrev CopyMap := List (String × Operand)

/-- The source of a copy is a global variable. -/
def isGlobalSource (src : Operand) : Bool :=
  decide (src.type = OperandType.VAR) &&
    (match src.symbol with
     | some sym => decide (sym.scope = 1)
     | none => false)

/-- The lambda `tryReplace`, on values: a mapped operand is replaced by its source unless
the source is an immediate. The `delete` of the replaced operand is in
`tryReplaceRef`. -/
def tryReplace (copies : CopyMap) (o : Option Operand) : Option Operand × Bool :=
  match o with
  | none => (none, false)
  | some a =>
    match mapFind copies a.toString with
    | some replacement =>
      if replacement.type = OperandType.IMM then (some a, false)
      else (some replacement, true)
    | none => (some a, false)

/-- One iteration of the loop of `passCopyPropagation`. -/
def copyStep (copies : CopyMap) (instr : IRInstruction) : CopyMap × IRInstruction × Bool :=
  let c1 := if instr.op = IROp.CALL then copies.filter (fun e => !isGlobalSource e.2) else copies
  let a1 := tryReplace c1 instr.arg1
  let a2 := tryReplace c1 instr.arg2
  let r := if isResultUse instr.op then tryReplace c1 instr.result else (instr.result, false)
  let i2 : IRInstruction := { op := instr.op, result := r.1, arg1 := a1.1, arg2 := a2.1 }
  let changed := a1.2 || a2.2 || r.2
  match i2.result, i2.arg1 with
  | some res, some src =>
    if i2.op = IROp.ASSIGN then
      if src.type = OperandType.TEMP ∨ src.type = OperandType.VAR then
        (mapSet c1 res.toString src, i2, changed)
      else (c1, i2, changed)
    else if isResultUse i2.op then (c1, i2, changed)
    else ((mapErase c1 res.toString).filter (fun e => !decide (e.2.toString = res.toString)),
          i2, changed)
  | some res, none =>
    if isResultUse i2.op then (c1, i2, changed)
    else ((mapErase c1 res.toString).filter (fun e => !decide (e.2.toString = res.toString)),
          i2, changed)
  | none, _ => (c1, i2, changed)

/-- The loop of `passCopyPropagation` from a given table. -/
def copyLoop : CopyMap → List IRInstruction → List IRInstruction × Bool
  | _, [] => ([], false)
  | m, i :: rest =>
    let s := copyStep m i
    let r := copyLoop s.1 rest
    (s.2.1 :: r.1, s.2.2 || r.2)

/-- Embedding of `Optimizer::passCopyPropagation`. -/
def passCopyPropagation (block : BasicBlock) : BasicBlock × Bool :=
  let r := copyLoop [] block.instructions
  ({ block with instructions := r.1 }, r.2)

/-! ## Pass 5: dead-code elimination (Optimizer::passDeadCodeElimination) -/

/-- Embedding of `Optimizer::hasSideEffect`. -/
def hasSideEffect (instr : IRInstruction) : Bool :=
  match instr.op with
  | .CALL | .STORE | .PRINTINT | .PRINTSTR | .GETINT | .RET | .JUMP | .BEQZ
  | .FUNC_ENTRY | .FUNC_EXIT | .LABEL => true
  | _ => false

/-- Text of an operand pointer that may be null, as a list of zero or one names. -/
def nameOf (o : Option Operand) : List String :=
  match o with
  | some a => [a.toString]
  | none => []

/-- The names one instruction contributes to `usedVars`. -/
def usesOf (instr : IRInstruction) : List String :=
  nameOf instr.arg1 ++ nameOf instr.arg2 ++
    (if instr.op = IROp.PARAM then nameOf instr.arg1 else []) ++
    (if instr.op = IROp.RET then nameOf instr.result else []) ++
    (if instr.op = IROp.BEQZ then nameOf instr.result else []) ++
    (if instr.op = IROp.STORE then nameOf instr.result else [])

/-- First loop: the set `usedVars` of a list of instructions. -/
def usedVarsOf : List IRInstruction → List String
  | [] => []
  | i :: rest => usesOf i ++ usedVarsOf rest

/-- The set `usedVars` of a function. -/
def usedVars (blocks : List BasicBlock) : List String :=
  match blocks with
  | [] => []
  | b :: rest => usedVarsOf b.instructions ++ usedVars rest

/-- The `remove` decision of the second loop. -/
def dceRemoves (used : List String) (instr : IRInstruction) : Bool :=
  match instr.result with
  | some r =>
    decide (r.type = OperandType.TEMP) && !hasSideEffect instr && !decide (r.toString ∈ used)
  | none => false

/-- Second loop on the instructions of one block. -/
def dceBlock (used : List String) : List IRInstruction → List IRInstruction × Bool
  | [] => ([], false)
  | i :: rest =>
    let r := dceBlock used rest
    if dceRemoves used i then (r.1, true) else (i :: r.1, r.2)

/-- Second loop over the blocks. -/
def dceBlocks (used : List String) : List BasicBlock → List BasicBlock × Bool
  | [] => ([], false)
  | b :: rest =>
    let rb := dceBlock used b.instructions
    let rr := dceBlocks used rest
    ({ b with instructions := rb.1 } :: rr.1, rb.2 || rr.2)

/-- Embedding of `Optimizer::passDeadCodeElimination`. -/
def passDeadCodeElimination (func : Function) : Function × Bool :=
  let r := dceBlocks (usedVars func.blocks) func.blocks
  ({ func with blocks := r.1 }, r.2)

/-- The name `s` is used by the instruction: it is the text of `arg1` or `arg2`, or of
the result field of a RET, BEQZ or STORE. -/
def usedBy (s : String) (i : IRInstruction) : Prop :=
  (∃ o, i.arg1 = some o ∧ o.toString = s) ∨ (∃ o, i.arg2 = some o ∧ o.toString = s) ∨
    ((i.op = IROp.RET ∨ i.op = IROp.BEQZ ∨ i.op = IROp.STORE) ∧
      ∃ o, i.result = some o ∧ o.toString = s)

/-- Embedding of `Optimizer::flatten`. -/
def flatten (func : Function) : List IRInstruction :=
  func.blocks.flatMap (fun b => b.instructions)

/-! ## Function splitting, CFG construction and the driver -/

/-- State of the `Optimizer` object. -/
structure Optimizer where
  originalIR : List IRInstruction
  functions : List Function := []
  globalDefines : List IRInstruction := []
  deriving DecidableEq, Repr

/-- Name of the result operand of an instruction (the empty name for none). -/
def resultName (instr : IRInstruction) : String :=
  match instr.result with
  | some r => r.name
  | none => ""

/-- The `isFuncStart` test of `splitFunctions`: a LABEL named `main`, or a LABEL
followed by FUNC_ENTRY. -/
def isFuncStart (instr : IRInstruction) (next : Option IRInstruction) : Bool :=
  decide (instr.op = IROp.LABEL) &&
    (decide (resultName instr = "main") ||
      (match next with
       | some n => decide (n.op = IROp.FUNC_ENTRY)
       | none => false))

/-- Append an instruction to the last block of the last function. -/
def appendToCurrent (fs : List Function) (instr : IRInstruction) : List Function :=
  match fs.reverse with
  | [] => fs
  | f :: before =>
    let blocks := match f.blocks.reverse with
      | [] => f.blocks
      | b :: bs => (({ b with instructions := b.instructions ++ [instr] } : BasicBlock) :: bs).reverse
    (({ f with blocks := blocks } : Function) :: before).reverse

/-- The loop of `splitFunctions`: functions so far, global defines so far, rest of the IR. -/
def splitLoop : List Function → List IRInstruction → List IRInstruction →
    List Function × List IRInstruction
  | fs, gs, [] => (fs, gs)
  | fs, gs, instr :: rest =>
    if isFuncStart instr rest.head? then
      splitLoop (fs ++ [{ name := resultName instr,
                          blocks := [{ id := 0, instructions := [instr] }] }]) gs rest
    else if fs ≠ [] then splitLoop (appendToCurrent fs instr) gs rest
    else splitLoop fs (gs ++ [instr]) rest

/-- Embedding of `Optimizer::splitFunctions`. -/
def splitFunctions (o : Optimizer) : Optimizer :=
  let r := splitLoop o.functions o.globalDefines o.originalIR
  { o with functions := r.1, globalDefines := r.2 }

/-- The leader test of `buildCFG` given the block under construction. -/
def isLeader (instr : IRInstruction) (curr : Option BasicBlock) : Bool :=
  decide (instr.op = IROp.LABEL) || decide (instr.op = IROp.FUNC_ENTRY) ||
    (match curr with
     | none => true
     | some b =>
       match b.instructions.getLast? with
       | some last =>
         decide (last.op = IROp.JUMP) || decide (last.op = IROp.BEQZ) || decide (last.op = IROp.RET)
       | none => false)

/-- The partition loop of `buildCFG`: finished blocks, block under construction,
remaining instructions. -/
def partitionBlocks : List BasicBlock → Option BasicBlock → List IRInstruction → List BasicBlock
  | done, none, [] => done
  | done, some b, [] => done ++ [b]
  | done, curr, instr :: rest =>
    if isLeader instr curr then
      match curr with
      | none => partitionBlocks done (some { id := done.length, instructions := [instr] }) rest
      | some b =>
        partitionBlocks (done ++ [b])
          (some { id := done.length + 1, instructions := [instr] }) rest
    else
      match curr with
      | none => partitionBlocks done (some { id := done.length, instructions := [instr] }) rest
      | some b =>
        partitionBlocks done (some { b with instructions := b.instructions ++ [instr] }) rest

/-- Embedding of `Optimizer::addEdge` between the blocks at two positions. -/
def addEdge (blocks : List BasicBlock) (src dst : Nat) : List BasicBlock :=
  match blocks[src]? with
  | none => blocks
  | some f =>
    if dst ∈ f.succs then blocks
    else
      (blocks.modify (fun b => { b with succs := b.succs ++ [dst] }) src).modify
        (fun b => { b with preds := b.preds ++ [src] }) dst

/-- Phase 1 of `buildCFGEdges`: the map from label names to block positions. -/
def labelToBlock : List BasicBlock → Nat → List (String × Nat) → List (String × Nat)
  | [], _, m => m
  | b :: rest, i, m =>
    labelToBlock rest (i + 1)
      (b.instructions.foldl
        (fun acc instr => if instr.op = IROp.LABEL then mapSet acc (resultName instr) i else acc) m)

/-- The edges `buildCFGEdges` adds for the block at position `i`. -/
def edgesOfBlock (labels : List (String × Nat)) (blocks : List BasicBlock) (i : Nat)
    (curr : BasicBlock) : List BasicBlock :=
  let fall := fun (bs : List BasicBlock) => if i + 1 < bs.length then addEdge bs i (i + 1) else bs
  let jump := fun (bs : List BasicBlock) (last : IRInstruction) =>
    match last.result with
    | some r =>
      (match mapFind labels r.name with
       | some t => addEdge bs i t
       | none => bs)
    | none => bs
  match curr.instructions.getLast? with
  | none => fall blocks
  | some last =>
    if last.op = IROp.JUMP then jump blocks last
    else if last.op = IROp.BEQZ then fall (jump blocks last)
    else if last.op = IROp.RET then blocks
    else fall blocks

/-- Phase 2 of `buildCFGEdges`: the loop over the block positions `i, i+1, ...`. -/
def edgesLoop (labels : List (String × Nat)) : Nat → Nat → List BasicBlock → List BasicBlock
  | 0, _, blocks => blocks
  | n + 1, i, blocks =>
    match blocks[i]? with
    | none => blocks
    | some curr => edgesLoop labels n (i + 1) (edgesOfBlock labels blocks i curr)

/-- Embedding of `Optimizer::buildCFGEdges`. -/
def buildCFGEdges (func : Function) : Function :=
  { func with
    blocks := edgesLoop (labelToBlock func.blocks 0 []) func.blocks.length 0 func.blocks }

/-- Embedding of `Optimizer::buildCFG`. -/
def buildCFG (func : Function) : Function :=
  buildCFGEdges { func with blocks := partitionBlocks [] none (flatten func) }

/-- The four block-local passes on one block, in the order of `execute`. -/
def runBlockPasses (b : BasicBlock) : BasicBlock × Bool :=
  let r1 := passConstantFolding b
  let r2 := passAlgebraicSimplification r1.1
  let r3 := passLocalCSE r2.1
  let r4 := passCopyPropagation r3.1
  (r4.1, r1.2 || r2.2 || r3.2 || r4.2)

/-- The block-local passes on every block of a function. -/
def runBlocks : List BasicBlock → List BasicBlock × Bool
  | [] => ([], false)
  | b :: rest =>
    let rb := runBlockPasses b
    let rr := runBlocks rest
    (rb.1 :: rr.1, rb.2 || rr.2)

/-- One round of the driver: passes 1 to 4 on every block, then dead-code elimination. -/
def runRound (func : Function) : Function × Bool :=
  let rb := runBlocks func.blocks
  let rd := passDeadCodeElimination { func with blocks := rb.1 }
  (rd.1, rb.2 || rd.2)

/-- The `while (changed && passCount < 10)` loop; the first argument is the number of
rounds still allowed. -/
def optimizeLoop : Nat → Function → Function
  | 0, func => func
  | n + 1, func =>
    let r := runRound func
    if r.2 then optimizeLoop n r.1 else r.1

/-- Embedding of `Optimizer::execute`. -/
def execute (o : Optimizer) : Optimizer :=
  let o1 := splitFunctions o
  { o1 with functions := o1.functions.map (fun f => optimizeLoop 10 (buildCFG f)) }

/-- Embedding of `Optimizer::getOptimizedIR`: the global defines, then every function flattened. -/
def getOptimizedIR (o : Optimizer) : List IRInstruction :=
  o.globalDefines ++ o.functions.flatMap flatten

/-! ## Short-circuit lowering (IRGenerator::visitCond, visitLOrExp, visitLAndExp) -/

/-- A leaf `EqExp` of a condition together with what `visitEqExp` does on it: the
straight-line instructions it appends and the operand it returns. -/
structure Leaf where
  code : List IRInstruction
  val : Operand
  deriving DecidableEq, Repr

/-- The `LAndExp` nodes built by the parser: `EqExp` or `LAndExp '&&' EqExp`. -/
inductive LAndExp where
  | leaf (e : Leaf)
  | and (l : LAndExp) (e : Leaf)
  deriving DecidableEq, Repr

/-- The `LOrExp` nodes built by the parser: `LAndExp` or `LOrExp '||' LAndExp`. -/
inductive LOrExp where
  | land (a : LAndExp)
  | or (l : LOrExp) (a : LAndExp)
  deriving DecidableEq, Repr

/-- The generator state the condition lowering and the `printf` lowering touch:
`labelCounter`, the instruction list, `stringCounter` and the map `stringConstants`
from labels to contents. -/
structure GenState where
  labelCounter : Nat
  instructions : List IRInstruction
  stringCounter : Nat := 0
  stringConstants : List (String × String) := []
  deriving DecidableEq, Repr

/-- The name `L<n>` of the n-th label. -/
def labelName (n : Nat) : String := "L" ++ ToString.toString n

/-- Embedding of `IRGenerator::newLabel`. -/
def newLabel (g : GenState) : Operand × GenState :=
  (Operand.named (labelName g.labelCounter) OperandType.LABEL,
    { g with labelCounter := g.labelCounter + 1 })

/-- Embedding of `IRGenerator::emit`. -/
def emit (g : GenState) (op : IROp) (result arg1 arg2 : Option Operand) : GenState :=
  { g with instructions :=
      g.instructions ++ [{ op := op, result := result, arg1 := arg1, arg2 := arg2 }] }

/-- Embedding of `IRGenerator::emitLabel`. -/
def emitLabel (g : GenState) (label : Operand) : GenState :=
  emit g IROp.LABEL (some label) none none

/-- Embedding of `IRGenerator::visitEqExp` on a leaf: its instructions are appended and its value
operand is returned. -/
def visitEqExp (e : Leaf) (g : GenState) : Operand × GenState :=
  (e.val, { g with instructions := g.instructions ++ e.code })

/-- Embedding of `IRGenerator::visitLAndExp`. -/
def visitLAndExp : LAndExp → Operand → Operand → GenState → GenState
  | .leaf e, trueLabel, falseLabel, g =>
    let v := visitEqExp e g
    let g1 := emit v.2 IROp.BEQZ (some falseLabel) (some v.1) none
    emit g1 IROp.JUMP (some trueLabel) none none
  | .and l e, trueLabel, falseLabel, g =>
    let r := newLabel g
    let g1 := visitLAndExp l r.1 falseLabel r.2
    let g2 := emitLabel g1 r.1
    let v := visitEqExp e g2
    let g3 := emit v.2 IROp.BEQZ (some falseLabel) (some v.1) none
    emit g3 IROp.JUMP (some trueLabel) none none

/-- Embedding of `IRGenerator::visitLOrExp`. -/
def visitLOrExp : LOrExp → Operand → Operand → GenState → GenState
  | .land a, trueLabel, falseLabel, g => visitLAndExp a trueLabel falseLabel g
  | .or l a, trueLabel, falseLabel, g =>
    let r := newLabel g
    let g1 := visitLOrExp l trueLabel r.1 r.2
    let g2 := emitLabel g1 r.1
    visitLAndExp a trueLabel falseLabel g2

/-- Embedding of `IRGenerator::visitCond`. -/
def visitCond (c : LOrExp) (trueLabel falseLabel : Operand) (g : GenState) : GenState :=
  visitLOrExp c trueLabel falseLabel g

/-- The `if` without `else` of `IRGenerator::visitStmt`; `body` is the lowering of
the statement of the true branch. -/
def visitIfNoElse (c : LOrExp) (body : GenState → GenState) (g : GenState) : GenState :=
  let lTrue := newLabel g
  let lFalse := newLabel lTrue.2
  let lNext := newLabel lFalse.2
  let g1 := visitCond c lTrue.1 lNext.1 lNext.2
  let g2 := emitLabel g1 lTrue.1
  let g3 := body g2
  emitLabel g3 lNext.1

/-! ### Execution of the control instructions -/

/-- How a run of an instruction sequence ends: control leaves to a label that the
sequence does not define, control falls off the end, or the run is cut off. -/
inductive Outcome (σ : Type) where
  | exit (label : String) (s : σ)
  | fell (s : σ)
  | stuck
  | timeout

/-- Position of the first `LABEL` instruction carrying the name. -/
def findLabel : List IRInstruction → String → Option Nat
  | [], _ => none
  | i :: rest, name =>
    if i.op = IROp.LABEL ∧ resultName i = name then some 0
    else (findLabel rest name).map (· + 1)

/-- Execution of an instruction sequence from position `pc`, for at most the given
number of steps. `LABEL` is a no-op, `JUMP L` transfers control to `L`, `BEQZ L, v`
transfers control to `L` when `v` is zero; every other instruction is executed by
`exec` on the abstract machine state and control moves on. -/
def run {σ : Type} (exec : IRInstruction → σ → σ) (valueOf : Operand → σ → Int)
    (code : List IRInstruction) : Nat → Nat → σ → Outcome σ
  | 0, _, _ => Outcome.timeout
  | fuel + 1, pc, s =>
    match code[pc]? with
    | none => Outcome.fell s
    | some i =>
      if i.op = IROp.LABEL then run exec valueOf code fuel (pc + 1) s
      else if i.op = IROp.JUMP then
        (match findLabel code (resultName i) with
         | some k => run exec valueOf code fuel k s
         | none => Outcome.exit (resultName i) s)
      else if i.op = IROp.BEQZ then
        (match i.arg1 with
         | none => Outcome.stuck
         | some v =>
           if valueOf v s = 0 then
             (match findLabel code (resultName i) with
              | some k => run exec valueOf code fuel k s
              | none => Outcome.exit (resultName i) s)
           else run exec valueOf code fuel (pc + 1) s)
      else run exec valueOf code fuel (pc + 1) (exec i s)

/-! ### C semantics of a condition -/

/-- Evaluation of a leaf: its instructions run in order, then its value is tested. -/
def evalLeaf {σ : Type} (exec : IRInstruction → σ → σ) (valueOf : Operand → σ → Int)
    (e : Leaf) (s : σ) : Bool × σ :=
  let s1 := e.code.foldl (fun st i => exec i st) s
  (decide (valueOf e.val s1 ≠ 0), s1)

/-- Short-circuit `&&`: the right operand is evaluated only when the left is true. -/
def evalLAnd {σ : Type} (exec : IRInstruction → σ → σ) (valueOf : Operand → σ → Int) :
    LAndExp → σ → Bool × σ
  | .leaf e, s => evalLeaf exec valueOf e s
  | .and l e, s =>
    let r := evalLAnd exec valueOf l s
    if r.1 then evalLeaf exec valueOf e r.2 else (false, r.2)

/-- Short-circuit `||`: the right operand is evaluated only when the left is false. -/
def evalLOr {σ : Type} (exec : IRInstruction → σ → σ) (valueOf : Operand → σ → Int) :
    LOrExp → σ → Bool × σ
  | .land a, s => evalLAnd exec valueOf a s
  | .or l a, s =>
    let r := evalLOr exec valueOf l s
    if r.1 then (true, r.2) else evalLAnd exec valueOf a r.2

/-- An instruction that is neither a label nor a jump nor a branch. -/
def isStraight (i : IRInstruction) : Bool :=
  !(decide (i.op = IROp.LABEL) || decide (i.op = IROp.JUMP) || decide (i.op = IROp.BEQZ))

/-- Every leaf of the `LAndExp` lowers to straight-line code. -/
def LAndExp.straight : LAndExp → Bool
  | .leaf e => e.code.all isStraight
  | .and l e => l.straight && e.code.all isStraight

/-- Every leaf of the `LOrExp` lowers to straight-line code. -/
def LOrExp.straight : LOrExp → Bool
  | .land a => a.straight
  | .or l a => l.straight && a.straight

/-- Value of a string of decimal digits. -/
def decodeDigits (cs : List Char) : Nat := cs.foldl (fun acc c => 10 * acc + (c.toNat - 48)) 0

/-! ### The emitted code as a function of the label counter -/

/-- The label operand `L<n>`. -/
def labelOperand (n : Nat) : Operand := Operand.named (labelName n) OperandType.LABEL

/-- Number of labels `visitLAndExp` allocates. -/
def LAndExp.labels : LAndExp → Nat
  | .leaf _ => 0
  | .and l _ => l.labels + 1

/-- Number of labels `visitLOrExp` allocates. -/
def LOrExp.labels : LOrExp → Nat
  | .land a => a.labels
  | .or l a => l.labels + 1 + a.labels

/-- The instruction `BEQZ label, val`. -/
def mkBeqz (label val : Operand) : IRInstruction :=
  { op := IROp.BEQZ, result := some label, arg1 := some val, arg2 := none }

/-- The instruction `JUMP label`. -/
def mkJump (label : Operand) : IRInstruction :=
  { op := IROp.JUMP, result := some label, arg1 := none, arg2 := none }

/-- The instruction `label:`. -/
def mkLabel (label : Operand) : IRInstruction :=
  { op := IROp.LABEL, result := some label, arg1 := none, arg2 := none }

/-- The instructions for a leaf used as a condition: its code, `BEQZ falseLabel, val`,
`JUMP trueLabel`. -/
def leafTail (e : Leaf) (trueLabel falseLabel : Operand) : List IRInstruction :=
  e.code ++ [mkBeqz falseLabel e.val, mkJump trueLabel]

/-- The instructions `visitLAndExp` appends when the label counter is `n`. -/
def andCode : LAndExp → Operand → Operand → Nat → List IRInstruction
  | .leaf e, trueLabel, falseLabel, _ => leafTail e trueLabel falseLabel
  | .and l e, trueLabel, falseLabel, n =>
    andCode l (labelOperand n) falseLabel (n + 1) ++
      (mkLabel (labelOperand n) :: leafTail e trueLabel falseLabel)

/-- The instructions `visitLOrExp` appends when the label counter is `n`. -/
def orCode : LOrExp → Operand → Operand → Nat → List IRInstruction
  | .land a, trueLabel, falseLabel, n => andCode a trueLabel falseLabel n
  | .or l a, trueLabel, falseLabel, n =>
    orCode l trueLabel (labelOperand n) (n + 1) ++
      (mkLabel (labelOperand n) :: andCode a trueLabel falseLabel (n + 1 + l.labels))

/-- Transfer of control to a label inside `run`: continue at the label when the
sequence defines it, leave the sequence otherwise. -/
def jumpTo {σ : Type} (exec : IRInstruction → σ → σ) (valueOf : Operand → σ → Int)
    (code : List IRInstruction) (fuel : Nat) (label : String) (s : σ) : Outcome σ :=
  match findLabel code label with
  | some k => run exec valueOf code fuel k s
  | none => Outcome.exit label s

/-! ## MIPS generation: PARAM, CALL and the function prologue (MIPSGenerator.cpp) -/

/-- MIPS registers, `enum class MipsReg`. -/
inductive MipsReg where
  | ZERO | AT | V0 | V1 | A0 | A1 | A2 | A3
  | T0 | T1 | T2 | T3 | T4 | T5 | T6 | T7
  | S0 | S1 | S2 | S3 | S4 | S5 | S6 | S7
  | T8 | T9 | K0 | K1 | GP | SP | FP | RA
  deriving DecidableEq, Repr

/-- Register names, `MipsHelper::getRegName`. -/
def getRegName : MipsReg → String
  | .ZERO => "$zero" | .AT => "$at" | .V0 => "$v0" | .V1 => "$v1"
  | .A0 => "$a0" | .A1 => "$a1" | .A2 => "$a2" | .A3 => "$a3"
  | .T0 => "$t0" | .T1 => "$t1" | .T2 => "$t2" | .T3 => "$t3"
  | .T4 => "$t4" | .T5 => "$t5" | .T6 => "$t6" | .T7 => "$t7"
  | .S0 => "$s0" | .S1 => "$s1" | .S2 => "$s2" | .S3 => "$s3"
  | .S4 => "$s4" | .S5 => "$s5" | .S6 => "$s6" | .S7 => "$s7"
  | .T8 => "$t8" | .T9 => "$t9" | .K0 => "$k0" | .K1 => "$k1"
  | .GP => "$gp" | .SP => "$sp" | .FP => "$fp" | .RA => "$ra"

/-- The assembly lines the generator emits, one constructor per shape of line.
`swNeg r k b` and `lwNeg r k b` are the lines `sw r, -k(b)` and `lw r, -k(b)`, and
`addiuNeg d s k` is `addiu d, s, -k`, which the generator prints with a literal minus
sign before the number; `label l` is the line `l:` and `blank` the empty line. -/
inductive MipsInstr where
  | li (rd : MipsReg) (v : Int)
  | subu (rd rs : MipsReg) (k : Int)
  | addiu (rd rs : MipsReg) (k : Int)
  | sw (rt : MipsReg) (off : Int) (base : MipsReg)
  | swNeg (rt : MipsReg) (off : Int) (base : MipsReg)
  | lw (rt : MipsReg) (off : Int) (base : MipsReg)
  | jal (label : String)
  | move (rd rs : MipsReg)
  | lwNeg (rt : MipsReg) (off : Int) (base : MipsReg)
  | addiuNeg (rd rs : MipsReg) (k : Int)
  | addu (rd rs rt : MipsReg)
  | la (rd : MipsReg) (label : String)
  | jr (rs : MipsReg)
  | j (label : String)
  | beqz (rs : MipsReg) (label : String)
  | syscall
  | label (name : String)
  | blank
  | bin (mipsOp : String) (rd rs rt : MipsReg)
  deriving DecidableEq, Repr

/-- The text passed to `MIPSGenerator::emit` for a line (to `emitLabel` for a label). -/
def MipsInstr.text : MipsInstr → String
  | .li rd v => "li " ++ getRegName rd ++ ", " ++ ToString.toString v
  | .subu rd rs k => "subu " ++ getRegName rd ++ ", " ++ getRegName rs ++ ", " ++ ToString.toString k
  | .addiu rd rs k =>
    "addiu " ++ getRegName rd ++ ", " ++ getRegName rs ++ ", " ++ ToString.toString k
  | .sw rt off base => "sw " ++ getRegName rt ++ ", " ++ ToString.toString off ++ "(" ++
      getRegName base ++ ")"
  | .swNeg rt off base => "sw " ++ getRegName rt ++ ", -" ++ ToString.toString off ++ "(" ++
      getRegName base ++ ")"
  | .lw rt off base => "lw " ++ getRegName rt ++ ", " ++ ToString.toString off ++ "(" ++
      getRegName base ++ ")"
  | .jal l => "jal " ++ l
  | .move rd rs => "move " ++ getRegName rd ++ ", " ++ getRegName rs
  | .lwNeg rt off base => "lw " ++ getRegName rt ++ ", -" ++ ToString.toString off ++ "(" ++
      getRegName base ++ ")"
  | .addiuNeg rd rs k =>
    "addiu " ++ getRegName rd ++ ", " ++ getRegName rs ++ ", -" ++ ToString.toString k
  | .addu rd rs rt =>
    "addu " ++ getRegName rd ++ ", " ++ getRegName rs ++ ", " ++ getRegName rt
  | .la rd l => "la " ++ getRegName rd ++ ", " ++ l
  | .jr rs => "jr " ++ getRegName rs
  | .j l => "j " ++ l
  | .beqz rs l => "beqz " ++ getRegName rs ++ ", " ++ l
  | .syscall => "syscall"
  | .label l => l ++ ":"
  | .blank => ""
  | .bin mipsOp rd rs rt =>
    mipsOp ++ " " ++ getRegName rd ++ ", " ++ getRegName rs ++ ", " ++ getRegName rt

/-- Entry of the per-function layout table, `struct CodeGenSymbolEntry`. -/
structure CodeGenSymbolEntry where
  name : String
  offset : Int
  size : Int := 4
  isTemp : Bool := false
  isParam : Bool := false
  deriving DecidableEq, Repr

/-- Per-function layout, `struct CodeGenFunctionInfo`. -/
structure CodeGenFunctionInfo where
  funcName : String
  frameSize : Int
  symbolMap : List (String × CodeGenSymbolEntry)
  paramList : List String
  deriving DecidableEq, Repr

/-- Embedding of `MIPSGenerator::getMipsLabel`: every label except `main` gets a leading underscore. -/
def getMipsLabel (name : String) : String :=
  if name = "main" then "main" else "_" ++ name

/-- The register `$a<i>` for an index below four. -/
def argReg : Nat → MipsReg
  | 0 => MipsReg.A0
  | 1 => MipsReg.A1
  | 2 => MipsReg.A2
  | _ => MipsReg.A3

/-- First branch of `RegisterManager::getReg`: an immediate is loaded into `$t8`. The
emitted line and the register returned. -/
def getRegImm (v : Int) : List MipsInstr × MipsReg :=
  ([MipsInstr.li MipsReg.T8 v], MipsReg.T8)

/-- Embedding of `MIPSGenerator::visitParam`, given what `getReg` emitted and returned for the
operand: the value is pushed with `subu $sp, $sp, 4; sw <reg>, 0($sp)`. -/
def visitParam (got : List MipsInstr × MipsReg) : List MipsInstr :=
  got.1 ++ [MipsInstr.subu MipsReg.SP MipsReg.SP 4, MipsInstr.sw got.2 0 MipsReg.SP]

/-- The `for (int i = 0; i < regsToLoad; ++i)` loop of `visitCall`: the first argument
counts the iterations left, the second is `i`. -/
def callLoads (paramCount : Int) : Nat → Nat → List MipsInstr
  | 0, _ => []
  | k + 1, i =>
    MipsInstr.lw (argReg i) (wrap32 ((paramCount - 1 - (i : Int)) * 4)) MipsReg.SP ::
      callLoads paramCount k (i + 1)

/-- The parameter count `visitCall` reads from the layout table. -/
def paramCountOf (table : List (String × CodeGenFunctionInfo)) (funcName : String) : Int :=
  match mapFind table funcName with
  | some info => wrap32 (info.paramList.length : Int)
  | none => 0

/-- The lines of `MIPSGenerator::visitCall` between the initial `spillAll` and the final
move of the return value: the register loads, the `jal`, and the release of the
pushed arguments. -/
def visitCallCore (table : List (String × CodeGenFunctionInfo)) (funcName : String) :
    List MipsInstr :=
  let paramCount := paramCountOf table funcName
  let regsToLoad : Nat := if paramCount > 4 then 4 else paramCount.toNat
  callLoads paramCount regsToLoad 0 ++ [MipsInstr.jal (getMipsLabel funcName)] ++
    (if paramCount > 0 then [MipsInstr.addiu MipsReg.SP MipsReg.SP (wrap32 (paramCount * 4))]
     else [])

/-- Embedding of `MIPSGenerator::visitCall`, given the lines of `spillAll` and the lines that move
`$v0` into the register allocated for the result. -/
def visitCall (spill : List MipsInstr) (table : List (String × CodeGenFunctionInfo))
    (funcName : String) (resultMove : List MipsInstr) : List MipsInstr :=
  spill ++ visitCallCore table funcName ++ resultMove

/-- The four frame-setup lines of the prologue. -/
def frameSetup (frameSize : Int) : List MipsInstr :=
  [MipsInstr.subu MipsReg.SP MipsReg.SP frameSize,
   MipsInstr.sw MipsReg.RA (wrap32 (frameSize - 4)) MipsReg.SP,
   MipsInstr.sw MipsReg.FP (wrap32 (frameSize - 8)) MipsReg.SP,
   MipsInstr.addiu MipsReg.FP MipsReg.SP frameSize]

/-- The parameter loop of `visitFuncEntry`; `argIdx` is the index of the head of the
remaining parameter names. -/
def paramMoves (info : CodeGenFunctionInfo) (totalParams : Int) : Nat → List String →
    List MipsInstr
  | _, [] => []
  | argIdx, paramName :: rest =>
    (match mapFind info.symbolMap paramName with
     | some entry =>
       if argIdx < 4 then [MipsInstr.swNeg (argReg argIdx) entry.offset MipsReg.FP]
       else
         [MipsInstr.lw MipsReg.T8 (wrap32 ((totalParams - 1 - (argIdx : Int)) * 4)) MipsReg.FP,
          MipsInstr.swNeg MipsReg.T8 entry.offset MipsReg.FP]
     | none => []) ++ paramMoves info totalParams (argIdx + 1) rest

/-- Embedding of `MIPSGenerator::visitFuncEntry`: the lines emitted for a function whose layout is
`funcInfo` (`none` when the table has no entry for the current label). -/
def visitFuncEntry (funcInfo : Option CodeGenFunctionInfo) : List MipsInstr :=
  match funcInfo with
  | some info =>
    frameSetup info.frameSize ++
      paramMoves info (wrap32 (info.paramList.length : Int)) 0 info.paramList
  | none => frameSetup 8

/-! ### A machine for the emitted lines -/

/-- Reduce an integer to an unsigned 32-bit word. -/
def wrapU (x : Int) : Int := x % 4294967296

/-- Registers and word-addressed memory; `link` is the address `jal` stores in `$ra` and
`addrOf` the address the assembler gives to a data label. -/
structure Machine where
  reg : MipsReg → Int
  mem : Int → Int
  link : Int
  addrOf : String → Int := fun _ => 0

/-- Write a register. -/
def Machine.setReg (m : Machine) (r : MipsReg) (v : Int) : Machine :=
  { m with reg := fun x => if x = r then v else m.reg x }

/-- Write a word of memory. -/
def Machine.setMem (m : Machine) (a : Int) (v : Int) : Machine :=
  { m with mem := fun x => if x = a then v else m.mem x }

/-- The word a three-register line `addu`, `subu` or `mul` computes from the words of its
two source registers; the other mnemonics are not interpreted. -/
def binValue (mipsOp : String) (a b : Int) : Option Int :=
  if mipsOp = "addu" then some (wrapU (a + b))
  else if mipsOp = "subu" then some (wrapU (a - b))
  else if mipsOp = "mul" then some (wrapU (a * b))
  else none

/-- Effect of one line on registers and memory (32-bit, no overflow trap). -/
def step (i : MipsInstr) (m : Machine) : Machine :=
  match i with
  | .li rd v => m.setReg rd (wrapU v)
  | .subu rd rs k => m.setReg rd (wrapU (m.reg rs - k))
  | .addiu rd rs k => m.setReg rd (wrapU (m.reg rs + k))
  | .sw rt off base => m.setMem (wrapU (m.reg base + off)) (m.reg rt)
  | .swNeg rt off base => m.setMem (wrapU (m.reg base - off)) (m.reg rt)
  | .lw rt off base => m.setReg rt (m.mem (wrapU (m.reg base + off)))
  | .jal _ => m.setReg MipsReg.RA m.link
  | .move rd rs => m.setReg rd (m.reg rs)
  | .lwNeg rt off base => m.setReg rt (m.mem (wrapU (m.reg base - off)))
  | .addiuNeg rd rs k => m.setReg rd (wrapU (m.reg rs - k))
  | .addu rd rs rt => m.setReg rd (wrapU (m.reg rs + m.reg rt))
  | .la rd l => m.setReg rd (wrapU (m.addrOf l))
  | .jr _ => m
  | .j _ => m
  | .beqz _ _ => m
  | .syscall => m
  | .label _ => m
  | .blank => m
  | .bin mipsOp rd rs rt =>
    (match binValue mipsOp (m.reg rs) (m.reg rt) with
     | some v => m.setReg rd v
     | none => m)

/-- Effect of a sequence of lines executed in order. -/
def runMips (code : List MipsInstr) (m : Machine) : Machine :=
  code.foldl (fun st i => step i st) m

/-- The lines that push a list of immediate arguments, in argument order. -/
def pushAll (vs : List Int) : List MipsInstr :=
  vs.flatMap (fun v => visitParam (getRegImm v))

/-- The machine state at the `jal` of a call whose arguments `vs` are immediates: the
pushes and the register loads of `visitCall` have been executed. -/
def stateAtJal (table : List (String × CodeGenFunctionInfo)) (name : String) (vs : List Int)
    (m0 : Machine) : Machine :=
  runMips (pushAll vs ++ (visitCallCore table name).take (min vs.length 4)) m0

/-- The machine state in the callee after the `jal` and the four frame-setup lines of
its prologue. -/
def stateInCallee (table : List (String × CodeGenFunctionInfo)) (name : String)
    (info : CodeGenFunctionInfo) (vs : List Int) (m0 : Machine) : Machine :=
  runMips (MipsInstr.jal (getMipsLabel name) :: frameSetup info.frameSize)
    (stateAtJal table name vs m0)

/-- The layout of the example callee `f` with five parameters `p0..p4`. -/
def exInfoF : CodeGenFunctionInfo :=
  { funcName := "f", frameSize := 32,
    symbolMap := [("p0_2", { name := "p0_2", offset := 12, isParam := true }),
                  ("p1_2", { name := "p1_2", offset := 16, isParam := true }),
                  ("p2_2", { name := "p2_2", offset := 20, isParam := true }),
                  ("p3_2", { name := "p3_2", offset := 24, isParam := true }),
                  ("p4_2", { name := "p4_2", offset := 28, isParam := true })],
    paramList := ["p0_2", "p1_2", "p2_2", "p3_2", "p4_2"] }

/-- The layout table of the example. -/
def exTableF : List (String × CodeGenFunctionInfo) := [("f", exInfoF)]

/-- A machine with `$sp` (and every other register) at 1000 and zeroed memory. -/
def exMachine : Machine := { reg := fun _ => 1000, mem := fun _ => 0, link := 0 }

/-- The lines for the call `f(1,2,3,4,5)`: five pushes, then the call. -/
def exCallF5 : List MipsInstr :=
  [1, 2, 3, 4, 5].flatMap (fun v => visitParam (getRegImm v)) ++ visitCallCore exTableF "f"

/-! ## Global defines (Optimizer::splitFunctions, Optimizer::getOptimizedIR) -/

/-- The instructions of an IR listing that precede its first function start: the ones
`splitFunctions` reaches while `currentFunc` is still null. -/
def leadingGlobals : List IRInstruction → List IRInstruction
  | [] => []
  | instr :: rest => if isFuncStart instr rest.head? then [] else instr :: leadingGlobals rest

/-! ## Symbol table (SymbolTable.h) -/

/-- One scope, `class Scope`: the lookup map `symbols`, the insertion-ordered vector
`symbols_in_order` and the ID. -/
structure Scope where
  symbols : List (String × SymbolEntry) := []
  symbols_in_order : List SymbolEntry := []
  scopeId : Int
  deriving DecidableEq, Repr

/-- The two insertions of `Scope::addSymbol`: `symbols.emplace(entry.name, entry)` for a
name that is not yet a key, and `symbols_in_order.push_back(entry)`. -/
def Scope.withEntry (s : Scope) (entry : SymbolEntry) : Scope :=
  { s with symbols := mapSet s.symbols entry.name entry,
           symbols_in_order := s.symbols_in_order ++ [entry] }

/-- Embedding of `Scope::addSymbol`: the returned flag and the scope afterwards. -/
def Scope.addSymbol (s : Scope) (entry : SymbolEntry) : Bool × Scope :=
  if (mapFind s.symbols entry.name).isSome then (false, s)
  else (true, s.withEntry entry)

/-- Embedding of `Scope::findSymbol`: the entry of the lookup map, `none` for a null result. -/
def Scope.findSymbol (s : Scope) (name : String) : Option SymbolEntry :=
  mapFind s.symbols name

/-- Embedding of `Scope::getSymbols`: the insertion-ordered vector. -/
def Scope.getSymbols (s : Scope) : List SymbolEntry := s.symbols_in_order

/-- Lookup in the map `scopeById`. -/
def idFind : List (Int × Nat) → Int → Option Nat
  | [], _ => none
  | (k, v) :: rest, key => if k = key then some v else idFind rest key

/-- Removal of a key from the map `scopeById`. -/
def idErase : List (Int × Nat) → Int → List (Int × Nat)
  | [], _ => []
  | (k, v) :: rest, key => if k = key then idErase rest key else (k, v) :: idErase rest key

/-- Assignment `scopeById[key] = v`. -/
def idSet (m : List (Int × Nat)) (key : Int) (v : Nat) : List (Int × Nat) :=
  (key, v) :: idErase m key

/-- State of `class SymbolTable`. The vector `scopes` owns the scopes; a `Scope*` held in
`scopeById` is the position of the scope in `scopes`. The back of the vector
`scopeStack` is the last element of the list. -/
structure SymbolTable where
  scopes : List Scope
  currentScopeId : Int
  scopeStack : List Int
  scopeById : List (Int × Nat)
  deriving DecidableEq, Repr

/-- Embedding of `SymbolTable::enterScope`. -/
def SymbolTable.enterScope (t : SymbolTable) : SymbolTable :=
  let newScopeId := t.currentScopeId
  { scopes := t.scopes ++ [{ scopeId := newScopeId }],
    scopeById := idSet t.scopeById newScopeId t.scopes.length,
    scopeStack := t.scopeStack ++ [newScopeId],
    currentScopeId := wrap32 (t.currentScopeId + 1) }

/-- The constructor `SymbolTable()`: the ID counter starts at 1 and the global scope is entered. -/
def SymbolTable.construct : SymbolTable :=
  SymbolTable.enterScope { scopes := [], currentScopeId := 1, scopeStack := [], scopeById := [] }

/-- Embedding of `SymbolTable::exitScope`. -/
def SymbolTable.exitScope (t : SymbolTable) : SymbolTable :=
  if t.scopeStack ≠ [] then { t with scopeStack := t.scopeStack.dropLast } else t

/-- Embedding of `SymbolTable::getCurrentScopeId`; `none` where the C++ throws. -/
def SymbolTable.getCurrentScopeId (t : SymbolTable) : Option Int := t.scopeStack.getLast?

/-- Embedding of `SymbolTable::getScopeById`; `none` for a null result. -/
def SymbolTable.getScopeById (t : SymbolTable) (scopeId : Int) : Option Scope :=
  match idFind t.scopeById scopeId with
  | some pos => t.scopes[pos]?
  | none => none

/-- The table after the scope at position `pos` of `scopes` has been modified in place. -/
def SymbolTable.setScope (t : SymbolTable) (pos : Nat) (s : Scope) : SymbolTable :=
  { t with scopes := t.scopes.set pos s }

/-- Embedding of `SymbolTable::addSymbol`: the returned flag and the table afterwards. -/
def SymbolTable.addSymbol (t : SymbolTable) (entry : SymbolEntry) : Bool × SymbolTable :=
  if t.scopes.isEmpty then (false, t)
  else
    let currentId := entry.scope
    if currentId ≤ 0 ∨ (t.scopes.length : Int) < currentId then (false, t)
    else
      match t.scopes[(currentId - 1).toNat]? with
      | some s =>
        let r := s.addSymbol entry
        (r.1, t.setScope (currentId - 1).toNat r.2)
      | none => (false, t)

/-- The loop of `SymbolTable::findSymbol` over the scope IDs still to visit. -/
def SymbolTable.findLoop (t : SymbolTable) (name : String) : List Int → Option SymbolEntry
  | [] => none
  | scopeId :: rest =>
    match t.getScopeById scopeId with
    | some scope =>
      (match scope.findSymbol name with
       | some symbol => some symbol
       | none => SymbolTable.findLoop t name rest)
    | none => SymbolTable.findLoop t name rest

/-- Embedding of `SymbolTable::findSymbol`: the scope stack is walked from its back. -/
def SymbolTable.findSymbol (t : SymbolTable) (name : String) : Option SymbolEntry :=
  t.findLoop name t.scopeStack.reverse

/-- Embedding of `SymbolTable::getAllSymbols`. -/
def SymbolTable.getAllSymbols (t : SymbolTable) : List SymbolEntry :=
  t.scopes.flatMap Scope.getSymbols

/-- A call of one of the three mutating operations of the table. -/
inductive TableOp where
  | enterScope
  | exitScope
  | addSymbol (entry : SymbolEntry)
  deriving DecidableEq, Repr

/-- The table after one call. -/
def SymbolTable.apply (t : SymbolTable) : TableOp → SymbolTable
  | .enterScope => t.enterScope
  | .exitScope => t.exitScope
  | .addSymbol entry => (t.addSymbol entry).2

/-- The table after a sequence of calls. -/
def SymbolTable.runOps (t : SymbolTable) : List TableOp → SymbolTable
  | [] => t
  | op :: rest => SymbolTable.runOps (t.apply op) rest

/-- The table reached from the constructor by a sequence of calls. -/
def SymbolTable.after (ops : List TableOp) : SymbolTable :=
  SymbolTable.construct.runOps ops

/-- Number of `enterScope` calls in a sequence. -/
def enterCount : List TableOp → Nat
  | [] => 0
  | .enterScope :: rest => enterCount rest + 1
  | _ :: rest => enterCount rest

/-- The entries whose `addSymbol` call returned true, in call order, when the sequence
is run from the table `t`. -/
def addedFrom (t : SymbolTable) : List TableOp → List SymbolEntry
  | [] => []
  | op :: rest =>
    (match op with
     | .addSymbol entry => if (t.addSymbol entry).1 then [entry] else []
     | _ => []) ++ addedFrom (t.apply op) rest

/-- The entries added successfully by a sequence of calls run from the constructor. -/
def addedEntries (ops : List TableOp) : List SymbolEntry :=
  addedFrom SymbolTable.construct ops

/-- The entries of the scope at position `i` of the vector `scopes`. -/
def symsAt (t : SymbolTable) (i : Nat) : List SymbolEntry :=
  match t.scopes[i]? with
  | some s => s.getSymbols
  | none => []

/-- Facts about a table that the constructor establishes and every call of `enterScope`,
`exitScope` and `addSymbol` preserves. The two facts about IDs as numbers are stated
for tables with at most `INT_MAX` scopes, where the counter has not overflowed. -/
structure TableInv (t : SymbolTable) : Prop where
  counter : t.currentScopeId = wrap32 (t.scopes.length + 1)
  ids : ∀ (i : Nat) (s : Scope), t.scopes[i]? = some s → s.scopeId = wrap32 (i + 1)
  byId : t.scopes.length ≤ 2147483647 → ∀ id : Int,
    idFind t.scopeById id =
      if 1 ≤ id ∧ id ≤ t.scopes.length then some (id - 1).toNat else none
  stack : t.scopes.length ≤ 2147483647 → ∀ id ∈ t.scopeStack, 1 ≤ id ∧ id ≤ t.scopes.length
  maps : ∀ s ∈ t.scopes, ∀ name : String,
    mapFind s.symbols name = s.symbols_in_order.find? (fun e => decide (e.name = name))
  names : ∀ s ∈ t.scopes, (s.symbols_in_order.map SymbolEntry.name).Nodup
  scopeOf : ∀ (i : Nat) (s : Scope), t.scopes[i]? = some s →
    ∀ e ∈ s.symbols_in_order, e.scope = (i : Int) + 1

/-! ## Variable operands (IRGenerator::getVar) -/

/-- The operand `IRGenerator::getVar` builds for the symbol entry it has found:
`Operand(entry)`, renamed to `<name>_<scope>` for a non-static local, to the label (or
`<name>_static_<scope>`) for a static variable, and left with the source name for a
non-static global. -/
def getVarOperand (entry : SymbolEntry) : Operand :=
  let op := Operand.ofSymbol entry
  let isGlobal := decide (entry.scope = 1)
  let isStatic := decide (entry.type = SymbolType.StaticInt) ||
    decide (entry.type = SymbolType.StaticIntArray)
  if !isGlobal && !isStatic then
    { op with name := entry.name ++ "_" ++ ToString.toString entry.scope }
  else if isStatic then
    if entry.label ≠ "" then { op with name := entry.label }
    else { op with name := entry.name ++ "_static_" ++ ToString.toString entry.scope }
  else op

/-- The loop of `IRGenerator::getVar` over the scopes still to visit, innermost first;
an entry that is not yet in `activeSymbols` is skipped. -/
def getVarLoop (activeSymbols : List SymbolEntry) (name : String) : List Scope → Option Operand
  | [] => none
  | scope :: rest =>
    match scope.findSymbol name with
    | some entry =>
      if entry ∈ activeSymbols then some (getVarOperand entry)
      else getVarLoop activeSymbols name rest
    | none => getVarLoop activeSymbols name rest

/-- Embedding of `IRGenerator::getVar`; `none` for the null result. -/
def getVar (scopeStack : List Scope) (activeSymbols : List SymbolEntry) (name : String) :
    Option Operand :=
  getVarLoop activeSymbols name scopeStack.reverse

/-! ## Lowering of `printf` (IRGenerator::visitStmt, IRGenerator::addStringConstant) -/

/-- The label `str_<n>` of the n-th string constant. -/
def strLabel (n : Nat) : String := "str_" ++ ToString.toString n

/-- Embedding of `IRGenerator::addStringConstant`: the label and the state afterwards. -/
def addStringConstant (g : GenState) (content : String) : String × GenState :=
  (strLabel g.stringCounter,
    { g with stringCounter := g.stringCounter + 1,
             stringConstants := mapSet g.stringConstants (strLabel g.stringCounter) content })

/-- Embedding of `IRGenerator::visitExp` on an expression given by what its lowering does:
its instructions are appended and its value operand is returned. -/
def visitExp (e : Leaf) (g : GenState) : Operand × GenState :=
  (e.val, { g with instructions := g.instructions ++ e.code })

/-- A child of the `Stmt` node of a `printf` statement: a terminal with its text, an
`Exp` node, or a node of another kind. Strings are lists of characters. -/
inductive StmtChild where
  | terminal (value : List Char)
  | exp (e : Leaf)
  | other
  deriving DecidableEq, Repr

/-- The first loop of the `printf` branch: the text of the terminal that contains a
double quote becomes `rawStr`, every `Exp` child is lowered and its operand appended
to `args`. -/
def printfChildren : List StmtChild → List Char → List Operand → GenState →
    List Char × List Operand × GenState
  | [], rawStr, args, g => (rawStr, args, g)
  | c :: rest, rawStr, args, g =>
    match c with
    | .terminal value =>
      if '"' ∈ value then printfChildren rest value args g
      else printfChildren rest rawStr args g
    | .exp e =>
      let r := visitExp e g
      printfChildren rest rawStr (args ++ [r.1]) r.2
    | .other => printfChildren rest rawStr args g

/-- Removal of the quotes: `rawStr.substr(1, rawStr.size() - 2)` when the size is at
least two. -/
def stripQuotes (rawStr : List Char) : List Char :=
  if 2 ≤ rawStr.length then (rawStr.drop 1).take (rawStr.length - 2) else rawStr

/-- The block `if (!buffer.empty())`: the buffer is interned and a PRINTSTR of its label
is emitted. -/
def flushBuffer (g : GenState) (buffer : List Char) : GenState :=
  if buffer ≠ [] then
    let r := addStringConstant g (String.mk buffer)
    emit r.2 IROp.PRINTSTR none (some (Operand.named r.1 OperandType.LABEL)) none
  else g

/-- The block `if (argIdx < args.size())`: a PRINTINT of the next argument is emitted. -/
def printArg (args : List Operand) (argIdx : Nat) (g : GenState) : GenState × Nat :=
  match args[argIdx]? with
  | some a => (emit g IROp.PRINTINT none (some a) none, argIdx + 1)
  | none => (g, argIdx)

/-- The walk over the format string with the final flush: the characters from position
`i` on, `argIdx`, the buffer, the state. -/
def printfLoop (args : List Operand) : List Char → Nat → List Char → GenState → GenState
  | [], _, buffer, g => flushBuffer g buffer
  | [c], _, buffer, g => flushBuffer g (buffer ++ [c])
  | c :: d :: rest, argIdx, buffer, g =>
    if c = '%' ∧ d = 'd' then
      let r := printArg args argIdx (flushBuffer g buffer)
      printfLoop args rest r.2 [] r.1
    else if c = '\\' ∧ d = 'n' then printfLoop args rest argIdx (buffer ++ ['\n']) g
    else printfLoop args (d :: rest) argIdx (buffer ++ [c]) g

/-- The `printf` branch of `IRGenerator::visitStmt`. -/
def visitPrintf (children : List StmtChild) (g : GenState) : GenState :=
  let r := printfChildren children [] [] g
  printfLoop r.2.1 (stripQuotes r.1) 0 [] r.2.2

/-! ### What a format string asks for -/

/-- A unit of a format string: a literal character or the specifier `%d`. -/
inductive FmtToken where
  | lit (c : Char)
  | spec
  deriving DecidableEq, Repr

/-- The units of a format string read from left to right: `%d` is a specifier, the two
characters backslash and `n` are one newline, any other character is itself. -/
def fmtTokens : List Char → List FmtToken
  | [] => []
  | [c] => [FmtToken.lit c]
  | c :: d :: rest =>
    if c = '%' ∧ d = 'd' then FmtToken.spec :: fmtTokens rest
    else if c = '\\' ∧ d = 'n' then FmtToken.lit '\n' :: fmtTokens rest
    else FmtToken.lit c :: fmtTokens (d :: rest)

/-- What one emitted instruction stands for: a run of literal characters or an argument. -/
inductive FmtItem where
  | text (s : List Char)
  | arg
  deriving DecidableEq, Repr

/-- The units an item covers. -/
def FmtItem.tokens : FmtItem → List FmtToken
  | .text s => s.map FmtToken.lit
  | .arg => [FmtToken.spec]

/-- Whether an item is a run of literal characters. -/
def FmtItem.isText : FmtItem → Bool
  | .text _ => true
  | .arg => false

/-- The instructions for a list of items: the j-th run is a PRINTSTR of the label
`str_<counter + j>`, the i-th argument item a PRINTINT of the i-th operand. -/
def itemInstrs : List FmtItem → List Operand → Nat → List IRInstruction
  | [], _, _ => []
  | .text _ :: rest, args, counter =>
    { op := IROp.PRINTSTR, arg1 := some (Operand.named (strLabel counter) OperandType.LABEL) } ::
      itemInstrs rest args (counter + 1)
  | .arg :: rest, a :: args, counter =>
    { op := IROp.PRINTINT, arg1 := some a } :: itemInstrs rest args counter
  | .arg :: rest, [], counter => itemInstrs rest [] counter

/-- The state after the instructions of a list of items have been emitted in order. -/
def withItems : List FmtItem → List Operand → GenState → GenState
  | [], _, g => g
  | .text s :: rest, args, g => withItems rest args (flushBuffer g s)
  | .arg :: rest, a :: args, g => withItems rest args (emit g IROp.PRINTINT none (some a) none)
  | .arg :: rest, [], g => withItems rest [] g

/-- The characters an output instruction writes, given the string constants and the
text of the value of each operand. -/
def renderInstr (consts : List (String × String)) (valueOf : Operand → List Char)
    (i : IRInstruction) : List Char :=
  if i.op = IROp.PRINTSTR then
    match i.arg1 with
    | some l => (match mapFind consts l.name with
                 | some content => content.data
                 | none => [])
    | none => []
  else if i.op = IROp.PRINTINT then
    match i.arg1 with
    | some a => valueOf a
    | none => []
  else []

/-- The characters a list of output instructions writes. -/
def render (consts : List (String × String)) (valueOf : Operand → List Char)
    (is : List IRInstruction) : List Char :=
  is.flatMap (renderInstr consts valueOf)

/-- The format with the i-th specifier replaced by the i-th value. -/
def expand : List FmtToken → List (List Char) → List Char
  | [], _ => []
  | .lit c :: rest, vs => c :: expand rest vs
  | .spec :: rest, v :: vs => v ++ expand rest vs
  | .spec :: rest, [] => expand rest []

/-- Number of specifiers among the units of a format. -/
def specCount : List FmtToken → Nat
  | [] => 0
  | .spec :: rest => specCount rest + 1
  | .lit _ :: rest => specCount rest

/-- The argument expressions of a `printf` statement: its `Exp` children, in order. -/
def printfArgs : List StmtChild → List Leaf
  | [] => []
  | .exp e :: rest => e :: printfArgs rest
  | _ :: rest => printfArgs rest

/-- The text of the last terminal child that contains a double quote (`rawStr` when there
is none). -/
def quotedText : List StmtChild → List Char → List Char
  | [], rawStr => rawStr
  | .terminal value :: rest, rawStr =>
    if '"' ∈ value then quotedText rest value else quotedText rest rawStr
  | _ :: rest, rawStr => quotedText rest rawStr

/-- The format of a `printf` statement: the string literal without its quotes. -/
def printfFormat (children : List StmtChild) : List Char :=
  stripQuotes (quotedText children [])

/-- The operands of the PRINTINT instructions of a listing, in order. -/
def printIntArgs : List IRInstruction → List Operand
  | [] => []
  | i :: rest =>
    (if i.op = IROp.PRINTINT then
      (match i.arg1 with
       | some a => [a]
       | none => [])
     else []) ++ printIntArgs rest

/-! ## Register allocation (MIPSGenerator::RegisterManager, MIPSGenerator::getAddress) -/

/-- The text `getAddress` returns: `-<offset>($fp)` for a slot of the frame, `0(<reg>)`
for a global whose address has been loaded into a register. -/
inductive Address where
  | frame (offset : Int)
  | atReg (r : MipsReg)
  deriving DecidableEq, Repr

/-- The line `sw <rt>, <addr>`. -/
def storeTo (rt : MipsReg) : Address → MipsInstr
  | .frame offset => MipsInstr.swNeg rt offset MipsReg.FP
  | .atReg r => MipsInstr.sw rt 0 r

/-- The line `lw <rt>, <addr>`. -/
def loadFrom (rt : MipsReg) : Address → MipsInstr
  | .frame offset => MipsInstr.lwNeg rt offset MipsReg.FP
  | .atReg r => MipsInstr.lw rt 0 r

/-- The test for a static variable used by the generators. -/
def isStaticSymbol (s : SymbolEntry) : Bool :=
  decide (s.type = SymbolType.StaticInt) || decide (s.type = SymbolType.StaticIntArray)

/-- Embedding of `MIPSGenerator::getAddress` for the function layout on top of the context
stack (`none` when there is none): the lines emitted and the address text, or the
exception. -/
def getAddress (info : Option CodeGenFunctionInfo) (op : Operand) (tempReg : MipsReg) :
    Except String (List MipsInstr × Address) :=
  if op.type = OperandType.TEMP ∨ op.type = OperandType.VAR then
    match info.bind (fun i => mapFind i.symbolMap op.name) with
    | some e => Except.ok ([], Address.frame e.offset)
    | none =>
      if (match op.symbol with
          | some s => !isStaticSymbol s && (s.isParam || decide (s.scope > 1))
          | none => false) then
        Except.error ("[MIPS getAddress] invalid address for operand: " ++ op.name)
      else if op.type = OperandType.TEMP then
        Except.error ("[MIPS getAddress] invalid address for operand: " ++ op.name)
      else
        let labelName := match op.symbol with
          | some s => if s.label ≠ "" then s.label else op.name
          | none => op.name
        Except.ok ([MipsInstr.la tempReg (getMipsLabel labelName)], Address.atReg tempReg)
  else Except.error ("[MIPS getAddress] invalid address for operand: " ++ op.name)

/-- Lookup in the map `regToVar`. -/
def regFind : List (MipsReg × String) → MipsReg → Option String
  | [], _ => none
  | (k, v) :: rest, key => if k = key then some v else regFind rest key

/-- Removal of a key from the map `regToVar`. -/
def regErase : List (MipsReg × String) → MipsReg → List (MipsReg × String)
  | [], _ => []
  | (k, v) :: rest, key => if k = key then regErase rest key else (k, v) :: regErase rest key

/-- Assignment `regToVar[key] = v`. -/
def regSet (m : List (MipsReg × String)) (key : MipsReg) (v : String) : List (MipsReg × String) :=
  (key, v) :: regErase m key

/-- State of `class RegisterManager`: the two register queues, the three maps and the
set of dirty registers. A `SymbolEntry*` in `varToSymbol` is the entry it points to. -/
structure RegisterManager where
  freeRegs : List MipsReg
  busyRegs : List MipsReg
  varToReg : List (String × MipsReg) := []
  regToVar : List (MipsReg × String) := []
  varToSymbol : List (String × SymbolEntry) := []
  dirtyRegs : List MipsReg := []
  deriving DecidableEq, Repr

/-- The registers `$t0..$t7` the constructor puts into the free queue. -/
def allocatable : List MipsReg :=
  [MipsReg.T0, MipsReg.T1, MipsReg.T2, MipsReg.T3, MipsReg.T4, MipsReg.T5, MipsReg.T6,
   MipsReg.T7]

/-- The constructor `RegisterManager(gen)`. -/
def RegisterManager.construct : RegisterManager :=
  { freeRegs := allocatable, busyRegs := [] }

/-- The operand `spillReg` builds for the variable of a register: a VAR operand with the
cached symbol entry, if any. -/
def spillOperand (rm : RegisterManager) (varName : String) : Operand :=
  { type := OperandType.VAR, name := varName, value := 0,
    symbol := mapFind rm.varToSymbol varName }

/-- The state after the four `erase` calls at the end of `spillReg`. -/
def RegisterManager.forget (rm : RegisterManager) (reg : MipsReg) (varName : String) :
    RegisterManager :=
  { rm with varToReg := mapErase rm.varToReg varName,
            regToVar := regErase rm.regToVar reg,
            dirtyRegs := rm.dirtyRegs.filter (fun r => decide (r ≠ reg)),
            varToSymbol := mapErase rm.varToSymbol varName }

/-- Embedding of `RegisterManager::spillReg`: the lines emitted and the state afterwards, or
the exception of `getAddress`. -/
def spillReg (info : Option CodeGenFunctionInfo) (rm : RegisterManager) (reg : MipsReg) :
    Except String (List MipsInstr × RegisterManager) :=
  match regFind rm.regToVar reg with
  | some varName =>
    if reg ∈ rm.dirtyRegs then
      match getAddress info (spillOperand rm varName) MipsReg.T9 with
      | Except.ok a => Except.ok (a.1 ++ [storeTo reg a.2], rm.forget reg varName)
      | Except.error e => Except.error e
    else Except.ok ([], rm.forget reg varName)
  | none => Except.ok ([], rm)

/-- The loop of `RegisterManager::spillAll` over the copy of the busy queue. -/
def spillLoop (info : Option CodeGenFunctionInfo) :
    List MipsReg → RegisterManager → Except String (List MipsInstr × RegisterManager)
  | [], rm => Except.ok ([], rm)
  | reg :: rest, rm =>
    match spillReg info rm reg with
    | Except.ok r1 =>
      (match spillLoop info rest { r1.2 with freeRegs := r1.2.freeRegs ++ [reg] } with
       | Except.ok r2 => Except.ok (r1.1 ++ r2.1, r2.2)
       | Except.error e => Except.error e)
    | Except.error e => Except.error e

/-- Embedding of `RegisterManager::spillAll`. -/
def spillAll (info : Option CodeGenFunctionInfo) (rm : RegisterManager) :
    Except String (List MipsInstr × RegisterManager) :=
  match spillLoop info rm.busyRegs rm with
  | Except.ok r => Except.ok (r.1, { r.2 with busyRegs := [], dirtyRegs := [] })
  | Except.error e => Except.error e

/-- Embedding of `RegisterManager::clearMap`. -/
def clearMap (rm : RegisterManager) : RegisterManager :=
  { freeRegs := rm.freeRegs ++ rm.busyRegs, busyRegs := [], varToReg := [], regToVar := [],
    varToSymbol := [], dirtyRegs := [] }

/-- Step 3 of `getReg` and of `allocateReg`: the front of the free queue if there is one,
else the front of the busy queue, which is spilled. Both queues empty is the case in
which the C++ calls `front()` on an empty list. -/
def takeReg (info : Option CodeGenFunctionInfo) (rm : RegisterManager) :
    Except String (List MipsInstr × RegisterManager × MipsReg) :=
  match rm.freeRegs with
  | reg :: rest => Except.ok ([], { rm with freeRegs := rest }, reg)
  | [] =>
    match rm.busyRegs with
    | reg :: rest =>
      (match spillReg info { rm with busyRegs := rest } reg with
       | Except.ok r => Except.ok (r.1, r.2, reg)
       | Except.error e => Except.error e)
    | [] => Except.error "front() of an empty register queue"

/-- Step 4 of `getReg` and of `allocateReg`: the new mapping is recorded and the register
joins the back of the busy queue. -/
def RegisterManager.bind (rm : RegisterManager) (op : Operand) (reg : MipsReg) :
    RegisterManager :=
  { rm with varToReg := mapSet rm.varToReg op.name reg,
            regToVar := regSet rm.regToVar reg op.name,
            varToSymbol := (match op.symbol with
              | some s => mapSet rm.varToSymbol op.name s
              | none => rm.varToSymbol),
            busyRegs := rm.busyRegs ++ [reg] }

/-- Embedding of `RegisterManager::getReg`: the lines emitted, the state afterwards and the
register returned, or the exception. -/
def getReg (info : Option CodeGenFunctionInfo) (rm : RegisterManager) (op : Operand)
    (isLoad : Bool) : Except String (List MipsInstr × RegisterManager × MipsReg) :=
  if op.type = OperandType.IMM then
    Except.ok ([MipsInstr.li MipsReg.T8 op.value], rm, MipsReg.T8)
  else
    match mapFind rm.varToReg op.name with
    | some reg => Except.ok ([], rm, reg)
    | none =>
      match takeReg info rm with
      | Except.ok r =>
        let rm2 := r.2.1.bind op r.2.2
        let rm3 := { rm2 with dirtyRegs := rm2.dirtyRegs.filter (fun x => decide (x ≠ r.2.2)) }
        if isLoad then
          (match getAddress info op MipsReg.T9 with
           | Except.ok a => Except.ok (r.1 ++ a.1 ++ [loadFrom r.2.2 a.2], rm3, r.2.2)
           | Except.error e => Except.error e)
        else Except.ok (r.1, rm3, r.2.2)
      | Except.error e => Except.error e

/-- Insertion into the set `dirtyRegs`. -/
def dirtyInsert (d : List MipsReg) (reg : MipsReg) : List MipsReg :=
  if reg ∈ d then d else reg :: d

/-- Embedding of `RegisterManager::allocateReg`. -/
def allocateReg (info : Option CodeGenFunctionInfo) (rm : RegisterManager) (result : Operand) :
    Except String (List MipsInstr × RegisterManager × MipsReg) :=
  match mapFind rm.varToReg result.name with
  | some reg => Except.ok ([], { rm with dirtyRegs := dirtyInsert rm.dirtyRegs reg }, reg)
  | none =>
    match takeReg info rm with
    | Except.ok r =>
      let rm2 := r.2.1.bind result r.2.2
      Except.ok (r.1, { rm2 with dirtyRegs := dirtyInsert rm2.dirtyRegs r.2.2 }, r.2.2)
    | Except.error e => Except.error e

/-- A call of one of the four operations the generator uses, with the function layout
that is current at the call. -/
inductive AllocOp where
  | getReg (info : Option CodeGenFunctionInfo) (op : Operand)
  | allocateReg (info : Option CodeGenFunctionInfo) (result : Operand)
  | spillAll (info : Option CodeGenFunctionInfo)
  | clearMap
  deriving DecidableEq, Repr

/-- The allocator state after one call, `none` when the call throws. -/
def runAllocOp (rm : RegisterManager) : AllocOp → Option RegisterManager
  | .getReg info op =>
    (match getReg info rm op true with
     | Except.ok r => some r.2.1
     | Except.error _ => none)
  | .allocateReg info result =>
    (match allocateReg info rm result with
     | Except.ok r => some r.2.1
     | Except.error _ => none)
  | .spillAll info =>
    (match spillAll info rm with
     | Except.ok r => some r.2
     | Except.error _ => none)
  | .clearMap => some (clearMap rm)

/-- The allocator state after a sequence of calls none of which throws. -/
def runAllocOps (rm : RegisterManager) : List AllocOp → Option RegisterManager
  | [] => some rm
  | op :: rest =>
    match runAllocOp rm op with
    | some rm1 => runAllocOps rm1 rest
    | none => none

/-- The lines `spillAll` emits for one busy register in the state `rm`: for a dirty
register the lines of `getAddress` for its variable and the `sw` to that address,
nothing for a clean one. -/
def spillLines (info : Option CodeGenFunctionInfo) (rm : RegisterManager) (reg : MipsReg) :
    List MipsInstr :=
  match regFind rm.regToVar reg with
  | some varName =>
    if reg ∈ rm.dirtyRegs then
      match getAddress info (spillOperand rm varName) MipsReg.T9 with
      | Except.ok a => a.1 ++ [storeTo reg a.2]
      | Except.error _ => []
    else []
  | none => []

/-- Whether a line is a store. -/
def MipsInstr.isStore : MipsInstr → Bool
  | .sw _ _ _ => true
  | .swNeg _ _ _ => true
  | _ => false

/-- Facts about the allocator state that the constructor establishes and every call
that returns preserves. -/
structure AllocInv (rm : RegisterManager) : Prop where
  perm : (rm.freeRegs ++ rm.busyRegs).Perm allocatable
  regVar : ∀ (r : MipsReg) (v : String), regFind rm.regToVar r = some v →
    r ∈ rm.busyRegs ∧ mapFind rm.varToReg v = some r
  varReg : ∀ (v : String) (r : MipsReg), mapFind rm.varToReg v = some r →
    regFind rm.regToVar r = some v
  busyMapped : ∀ r ∈ rm.busyRegs, ∃ v, regFind rm.regToVar r = some v
  dirtyBusy : ∀ r ∈ rm.dirtyRegs, r ∈ rm.busyRegs
  symVar : ∀ (v : String) (s : SymbolEntry), mapFind rm.varToSymbol v = some s →
    ∃ r, mapFind rm.varToReg v = some r

/-- The state after `spillReg` has removed the mapping of a register, if it has one. -/
def RegisterManager.forgetReg (rm : RegisterManager) (reg : MipsReg) : RegisterManager :=
  match regFind rm.regToVar reg with
  | some varName => rm.forget reg varName
  | none => rm

/-- Whether `getAddress` returns for the operand `spillReg` builds for the variable of a
register (true for a register without a variable). -/
def homeResolves (info : Option CodeGenFunctionInfo) (rm : RegisterManager) (r : MipsReg) :
    Bool :=
  match regFind rm.regToVar r with
  | some v =>
    (match getAddress info (spillOperand rm v) MipsReg.T9 with
     | Except.ok _ => true
     | Except.error _ => false)
  | none => true

/-- Every dirty busy register has a home address in the current function layout. -/
def HomesResolve (info : Option CodeGenFunctionInfo) (rm : RegisterManager) : Prop :=
  ∀ r ∈ rm.busyRegs, r ∈ rm.dirtyRegs → homeResolves info rm r = true

/-- The condition `HomesResolve` can be checked by running `getAddress`. -/
instance instDecidableHomesResolve (info : Option CodeGenFunctionInfo) (rm : RegisterManager) :
    Decidable (HomesResolve info rm) := by
  unfold HomesResolve
  infer_instance

/-- The allocator holds nothing: the three maps have no entry, no register is dirty or
busy, and the free queue holds `$t0..$t7`, each once. -/
def AllocEmpty (rm : RegisterManager) : Prop :=
  (∀ v : String, mapFind rm.varToReg v = none) ∧
  (∀ r : MipsReg, regFind rm.regToVar r = none) ∧
  (∀ v : String, mapFind rm.varToSymbol v = none) ∧
  rm.dirtyRegs = [] ∧ rm.busyRegs = [] ∧ rm.freeRegs.Perm allocatable

/-- The state between step 3 and step 4 of `getReg`: the register `reg` has been taken
out of the queues and carries no mapping; the mappings of the other registers are
consistent. -/
structure AllocPre (rm : RegisterManager) (reg : MipsReg) : Prop where
  perm : (reg :: (rm.freeRegs ++ rm.busyRegs)).Perm allocatable
  regVar : ∀ (r : MipsReg) (v : String), regFind rm.regToVar r = some v →
    r ∈ rm.busyRegs ∧ mapFind rm.varToReg v = some r
  varReg : ∀ (v : String) (r : MipsReg), mapFind rm.varToReg v = some r →
    regFind rm.regToVar r = some v
  busyMapped : ∀ r ∈ rm.busyRegs, ∃ v, regFind rm.regToVar r = some v
  dirtyBusy : ∀ r ∈ rm.dirtyRegs, r ∈ rm.busyRegs
  symVar : ∀ (v : String) (s : SymbolEntry), mapFind rm.varToSymbol v = some s →
    ∃ r, mapFind rm.varToReg v = some r

/-- The LABEL case of `MIPSGenerator::generate`: `spillAll`, then the label line. -/
def visitLabel (info : Option CodeGenFunctionInfo) (rm : RegisterManager) (name : String) :
    Except String (List MipsInstr × RegisterManager) :=
  match spillAll info rm with
  | Except.ok r => Except.ok (r.1 ++ [MipsInstr.label (getMipsLabel name)], r.2)
  | Except.error e => Except.error e

/-- The JUMP case of `MIPSGenerator::generate`: `spillAll`, then `j <label>`. -/
def visitJump (info : Option CodeGenFunctionInfo) (rm : RegisterManager) (name : String) :
    Except String (List MipsInstr × RegisterManager) :=
  match spillAll info rm with
  | Except.ok r => Except.ok (r.1 ++ [MipsInstr.j (getMipsLabel name)], r.2)
  | Except.error e => Except.error e

/-- Embedding of `MIPSGenerator::visitBranch`: the register of the condition, `spillAll`, then
`beqz <reg>, <label>`. -/
def visitBranch (info : Option CodeGenFunctionInfo) (rm : RegisterManager) (cond : Operand)
    (target : String) : Except String (List MipsInstr × RegisterManager) :=
  match getReg info rm cond true with
  | Except.ok g =>
    (match spillAll info g.2.1 with
     | Except.ok r =>
       Except.ok (g.1 ++ r.1 ++ [MipsInstr.beqz g.2.2 (getMipsLabel target)], r.2)
     | Except.error e => Except.error e)
  | Except.error e => Except.error e

/-- Embedding of `MIPSGenerator::visitCall` with the allocator: the lines, the allocator state
at the `jal` (after the initial `spillAll`) and the state at the end, after a register
has been allocated for the result. -/
def visitCallAlloc (info : Option CodeGenFunctionInfo)
    (table : List (String × CodeGenFunctionInfo)) (rm : RegisterManager) (funcName : String)
    (result : Option Operand) :
    Except String (List MipsInstr × RegisterManager × RegisterManager) :=
  match spillAll info rm with
  | Except.ok s =>
    (match result with
     | some res =>
       (match allocateReg info s.2 res with
        | Except.ok a =>
          Except.ok (visitCall s.1 table funcName (a.1 ++ [MipsInstr.move a.2.2 MipsReg.V0]),
            s.2, a.2.1)
        | Except.error e => Except.error e)
     | none => Except.ok (visitCall s.1 table funcName [], s.2, s.2))
  | Except.error e => Except.error e

/-! ## Memory instructions (MIPSGenerator::visitLoadStore) -/

/-- The label of a global base: the label of the symbol entry if it has one, else the
operand name. -/
def baseLabel (baseOp : Operand) : String :=
  match baseOp.symbol with
  | some s => if s.label ≠ "" then s.label else baseOp.name
  | none => baseOp.name

/-- The test `baseOp->type == TEMP || (baseOp->symbol && baseOp->symbol->isParam)`: the value
of the base operand is itself an address. -/
def baseIsPointer (baseOp : Operand) : Bool :=
  decide (baseOp.type = OperandType.TEMP) ||
    (match baseOp.symbol with
     | some s => s.isParam
     | none => false)

/-- The base-address step of STORE and GET_ADDR into the register `dest`: a `move` from the
register of a pointer, `addiu <dest>, $fp, -<offset + size - 4>` for an array of the
current layout, `la <dest>, <label>` otherwise. -/
def baseAddress (info : Option CodeGenFunctionInfo) (rm : RegisterManager) (baseOp : Operand)
    (dest : MipsReg) : Except String (List MipsInstr × RegisterManager) :=
  if baseIsPointer baseOp then
    match getReg info rm baseOp true with
    | Except.ok g => Except.ok (g.1 ++ [MipsInstr.move dest g.2.2], g.2.1)
    | Except.error e => Except.error e
  else
    match info.bind (fun i => mapFind i.symbolMap baseOp.name) with
    | some e =>
      Except.ok ([MipsInstr.addiuNeg dest MipsReg.FP (wrap32 (e.offset + e.size - 4))], rm)
    | none => Except.ok ([MipsInstr.la dest (getMipsLabel (baseLabel baseOp))], rm)

/-- The STORE case of `visitLoadStore` for the value, base and offset operands. -/
def visitStore (info : Option CodeGenFunctionInfo) (rm : RegisterManager)
    (valOp baseOp offOp : Operand) : Except String (List MipsInstr × RegisterManager) :=
  match getReg info rm valOp true with
  | Except.ok v =>
    if offOp.type ≠ OperandType.IMM then
      match getReg info v.2.1 offOp true with
      | Except.ok o =>
        (match baseAddress info o.2.1 baseOp MipsReg.T9 with
         | Except.ok b =>
           Except.ok (v.1 ++ o.1 ++ b.1 ++
             [MipsInstr.addu MipsReg.T9 MipsReg.T9 o.2.2, MipsInstr.sw v.2.2 0 MipsReg.T9], b.2)
         | Except.error e => Except.error e)
      | Except.error e => Except.error e
    else
      match baseAddress info v.2.1 baseOp MipsReg.T9 with
      | Except.ok b =>
        Except.ok (v.1 ++ b.1 ++ [MipsInstr.sw v.2.2 offOp.value MipsReg.T9], b.2)
      | Except.error e => Except.error e
  | Except.error e => Except.error e

/-- The GET_ADDR case of `visitLoadStore` for the result, base and offset operands. -/
def visitGetAddr (info : Option CodeGenFunctionInfo) (rm : RegisterManager)
    (resOp baseOp offOp : Operand) : Except String (List MipsInstr × RegisterManager) :=
  match allocateReg info rm resOp with
  | Except.ok d =>
    (match baseAddress info d.2.1 baseOp d.2.2 with
     | Except.ok b =>
       if offOp.type = OperandType.IMM then
         Except.ok (d.1 ++ b.1 ++
           (if offOp.value ≠ 0 then [MipsInstr.addiu d.2.2 d.2.2 offOp.value] else []), b.2)
       else
         match getReg info b.2 offOp true with
         | Except.ok o =>
           Except.ok (d.1 ++ b.1 ++ o.1 ++ [MipsInstr.addu d.2.2 d.2.2 o.2.2], o.2.1)
         | Except.error e => Except.error e
     | Except.error e => Except.error e)
  | Except.error e => Except.error e

/-- Embedding of `MIPSGenerator::visitLoadStore`; an instruction with a missing operand, where
the C++ dereferences a null pointer, is an error. -/
def visitLoadStore (info : Option CodeGenFunctionInfo) (rm : RegisterManager)
    (instr : IRInstruction) : Except String (List MipsInstr × RegisterManager) :=
  match instr.result, instr.arg1, instr.arg2 with
  | some result, some arg1, some arg2 =>
    if instr.op = IROp.STORE then visitStore info rm result arg1 arg2
    else if instr.op = IROp.LOAD then
      match getReg info rm arg1 true with
      | Except.ok b =>
        (match allocateReg info b.2.1 result with
         | Except.ok d =>
           Except.ok (b.1 ++ d.1 ++ [MipsInstr.lw d.2.2 arg2.value b.2.2], d.2.1)
         | Except.error e => Except.error e)
      | Except.error e => Except.error e
    else if instr.op = IROp.GET_ADDR then visitGetAddr info rm result arg1 arg2
    else Except.ok ([], rm)
  | _, _, _ => Except.error "null operand"

/-! ## Function exit (MIPSGenerator::visitFuncExit) and the layout table (IRGenerator) -/

/-- The four lines of the epilogue of a function other than `main`. -/
def frameRestore : List MipsInstr :=
  [MipsInstr.lw MipsReg.RA (-4) MipsReg.FP,
   MipsInstr.move MipsReg.SP MipsReg.FP,
   MipsInstr.lw MipsReg.FP (-8) MipsReg.SP,
   MipsInstr.jr MipsReg.RA]

/-- Embedding of `MIPSGenerator::visitFuncExit` for the current function name: the exit label,
the lines of `spillAll`, the exit sequence and an empty line. -/
def visitFuncExit (info : Option CodeGenFunctionInfo) (rm : RegisterManager)
    (currentFuncName : String) : Except String (List MipsInstr × RegisterManager) :=
  match spillAll info rm with
  | Except.ok s =>
    Except.ok ([MipsInstr.label (getMipsLabel ("__end_" ++ currentFuncName))] ++ s.1 ++
      (if currentFuncName = "main" then [MipsInstr.li MipsReg.V0 10, MipsInstr.syscall]
       else frameRestore) ++ [MipsInstr.blank], s.2)
  | Except.error e => Except.error e

/-- Embedding of `SymbolEntry::isArray`. -/
def SymbolEntry.isArray (s : SymbolEntry) : Bool :=
  decide (s.type = SymbolType.ConstIntArray) || decide (s.type = SymbolType.IntArray) ||
    decide (s.type = SymbolType.StaticIntArray)

/-- Embedding of `SymbolEntry::getByteSize`. -/
def SymbolEntry.getByteSize (s : SymbolEntry) : Int :=
  if s.isParam && s.isArray then 4
  else if s.isArray then wrap32 (max 1 s.arraySize * 4)
  else 4

/-- The key `<name>_<scope>` under which a local is stored in the layout. -/
def uniqueName (sym : SymbolEntry) : String :=
  sym.name ++ "_" ++ ToString.toString sym.scope

/-- The layout entry the loops of `visitFuncDef` and `visitMainFuncDef` and the
declaration visitors build for a symbol: the offset is the offset of the symbol plus
the base offset 12. `visitMainFuncDef` and the declaration visitors set `isParam` to
false. -/
def localEntry (sym : SymbolEntry) (keepParam : Bool) : CodeGenSymbolEntry :=
  { name := uniqueName sym, offset := wrap32 (sym.offset + 12), size := sym.getByteSize,
    isTemp := false, isParam := keepParam && sym.isParam }

/-- The loop of `visitFuncDef` (`keepParam` true) and of `visitMainFuncDef` (`keepParam`
false) over the symbols of the function scope: static symbols are skipped, the others
are stored under their unique names, parameters are appended to `paramList`. The
sort of `paramList` that follows the loop of `visitFuncDef` is `sortParamList`. -/
def collectScope (keepParam : Bool) : List SymbolEntry → CodeGenFunctionInfo → CodeGenFunctionInfo
  | [], info => info
  | sym :: rest, info =>
    if isStaticSymbol sym then collectScope keepParam rest info
    else
      collectScope keepParam rest
        { info with
          symbolMap := mapSet info.symbolMap (uniqueName sym) (localEntry sym keepParam),
          paramList := if keepParam && sym.isParam then info.paramList ++ [uniqueName sym]
                       else info.paramList }

/-- The offset `symbolMap[name].offset` the comparison of the sort reads. Every name of
`paramList` was stored in `symbolMap` by the same loop (`collectScope_params_stored`),
so the lookup of the sort always finds an entry. -/
def paramOffset (symbolMap : List (String × CodeGenSymbolEntry)) (name : String) : Int :=
  match mapFind symbolMap name with
  | some e => e.offset
  | none => 0

/-- Insertion of a name into a list that is sorted by offset, before the first name whose
offset is not smaller. -/
def insertParam (symbolMap : List (String × CodeGenSymbolEntry)) (a : String) :
    List String → List String
  | [] => [a]
  | b :: rest =>
    if paramOffset symbolMap b < paramOffset symbolMap a then
      b :: insertParam symbolMap a rest
    else a :: b :: rest

/-- The names in ascending order of `symbolMap[name].offset`, the order `std::sort` gives
with the comparison `symbolMap[a].offset < symbolMap[b].offset`. Names with equal
offsets, whose order `std::sort` leaves open, keep their order. -/
def sortParams (symbolMap : List (String × CodeGenSymbolEntry)) : List String → List String
  | [] => []
  | a :: rest => insertParam symbolMap a (sortParams symbolMap rest)

/-- The sort of `paramList` by offset after the loop of `visitFuncDef` (`keepParam` true);
`visitMainFuncDef` (`keepParam` false) has no such step. -/
def sortParamList (keepParam : Bool) (info : CodeGenFunctionInfo) : CodeGenFunctionInfo :=
  if keepParam then { info with paramList := sortParams info.symbolMap info.paramList }
  else info

/-- The frame size `visitFuncDef` sets after the loop: the stack-frame size of the function
symbol plus 12, or 12 when the symbol is not found. -/
def initFrameSize (funcSym : Option SymbolEntry) (info : CodeGenFunctionInfo) :
    CodeGenFunctionInfo :=
  { info with frameSize := match funcSym with
      | some f => wrap32 (f.stackFrameSize + 12)
      | none => 12 }

/-- The layout update of `visitVarDef` and `visitConstDef` for a declared symbol: a local
that is not static and not yet in the map is stored with its offset plus 12. -/
def registerLocal (entry : SymbolEntry) (info : CodeGenFunctionInfo) : CodeGenFunctionInfo :=
  if entry.scope ≠ 1 ∧ isStaticSymbol entry = false ∧
      (mapFind info.symbolMap (getVarOperand entry).name).isNone then
    { info with
      symbolMap := mapSet info.symbolMap (getVarOperand entry).name
        { name := (getVarOperand entry).name, offset := wrap32 (entry.offset + 12),
          size := entry.getByteSize, isTemp := false, isParam := false } }
  else info

/-- The layout update of `IRGenerator::newTemp` for the temporary `t<tempCounter>`: the slot
at the current frame size, which then grows by 4. -/
def registerTemp (tempCounter : Nat) (info : CodeGenFunctionInfo) : CodeGenFunctionInfo :=
  { info with
    symbolMap := mapSet info.symbolMap ("t" ++ ToString.toString tempCounter)
      { name := "t" ++ ToString.toString tempCounter, offset := info.frameSize, size := 4,
        isTemp := true, isParam := false },
    frameSize := wrap32 (info.frameSize + 4) }

/-- A layout update during the walk over a function body. -/
inductive LayoutOp where
  | declare (entry : SymbolEntry)
  | newTemp
  deriving DecidableEq, Repr

/-- The layout after a sequence of updates; the second argument is `tempCounter`. -/
def runLayoutOps : List LayoutOp → Nat → CodeGenFunctionInfo → CodeGenFunctionInfo
  | [], _, info => info
  | .declare entry :: rest, tc, info => runLayoutOps rest tc (registerLocal entry info)
  | .newTemp :: rest, tc, info => runLayoutOps rest (tc + 1) (registerTemp tc info)

/-- The layout of a function: the entry of the table starts empty, the function scope is
collected, the parameter names are sorted by offset, the frame size is set, and the
body is walked. -/
def buildLayout (keepParam : Bool) (funcName : String) (scopeSyms : List SymbolEntry)
    (funcSym : Option SymbolEntry) (ops : List LayoutOp) (tempCounter : Nat) :
    CodeGenFunctionInfo :=
  runLayoutOps ops tempCounter
    (initFrameSize funcSym
      (sortParamList keepParam
        (collectScope keepParam scopeSyms
          { funcName := funcName, frameSize := 0, symbolMap := [], paramList := [] })))

/-- Number of temporaries a sequence of layout updates creates. -/
def tempCount : List LayoutOp → Nat
  | [] => 0
  | .newTemp :: rest => tempCount rest + 1
  | .declare _ :: rest => tempCount rest

/-- The symbol entries a sequence of layout updates declares. -/
def declaredLocals : List LayoutOp → List SymbolEntry
  | [] => []
  | .declare entry :: rest => entry :: declaredLocals rest
  | .newTemp :: rest => declaredLocals rest

/-- Every entry of a layout has an offset between 12 and `INT_MAX`. -/
def OffsetsFromTwelve (info : CodeGenFunctionInfo) : Prop :=
  ∀ (name : String) (e : CodeGenSymbolEntry), mapFind info.symbolMap name = some e →
    12 ≤ e.offset ∧ e.offset ≤ 2147483647

/-- The stack-frame size `visitFuncDef` reads from the function symbol, 0 when the symbol is
not found. -/
def frameBase (funcSym : Option SymbolEntry) : Int :=
  match funcSym with
  | some f => f.stackFrameSize
  | none => 0

/-! ## The loops of the optimizer with their exits (Optimizer::execute, passLocalCSE, isPowerOfTwo) -/

/-- The loop variables `changed` and `passCount` of `Optimizer::execute` together with
the function being optimized. -/
structure DriverState where
  changed : Bool
  passCount : Nat
  func : Function
  deriving DecidableEq, Repr

/-- The body of `while (changed && passCount < 10)`: `changed` is reset, `passCount`
is incremented, and `changed` becomes true when a pass of the round reports a change. -/
def driverStep (s : DriverState) : DriverState :=
  let r := runRound s.func
  { changed := r.2, passCount := s.passCount + 1, func := r.1 }

/-- The loop `while (changed && passCount < 10)` run for at most the given number of
iterations: `some` of the state at the exit of the loop, `none` when the iterations
are used up while the loop condition still holds. -/
def driverLoop : Nat → DriverState → Option DriverState
  | 0, s => if s.changed && decide (s.passCount < 10) then none else some s
  | k + 1, s =>
    if s.changed && decide (s.passCount < 10) then driverLoop k (driverStep s) else some s

/-- The `while (pos != npos)` loop of the invalidation of `passLocalCSE` run for at most
the given number of iterations: `none` when the iterations are used up while the loop
is still running. -/
def wordScanExit : Nat → List Char → List Char → Option Nat → Option Bool
  | _, _, _, none => some false
  | 0, _, _, some _ => none
  | f + 1, key, pat, some pos =>
    let endPos := pos + pat.length
    if endPos = key.length ∨ key[endPos]? = some (Char.ofNat 95) then some true
    else wordScanExit f key pat (strFind key pat endPos)

/-- The `while (n > 1)` loop of `isPowerOfTwo` run for at most the given number of
iterations: `none` when the iterations are used up while `n > 1` still holds. -/
def pow2LoopExit : Nat → Nat → Nat → Option Nat
  | 0, n, p => if n > 1 then none else some p
  | f + 1, n, p => if n > 1 then pow2LoopExit f (n >>> 1) (p + 1) else some p

/-! ## Execution of straight-line IR -/

/-- The effect of one instruction on an environment that gives each operand name a
value: an instruction with a result and a value (see `evalInstr`) assigns the value to
the name of the result; any other instruction leaves the environment as it is. -/
def execInstr (ρ : String → Int) (I : IRInstruction) : String → Int :=
  match I.result, evalInstr ρ I with
  | some r, some v => fun s => if s = r.toString then v else ρ s
  | _, _ => ρ

/-- The environment after a list of instructions executed in order. -/
def execBlock (ρ : String → Int) (xs : List IRInstruction) : String → Int :=
  xs.foldl execInstr ρ

/-! ## Binary operations (MIPSGenerator::visitBinaryOp) -/

/-- Embedding of `MIPSGenerator::visitBinaryOp`: for two immediates the destination register is
allocated and the operands are loaded into `$t8` and `$t9`; otherwise the registers of
`arg1`, of `arg2` and of the result are obtained in this order and the line
`<mipsOp> <dest>, <r1>, <r2>` is emitted. The C++ dereferences the three operand
pointers; a null one is an error here. -/
def visitBinaryOp (info : Option CodeGenFunctionInfo) (rm : RegisterManager)
    (instr : IRInstruction) (mipsOp : String) :
    Except String (List MipsInstr × RegisterManager) :=
  match instr.arg1, instr.arg2, instr.result with
  | some a1, some a2, some res =>
    if a1.type = OperandType.IMM ∧ a2.type = OperandType.IMM then
      match allocateReg info rm res with
      | Except.ok d =>
        Except.ok (d.1 ++ [MipsInstr.li MipsReg.T8 a1.value, MipsInstr.li MipsReg.T9 a2.value,
          MipsInstr.bin mipsOp d.2.2 MipsReg.T8 MipsReg.T9], d.2.1)
      | Except.error e => Except.error e
    else
      match getReg info rm a1 true with
      | Except.ok g1 =>
        (match getReg info g1.2.1 a2 true with
         | Except.ok g2 =>
           (match allocateReg info g2.2.1 res with
            | Except.ok d =>
              Except.ok (g1.1 ++ g2.1 ++ d.1 ++ [MipsInstr.bin mipsOp d.2.2 g1.2.2 g2.2.2],
                d.2.1)
            | Except.error e => Except.error e)
         | Except.error e => Except.error e)
      | Except.error e => Except.error e
  | _, _, _ => Except.error "null operand"
/-- The state after steps 4 and 5 of `getReg` on a miss, `rm1` being the state after
step 3: the mapping is recorded and the register is not dirty. -/
def afterGetReg (rm1 : RegisterManager) (op : Operand) (reg : MipsReg) : RegisterManager :=
  { rm1.bind op reg with
    dirtyRegs := (rm1.bind op reg).dirtyRegs.filter (fun x => decide (x ≠ reg)) }

/-- The state after step 4 of `allocateReg` on a miss, `rm1` being the state after
step 3: the mapping is recorded and the register is dirty. -/
def afterAllocateReg (rm1 : RegisterManager) (op : Operand) (reg : MipsReg) : RegisterManager :=
  { rm1.bind op reg with dirtyRegs := dirtyInsert (rm1.bind op reg).dirtyRegs reg }

/-- The change of the queues and of `varToReg` when the variable `name` is given the front
register `reg` of the free queue: no other variable loses or changes its register. -/
def TookFree (rm rm2 : RegisterManager) (name : String) (reg : MipsReg) (rest : List MipsReg) :
    Prop :=
  rm2.freeRegs = rest ∧ rm2.busyRegs = rm.busyRegs ++ [reg] ∧
  mapFind rm2.varToReg name = some reg ∧
  ∀ v : String, v ≠ name → mapFind rm2.varToReg v = mapFind rm.varToReg v

/-- The change of the queues and of `varToReg` when the variable `name` is given the front
register `reg` of the busy queue, which held `victim`: the register moves to the back
of the busy queue, `victim` has no register any more, no other variable is affected. -/
def Evicted (rm rm2 : RegisterManager) (name victim : String) (reg : MipsReg)
    (rest : List MipsReg) : Prop :=
  rm2.freeRegs = [] ∧ rm2.busyRegs = rest ++ [reg] ∧
  mapFind rm2.varToReg name = some reg ∧ regFind rm2.regToVar reg = some name ∧
  mapFind rm2.varToReg victim = none ∧
  ∀ v : String, v ≠ name → v ≠ victim → mapFind rm2.varToReg v = mapFind rm.varToReg v

/-! ## Leaders and successors of blocks (specification of Optimizer::buildCFG, buildCFGEdges) -/

/-- The opcodes that end a block: JUMP, BEQZ and RET. -/
def endsBlock (i : IRInstruction) : Bool :=
  decide (i.op = IROp.JUMP) || decide (i.op = IROp.BEQZ) || decide (i.op = IROp.RET)

/-- The leader test of the specification for an instruction `x` that follows the
instruction `p`: `x` is a LABEL or a FUNC_ENTRY, or `p` is a JUMP, BEQZ or RET. -/
def isLeaderAfter (p x : IRInstruction) : Bool :=
  decide (x.op = IROp.LABEL) || decide (x.op = IROp.FUNC_ENTRY) || endsBlock p

/-- The instruction `x` stays in the block of the instruction `p` before it. -/
def continuesBlock (p x : IRInstruction) : Bool := !isLeaderAfter p x

/-- Insertion of a successor the way `addEdge` does it: appended unless already present. -/
def addTo (s : List Nat) (d : Nat) : List Nat := if d ∈ s then s else s ++ [d]

/-- The successor list `buildCFGEdges` leaves in the block `b` at position `i` of `len`
blocks, given the label map: the edges of the specification (jump target, fall-through)
added to the successors the block already has. -/
def succsAfter (labels : List (String × Nat)) (len i : Nat) (b : BasicBlock) : List Nat :=
  let fall := fun (s : List Nat) => if i + 1 < len then addTo s (i + 1) else s
  let jump := fun (s : List Nat) (last : IRInstruction) =>
    match last.result with
    | some r =>
      (match mapFind labels r.name with
       | some t => addTo s t
       | none => s)
    | none => s
  match b.instructions.getLast? with
  | none => fall b.succs
  | some last =>
    if last.op = IROp.JUMP then jump b.succs last
    else if last.op = IROp.BEQZ then fall (jump b.succs last)
    else if last.op = IROp.RET then b.succs
    else fall b.succs

/-- The block contains the instruction `LABEL L`. -/
def hasLabel (b : BasicBlock) (L : String) : Prop :=
  ∃ x ∈ b.instructions, x.op = IROp.LABEL ∧ resultName x = L

/-- The label `L` occurs in the block at position `t` and in no other block. -/
def LabelAt (blocks : List BasicBlock) (L : String) (t : Nat) : Prop :=
  (∃ b, blocks[t]? = some b ∧ hasLabel b L) ∧
  ∀ (t2 : Nat) (b2 : BasicBlock), blocks[t2]? = some b2 → hasLabel b2 L → t2 = t

/-- The blocks `bs2` differ from `bs` in edge lists only, and in successor lists only at
position `i`, where the new list is `f` of the old one. -/
def EdgesOnly (i : Nat) (bs bs2 : List BasicBlock) (f : List Nat → List Nat) : Prop :=
  bs2.length = bs.length ∧
  (∀ k : Nat, (bs2[k]?).map (fun b => b.instructions) = (bs[k]?).map (fun b => b.instructions)) ∧
  (∀ k : Nat, k ≠ i → (bs2[k]?).map (fun b => b.succs) = (bs[k]?).map (fun b => b.succs)) ∧
  (bs2[i]?).map (fun b => b.succs) = (bs[i]?).map (fun b => f b.succs)

instance (b : BasicBlock) (L : String) : Decidable (hasLabel b L) := by
  unfold hasLabel; infer_instance

/-! ## Temporaries (IRGenerator::newTemp) -/

/-- The name `t<c>` the generator forms from the value `c` of `tempCounter`. -/
def tempName (c : Int) : String := "t" ++ ToString.toString c

/-- The temporary operand `t<n>`. -/
def tempOperand (n : Nat) : Operand := Operand.named (tempName n) OperandType.TEMP

/-- The generator state `newTemp` touches: the counter `tempCounter` (an `int`, zero when
the generator is created) and the layout `currentCodeGenInfo` points to, `none` for the
null pointer outside functions. -/
structure TempState where
  tempCounter : Int := 0
  currentCodeGenInfo : Option CodeGenFunctionInfo := none
  deriving DecidableEq, Repr

/-- Embedding of `IRGenerator::newTemp`: the operand `t<tempCounter>` is returned and the
counter incremented; inside a function the temporary is stored in the layout at the
current frame size, which then grows by 4. -/
def newTemp (s : TempState) : Operand × TempState :=
  (Operand.named (tempName s.tempCounter) OperandType.TEMP,
    { tempCounter := wrap32 (s.tempCounter + 1),
      currentCodeGenInfo :=
        match s.currentCodeGenInfo with
        | some info =>
          some { info with
            symbolMap := mapSet info.symbolMap (tempName s.tempCounter)
              { name := tempName s.tempCounter, offset := info.frameSize, size := 4,
                isTemp := true, isParam := false },
            frameSize := wrap32 (info.frameSize + 4) }
        | none => none })

/-- The events of a generator run that touch `tempCounter` or the current layout: a call
of `newTemp`; the registration of a declared local by `visitVarDef` or `visitConstDef`;
the entry into a function definition, which points `currentCodeGenInfo` to the layout of
the function, collects its scope and sets the frame size; the end of a function
definition, which resets the pointer. -/
inductive GenOp where
  | newTemp
  | declare (entry : SymbolEntry)
  | enterFunc (keepParam : Bool) (funcName : String) (scopeSyms : List SymbolEntry)
      (funcSym : Option SymbolEntry)
  | leaveFunc
  deriving DecidableEq, Repr

/-- One event: the temporaries it returns and the state after it. -/
def genStep : GenOp → TempState → List Operand × TempState
  | .newTemp, s => ([(newTemp s).1], (newTemp s).2)
  | .declare entry, s =>
    ([], { s with currentCodeGenInfo := s.currentCodeGenInfo.map (registerLocal entry) })
  | .enterFunc keepParam funcName scopeSyms funcSym, s =>
    ([], { s with
      currentCodeGenInfo := some (buildLayout keepParam funcName scopeSyms funcSym [] 0) })
  | .leaveFunc, s => ([], { s with currentCodeGenInfo := none })

/-- A sequence of events: the temporaries returned, in order, and the final state. -/
def runGenOps : List GenOp → TempState → List Operand × TempState
  | [], s => ([], s)
  | op :: rest, s =>
    ((genStep op s).1 ++ (runGenOps rest (genStep op s).2).1,
      (runGenOps rest (genStep op s).2).2)

/-- Number of calls of `newTemp` in a sequence of events. -/
def tempCalls : List GenOp → Nat
  | [] => 0
  | .newTemp :: rest => tempCalls rest + 1
  | _ :: rest => tempCalls rest

/-- The events that occur inside the body of one function: calls of `newTemp` and
registrations of declared locals. -/
def isBodyOp : GenOp → Bool
  | .newTemp => true
  | .declare _ => true
  | _ => false

/-- The layout entry of a temporary at a frame offset. -/
def tempEntry (name : String) (offset : Int) : CodeGenSymbolEntry :=
  { name := name, offset := offset, size := 4, isTemp := true, isParam := false }

/-! ## Declarations and expressions (IRGenerator::visitVarDef, visitExp, visitLVal) -/

/-- The expressions of an initializer, the tree below an `Exp` node: a number, a name
without subscript, a subscripted name, a binary operation of `AddExp` or `MulExp` (ADD,
SUB, MUL, DIV, MOD), the unary plus, a unary operation (NEG, NOT), an expression in
parentheses, and a call `f(args)` with the `Exp` children of its `FuncRParams`
(`getint()` is the call of `getint`). -/
inductive Exp where
  | number (v : Int)
  | lval (name : String)
  | lvalIndex (name : String) (index : Exp)
  | binary (op : IROp) (left right : Exp)
  | unaryPlus (e : Exp)
  | unary (op : IROp) (e : Exp)
  | paren (e : Exp)
  | call (funcName : String) (args : List Exp)

/-- The generator state the lowering of a declaration touches: the instruction list, the
temporaries with the current layout, the stack `scopeStack` (innermost scope last) and
the set `activeSymbols`. -/
structure DeclState where
  instructions : List IRInstruction := []
  temps : TempState := {}
  scopeStack : List Scope := []
  activeSymbols : List SymbolEntry := []
  deriving DecidableEq, Repr

/-- Embedding of `IRGenerator::emit` on the state of a declaration. -/
def DeclState.emit (g : DeclState) (op : IROp) (result arg1 arg2 : Option Operand) : DeclState :=
  { g with instructions :=
      g.instructions ++ [{ op := op, result := result, arg1 := arg1, arg2 := arg2 }] }

/-- Embedding of `IRGenerator::newTemp` on the state of a declaration. -/
def DeclState.newTemp (g : DeclState) : Operand × DeclState :=
  ((SysY.newTemp g.temps).1, { g with temps := (SysY.newTemp g.temps).2 })

/-- The loop of `IRGenerator::lookupSymbol` over the scopes still to visit, innermost
first: the first entry found, active or not. -/
def lookupLoop (name : String) : List Scope → Option SymbolEntry
  | [] => none
  | scope :: rest =>
    match scope.findSymbol name with
    | some entry => some entry
    | none => lookupLoop name rest

/-- Embedding of `IRGenerator::lookupSymbol`; `none` for the null result. -/
def lookupSymbol (scopeStack : List Scope) (name : String) : Option SymbolEntry :=
  lookupLoop name scopeStack.reverse

/-- Insertion into the set `activeSymbols`. -/
def activate (activeSymbols : List SymbolEntry) (entry : SymbolEntry) : List SymbolEntry :=
  if entry ∈ activeSymbols then activeSymbols else activeSymbols ++ [entry]

mutual
/-- Embedding of `IRGenerator::visitAddExp`, which `visitExp` calls on its child, with
`visitMulExp`, `visitUnaryExp`, `visitPrimaryExp` and `visitLVal` for a right value: the
operand returned and the state afterwards; `none` where the C++ dereferences the null
pointer `getVar` returned for a name without subscript. A call of `getint` takes a
temporary and emits GETINT; any other call lowers its arguments in order, each followed
by its PARAM, then takes a temporary and emits CALL with the callee as a label. -/
def visitAddExp : Exp → DeclState → Option (Operand × DeclState)
  | .number v, g => some (Operand.imm v, g)
  | .lval name, g =>
    match getVar g.scopeStack g.activeSymbols name with
    | none => none
    | some symOp =>
      if (match symOp.symbol with
          | some s => s.isArray
          | none => false) then
        let addr := g.newTemp
        some (addr.1, addr.2.emit IROp.GET_ADDR (some addr.1) (some symOp) (some (Operand.imm 0)))
      else some (symOp, g)
  | .lvalIndex name index, g =>
    let symOp := getVar g.scopeStack g.activeSymbols name
    match visitAddExp index g with
    | none => none
    | some (idx, g1) =>
      let offset := g1.newTemp
      let g2 := offset.2.emit IROp.MUL (some offset.1) (some idx) (some (Operand.imm 4))
      let addr := g2.newTemp
      let g3 := addr.2.emit IROp.GET_ADDR (some addr.1) symOp (some offset.1)
      let val := g3.newTemp
      some (val.1, val.2.emit IROp.LOAD (some val.1) (some addr.1) (some (Operand.imm 0)))
  | .binary op left right, g =>
    match visitAddExp left g with
    | none => none
    | some (l, g1) =>
      match visitAddExp right g1 with
      | none => none
      | some (r, g2) =>
        let res := g2.newTemp
        some (res.1, res.2.emit op (some res.1) (some l) (some r))
  | .unaryPlus e, g => visitAddExp e g
  | .unary op e, g =>
    match visitAddExp e g with
    | none => none
    | some (src, g1) =>
      let res := g1.newTemp
      some (res.1, res.2.emit op (some res.1) (some src) none)
  | .paren e, g => visitAddExp e g
  | .call funcName args, g =>
    if funcName = "getint" then
      let res := g.newTemp
      some (res.1, res.2.emit IROp.GETINT (some res.1) none none)
    else
      match visitParams args g with
      | none => none
      | some g1 =>
        let ret := g1.newTemp
        some (ret.1, ret.2.emit IROp.CALL (some ret.1)
          (some (Operand.named funcName OperandType.LABEL)) none)

/-- The loop of the call branch of `visitUnaryExp` over the arguments: each argument is
lowered and `PARAM` with its operand as `arg1` is emitted. -/
def visitParams : List Exp → DeclState → Option DeclState
  | [], g => some g
  | e :: rest, g =>
    match visitAddExp e g with
    | none => none
    | some (v, g1) => visitParams rest (g1.emit IROp.PARAM none (some v) none)
end

/-- The initializer stores of `visitVarDef` for a local array: each expression is lowered
and stored at the next element. -/
def storeInits (varOp : Operand) : List Exp → Nat → DeclState → Option (Nat × DeclState)
  | [], k, g => some (k, g)
  | e :: rest, k, g =>
    match visitAddExp e g with
    | none => none
    | some (valOp, g1) =>
      storeInits varOp rest (k + 1)
        (g1.emit IROp.STORE (some valOp) (some varOp)
          (some (Operand.imm (wrap32 ((k : Int) * 4)))))

/-- The zero fill of `visitVarDef` for a local array with an initializer: the elements
from `k` up to the array size. -/
def zeroFill (varOp : Operand) (arraySize : Int) (k : Nat) (g : DeclState) : DeclState :=
  (List.range ((arraySize - (k : Int)).toNat)).foldl
    (fun (acc : DeclState) (j : Nat) =>
      acc.emit IROp.STORE (some (Operand.imm 0)) (some varOp)
        (some (Operand.imm (wrap32 (((k + j : Nat) : Int) * 4)))))
    g

/-- Embedding of `IRGenerator::visitVarDef` for the definition of `name` with the
expressions of its initializer (`none` without initializer). The entry is taken from the
scopes whether active or not; a local is stored in the layout; a global or static entry
is activated at once; for a local the initializer is lowered first and the entry is
activated last. -/
def visitVarDef (name : String) (init : Option (List Exp)) (g : DeclState) : Option DeclState :=
  match lookupSymbol g.scopeStack name with
  | none => some g
  | some entry =>
    let varOp := getVarOperand entry
    let g1 : DeclState :=
      { g with temps := { g.temps with
          currentCodeGenInfo := g.temps.currentCodeGenInfo.map (registerLocal entry) } }
    if entry.scope = 1 ∨ isStaticSymbol entry = true then
      some { g1 with activeSymbols := activate g1.activeSymbols entry }
    else if entry.isArray then
      match init with
      | none => some { g1 with activeSymbols := activate g1.activeSymbols entry }
      | some es =>
        match storeInits varOp es 0 g1 with
        | none => none
        | some (k, g2) =>
          let g3 := zeroFill varOp entry.arraySize k g2
          some { g3 with activeSymbols := activate g3.activeSymbols entry }
    else
      match init with
      | some (e :: _) =>
        match visitAddExp e g1 with
        | none => none
        | some (valOp, g2) =>
          let g3 := g2.emit IROp.ASSIGN (some (getVarOperand entry)) (some valOp) none
          some { g3 with activeSymbols := activate g3.activeSymbols entry }
      | _ => some { g1 with activeSymbols := activate g1.activeSymbols entry }

mutual
/-- Every name without subscript that the lowering of the expression looks up is found
by `getVar`. -/
def Exp.resolvable (scopeStack : List Scope) (activeSymbols : List SymbolEntry) : Exp → Bool
  | .number _ => true
  | .lval name => (getVar scopeStack activeSymbols name).isSome
  | .lvalIndex _ index => index.resolvable scopeStack activeSymbols
  | .binary _ left right =>
    left.resolvable scopeStack activeSymbols && right.resolvable scopeStack activeSymbols
  | .unaryPlus e => e.resolvable scopeStack activeSymbols
  | .unary _ e => e.resolvable scopeStack activeSymbols
  | .paren e => e.resolvable scopeStack activeSymbols
  | .call funcName args =>
    decide (funcName = "getint") || resolvableAll scopeStack activeSymbols args

/-- Every expression of the list is resolvable. -/
def resolvableAll (scopeStack : List Scope) (activeSymbols : List SymbolEntry) :
    List Exp → Bool
  | [] => true
  | e :: rest =>
    e.resolvable scopeStack activeSymbols && resolvableAll scopeStack activeSymbols rest
end

/-- The operands of an instruction. -/
def operandsOf (i : IRInstruction) : List Operand :=
  i.result.toList ++ i.arg1.toList ++ i.arg2.toList

/-- The symbol entries carried by the operands of a list of instructions are all in the
given set. -/
def SymbolsIn (active : List SymbolEntry) (code : List IRInstruction) : Prop :=
  ∀ i ∈ code, ∀ o ∈ operandsOf i, ∀ s, o.symbol = some s → s ∈ active

/-- The symbol entry an operand carries, if any, is in the given set. -/
def SymbolIn (active : List SymbolEntry) (o : Option Operand) : Prop :=
  ∀ x, o = some x → ∀ s, x.symbol = some s → s ∈ active

/-- The state `g2` continues `g`: same scopes, same active set, and the instructions of
`g` followed by instructions whose operands carry only entries of the given set. -/
def Continues (active : List SymbolEntry) (g g2 : DeclState) : Prop :=
  g2.scopeStack = g.scopeStack ∧ g2.activeSymbols = g.activeSymbols ∧
    ∃ code, g2.instructions = g.instructions ++ code ∧ SymbolsIn active code

/-! ## Statements and loops (IRGenerator::visitStmt, visitBlock, visitForStmtNode) -/

/-- The statements of a function body as far as the control structure goes. A statement
without labels of its own (return, assignment, expression statement, `printf`, a
declaration) and the `ForStmt` parts of a loop are given by the instructions their
lowering appends; a missing part of a loop or of an `if` is the empty statement or the
empty list; the items of a block form a sequence. -/
inductive Stmt where
  | empty
  | straight (code : List IRInstruction)
  | seq (first rest : Stmt)
  | block (items : Stmt)
  | ifThen (cond : LOrExp) (trueStmt : Stmt)
  | ifElse (cond : LOrExp) (trueStmt falseStmt : Stmt)
  | forLoop (init : List IRInstruction) (cond : Option LOrExp) (step : List IRInstruction)
      (body : Stmt)
  | breakStmt
  | continueStmt
  deriving DecidableEq, Repr

/-- The generator state the lowering of statements touches: the state of the condition
lowering and the stacks `breakStack` and `continueStack`, top first. -/
structure LoopState where
  gen : GenState
  breakStack : List Operand := []
  continueStack : List Operand := []
  deriving DecidableEq, Repr

/-- Embedding of `IRGenerator::newLabel` on the state of statements. -/
def LoopState.newLabel (s : LoopState) : Operand × LoopState :=
  ((SysY.newLabel s.gen).1, { s with gen := (SysY.newLabel s.gen).2 })

/-- Embedding of `IRGenerator::emit` on the state of statements. -/
def LoopState.emit (s : LoopState) (op : IROp) (result arg1 arg2 : Option Operand) : LoopState :=
  { s with gen := SysY.emit s.gen op result arg1 arg2 }

/-- Embedding of `IRGenerator::emitLabel` on the state of statements. -/
def LoopState.emitLabel (s : LoopState) (label : Operand) : LoopState :=
  { s with gen := SysY.emitLabel s.gen label }

/-- The instructions of a part given by its lowering are appended. -/
def LoopState.append (s : LoopState) (code : List IRInstruction) : LoopState :=
  { s with gen := { s.gen with instructions := s.gen.instructions ++ code } }

/-- Embedding of `IRGenerator::visitCond` on the state of statements. -/
def LoopState.visitCond (s : LoopState) (c : LOrExp) (trueLabel falseLabel : Operand) :
    LoopState :=
  { s with gen := SysY.visitCond c trueLabel falseLabel s.gen }

/-- Embedding of `IRGenerator::visitStmt` with `visitBlock` for the control statements:
`if` with and without `else`, `for`, `break` and `continue`. The loop allocates
`L_start`, `L_cond`, `L_body`, `L_step` and `L_end` in this order, pushes `L_end` and
`L_step` around the body and pops them after it. -/
def visitStmt : Stmt → LoopState → LoopState
  | .empty, s => s
  | .straight code, s => s.append code
  | .seq first rest, s => visitStmt rest (visitStmt first s)
  | .block items, s => visitStmt items s
  | .ifThen cond trueStmt, s =>
    let lTrue := s.newLabel
    let lFalse := lTrue.2.newLabel
    let lNext := lFalse.2.newLabel
    let s1 := lNext.2.visitCond cond lTrue.1 lNext.1
    let s2 := s1.emitLabel lTrue.1
    let s3 := visitStmt trueStmt s2
    s3.emitLabel lNext.1
  | .ifElse cond trueStmt falseStmt, s =>
    let lTrue := s.newLabel
    let lFalse := lTrue.2.newLabel
    let lNext := lFalse.2.newLabel
    let s1 := lNext.2.visitCond cond lTrue.1 lFalse.1
    let s2 := s1.emitLabel lTrue.1
    let s3 := visitStmt trueStmt s2
    let s4 := s3.emit IROp.JUMP (some lNext.1) none none
    let s5 := s4.emitLabel lFalse.1
    let s6 := visitStmt falseStmt s5
    s6.emitLabel lNext.1
  | .forLoop init cond step body, s =>
    let lStart := s.newLabel
    let lCond := lStart.2.newLabel
    let lBody := lCond.2.newLabel
    let lStep := lBody.2.newLabel
    let lEnd := lStep.2.newLabel
    let s1 := lEnd.2.append init
    let s2 := s1.emitLabel lStart.1
    let s3 := match cond with
      | some c => s2.visitCond c lBody.1 lEnd.1
      | none => s2.emit IROp.JUMP (some lBody.1) none none
    let s4 := s3.emitLabel lBody.1
    let s5 : LoopState :=
      { s4 with breakStack := lEnd.1 :: s4.breakStack,
                continueStack := lStep.1 :: s4.continueStack }
    let s6 := visitStmt body s5
    let s7 : LoopState :=
      { s6 with breakStack := s6.breakStack.tail, continueStack := s6.continueStack.tail }
    let s8 := s7.emitLabel lStep.1
    let s9 := s8.append step
    let s10 := match cond with
      | some _ => s9.emit IROp.JUMP (some lStart.1) none none
      | none => s9.emit IROp.JUMP (some lBody.1) none none
    s10.emitLabel lEnd.1
  | .breakStmt, s =>
    match s.breakStack with
    | top :: _ => s.emit IROp.JUMP (some top) none none
    | [] => s
  | .continueStmt, s =>
    match s.continueStack with
    | top :: _ => s.emit IROp.JUMP (some top) none none
    | [] => s

/-! ### The listing of a statement as a function of the label counter and the loop labels -/

/-- Number of labels the condition of a loop allocates, none when it is absent. -/
def condLabels : Option LOrExp → Nat
  | some c => c.labels
  | none => 0

/-- Number of labels the lowering of a statement allocates. -/
def Stmt.labels : Stmt → Nat
  | .empty => 0
  | .straight _ => 0
  | .seq first rest => first.labels + rest.labels
  | .block items => items.labels
  | .ifThen cond trueStmt => 3 + cond.labels + trueStmt.labels
  | .ifElse cond trueStmt falseStmt => 3 + cond.labels + trueStmt.labels + falseStmt.labels
  | .forLoop _ cond _ body => 5 + condLabels cond + body.labels
  | .breakStmt => 0
  | .continueStmt => 0

/-- The listing of the loop `for (init; C; step) body` of the specification, given the
listing of the body and the label counter `n`: `init; L_start: C with targets (L_body,
L_end), or JUMP L_body; L_body: body; L_step: step; JUMP L_start, or JUMP L_body
without C; L_end:`, where `L_start`, `L_body`, `L_step`, `L_end` are the labels `n`,
`n + 2`, `n + 3` and `n + 4`. -/
def forListing (init : List IRInstruction) (cond : Option LOrExp) (step : List IRInstruction)
    (bodyCode : List IRInstruction) (n : Nat) : List IRInstruction :=
  init ++ [mkLabel (labelOperand n)] ++
    (match cond with
     | some c => orCode c (labelOperand (n + 2)) (labelOperand (n + 4)) (n + 5)
     | none => [mkJump (labelOperand (n + 2))]) ++
    [mkLabel (labelOperand (n + 2))] ++ bodyCode ++ [mkLabel (labelOperand (n + 3))] ++ step ++
    [match cond with
     | some _ => mkJump (labelOperand n)
     | none => mkJump (labelOperand (n + 2))] ++
    [mkLabel (labelOperand (n + 4))]

/-- The listing of a statement, given the label counter `n` and the end and step labels
of the loops around it, innermost first: a `break` jumps to the end label of the
innermost loop around it, a `continue` to its step label, and only a loop changes the
labels for the statements inside it. -/
def Stmt.code : Stmt → Nat → List Operand → List Operand → List IRInstruction
  | .empty, _, _, _ => []
  | .straight code, _, _, _ => code
  | .seq first rest, n, ends, steps =>
    first.code n ends steps ++ rest.code (n + first.labels) ends steps
  | .block items, n, ends, steps => items.code n ends steps
  | .ifThen cond trueStmt, n, ends, steps =>
    orCode cond (labelOperand n) (labelOperand (n + 2)) (n + 3) ++
      [mkLabel (labelOperand n)] ++ trueStmt.code (n + 3 + cond.labels) ends steps ++
      [mkLabel (labelOperand (n + 2))]
  | .ifElse cond trueStmt falseStmt, n, ends, steps =>
    orCode cond (labelOperand n) (labelOperand (n + 1)) (n + 3) ++
      [mkLabel (labelOperand n)] ++ trueStmt.code (n + 3 + cond.labels) ends steps ++
      [mkJump (labelOperand (n + 2)), mkLabel (labelOperand (n + 1))] ++
      falseStmt.code (n + 3 + cond.labels + trueStmt.labels) ends steps ++
      [mkLabel (labelOperand (n + 2))]
  | .forLoop init cond step body, n, ends, steps =>
    forListing init cond step
      (body.code (n + 5 + condLabels cond) (labelOperand (n + 4) :: ends)
        (labelOperand (n + 3) :: steps)) n
  | .breakStmt, _, ends, _ =>
    match ends with
    | top :: _ => [mkJump top]
    | [] => []
  | .continueStmt, _, _, steps =>
    match steps with
    | top :: _ => [mkJump top]
    | [] => []

/-- The state after `k` more labels and the given instructions, the stacks unchanged. -/
def LoopState.advance (s : LoopState) (k : Nat) (code : List IRInstruction) : LoopState :=
  { gen := { s.gen with labelCounter := s.gen.labelCounter + k,
                        instructions := s.gen.instructions ++ code },
    breakStack := s.breakStack, continueStack := s.continueStack }

/-- The statement in which every `break` and every `continue` that is not nested in an
inner loop is replaced by the jump to the given label. -/
def Stmt.withJumps (endLabel stepLabel : Operand) : Stmt → Stmt
  | .empty => .empty
  | .straight code => .straight code
  | .seq first rest => .seq (first.withJumps endLabel stepLabel) (rest.withJumps endLabel stepLabel)
  | .block items => .block (items.withJumps endLabel stepLabel)
  | .ifThen cond trueStmt => .ifThen cond (trueStmt.withJumps endLabel stepLabel)
  | .ifElse cond trueStmt falseStmt =>
    .ifElse cond (trueStmt.withJumps endLabel stepLabel) (falseStmt.withJumps endLabel stepLabel)
  | .forLoop init cond step body => .forLoop init cond step body
  | .breakStmt => .straight [mkJump endLabel]
  | .continueStmt => .straight [mkJump stepLabel]

/-! ## The division that traps (Optimizer::passConstantFolding, case B; Optimizer::execute) -/

/-- The operands on which the C++ expressions `v1 / v2` and `v1 % v2` of case B trap:
`INT_MIN` divided by `-1`, whose quotient is not an `int`. The switch guards `v2 != 0`
only; on this pair the division instruction of the host raises an exception, the
process is killed and the pass does not return. -/
def divTraps (op : IROp) (v1 v2 : Int) : Bool :=
  (decide (op = IROp.DIV) || decide (op = IROp.MOD)) && decide (v1 = -2147483648) &&
    decide (v2 = -1)

/-- The loop body of `passConstantFolding` reaches the trapping division for the
instruction: after the substitution of its uses the instruction defines a temporary or
a variable that passes the safety gate and has two immediate arguments on which its
division traps. -/
def stepTraps (m : ConstMap) (instr : IRInstruction) : Bool :=
  let s := (substituteUses m instr).1
  !isResultUse s.op &&
    (match s.result with
     | some res =>
       (decide (res.type = OperandType.TEMP) || decide (res.type = OperandType.VAR)) &&
         isSafeToFold res &&
         (match immValue s.arg1, immValue s.arg2 with
          | some v1, some v2 => divTraps s.op v1 v2
          | _, _ => false)
     | none => false)

/-- The loop of `passConstantFolding` from a given table reaches the trapping division
at some instruction of the list. -/
def foldLoopTraps : ConstMap → List IRInstruction → Bool
  | _, [] => false
  | m, i :: rest => stepTraps m i || foldLoopTraps (foldStep m i).1 rest

/-- Embedding of `Optimizer::passConstantFolding` with the trap: `none` when the pass
reaches the trapping division and does not return, the result of the pass otherwise. -/
def passConstantFoldingRun (block : BasicBlock) : Option (BasicBlock × Bool) :=
  if foldLoopTraps [] block.instructions then none else some (passConstantFolding block)

/-- A round of the driver does not return: constant folding traps on one of the blocks. -/
def roundTraps (func : Function) : Bool :=
  func.blocks.any (fun b => (passConstantFoldingRun b).isNone)

/-- How the loop of `Optimizer::execute` ends for a function: it leaves through its
condition, a round traps, or the iterations given are used up while the condition
still holds. -/
inductive DriverOutcome where
  | exited (s : DriverState)
  | trapped
  | running
  deriving DecidableEq, Repr

/-- The loop `while (changed && passCount < 10)` with the trap, run for at most the
given number of iterations. -/
def driverRun : Nat → DriverState → DriverOutcome
  | 0, s => if s.changed && decide (s.passCount < 10) then DriverOutcome.running
            else DriverOutcome.exited s
  | k + 1, s =>
    if s.changed && decide (s.passCount < 10) then
      if roundTraps s.func then DriverOutcome.trapped else driverRun k (driverStep s)
    else DriverOutcome.exited s

/-- Embedding of `Optimizer::execute` with the trap: `none` when the loop of one of the
functions traps, so that `execute` does not return; the optimizer after `execute`
otherwise. -/
def executeRun (o : Optimizer) : Option Optimizer :=
  if (splitFunctions o).functions.any (fun f =>
      decide (driverRun 10 { changed := true, passCount := 0, func := buildCFG f } =
        DriverOutcome.trapped)) then none
  else some (execute o)

/-! ## Algebraic simplification on operand objects (Optimizer::passAlgebraicSimplification) -/

/-- An instruction as the C++ holds it: the opcode and three pointers to operand objects,
`none` for the null pointer. The generator stores the one object of a temporary both
as the result of the instruction that defines it and as an argument of the
instructions that use it. -/
structure InstrRef where
  op : IROp
  result : Option Nat := none
  arg1 : Option Nat := none
  arg2 : Option Nat := none
  deriving DecidableEq, Repr

/-- The operand objects by address: `some o` for a live object, `none` for an object
that `delete` has freed. -/
abbrev OperandStore := List (Option Operand)

/-- The expression `new Operand(...)`: the object is placed at a fresh address. -/
def storeNew (h : OperandStore) (o : Operand) : Nat × OperandStore :=
  (h.length, h ++ [some o])

/-- The statement `delete p`. -/
def storeDelete (h : OperandStore) (p : Nat) : OperandStore := h.set p none

/-- A read through a pointer: `none` when the object has been freed or never existed. -/
def storeRead (h : OperandStore) (p : Nat) : Option Operand := (h[p]?).join

/-- A read through a pointer that may be null: `some none` for the null pointer,
`none` for a pointer to a freed object. -/
def readField (h : OperandStore) (p : Option Nat) : Option (Option Operand) :=
  match p with
  | none => some none
  | some q => (storeRead h q).map some

/-- The instruction the pointers of an `InstrRef` stand for, `none` when one of them
points to a freed object. -/
def InstrRef.view (h : OperandStore) (i : InstrRef) : Option IRInstruction :=
  match readField h i.result, readField h i.arg1, readField h i.arg2 with
  | some r, some a1, some a2 => some { op := i.op, result := r, arg1 := a1, arg2 := a2 }
  | _, _, _ => none

/-- The rewriting of `passAlgebraicSimplification` by the value of an immediate `arg2`,
on pointers: `q1` and `q2` are `arg1` and `arg2` after the swap, `b2` is the object at
`q2`. MUL by 0 deletes both arguments and stores a new `#0`; MUL and DIV by 1, ADD and
SUB of 0 delete `arg2`; MUL by `2^k` deletes `arg2` and stores a new `#k`. -/
def simplifyTableRef (h : OperandStore) (op : IROp) (result : Option Nat) (q1 q2 : Nat)
    (b2 : Operand) (sw : Bool) : OperandStore × InstrRef × Bool :=
  let keep : OperandStore × InstrRef × Bool :=
    (h, { op := op, result := result, arg1 := some q1, arg2 := some q2 }, sw)
  let toAssign : OperandStore × InstrRef × Bool :=
    (storeDelete h q2, { op := IROp.ASSIGN, result := result, arg1 := some q1, arg2 := none },
      true)
  if b2.type = OperandType.IMM then
    if op = IROp.MUL then
      if b2.value = 0 then
        let n := storeNew (storeDelete h q1) (Operand.imm 0)
        (storeDelete n.2 q2,
          { op := IROp.ASSIGN, result := result, arg1 := some n.1, arg2 := none }, true)
      else if b2.value = 1 then toAssign
      else
        match isPowerOfTwo b2.value with
        | some k =>
          let n := storeNew (storeDelete h q2) (Operand.imm k)
          (n.2, { op := IROp.SLL, result := result, arg1 := some q1, arg2 := some n.1 }, true)
        | none => keep
    else if op = IROp.DIV then
      if b2.value = 1 then toAssign else keep
    else if op = IROp.ADD then
      if b2.value = 0 then toAssign else keep
    else if op = IROp.SUB then
      if b2.value = 0 then toAssign else keep
    else keep
  else keep

/-- The loop body of `passAlgebraicSimplification` on pointers: the store, the
instruction and the `changed` contribution afterwards; `none` when the body reads an
argument through a pointer to a freed object. -/
def simplifyRef (h : OperandStore) (instr : InstrRef) :
    Option (OperandStore × InstrRef × Bool) :=
  match instr.arg1, instr.arg2 with
  | some p1, some p2 =>
    match storeRead h p1, storeRead h p2 with
    | some a1, some a2 =>
      if a1.type = OperandType.IMM ∧ a2.type ≠ OperandType.IMM ∧
          (instr.op = IROp.ADD ∨ instr.op = IROp.MUL) then
        some (simplifyTableRef h instr.op instr.result p2 p1 a1 true)
      else some (simplifyTableRef h instr.op instr.result p1 p2 a2 false)
    | _, _ => none
  | _, _ => some (h, instr, false)

/-- The loop of `passAlgebraicSimplification` on pointers. -/
def simplifyRefLoop : OperandStore → List InstrRef → Option (OperandStore × List InstrRef × Bool)
  | h, [] => some (h, [], false)
  | h, i :: rest =>
    match simplifyRef h i with
    | none => none
    | some s =>
      match simplifyRefLoop s.1 rest with
      | none => none
      | some r => some (r.1, s.2.1 :: r.2.1, s.2.2 || r.2.2)

/-! ## Local CSE and copy propagation on operand objects (Optimizer::passLocalCSE, Optimizer::passCopyPropagation) -/

/-- The rewriting of `passLocalCSE` at a hit, on pointers: the opcode becomes ASSIGN,
`arg1` is deleted and replaced by a new temporary operand named `prevRes`, `arg2` is
deleted and set to the null pointer. -/
def cseRewriteRef (h : OperandStore) (instr : InstrRef) (prevRes : String) :
    OperandStore × InstrRef :=
  let h1 := match instr.arg1 with
    | some p => storeDelete h p
    | none => h
  let n := storeNew h1 (Operand.named prevRes OperandType.TEMP)
  let h2 := match instr.arg2 with
    | some p => storeDelete n.2 p
    | none => n.2
  (h2, { instr with op := IROp.ASSIGN, arg1 := some n.1, arg2 := none })

/-- The lambda `tryReplace` of `passCopyPropagation` on pointers: a mapped operand whose
source is not an immediate is deleted and replaced by a new copy of the source;
`none` when the operand is read through a pointer to a freed object. -/
def tryReplaceRef (h : OperandStore) (copies : CopyMap) (p : Option Nat) :
    Option (OperandStore × Option Nat × Bool) :=
  match p with
  | none => some (h, none, false)
  | some q =>
    match storeRead h q with
    | none => none
    | some a =>
      match mapFind copies a.toString with
      | some replacement =>
        if replacement.type = OperandType.IMM then some (h, some q, false)
        else
          let n := storeNew (storeDelete h q) replacement
          some (n.2, some n.1, true)
      | none => some (h, some q, false)

/-! ## Example operands and instructions -/

/-- The temporary `t0`. -/
def exT0 : Operand := Operand.named "t0" OperandType.TEMP

/-- The temporary `t1`. -/
def exT1 : Operand := Operand.named "t1" OperandType.TEMP

/-- The temporary `t2`. -/
def exT2 : Operand := Operand.named "t2" OperandType.TEMP

/-- A local scalar `b` of scope 2. -/
def exVarB : Operand := Operand.ofSymbol { name := "b", type := SymbolType.Int, scope := 2 }

/-- The instruction `ADD t0, #3, #4`. -/
def exAdd34 : IRInstruction :=
  { op := IROp.ADD, result := some exT0, arg1 := some (Operand.imm 3), arg2 := some (Operand.imm 4) }

/-- The instruction `ASSIGN b, #1`. -/
def exAssignB1 : IRInstruction :=
  { op := IROp.ASSIGN, result := some exVarB, arg1 := some (Operand.imm 1) }

/-- The instruction `ADD t1, t0, b`. -/
def exAddT0B : IRInstruction :=
  { op := IROp.ADD, result := some exT1, arg1 := some exT0, arg2 := some exVarB }

/-- The instruction `DIV t0, #-7, #2`. -/
def exDivNeg7By2 : IRInstruction :=
  { op := IROp.DIV, result := some exT0, arg1 := some (Operand.imm (-7)),
    arg2 := some (Operand.imm 2) }

/-- A local scalar `x` of scope 2. -/
def exVarX : Operand := Operand.ofSymbol { name := "x", type := SymbolType.Int, scope := 2 }

/-- The instruction `MUL t0, x, #8`. -/
def exMulX8 : IRInstruction :=
  { op := IROp.MUL, result := some exT0, arg1 := some exVarX, arg2 := some (Operand.imm 8) }

/-- A global scalar `g` (scope 1). -/
def exGlobalG : Operand :=
  Operand.ofSymbol { name := "g", type := SymbolType.Int, scope := 1, label := "g" }

/-- The instruction `ADD t0, g, #1`. -/
def exAddG1 : IRInstruction :=
  { op := IROp.ADD, result := some exT0, arg1 := some exGlobalG, arg2 := some (Operand.imm 1) }

/-- The instruction `CALL t1, f`. -/
def exCallF : IRInstruction :=
  { op := IROp.CALL, result := some exT1, arg1 := some (Operand.named "f" OperandType.LABEL) }

/-- The instruction `ADD t2, g, #1`. -/
def exAddG1Again : IRInstruction :=
  { op := IROp.ADD, result := some exT2, arg1 := some exGlobalG, arg2 := some (Operand.imm 1) }

/-- The block `ASSIGN t0, g; CALL t1, f; ASSIGN t2, t0`. -/
def exCopyCallBlock : BasicBlock :=
  { id := 0,
    instructions :=
      [{ op := IROp.ASSIGN, result := some exT0, arg1 := some exGlobalG }, exCallF,
       { op := IROp.ASSIGN, result := some exT2, arg1 := some exT0 }] }

/-- The block `ADD t0, g, #1; CALL t1, f; ADD t2, g, #1`. -/
def exCallBlock : BasicBlock :=
  { id := 0, instructions := [exAddG1, exCallF, exAddG1Again] }

/-- The instruction `LABEL f` that opens a function. -/
def exLabelF : IRInstruction :=
  { op := IROp.LABEL, result := some (Operand.named "f" OperandType.LABEL) }

/-- The IR of a function `f` whose body is `x = x;`. -/
def selfAssignIR (x : Operand) : List IRInstruction :=
  [exLabelF, { op := IROp.FUNC_ENTRY }, { op := IROp.ASSIGN, result := some x, arg1 := some x },
   { op := IROp.FUNC_EXIT }]

/-- The IR of a function `f` whose body is `ADD t0, #3, #4; ASSIGN a, t0`. -/
def foldAssignIR (a : Operand) : List IRInstruction :=
  [exLabelF, { op := IROp.FUNC_ENTRY }, exAdd34,
   { op := IROp.ASSIGN, result := some a, arg1 := some exT0 }, { op := IROp.FUNC_EXIT }]

/-- The condition `x || b` on two scalar variables (leaves without code). -/
def exCondOr : LOrExp :=
  LOrExp.or (LOrExp.land (LAndExp.leaf { code := [], val := exVarX }))
    (LAndExp.leaf { code := [], val := exVarB })

/-- An operand valuation: `x` is zero, every other operand is one. -/
def exValueOf (o : Operand) (_ : Unit) : Int := if o = exVarX then 0 else 1

/-- A listing with one instruction before the function `main`: `ASSIGN g, #1`, then
`LABEL main; FUNC_ENTRY; RET`. -/
def exGlobalIR : List IRInstruction :=
  [{ op := IROp.ASSIGN, result := some exGlobalG, arg1 := some (Operand.imm 1) },
   { op := IROp.LABEL, result := some (Operand.named "main" OperandType.LABEL) },
   { op := IROp.FUNC_ENTRY },
   { op := IROp.RET }]

/-- The global `int a` declared on line 1. -/
def exSymA1 : SymbolEntry := { name := "a", type := SymbolType.Int, scope := 1, line := 1 }

/-- The local `int a` of scope 2 declared on line 3. -/
def exSymA2 : SymbolEntry := { name := "a", type := SymbolType.Int, scope := 2, line := 3 }

/-- The local `int a` of scope 3 declared on line 5. -/
def exSymA3 : SymbolEntry := { name := "a", type := SymbolType.Int, scope := 3, line := 5 }

/-- The global `int b` declared on line 7. -/
def exSymB1 : SymbolEntry := { name := "b", type := SymbolType.Int, scope := 1, line := 7 }

/-- A sequence of calls: declare the global `a`, enter a scope and declare a local `a`. -/
def exOps : List TableOp :=
  [TableOp.addSymbol exSymA1, TableOp.enterScope, TableOp.addSymbol exSymA2]

/-- Two globals added out of line order: first `b` of line 7, then `a` of line 1. -/
def exOpsOutOfLineOrder : List TableOp :=
  [TableOp.addSymbol exSymB1, TableOp.addSymbol exSymA1]

/-- The scopes after `int a` has been declared globally, in scope 2 and in scope 3. -/
def exNestedScopes : List Scope :=
  (SymbolTable.after [TableOp.addSymbol exSymA1, TableOp.enterScope, TableOp.addSymbol exSymA2,
    TableOp.enterScope, TableOp.addSymbol exSymA3]).scopes

/-- The IR of `int a = 1; { int a = 2; } printf("%d", a);` inside a function body whose
scope is 2: `ASSIGN a_2, #1; ASSIGN a_3, #2; PRINTINT a_2`. -/
def exShadowBlock : BasicBlock :=
  { id := 0,
    instructions :=
      [{ op := IROp.ASSIGN, result := some (getVarOperand exSymA2), arg1 := some (Operand.imm 1) },
       { op := IROp.ASSIGN, result := some (getVarOperand exSymA3), arg1 := some (Operand.imm 2) },
       { op := IROp.PRINTINT, arg1 := some (getVarOperand exSymA2) }] }

/-- The children of the statement `printf("x=%d\n", x);`: the format string with its
quotes and one argument expression whose value is the variable `x`. -/
def exPrintfChildren : List StmtChild :=
  [StmtChild.terminal "printf".data, StmtChild.terminal "(".data,
   StmtChild.terminal ['"', 'x', '=', '%', 'd', '\\', 'n', '"'],
   StmtChild.terminal ",".data, StmtChild.exp { code := [], val := exVarX },
   StmtChild.terminal ")".data, StmtChild.terminal ";".data]

/-- A generator state with no instructions and all counters at zero. -/
def exGenEmpty : GenState := { labelCounter := 0, instructions := [] }

/-- A layout in which the temporary `t0` has the slot at offset 12. -/
def exInfoT0 : CodeGenFunctionInfo :=
  { funcName := "main", frameSize := 16,
    symbolMap := [("t0", { name := "t0", offset := 12, isTemp := true })],
    paramList := [] }

/-- Calls that leave `t0` in a dirty register and the global `g` in a clean one. -/
def exAllocOps : List AllocOp :=
  [AllocOp.allocateReg (some exInfoT0) exT0, AllocOp.getReg (some exInfoT0) exGlobalG]

/-- The allocator state after the calls of `exAllocOps`. -/
def exAllocState : RegisterManager :=
  { freeRegs := [MipsReg.T2, MipsReg.T3, MipsReg.T4, MipsReg.T5, MipsReg.T6, MipsReg.T7],
    busyRegs := [MipsReg.T0, MipsReg.T1],
    varToReg := [("g", MipsReg.T1), ("t0", MipsReg.T0)],
    regToVar := [(MipsReg.T1, "g"), (MipsReg.T0, "t0")],
    varToSymbol := [("g", { name := "g", type := SymbolType.Int, scope := 1, label := "g" })],
    dirtyRegs := [MipsReg.T0] }

/-- The local array `int a[10]` of scope 2. -/
def exSymArr : SymbolEntry :=
  { name := "a", type := SymbolType.IntArray, scope := 2, offset := 8, size := 40,
    arraySize := 10 }

/-- The operand `getVar` builds for the array `a`. -/
def exArrOp : Operand := getVarOperand exSymArr

/-- A layout in which the array `a_2` has offset 20 and size 40 and the temporary `t0`
the slot at offset 60. -/
def exInfoArr : CodeGenFunctionInfo :=
  { funcName := "main", frameSize := 64,
    symbolMap := [("a_2", { name := "a_2", offset := 20, size := 40 }),
                  ("t0", { name := "t0", offset := 60, isTemp := true })],
    paramList := [] }

/-- The instruction `GET_ADDR t0, a_2, #8`. -/
def exGetAddr : IRInstruction :=
  { op := IROp.GET_ADDR, result := some exT0, arg1 := some exArrOp, arg2 := some (Operand.imm 8) }

/-- The instruction `STORE #5, a_2, #8`. -/
def exStore : IRInstruction :=
  { op := IROp.STORE, result := some (Operand.imm 5), arg1 := some exArrOp,
    arg2 := some (Operand.imm 8) }

/-- The scope of a function `f(int p)` with one local `int x`: the parameter at offset 0,
the local at offset 4. -/
def exScopeSyms : List SymbolEntry :=
  [{ name := "p", type := SymbolType.Int, scope := 2, isParam := true, offset := 0 },
   { name := "x", type := SymbolType.Int, scope := 2, offset := 4 }]

/-- The symbol of the function `f`, whose locals take 8 bytes. -/
def exFuncSym : SymbolEntry :=
  { name := "f", type := SymbolType.IntFunc, scope := 1, stackFrameSize := 8 }

/-- The layout of `f` after two temporaries have been created in its body. -/
def exLayout : CodeGenFunctionInfo :=
  buildLayout true "f" exScopeSyms (some exFuncSym) [LayoutOp.newTemp, LayoutOp.newTemp] 0

/-- A machine with `$sp` at 1000, `$fp` at 2000 and `$ra` at 3000. -/
def exMachineRegs : Machine :=
  { reg := fun r => if r = MipsReg.SP then 1000 else if r = MipsReg.FP then 2000 else 3000,
    mem := fun _ => 0, link := 0 }

/-- The local `int t` of scope 2. -/
def exSymT2 : SymbolEntry := { name := "t", type := SymbolType.Int, scope := 2 }

/-- The local `int b` of scope 2. -/
def exSymB2 : SymbolEntry := { name := "b", type := SymbolType.Int, scope := 2 }

/-- The block of `t = a; a = b; b = t;` on three locals of scope 2:
`ASSIGN t, a; ASSIGN a, b; ASSIGN b, t`. -/
def exSwapBlock : BasicBlock :=
  { id := 0,
    instructions :=
      [{ op := IROp.ASSIGN, result := some (getVarOperand exSymT2),
         arg1 := some (getVarOperand exSymA2) },
       { op := IROp.ASSIGN, result := some (getVarOperand exSymA2),
         arg1 := some (getVarOperand exSymB2) },
       { op := IROp.ASSIGN, result := some (getVarOperand exSymB2),
         arg1 := some (getVarOperand exSymT2) }] }

/-- The IR of a function `f` with the given body. -/
def funcIR (body : List IRInstruction) : List IRInstruction :=
  [exLabelF, { op := IROp.FUNC_ENTRY }] ++ body ++ [{ op := IROp.FUNC_EXIT }]

/-- The block of `g = b; g = 5; printf("%d", g);` with `g` global and `b` local:
`ASSIGN g, b; ASSIGN g, #5; PRINTINT g`. -/
def exAssignImmBlock : BasicBlock :=
  { id := 0,
    instructions :=
      [{ op := IROp.ASSIGN, result := some exGlobalG, arg1 := some (getVarOperand exSymB2) },
       { op := IROp.ASSIGN, result := some exGlobalG, arg1 := some (Operand.imm 5) },
       { op := IROp.PRINTINT, arg1 := some exGlobalG }] }

/-- The local `int a_b` of scope 2. -/
def exSymAB : SymbolEntry := { name := "a_b", type := SymbolType.Int, scope := 2 }

/-- The local `int c` of scope 2. -/
def exSymC : SymbolEntry := { name := "c", type := SymbolType.Int, scope := 2 }

/-- The local `int b_c` of scope 2. -/
def exSymBC : SymbolEntry := { name := "b_c", type := SymbolType.Int, scope := 2 }

/-- The block `ADD t0, a_b, c; PRINTINT t0; ADD t1, a, b_c; PRINTINT t1` on four locals
of scope 2. -/
def exKeyClashBlock : BasicBlock :=
  { id := 0,
    instructions :=
      [{ op := IROp.ADD, result := some exT0, arg1 := some (getVarOperand exSymAB),
         arg2 := some (getVarOperand exSymC) },
       { op := IROp.PRINTINT, arg1 := some exT0 },
       { op := IROp.ADD, result := some exT1, arg1 := some (getVarOperand exSymA2),
         arg2 := some (getVarOperand exSymBC) },
       { op := IROp.PRINTINT, arg1 := some exT1 }] }

/-- The local `int a_` of scope 2. -/
def exSymAUnderscore : SymbolEntry := { name := "a_", type := SymbolType.Int, scope := 2 }

/-- The block of `printf("%d", a + a_); a_ = getint(); printf("%d", a + a_);` on two
locals of scope 2:
`ADD t0, a, a_; PRINTINT t0; GETINT t1; ASSIGN a_, t1; ADD t2, a, a_; PRINTINT t2`. -/
def exStaleBlock : BasicBlock :=
  { id := 0,
    instructions :=
      [{ op := IROp.ADD, result := some exT0, arg1 := some (getVarOperand exSymA2),
         arg2 := some (getVarOperand exSymAUnderscore) },
       { op := IROp.PRINTINT, arg1 := some exT0 },
       { op := IROp.GETINT, result := some exT1 },
       { op := IROp.ASSIGN, result := some (getVarOperand exSymAUnderscore), arg1 := some exT1 },
       { op := IROp.ADD, result := some exT2, arg1 := some (getVarOperand exSymA2),
         arg2 := some (getVarOperand exSymAUnderscore) },
       { op := IROp.PRINTINT, arg1 := some exT2 }] }

/-- The block of `{ int a = 5; } printf("%d", a);` where the second `a` is the global:
`ASSIGN a_3, #5; PRINTINT a`. -/
def exGlobalShadowBlock : BasicBlock :=
  { id := 0,
    instructions :=
      [{ op := IROp.ASSIGN, result := some (getVarOperand exSymA3), arg1 := some (Operand.imm 5) },
       { op := IROp.PRINTINT, arg1 := some (getVarOperand exSymA1) }] }

/-- The local `int str_0` of scope 2. -/
def exSymStr0 : SymbolEntry := { name := "str_0", type := SymbolType.Int, scope := 2 }

/-- The string label `str_0`. -/
def exLabelStr0 : Operand := Operand.named "str_0" OperandType.LABEL

/-- The local `int f` of scope 3. -/
def exSymF3 : SymbolEntry := { name := "f", type := SymbolType.Int, scope := 3 }

/-- The block of `int str_0 = 5; printf("hello");`: `ASSIGN str_0, #5; PRINTSTR str_0`,
the second operand being the label of the string constant. -/
def exPrintStrBlock : BasicBlock :=
  { id := 0,
    instructions :=
      [{ op := IROp.ASSIGN, result := some (getVarOperand exSymStr0), arg1 := some (Operand.imm 5) },
       { op := IROp.PRINTSTR, arg1 := some exLabelStr0 }] }

/-- The block of `{ int f = 1; } f();`: `ASSIGN f_3, #1; CALL t1, f`. -/
def exCallLabelBlock : BasicBlock :=
  { id := 0,
    instructions :=
      [{ op := IROp.ASSIGN, result := some (getVarOperand exSymF3), arg1 := some (Operand.imm 1) },
       exCallF] }

/-- The block of `int str_0 = b; printf("hello");`: `ASSIGN str_0, b; PRINTSTR str_0`. -/
def exPrintStrCopyBlock : BasicBlock :=
  { id := 0,
    instructions :=
      [{ op := IROp.ASSIGN, result := some (getVarOperand exSymStr0),
         arg1 := some (getVarOperand exSymB2) },
       { op := IROp.PRINTSTR, arg1 := some exLabelStr0 }] }

/-- The block of `{ int f = b; } f();`: `ASSIGN f_3, b; CALL t1, f`. -/
def exCallLabelCopyBlock : BasicBlock :=
  { id := 0,
    instructions :=
      [{ op := IROp.ASSIGN, result := some (getVarOperand exSymF3),
         arg1 := some (getVarOperand exSymB2) },
       exCallF] }

/-- The block `STORE t0, a, #0; STORE t1, a, #0` on the local array `a`. -/
def exStoreBlock : BasicBlock :=
  { id := 0,
    instructions :=
      [{ op := IROp.STORE, result := some exT0, arg1 := some exArrOp,
         arg2 := some (Operand.imm 0) },
       { op := IROp.STORE, result := some exT1, arg1 := some exArrOp,
         arg2 := some (Operand.imm 0) }] }

/-- A function whose only block is `ADD t0, x, b; PARAM t0` with the temporary in the
result field of the PARAM. -/
def exParamResultFunc : Function :=
  { name := "f",
    blocks :=
      [{ id := 0,
         instructions :=
           [{ op := IROp.ADD, result := some exT0, arg1 := some exVarX, arg2 := some exVarB }, { op := IROp.PARAM, result := some exT0 }] }] }
/-- The instruction `ADD g, #3, #4` that defines the global `g`. -/
def exAddGlobal34 : IRInstruction :=
  { op := IROp.ADD, result := some exGlobalG, arg1 := some (Operand.imm 3),
    arg2 := some (Operand.imm 4) }

/-- The instruction `PRINTINT g`. -/
def exPrintG : IRInstruction := { op := IROp.PRINTINT, arg1 := some exGlobalG }

/-- The block `ADD g, #3, #4; PRINTINT g`. -/
def exGlobalDefBlock : BasicBlock :=
  { id := 0, instructions := [exAddGlobal34, exPrintG] }

/-- The temporary `t<n>`. -/
def exTemp (n : Nat) : Operand := Operand.named ("t" ++ ToString.toString n) OperandType.TEMP

/-- A layout in which the temporaries `t0..t8` have the slots at offsets 12 to 44. -/
def exInfoTemps : CodeGenFunctionInfo :=
  { funcName := "main", frameSize := 48,
    symbolMap := (List.range 9).map (fun (n : Nat) =>
      ("t" ++ ToString.toString n,
        ({ name := "t" ++ ToString.toString n, offset := 12 + 4 * (n : Int), isTemp := true } :
          CodeGenSymbolEntry))),
    paramList := [] }

/-- Eight results `t0..t7` are given registers in this order. -/
def exFillOps : List AllocOp :=
  (List.range 8).map (fun (n : Nat) => AllocOp.allocateReg (some exInfoTemps) (exTemp n))

/-- The allocator state after `exFillOps`: `$t0..$t7` busy and dirty in this order,
`$t<n>` holding `t<n>`, the free queue empty. -/
def exFullState : RegisterManager :=
  { freeRegs := [],
    busyRegs := allocatable,
    varToReg := (allocatable.zip (List.range 8)).reverse.map
      (fun p => ("t" ++ ToString.toString p.2, p.1)),
    regToVar := (allocatable.zip (List.range 8)).reverse.map
      (fun p => (p.1, "t" ++ ToString.toString p.2)),
    varToSymbol := [],
    dirtyRegs := allocatable.reverse }

/-- The instruction `ADD t8, t0, g` with `g` a global variable. -/
def exAddT0G : IRInstruction :=
  { op := IROp.ADD, result := some (exTemp 8), arg1 := some (exTemp 0), arg2 := some exGlobalG }

/-- The IR of `f` with a branch: `LABEL f; FUNC_ENTRY; BEQZ L0, t0; ASSIGN b, #1; JUMP L1;
LABEL L0; ADD t0, #3, #4; LABEL L1; RET`. -/
def exBranchIR : List IRInstruction :=
  [exLabelF, { op := IROp.FUNC_ENTRY }, mkBeqz (labelOperand 0) exT0, exAssignB1,
   mkJump (labelOperand 1), mkLabel (labelOperand 0), exAdd34, mkLabel (labelOperand 1),
   { op := IROp.RET }]

/-- The function of `exBranchIR` after the partition step of `buildCFG`, before
`buildCFGEdges` runs. -/
def exBranchFunc : Function :=
  { name := "f", blocks := partitionBlocks [] none exBranchIR }

/-- The second block of `exBranchFunc`: `FUNC_ENTRY; BEQZ L0, t0`. -/
def exBranchBlock1 : BasicBlock :=
  { id := 1, instructions := [{ op := IROp.FUNC_ENTRY }, mkBeqz (labelOperand 0) exT0] }

/-- Events of a run over two functions: `f` is entered, one temporary is created, `f`
is left, then a second function `g` with a scope of the same shape is entered. -/
def exGenPre : List GenOp :=
  [GenOp.enterFunc true "f" exScopeSyms (some exFuncSym), GenOp.newTemp, GenOp.leaveFunc,
   GenOp.enterFunc true "g" exScopeSyms (some exFuncSym)]

/-- Events of a function body: a temporary, the declaration of `b`, a second temporary. -/
def exGenBody : List GenOp := [GenOp.newTemp, GenOp.declare exSymB2, GenOp.newTemp]

/-- The layout of the function `g` at the start of its body: the parameter and the local
of the scope, frame size 20. -/
def exGenInfo : CodeGenFunctionInfo := buildLayout true "g" exScopeSyms (some exFuncSym) [] 0

/-- The state in front of `int a = a + 1;` in a block nested in the body of a function
that has declared `int a`: the scopes of `exNestedScopes` with the global `a`, the
local `a` of scope 2 and the new `a` of scope 3, of which the first two are active. -/
def exDeclState : DeclState :=
  { scopeStack := exNestedScopes, activeSymbols := [exSymA1, exSymA2] }

/-- The initializer `a + 1`. -/
def exInitAPlus1 : Exp := Exp.binary IROp.ADD (Exp.lval "a") (Exp.number 1)

/-- The initializer `f(a)`. -/
def exInitCallF : Exp := Exp.call "f" [Exp.lval "a"]

/-- The scopes around the nested block: the global scope and the function body. -/
def exOuterScopes : List Scope := exNestedScopes.dropLast

/-- The scope of the nested block, which holds the new `a` of scope 3. -/
def exInnerScope : Scope := exNestedScopes.getLast?.getD { scopeId := 3 }

/-- The statement `for (;;) { for (; x;) { continue; } break; }`, the condition `x`
given by the leaf with value `x` and no code. -/
def exNestedLoops : Stmt :=
  Stmt.forLoop [] none []
    (Stmt.block
      (Stmt.seq
        (Stmt.forLoop [] (some (LOrExp.land (LAndExp.leaf { code := [], val := exVarX }))) []
          (Stmt.block Stmt.continueStmt))
        Stmt.breakStmt))

/-- The global `int a_2;`. -/
def exGlobalA2 : SymbolEntry := { name := "a_2", type := SymbolType.Int, scope := 1 }

/-- The symbol of `main`, whose locals take 4 bytes. -/
def exMainSym : SymbolEntry :=
  { name := "main", type := SymbolType.IntFunc, scope := 1, stackFrameSize := 4 }

/-- The layout of `main` in `int a_2; int main() { int a; ... }`: the scope of the body
has the ID 2 and holds the local `a`. -/
def exMainLayout : CodeGenFunctionInfo :=
  buildLayout false "main" [exSymA2] (some exMainSym) [LayoutOp.newTemp] 0

/-- The instruction `ADD t0, a_2, a_2` of `a_2 + a`, the first operand the global `a_2`,
the second the local `a` of scope 2. -/
def exAddGlobalLocal : IRInstruction :=
  { op := IROp.ADD, result := some (exTemp 0), arg1 := some (getVarOperand exGlobalA2),
    arg2 := some (getVarOperand exSymA2) }

/-- The IR of `int main() { printf("%d", (-2147483647 - 1) / (-1)); return 0; }`:
`LABEL main; FUNC_ENTRY; NEG t0, #2147483647; SUB t1, t0, #1; NEG t2, #1;
DIV t3, t1, t2; PRINTINT t3; RET #0; FUNC_EXIT`. -/
def exDivTrapIR : List IRInstruction :=
  [{ op := IROp.LABEL, result := some (Operand.named "main" OperandType.LABEL) },
   { op := IROp.FUNC_ENTRY },
   { op := IROp.NEG, result := some (exTemp 0), arg1 := some (Operand.imm 2147483647) },
   { op := IROp.SUB, result := some (exTemp 1), arg1 := some (exTemp 0),
     arg2 := some (Operand.imm 1) },
   { op := IROp.NEG, result := some (exTemp 2), arg1 := some (Operand.imm 1) },
   { op := IROp.DIV, result := some (exTemp 3), arg1 := some (exTemp 1),
     arg2 := some (exTemp 2) },
   { op := IROp.PRINTINT, arg1 := some (exTemp 3) },
   { op := IROp.RET, result := some (Operand.imm 0) },
   { op := IROp.FUNC_EXIT }]

/-- The function `main` of `exDivTrapIR` as `splitFunctions` and `buildCFG` leave it. -/
def exDivTrapFunc : Function :=
  buildCFG { name := "main", blocks := [{ id := 0, instructions := exDivTrapIR }] }

/-- The operand objects of `(x + b) * 0`: `t0` at address 0, `x` at 1, `b` at 2, `#0` at
3 and `t1` at 4. -/
def exStoreMulZero : OperandStore :=
  [some exT0, some exVarX, some exVarB, some (Operand.imm 0), some exT1]

/-- The block `ADD t0, x, b; MUL t1, t0, #0` of `(x + b) * 0` on pointers: the object of
`t0` is the result of the ADD and the first argument of the MUL. -/
def exRefsMulZero : List InstrRef :=
  [{ op := IROp.ADD, result := some 0, arg1 := some 1, arg2 := some 2 },
   { op := IROp.MUL, result := some 4, arg1 := some 0, arg2 := some 3 }]

/-- The instruction `ADD t0, x, b`. -/
def exAddXB : IRInstruction :=
  { op := IROp.ADD, result := some exT0, arg1 := some exVarX, arg2 := some exVarB }

/-- The instruction `MUL t1, t0, #0`. -/
def exMulT0Zero : IRInstruction :=
  { op := IROp.MUL, result := some exT1, arg1 := some exT0, arg2 := some (Operand.imm 0) }

/-- The local scalar `t0` of scope 2 (source `int t0;`), whose source name is the name of
the first temporary. -/
def exSymT0Local : SymbolEntry := { name := "t0", type := SymbolType.Int, scope := 2 }

/-- The instruction `ASSIGN t0_2, #9` that sets the local variable `t0`. -/
def exAssignLocalT0 : IRInstruction :=
  { op := IROp.ASSIGN, result := some (getVarOperand exSymT0Local),
    arg1 := some (Operand.imm 9) }

/-- The block `ADD t0, #3, #4; ASSIGN t0_2, #9; PRINTINT t0`: the temporary `t0` is
defined once, the local variable `t0` is set, and the temporary is printed. -/
def exTempClashBlock : BasicBlock :=
  { id := 0,
    instructions := [exAdd34, exAssignLocalT0, { op := IROp.PRINTINT, arg1 := some exT0 }] }

/-- The operand objects of `ASSIGN t0, x; ADD t1, t0, b`: `t0` at address 0, `x` at 1, `t1`
at 2 and `b` at 3. -/
def exStoreCopy : OperandStore := [some exT0, some exVarX, some exT1, some exVarB]

/-- The instruction `ASSIGN t0, x` on pointers. -/
def exRefAssignT0X : InstrRef := { op := IROp.ASSIGN, result := some 0, arg1 := some 1 }

/-! ## Theorems -/

section MapLemmas

variable {β : Type}

theorem mapFind_mapErase_self (m : List (String × β)) (k : String) :
    mapFind (mapErase m k) k = none := by
  induction m with
  | nil => rfl
  | cons p rest ih =>
    obtain ⟨k2, v⟩ := p
    by_cases h : k2 = k
    · simp [mapErase, h, ih]
    · simp [mapErase, mapFind, h, ih]

theorem mapFind_mapErase_ne (m : List (String × β)) (k key : String) (h : k ≠ key) :
    mapFind (mapErase m k) key = mapFind m key := by
  induction m with
  | nil => rfl
  | cons p rest ih =>
    obtain ⟨k2, v⟩ := p
    by_cases h2 : k2 = k
    · have h3 : k2 ≠ key := by rw [h2]; exact h
      simp [mapErase, mapFind, h2, ih, h]
    · by_cases h3 : k2 = key
      · subst h3
        simp [mapErase, mapFind, h2]
      · simp [mapErase, mapFind, h2, h3, ih]

theorem mapFind_mapSet_self (m : List (String × β)) (k : String) (v : β) :
    mapFind (mapSet m k v) k = some v := by
  simp [mapSet, mapFind]

theorem mapFind_mapSet_ne (m : List (String × β)) (k key : String) (v : β) (h : k ≠ key) :
    mapFind (mapSet m k v) key = mapFind m key := by
  simp [mapSet, mapFind, h, mapFind_mapErase_ne m k key h]

end MapLemmas

/-! ### Constant folding: structure of the loop -/

theorem foldLoop_length (m : ConstMap) (xs : List IRInstruction) :
    (foldLoop m xs).1.length = xs.length := by
  induction xs generalizing m with
  | nil => rfl
  | cons i rest ih => simp [foldLoop, ih]

theorem constValuesAfter_append (m : ConstMap) (xs ys : List IRInstruction) :
    constValuesAfter m (xs ++ ys) = constValuesAfter (constValuesAfter m xs) ys := by
  induction xs generalizing m with
  | nil => rfl
  | cons i rest ih => simp [constValuesAfter, ih]

theorem foldLoop_append_fst (m : ConstMap) (xs ys : List IRInstruction) :
    (foldLoop m (xs ++ ys)).1 = (foldLoop m xs).1 ++ (foldLoop (constValuesAfter m xs) ys).1 := by
  induction xs generalizing m with
  | nil => rfl
  | cons i rest ih => simp [foldLoop, constValuesAfter, ih]

theorem foldLoop_getElem_mid (m : ConstMap) (xs : List IRInstruction) (i : IRInstruction)
    (ys : List IRInstruction) :
    (foldLoop m (xs ++ i :: ys)).1[xs.length]? = some (foldStep (constValuesAfter m xs) i).2.1 := by
  rw [foldLoop_append_fst]
  have h : (foldLoop m xs).1.length = xs.length := foldLoop_length m xs
  rw [List.getElem?_append_right (by omega)]
  simp [h, foldLoop]

/-- An instruction that does not redefine `key` leaves the table entry of `key` alone. -/
theorem foldStep_preserves (m : ConstMap) (K : IRInstruction) (key : String)
    (h : redefines key K = false) :
    mapFind (foldStep m K).1 key = mapFind m key := by
  unfold foldStep processDef
  by_cases hu : isResultUse K.op = true
  · simp [substituteUses, hu]
  · have hu2 : isResultUse K.op = false := by simpa using hu
    simp only [substituteUses, hu2]
    cases hr : K.result with
    | none => simp
    | some res =>
      by_cases ht : res.type = OperandType.TEMP ∨ res.type = OperandType.VAR
      · have hne : res.toString ≠ key := by
          intro e
          rcases ht with ht | ht <;> simp [redefines, hu2, hr, ht, e] at h
        simp only [Bool.false_eq_true, if_false, ht, if_true]
        split
        · exact mapFind_mapSet_ne _ _ _ _ hne
        · exact mapFind_mapErase_ne _ _ _ hne
      · simp [ht]

theorem constValuesAfter_preserves (m : ConstMap) (mid : List IRInstruction) (key : String)
    (h : ∀ K ∈ mid, redefines key K = false) :
    mapFind (constValuesAfter m mid) key = mapFind m key := by
  induction mid generalizing m with
  | nil => rfl
  | cons K rest ih =>
    simp only [constValuesAfter]
    rw [ih _ (fun K2 hK2 => h K2 (List.mem_cons_of_mem _ hK2))]
    exact foldStep_preserves m K key (h K (List.mem_cons_self _ _))

theorem wrap32_spec (x : Int) :
    inInt32 (wrap32 x) ∧ (wrap32 x - x) % 4294967296 = 0 := by
  unfold inInt32 wrap32
  omega

theorem wrap32_of_inInt32 (x : Int) (h : inInt32 x) : wrap32 x = x := by
  unfold inInt32 at h
  unfold wrap32
  omega

theorem toString_temp (o : Operand) (h : o.type = OperandType.TEMP) : o.toString = o.name := by
  simp [Operand.toString, h]

theorem substOperand_hit (m : ConstMap) (o : Operand) (c : Int)
    (hty : o.type ≠ OperandType.IMM) (hm : mapFind m o.toString = some c) :
    substOperand m (some o) = (some (Operand.imm c), true) := by
  simp [substOperand, hty, hm]

theorem substOperand_imm (m : ConstMap) (o : Operand) (hty : o.type = OperandType.IMM) :
    substOperand m (some o) = (some o, false) := by
  simp [substOperand, hty]

/-- The loop body on `op t, #a, #b` with `op` one of the nine arithmetic and
compare opcodes and `t` a temporary, from any table. -/
theorem foldStep_binary (m : ConstMap) (op : IROp) (t x1 x2 : Operand) (c : Int)
    (ht : t.type = OperandType.TEMP)
    (h1 : x1.type = OperandType.IMM) (h2 : x2.type = OperandType.IMM)
    (hop : op ≠ IROp.ASSIGN) (hmem : isMemBase op = false) (huse : isResultUse op = false)
    (hc : foldBinary op x1.value x2.value = some c) :
    foldStep m { op := op, result := some t, arg1 := some x1, arg2 := some x2 } =
      (mapSet m t.toString c,
        { op := IROp.ASSIGN, result := some t, arg1 := some (Operand.imm c), arg2 := none },
        true) := by
  simp [foldStep, substituteUses, processDef, hmem, huse, substOperand_imm, h1, h2, ht,
    isSafeToFold, tryFold, immValue, hop, hc]

/-- The loop body of `passConstantFolding` rewrites every `op t, #a, #b` (t a temporary,
op one of ADD, SUB, MUL, GT, GE, LT, LE, EQ, NEQ) into `ASSIGN t, #c` with arg2
cleared, where c is the wrapped 32-bit sum, difference or product, or the 0/1 outcome
of the signed comparison; the table then maps the text of t to c, and at a later
instruction J of the block, with no instruction in between whose result prints like
t (a definition of t, or of a variable whose source name is the name of t), every
use of t (arg1 unless J is a STORE/LOAD/GET_ADDR, arg2, and the result field of a
result-using opcode) is replaced by `#c` before J's own definition is processed. -/
theorem foldBinary_records_and_propagates
    (blk : BasicBlock) (pre mid post : List IRInstruction) (op : IROp)
    (t x1 x2 : Operand) (J : IRInstruction)
    (hop : op ∈ [IROp.ADD, IROp.SUB, IROp.MUL, IROp.GT, IROp.GE, IROp.LT, IROp.LE,
                  IROp.EQ, IROp.NEQ])
    (ht : t.type = OperandType.TEMP)
    (h1 : x1.type = OperandType.IMM) (h2 : x2.type = OperandType.IMM)
    (hblk : blk.instructions =
      pre ++ { op := op, result := some t, arg1 := some x1, arg2 := some x2 } :: (mid ++ J :: post))
    (hmid : ∀ K ∈ mid, redefines t.toString K = false) :
    ∃ c : Int,
      (op = IROp.ADD → c = wrap32 (x1.value + x2.value)) ∧
      (op = IROp.SUB → c = wrap32 (x1.value - x2.value)) ∧
      (op = IROp.MUL → c = wrap32 (x1.value * x2.value)) ∧
      (op = IROp.GT → c = if x1.value > x2.value then 1 else 0) ∧
      (op = IROp.GE → c = if x1.value ≥ x2.value then 1 else 0) ∧
      (op = IROp.LT → c = if x1.value < x2.value then 1 else 0) ∧
      (op = IROp.LE → c = if x1.value ≤ x2.value then 1 else 0) ∧
      (op = IROp.EQ → c = if x1.value = x2.value then 1 else 0) ∧
      (op = IROp.NEQ → c = if x1.value ≠ x2.value then 1 else 0) ∧
      (passConstantFolding blk).1.instructions[pre.length]? =
        some { op := IROp.ASSIGN, result := some t, arg1 := some (Operand.imm c), arg2 := none } ∧
      mapFind (constValuesAfter []
        (pre ++ { op := op, result := some t, arg1 := some x1, arg2 := some x2 } :: mid))
        t.toString = some c ∧
      (passConstantFolding blk).1.instructions[pre.length + 1 + mid.length]? =
        some (processDef
          (constValuesAfter []
            (pre ++ { op := op, result := some t, arg1 := some x1, arg2 := some x2 } :: mid))
          (substituteUses
            (constValuesAfter []
              (pre ++ { op := op, result := some t, arg1 := some x1, arg2 := some x2 } :: mid))
            J).1).2.1 ∧
      ∀ o : Operand, o.type = OperandType.TEMP → o.name = t.name →
        (J.arg1 = some o → isMemBase J.op = false →
          (substituteUses
            (constValuesAfter []
              (pre ++ { op := op, result := some t, arg1 := some x1, arg2 := some x2 } :: mid))
            J).1.arg1 = some (Operand.imm c)) ∧
        (J.arg2 = some o →
          (substituteUses
            (constValuesAfter []
              (pre ++ { op := op, result := some t, arg1 := some x1, arg2 := some x2 } :: mid))
            J).1.arg2 = some (Operand.imm c)) ∧
        (J.result = some o → isResultUse J.op = true →
          (substituteUses
            (constValuesAfter []
              (pre ++ { op := op, result := some t, arg1 := some x1, arg2 := some x2 } :: mid))
            J).1.result = some (Operand.imm c)) := by
  have hex : ∃ c, foldBinary op x1.value x2.value = some c ∧ op ≠ IROp.ASSIGN ∧
      isMemBase op = false ∧ isResultUse op = false := by
    simp only [List.mem_cons, List.mem_singleton, List.not_mem_nil, or_false] at hop
    rcases hop with h | h | h | h | h | h | h | h | h <;> subst h <;>
      exact ⟨_, rfl, by decide, by decide, by decide⟩
  obtain ⟨c, hc, hne, hmem, huse⟩ := hex
  have hstep := fun m => foldStep_binary m op t x1 x2 c ht h1 h2 hne hmem huse hc
  have hrec : mapFind (constValuesAfter []
      (pre ++ { op := op, result := some t, arg1 := some x1, arg2 := some x2 } :: mid))
      t.toString = some c := by
    rw [constValuesAfter_append]
    simp only [constValuesAfter]
    rw [constValuesAfter_preserves _ mid _ hmid, hstep]
    exact mapFind_mapSet_self _ _ _
  refine ⟨c, ?_, ?_, ?_, ?_, ?_, ?_, ?_, ?_, ?_, ?_, hrec, ?_, ?_⟩
  · intro h; subst h; simpa [foldBinary] using hc.symm
  · intro h; subst h; simpa [foldBinary] using hc.symm
  · intro h; subst h; simpa [foldBinary] using hc.symm
  · intro h; subst h; simpa [foldBinary] using hc.symm
  · intro h; subst h; simpa [foldBinary] using hc.symm
  · intro h; subst h; simpa [foldBinary] using hc.symm
  · intro h; subst h; simpa [foldBinary] using hc.symm
  · intro h; subst h; simpa [foldBinary] using hc.symm
  · intro h; subst h; simpa [foldBinary] using hc.symm
  · simp only [passConstantFolding, hblk]
    rw [foldLoop_getElem_mid, hstep]
  · simp only [passConstantFolding, hblk]
    have e : pre ++ { op := op, result := some t, arg1 := some x1, arg2 := some x2 } ::
        (mid ++ J :: post) =
        (pre ++ { op := op, result := some t, arg1 := some x1, arg2 := some x2 } :: mid) ++
          J :: post := by simp
    have l : (pre ++ ({ op := op, result := some t, arg1 := some x1, arg2 := some x2 } :
        IRInstruction) :: mid).length = pre.length + 1 + mid.length := by
      simp; omega
    rw [e, ← l, foldLoop_getElem_mid]
    rfl
  · intro o hoty hname
    have hts : o.toString = t.toString := by
      rw [toString_temp o hoty, toString_temp t ht, hname]
    have hsub : substOperand (constValuesAfter []
        (pre ++ { op := op, result := some t, arg1 := some x1, arg2 := some x2 } :: mid))
        (some o) = (some (Operand.imm c), true) :=
      substOperand_hit _ o c (by rw [hoty]; decide) (by rw [hts]; exact hrec)
    refine ⟨?_, ?_, ?_⟩
    · intro hj hm
      simp [substituteUses, hm, hj, hsub]
    · intro hj
      simp [substituteUses, hj, hsub]
    · intro hj hu
      simp [substituteUses, hu, hj, hsub]

/-- The rewriting and the propagation on `ADD t0, #3, #4; ASSIGN b, #1; ADD t1, t0, b`. -/
theorem foldBinary_records_and_propagates_example :
    (∀ K ∈ [exAssignB1], redefines exT0.toString K = false) ∧
    ∃ c : Int, c = 7 ∧
      (passConstantFolding { id := 0, instructions := [exAdd34, exAssignB1, exAddT0B] }).1.instructions[0]? =
        some { op := IROp.ASSIGN, result := some exT0, arg1 := some (Operand.imm c), arg2 := none } := by
  have hmid : ∀ K ∈ [exAssignB1], redefines exT0.toString K = false := by
    intro K hK
    rw [List.mem_singleton] at hK
    subst hK
    decide
  refine ⟨hmid, ?_⟩
  obtain ⟨c, hadd, _, _, _, _, _, _, _, _, hout, _⟩ :=
    foldBinary_records_and_propagates
      { id := 0, instructions := [exAdd34, exAssignB1, exAddT0B] }
      [] [exAssignB1] [] IROp.ADD exT0 (Operand.imm 3) (Operand.imm 4) exAddT0B
      (by decide) rfl rfl rfl rfl hmid
  exact ⟨c, by rw [hadd rfl]; decide, hout⟩

theorem tdiv_inInt32 (a b : Int) (ha : inInt32 a) (hb : inInt32 b) (h0 : b ≠ 0)
    (hov : ¬ (a = -2147483648 ∧ b = -1)) : inInt32 (Int.tdiv a b) := by
  unfold inInt32 at *
  cases a with
  | ofNat m =>
    cases b with
    | ofNat n =>
      have h := Nat.div_le_self m n
      have hnn : (0 : Int) ≤ ((m / n : Nat) : Int) := Int.ofNat_nonneg _
      simp only [Int.tdiv, Int.ofNat_eq_coe] at *
      omega
    | negSucc n =>
      have h := Nat.div_le_self m (n + 1)
      have hnn : (0 : Int) ≤ ((m / (n + 1) : Nat) : Int) := Int.ofNat_nonneg _
      simp only [Int.tdiv, Int.ofNat_eq_coe, Nat.succ_eq_add_one, Int.negSucc_eq] at *
      omega
  | negSucc m =>
    cases b with
    | ofNat n =>
      have h := Nat.div_le_self (m + 1) n
      have hnn : (0 : Int) ≤ (((m + 1) / n : Nat) : Int) := Int.ofNat_nonneg _
      simp only [Int.tdiv, Int.ofNat_eq_coe, Nat.succ_eq_add_one, Int.negSucc_eq] at *
      omega
    | negSucc n =>
      have h := Nat.div_le_self (m + 1) (n + 1)
      have hnn : (0 : Int) ≤ (((m + 1) / (n + 1) : Nat) : Int) := Int.ofNat_nonneg _
      by_cases hn : n = 0
      · subst hn
        simp only [Int.tdiv, Int.ofNat_eq_coe, Nat.succ_eq_add_one, Nat.zero_add, Nat.div_one] at *
        have : Int.negSucc 0 = -1 := rfl
        simp only [Int.negSucc_eq] at *
        omega
      · have h2 : (m + 1) / (n + 1) ≤ (m + 1) / 2 := Nat.div_le_div_left (by omega) (by omega)
        simp only [Int.tdiv, Int.ofNat_eq_coe, Nat.succ_eq_add_one, Int.negSucc_eq] at *
        omega

theorem tmod_inInt32 (a b : Int) (hb : inInt32 b) (h0 : b ≠ 0) : inInt32 (Int.tmod a b) := by
  unfold inInt32 at *
  cases a with
  | ofNat m =>
    cases b with
    | ofNat n =>
      have h := Nat.mod_lt m (show n > 0 by simp only [Int.ofNat_eq_coe] at h0; omega)
      simp only [Int.tmod, Int.ofNat_eq_coe] at *
      omega
    | negSucc n =>
      have h := Nat.mod_lt m (show n + 1 > 0 by omega)
      simp only [Int.tmod, Int.ofNat_eq_coe, Nat.succ_eq_add_one, Int.negSucc_eq] at *
      omega
  | negSucc m =>
    cases b with
    | ofNat n =>
      have h := Nat.mod_lt (m + 1) (show n > 0 by simp only [Int.ofNat_eq_coe] at h0; omega)
      simp only [Int.tmod, Int.ofNat_eq_coe, Nat.succ_eq_add_one, Int.negSucc_eq] at *
      omega
    | negSucc n =>
      have h := Nat.mod_lt (m + 1) (show n + 1 > 0 by omega)
      simp only [Int.tmod, Int.ofNat_eq_coe, Nat.succ_eq_add_one, Int.negSucc_eq] at *
      omega

/-- The loop body on `DIV t, #a, #0` or `MOD t, #a, #0`: nothing is rewritten and the
entry of `t` is removed from the table. -/
theorem foldStep_div_zero (m : ConstMap) (op : IROp) (t x1 x2 : Operand)
    (hop : op = IROp.DIV ∨ op = IROp.MOD)
    (ht : t.type = OperandType.TEMP)
    (h1 : x1.type = OperandType.IMM) (h2 : x2.type = OperandType.IMM)
    (hz : x2.value = 0) :
    foldStep m { op := op, result := some t, arg1 := some x1, arg2 := some x2 } =
      (mapErase m t.toString,
        { op := op, result := some t, arg1 := some x1, arg2 := some x2 }, false) := by
  rcases hop with h | h <;> subst h <;>
    simp [foldStep, substituteUses, processDef, isMemBase, isResultUse, substOperand_imm, h1, h2,
      ht, isSafeToFold, tryFold, immValue, foldBinary, hz]

/-- C2: `DIV t, #a, #b` and `MOD t, #a, #b` with t a temporary, b nonzero and
(a, b) not (-2^31, -1) fold to `ASSIGN t, #q`, q the quotient truncated toward zero
for DIV and the remainder `a - b * trunc(a / b)` for MOD, and the table records q for
t; with b = 0 the instruction is left exactly as it was and the table has no entry
for t afterwards. -/
theorem C2_fold_div_mod
    (blk : BasicBlock) (pre post : List IRInstruction) (op : IROp) (t x1 x2 : Operand)
    (hop : op = IROp.DIV ∨ op = IROp.MOD)
    (ht : t.type = OperandType.TEMP)
    (h1 : x1.type = OperandType.IMM) (h2 : x2.type = OperandType.IMM)
    (ha : inInt32 x1.value) (hb : inInt32 x2.value)
    (hblk : blk.instructions =
      pre ++ { op := op, result := some t, arg1 := some x1, arg2 := some x2 } :: post) :
    (x2.value ≠ 0 → ¬ (x1.value = -2147483648 ∧ x2.value = -1) →
      (passConstantFolding blk).1.instructions[pre.length]? =
        some { op := IROp.ASSIGN, result := some t,
               arg1 := some (Operand.imm
                 (if op = IROp.DIV then Int.tdiv x1.value x2.value
                  else x1.value - x2.value * Int.tdiv x1.value x2.value)),
               arg2 := none } ∧
      mapFind (constValuesAfter []
        (pre ++ [{ op := op, result := some t, arg1 := some x1, arg2 := some x2 }])) t.toString =
        some (if op = IROp.DIV then Int.tdiv x1.value x2.value
              else x1.value - x2.value * Int.tdiv x1.value x2.value)) ∧
    (x2.value = 0 →
      (passConstantFolding blk).1.instructions[pre.length]? =
        some { op := op, result := some t, arg1 := some x1, arg2 := some x2 } ∧
      mapFind (constValuesAfter []
        (pre ++ [{ op := op, result := some t, arg1 := some x1, arg2 := some x2 }])) t.toString =
        none) := by
  constructor
  · intro h0 hov
    have hc : foldBinary op x1.value x2.value =
        some (if op = IROp.DIV then Int.tdiv x1.value x2.value
              else x1.value - x2.value * Int.tdiv x1.value x2.value) := by
      rcases hop with h | h <;> subst h
      · simp [foldBinary, h0, wrap32_of_inInt32 _ (tdiv_inInt32 _ _ ha hb h0 hov)]
      · have e := wrap32_of_inInt32 _ (tmod_inInt32 x1.value _ hb h0)
        rw [Int.tmod_def] at e
        simp [foldBinary, h0, Int.tmod_def, e]
    have hne : op ≠ IROp.ASSIGN ∧ isMemBase op = false ∧ isResultUse op = false := by
      rcases hop with h | h <;> subst h <;> decide
    have hstep := fun m => foldStep_binary m op t x1 x2 _ ht h1 h2 hne.1 hne.2.1 hne.2.2 hc
    constructor
    · simp only [passConstantFolding, hblk]
      rw [foldLoop_getElem_mid, hstep]
    · rw [constValuesAfter_append]
      simp only [constValuesAfter]
      rw [hstep]
      exact mapFind_mapSet_self _ _ _
  · intro hz
    have hstep := fun m => foldStep_div_zero m op t x1 x2 hop ht h1 h2 hz
    constructor
    · simp only [passConstantFolding, hblk]
      rw [foldLoop_getElem_mid, hstep]
    · rw [constValuesAfter_append]
      simp only [constValuesAfter]
      rw [hstep]
      exact mapFind_mapErase_self _ _

/-- Witness for C2 on the block `DIV t0, #-7, #2`: it folds to `ASSIGN t0, #-3`. -/
theorem C2_fold_div_mod_witness :
    inInt32 (-7) ∧ inInt32 2 ∧
    (passConstantFolding { id := 0, instructions := [exDivNeg7By2] }).1.instructions[0]? =
      some { op := IROp.ASSIGN, result := some exT0, arg1 := some (Operand.imm (-3)),
             arg2 := none } :=
  ⟨by decide, by decide,
    ((C2_fold_div_mod { id := 0, instructions := [exDivNeg7By2] } [] [] IROp.DIV exT0
      (Operand.imm (-7)) (Operand.imm 2) (Or.inl rfl) rfl rfl rfl (by decide) (by decide) rfl).1
      (by decide) (by decide)).1⟩

/-! ### Constant folding: idempotence -/

theorem substOperand_idem (m : ConstMap) (o : Option Operand) :
    substOperand m (substOperand m o).1 = ((substOperand m o).1, false) := by
  cases o with
  | none => rfl
  | some a =>
    by_cases hty : a.type = OperandType.IMM
    · simp [substOperand, hty]
    · cases hm : mapFind m a.toString with
      | none => simp [substOperand, hty, hm]
      | some v => simp [substOperand, hty, hm, Operand.imm]

theorem substituteUses_op (m : ConstMap) (I : IRInstruction) :
    (substituteUses m I).1.op = I.op := rfl

theorem substituteUses_idem (m : ConstMap) (I : IRInstruction) :
    substituteUses m (substituteUses m I).1 = ((substituteUses m I).1, false) := by
  unfold substituteUses
  by_cases hm : isMemBase I.op = true <;> by_cases hu : isResultUse I.op = true <;>
    simp [hm, hu, substOperand_idem]

/-- Substitution leaves an instruction alone when each operand it may touch is fixed. -/
theorem substituteUses_fixed (m : ConstMap) (S : IRInstruction)
    (h1 : isMemBase S.op = true ∨ substOperand m S.arg1 = (S.arg1, false))
    (h2 : substOperand m S.arg2 = (S.arg2, false))
    (h3 : isResultUse S.op = false ∨ substOperand m S.result = (S.result, false)) :
    substituteUses m S = (S, false) := by
  unfold substituteUses
  rcases h1 with h1 | h1 <;> rcases h3 with h3 | h3 <;>
    by_cases hm : isMemBase S.op = true <;> by_cases hu : isResultUse S.op = true <;>
    simp_all

theorem substituteUses_fixed_arg2 (m : ConstMap) (S : IRInstruction)
    (h : substituteUses m S = (S, false)) : substOperand m S.arg2 = (S.arg2, false) := by
  unfold substituteUses at h
  have e2 : (substOperand m S.arg2).1 = S.arg2 := by
    have := congrArg (fun p => p.1.arg2) h
    simpa using this
  have e3 : (substOperand m S.arg2).2 = false := by
    have := congrArg (fun p => p.2) h
    simp only [Bool.or_eq_false_iff] at this
    exact this.1.2
  exact Prod.ext e2 e3

theorem tryFold_result (S i2 : IRInstruction) (c : Int) (ch : Bool)
    (h : tryFold S = some (i2, c, ch)) :
    (i2 = S ∧ ch = false ∧ S.op = IROp.ASSIGN ∧ immValue S.arg1 = some c) ∨
    (i2 = { op := IROp.ASSIGN, result := S.result, arg1 := some (Operand.imm c), arg2 := none }) ∨
    (i2 = { op := IROp.ASSIGN, result := S.result, arg1 := some (Operand.imm c),
            arg2 := S.arg2 }) := by
  unfold tryFold at h
  cases h1 : immValue S.arg1 with
  | none => simp [h1] at h
  | some v1 =>
    simp only [h1] at h
    by_cases hop : S.op = IROp.ASSIGN
    · simp only [hop, if_true, Option.some.injEq, Prod.mk.injEq] at h
      obtain ⟨e1, e2, e3⟩ := h
      left
      exact ⟨e1.symm, e3.symm, hop, by rw [e2]⟩
    · simp only [hop, if_false] at h
      cases h2 : immValue S.arg2 with
      | some v2 =>
        simp only [h2] at h
        cases hf : foldBinary S.op v1 v2 with
        | none => simp [hf] at h
        | some c2 =>
          simp only [hf, Option.some.injEq, Prod.mk.injEq] at h
          obtain ⟨e1, e2, _⟩ := h
          right; left
          rw [← e1, e2]
      | none =>
        simp only [h2] at h
        by_cases hneg : S.op = IROp.NEG
        · simp only [hneg, if_true, Option.some.injEq, Prod.mk.injEq] at h
          obtain ⟨e1, e2, _⟩ := h
          right; right
          rw [← e1, e2]
        · by_cases hnot : S.op = IROp.NOT
          · rw [if_neg hneg, if_pos hnot] at h
            simp only [Option.some.injEq, Prod.mk.injEq] at h
            obtain ⟨e1, e2, _⟩ := h
            right; right
            rw [← e1, e2]
          · simp [hneg, hnot] at h

/-- Shape of the outcome of the definition phase. -/
theorem processDef_cases (m : ConstMap) (S : IRInstruction) :
    (processDef m S = (m, S, false)) ∨
    (∃ res, S.result = some res ∧ isResultUse S.op = false ∧
      (res.type = OperandType.TEMP ∨ res.type = OperandType.VAR) ∧
      ((isSafeToFold res = true ∧ ∃ i2 c ch, tryFold S = some (i2, c, ch) ∧
          processDef m S = (mapSet m res.toString c, i2, ch)) ∨
       ((if isSafeToFold res then tryFold S else none) = none ∧
          processDef m S = (mapErase m res.toString, S, false)))) := by
  unfold processDef
  by_cases hu : isResultUse S.op = true
  · left; simp [hu]
  · have hu2 : isResultUse S.op = false := by simpa using hu
    cases hr : S.result with
    | none => left; simp [hu2]
    | some res =>
      by_cases ht : res.type = OperandType.TEMP ∨ res.type = OperandType.VAR
      · right
        refine ⟨res, rfl, hu2, ht, ?_⟩
        by_cases hs : isSafeToFold res = true
        · cases hf : tryFold S with
          | none => right; simp [hu2, ht, hs, hf]
          | some r =>
            obtain ⟨i2, c, ch⟩ := r
            left
            exact ⟨hs, i2, c, ch, rfl, by simp [hu2, ht, hs, hf]⟩
        · right; simp [hu2, ht, hs]
      · left; simp [hu2, ht]

theorem tryFold_assign_imm (r : Option Operand) (a2 : Option Operand) (c : Int) :
    tryFold { op := IROp.ASSIGN, result := r, arg1 := some (Operand.imm c), arg2 := a2 } =
      some ({ op := IROp.ASSIGN, result := r, arg1 := some (Operand.imm c), arg2 := a2 }, c,
        false) := by
  simp [tryFold, immValue, Operand.imm]

theorem processDef_idem (m : ConstMap) (S : IRInstruction) :
    processDef m (processDef m S).2.1 = ((processDef m S).1, (processDef m S).2.1, false) := by
  rcases processDef_cases m S with h | ⟨res, hr, hu, ht, h | h⟩
  · rw [h]; simpa using h
  · obtain ⟨hs, i2, c, ch, hf, hp⟩ := h
    rw [hp]
    simp only
    rcases tryFold_result S i2 c ch hf with ⟨e, _, _, _⟩ | e | e
    · subst e
      simp [processDef, hu, hr, ht, hs, hf]
      rcases tryFold_result _ _ _ _ hf with ⟨_, e2, _, _⟩ | e | e
      · exact e2
      · rw [e] at hf
        rw [tryFold_assign_imm] at hf
        simp only [Option.some.injEq, Prod.mk.injEq] at hf
        exact hf.2.2.symm
      · rw [e] at hf
        rw [tryFold_assign_imm] at hf
        simp only [Option.some.injEq, Prod.mk.injEq] at hf
        exact hf.2.2.symm
    · subst e
      simp [processDef, isResultUse, hr, ht, hs, tryFold_assign_imm]
    · subst e
      simp [processDef, isResultUse, hr, ht, hs, tryFold_assign_imm]
  · obtain ⟨hn, hp⟩ := h
    rw [hp]
    simp only
    exact hp

theorem substituteUses_after_processDef (m : ConstMap) (S : IRInstruction)
    (hS : substituteUses m S = (S, false)) :
    substituteUses m (processDef m S).2.1 = ((processDef m S).2.1, false) := by
  rcases processDef_cases m S with h | ⟨res, hr, hu, ht, h | h⟩
  · rw [h]; exact hS
  · obtain ⟨hs, i2, c, ch, hf, hp⟩ := h
    rw [hp]
    simp only
    rcases tryFold_result S i2 c ch hf with ⟨e, _, _, _⟩ | e | e
    · rw [e]; exact hS
    · rw [e]
      exact substituteUses_fixed m _ (Or.inr (by simp [substOperand, Operand.imm]))
        (by simp [substOperand]) (Or.inl rfl)
    · rw [e]
      exact substituteUses_fixed m _ (Or.inr (by simp [substOperand, Operand.imm]))
        (substituteUses_fixed_arg2 m S hS) (Or.inl rfl)
  · rw [h.2]; exact hS

/-- The loop body is idempotent from a fixed table, and leaves the same table. -/
theorem foldStep_idem (m : ConstMap) (I : IRInstruction) :
    foldStep m (foldStep m I).2.1 = ((foldStep m I).1, (foldStep m I).2.1, false) := by
  have hS := substituteUses_idem m I
  have h1 := substituteUses_after_processDef m (substituteUses m I).1 hS
  have h2 := processDef_idem m (substituteUses m I).1
  show foldStep m (processDef m (substituteUses m I).1).2.1 =
    ((processDef m (substituteUses m I).1).1, (processDef m (substituteUses m I).1).2.1, false)
  unfold foldStep
  rw [h1]
  simp only
  rw [h2]
  rfl

theorem foldLoop_idem (m : ConstMap) (xs : List IRInstruction) :
    foldLoop m (foldLoop m xs).1 = ((foldLoop m xs).1, false) := by
  induction xs generalizing m with
  | nil => rfl
  | cons i rest ih =>
    simp only [foldLoop]
    rw [foldStep_idem]
    simp only
    rw [ih]
    rfl

/-- C6: constant folding is idempotent: applying `passConstantFolding` to the block it
produced changes no instruction and reports `changed = false`, for every block. -/
theorem C6_constant_folding_idempotent (b : BasicBlock) :
    passConstantFolding (passConstantFolding b).1 = ((passConstantFolding b).1, false) := by
  unfold passConstantFolding
  simp only
  rw [foldLoop_idem]

/-! ### Algebraic simplification -/

theorem land_even_pred (m : Nat) (hm : 0 < m) :
    (2 * m) &&& (2 * m - 1) = 2 * (m &&& (m - 1)) := by
  have e1 : 2 * m = Nat.bit false m := by simp [Nat.bit_val]
  have e2 : 2 * m - 1 = Nat.bit true (m - 1) := by simp [Nat.bit_val]; omega
  rw [e2, e1, Nat.land_bit]
  simp [Nat.bit_val]

theorem land_odd_pred (m : Nat) :
    (2 * m + 1) &&& (2 * m + 1 - 1) = 2 * m := by
  have e1 : 2 * m + 1 = Nat.bit true m := by simp [Nat.bit_val]
  have e2 : 2 * m + 1 - 1 = Nat.bit false m := by simp [Nat.bit_val]
  rw [e2, e1, Nat.land_bit]
  simp [Nat.bit_val]

theorem pow2_of_land_pred (n : Nat) (hn : 0 < n) (h : n &&& (n - 1) = 0) : ∃ k, n = 2 ^ k := by
  induction n using Nat.strong_induction_on with
  | _ n ih =>
    by_cases h1 : n = 1
    · exact ⟨0, by simp [h1]⟩
    · rcases Nat.even_or_odd' n with ⟨m, hm | hm⟩
      · subst hm
        rw [land_even_pred m (by omega)] at h
        obtain ⟨k, hk⟩ := ih m (by omega) (by omega) (by omega)
        exact ⟨k + 1, by rw [hk, pow_succ]; ring⟩
      · subst hm
        rw [land_odd_pred] at h
        omega

theorem land_pred_of_pow2 (k : Nat) : (2 ^ k) &&& (2 ^ k - 1) = 0 := by
  induction k with
  | zero => rfl
  | succ k ih =>
    have e : 2 ^ (k + 1) = 2 * 2 ^ k := by rw [pow_succ]; ring
    rw [e, land_even_pred _ (by positivity), ih]

theorem pow2Loop_pow (f k p : Nat) (h : k ≤ f) : pow2Loop f (2 ^ k) p = p + k := by
  induction k generalizing f p with
  | zero =>
    cases f with
    | zero => rfl
    | succ f => simp [pow2Loop]
  | succ k ih =>
    cases f with
    | zero => omega
    | succ f =>
      have h2 : 2 ^ (k + 1) > 1 := by
        have : 2 ^ k > 0 := by positivity
        rw [pow_succ]; omega
      have h3 : 2 ^ (k + 1) >>> 1 = 2 ^ k := by
        rw [Nat.shiftRight_eq_div_pow, pow_succ]; simp
      simp only [pow2Loop, h2, if_true, h3]
      rw [ih f (p + 1) (by omega)]
      omega

/-- A successful `isPowerOfTwo` returns the exponent: `n = 2 ^ k`. -/
theorem isPowerOfTwo_some (n k : Int) (h : isPowerOfTwo n = some k) :
    ∃ j : Nat, k = (j : Int) ∧ n = 2 ^ j := by
  unfold isPowerOfTwo at h
  by_cases h0 : n ≤ 0
  · simp [h0] at h
  · by_cases hl : n.toNat &&& (n.toNat - 1) = 0
    · simp only [h0, hl, if_true, if_false, Option.some.injEq] at h
      obtain ⟨j, hj⟩ := pow2_of_land_pred n.toNat (by omega) hl
      refine ⟨j, ?_, ?_⟩
      · rw [← h, hj, pow2Loop_pow _ _ _ (Nat.le_of_lt (Nat.lt_two_pow _))]
        simp
      · have : (n.toNat : Int) = n := Int.toNat_of_nonneg (by omega)
        rw [← this, hj]
        simp
    · simp [h0, hl] at h

/-- The function `isPowerOfTwo` succeeds on every power of two. -/
theorem isPowerOfTwo_pow (j : Nat) : isPowerOfTwo ((2 : Int) ^ j) = some (j : Int) := by
  unfold isPowerOfTwo
  have hpos : ¬ ((2 : Int) ^ j ≤ 0) := by
    have : (0 : Int) < 2 ^ j := by positivity
    omega
  have hn : ((2 : Int) ^ j).toNat = 2 ^ j := by
    have : ((2 : Int) ^ j) = ((2 ^ j : Nat) : Int) := by simp
    rw [this, Int.toNat_ofNat]
  rw [if_neg hpos, hn, if_pos (land_pred_of_pow2 j),
    pow2Loop_pow _ _ _ (Nat.le_of_lt (Nat.lt_two_pow _))]
  simp

theorem simplifyLoop_fst (xs : List IRInstruction) :
    (simplifyLoop xs).1 = xs.map (fun I => (simplifyInstr I).1) := by
  induction xs with
  | nil => rfl
  | cons i rest ih => simp [simplifyLoop, ih]

theorem simplifyLoop_getElem_mid (xs : List IRInstruction) (i : IRInstruction)
    (ys : List IRInstruction) :
    (simplifyLoop (xs ++ i :: ys)).1[xs.length]? = some (simplifyInstr i).1 := by
  rw [simplifyLoop_fst, List.map_append, List.map_cons,
    List.getElem?_append_right (by simp)]
  simp

theorem operandValue_imm (ρ : String → Int) (v : Int) : operandValue ρ (Operand.imm v) = v := by
  simp [operandValue, Operand.imm]

theorem simplifyTable_result (op : IROp) (r : Option Operand) (b1 b2 : Operand) (sw : Bool) :
    (simplifyTable op r b1 b2 sw).1.result = r := by
  unfold simplifyTable
  simp only
  repeat (first | rfl | split)

/-- The table rewriting preserves the 32-bit value of the instruction. -/
theorem simplifyTable_preserves (ρ : String → Int) (op : IROp) (r : Option Operand)
    (b1 b2 : Operand) (sw : Bool)
    (h1 : inInt32 (operandValue ρ b1)) (h2 : inInt32 b2.value) :
    evalInstr ρ (simplifyTable op r b1 b2 sw).1 =
      evalInstr ρ { op := op, result := r, arg1 := some b1, arg2 := some b2 } := by
  unfold simplifyTable
  simp only
  by_cases hty : b2.type = OperandType.IMM
  · have hv : operandValue ρ b2 = b2.value := by simp [operandValue, hty]
    simp only [hty, if_true]
    by_cases hmul : op = IROp.MUL
    · subst hmul
      simp only [if_true]
      by_cases hz : b2.value = 0
      · simp [hz, evalInstr, hv, operandValue_imm, wrap32]
      · by_cases ho : b2.value = 1
        · simp [hz, ho, evalInstr, hv, wrap32_of_inInt32 _ h1]
        · simp only [hz, ho, if_false]
          cases hp : isPowerOfTwo b2.value with
          | none => rfl
          | some k =>
            obtain ⟨j, hk, hn⟩ := isPowerOfTwo_some _ _ hp
            have hj : j < 31 := by
              by_contra hc
              have : (2 : Int) ^ 31 ≤ 2 ^ j := pow_le_pow_right₀ (by norm_num) (by omega)
              unfold inInt32 at h2
              rw [hn] at h2
              omega
            subst hk
            have hr : (j : Int) < 32 := by omega
            simp [evalInstr, operandValue_imm, hv, hr, hn]
    · by_cases hdiv : op = IROp.DIV
      · subst hdiv
        by_cases ho : b2.value = 1
        · simp [ho, evalInstr, hv, wrap32_of_inInt32 _ h1]
        · simp [ho]
      · by_cases hadd : op = IROp.ADD
        · subst hadd
          by_cases hz : b2.value = 0
          · simp [hz, evalInstr, hv, wrap32_of_inInt32 _ h1]
          · simp [hz]
        · by_cases hsub : op = IROp.SUB
          · subst hsub
            by_cases hz : b2.value = 0
            · simp [hz, evalInstr, hv, wrap32_of_inInt32 _ h1]
            · simp [hz]
          · simp [hmul, hdiv, hadd, hsub]
  · simp [hty]

theorem operandValue_inInt32 (ρ : String → Int) (hρ : ∀ s, inInt32 (ρ s)) (o : Operand)
    (h : inInt32 o.value) : inInt32 (operandValue ρ o) := by
  unfold operandValue
  split
  · exact h
  · exact hρ _

/-- The loop body preserves the 32-bit value and the result operand of the instruction. -/
theorem simplifyInstr_preserves (ρ : String → Int) (hρ : ∀ s, inInt32 (ρ s))
    (I : IRInstruction) (hI : immediatesInRange I) :
    evalInstr ρ (simplifyInstr I).1 = evalInstr ρ I ∧ (simplifyInstr I).1.result = I.result := by
  obtain ⟨op, r, arg1, arg2⟩ := I
  cases arg1 with
  | none => exact ⟨rfl, rfl⟩
  | some a1 =>
    cases arg2 with
    | none => exact ⟨rfl, rfl⟩
    | some a2 =>
      have r1 : inInt32 a1.value := hI.1 a1 rfl
      have r2 : inInt32 a2.value := hI.2 a2 rfl
      simp only [simplifyInstr]
      split
      · rename_i hsw
        refine ⟨?_, simplifyTable_result _ _ _ _ _⟩
        rw [simplifyTable_preserves ρ op r a2 a1 true (operandValue_inInt32 ρ hρ _ r2) r1]
        rcases hsw.2.2 with h | h <;> subst h <;>
          simp [evalInstr, Int.add_comm, Int.mul_comm]
      · refine ⟨?_, simplifyTable_result _ _ _ _ _⟩
        exact simplifyTable_preserves ρ op r a1 a2 false (operandValue_inInt32 ρ hρ _ r1) r2

/-- C3: every rewrite made by `passAlgebraicSimplification` preserves the value the
instruction computes: for every environment of 32-bit values (negative ones
included) and every instruction of the block, the instruction at the same position
of the output has the same result operand and evaluates, under 32-bit
two's-complement arithmetic, to the same value as the original; in particular
`MUL x, #2^k` (1 ≤ k ≤ 30) and its rewriting `SLL x, #k` agree. -/
theorem C3_algebraic_simplification_preserves_value
    (blk : BasicBlock) (pre post : List IRInstruction) (I : IRInstruction)
    (ρ : String → Int)
    (hρ : ∀ s, inInt32 (ρ s))
    (hI : immediatesInRange I)
    (hblk : blk.instructions = pre ++ I :: post) :
    ∃ J, (passAlgebraicSimplification blk).1.instructions[pre.length]? = some J ∧
      J.result = I.result ∧ evalInstr ρ J = evalInstr ρ I ∧
      (∀ (k : Nat) (x r : Operand), 1 ≤ k → k ≤ 30 → x.type ≠ OperandType.IMM →
        I = { op := IROp.MUL, result := some r, arg1 := some x,
              arg2 := some (Operand.imm (2 ^ k)) } →
        J = { op := IROp.SLL, result := some r, arg1 := some x,
              arg2 := some (Operand.imm (k : Int)) } ∧
        evalInstr ρ J = some (wrap32 (ρ x.toString * 2 ^ k))) := by
  refine ⟨(simplifyInstr I).1, ?_, (simplifyInstr_preserves ρ hρ I hI).2,
    (simplifyInstr_preserves ρ hρ I hI).1, ?_⟩
  · simp only [passAlgebraicSimplification, hblk]
    exact simplifyLoop_getElem_mid _ _ _
  · intro k x r hk1 hk30 hx hIe
    have h2k : (2 : Int) ^ k ≠ 0 ∧ (2 : Int) ^ k ≠ 1 := by
      have : (2 : Int) ^ 1 ≤ 2 ^ k := pow_le_pow_right₀ (by norm_num) hk1
      omega
    have hJ : (simplifyInstr I).1 =
        { op := IROp.SLL, result := some r, arg1 := some x,
          arg2 := some (Operand.imm (k : Int)) } := by
      subst hIe
      simp [simplifyInstr, simplifyTable, Operand.imm, hx, h2k, isPowerOfTwo_pow]
    refine ⟨hJ, ?_⟩
    rw [hJ]
    have hr : (k : Int) < 32 := by omega
    simp [evalInstr, operandValue, Operand.imm, hx, hr]

/-- Witness for C3 on `MUL t0, x, #8` with x = -3: the output is `SLL t0, x, #3` and
evaluates to -24. -/
theorem C3_algebraic_simplification_preserves_value_witness :
    (∀ s : String, inInt32 ((fun _ => (-3 : Int)) s)) ∧ immediatesInRange exMulX8 ∧
    ∃ J, (passAlgebraicSimplification { id := 0, instructions := [exMulX8] }).1.instructions[0]? =
        some J ∧
      J = { op := IROp.SLL, result := some exT0, arg1 := some exVarX,
            arg2 := some (Operand.imm 3) } ∧
      evalInstr (fun _ => (-3 : Int)) J = some (-24) := by
  have hρ : ∀ s : String, inInt32 ((fun _ => (-3 : Int)) s) := fun _ => by
    show inInt32 (-3)
    decide
  have hI : immediatesInRange exMulX8 := by
    constructor
    · intro o h
      have e : exVarX = o := Option.some.inj h
      subst e; decide
    · intro o h
      have e : Operand.imm 8 = o := Option.some.inj h
      subst e; decide
  refine ⟨hρ, hI, ?_⟩
  obtain ⟨J, hout, _, _, hsll⟩ :=
    C3_algebraic_simplification_preserves_value { id := 0, instructions := [exMulX8] } [] []
      exMulX8 (fun _ => (-3 : Int)) hρ hI rfl
  have h3 := hsll 3 exVarX exT0 (by decide) (by decide) (by decide) rfl
  refine ⟨J, hout, h3.1, ?_⟩
  rw [h3.2]
  decide

/-- The loop body in terms of the swapped instruction of the specification. -/
theorem simplifyInstr_via_specSwap (I : IRInstruction) :
    (∃ x y sw, (specSwap I).arg1 = some x ∧ (specSwap I).arg2 = some y ∧
      (simplifyInstr I).1 = (simplifyTable (specSwap I).op (specSwap I).result x y sw).1 ∧
      specSwap I = { op := (specSwap I).op, result := (specSwap I).result, arg1 := some x,
                     arg2 := some y }) ∨
    (((specSwap I).arg1 = none ∨ (specSwap I).arg2 = none) ∧ (simplifyInstr I).1 = specSwap I) := by
  obtain ⟨op, r, arg1, arg2⟩ := I
  cases arg1 with
  | none => right; exact ⟨Or.inl rfl, rfl⟩
  | some a1 =>
    cases arg2 with
    | none => right; exact ⟨Or.inr rfl, rfl⟩
    | some a2 =>
      left
      by_cases hc : a1.type = OperandType.IMM ∧ a2.type ≠ OperandType.IMM ∧
          (op = IROp.ADD ∨ op = IROp.MUL)
      · have hc2 : (op = IROp.ADD ∨ op = IROp.MUL) ∧ a1.type = OperandType.IMM ∧
            a2.type ≠ OperandType.IMM := ⟨hc.2.2, hc.1, hc.2.1⟩
        have e1 : specSwap { op := op, result := r, arg1 := some a1, arg2 := some a2 } =
            { op := op, result := r, arg1 := some a2, arg2 := some a1 } := by
          simp only [specSwap]
          exact if_pos hc2
        have e2 : simplifyInstr { op := op, result := r, arg1 := some a1, arg2 := some a2 } =
            simplifyTable op r a2 a1 true := by
          simp only [simplifyInstr]
          exact if_pos hc
        rw [e1, e2]
        exact ⟨a2, a1, true, rfl, rfl, rfl, rfl⟩
      · have hc2 : ¬ ((op = IROp.ADD ∨ op = IROp.MUL) ∧ a1.type = OperandType.IMM ∧
            a2.type ≠ OperandType.IMM) := fun h => hc ⟨h.2.1, h.2.2, h.1⟩
        have e1 : specSwap { op := op, result := r, arg1 := some a1, arg2 := some a2 } =
            { op := op, result := r, arg1 := some a1, arg2 := some a2 } := by
          simp only [specSwap]
          exact if_neg hc2
        have e2 : simplifyInstr { op := op, result := r, arg1 := some a1, arg2 := some a2 } =
            simplifyTable op r a1 a2 false := by
          simp only [simplifyInstr]
          exact if_neg hc
        rw [e1, e2]
        exact ⟨a1, a2, false, rfl, rfl, rfl, rfl⟩

theorem two_pow_ge_two (k : Nat) (hk : 1 ≤ k) : (2 : Int) ≤ 2 ^ k := by
  have : (2 : Int) ^ 1 ≤ 2 ^ k := pow_le_pow_right₀ (by norm_num) hk
  omega

theorem simplifyTable_op (op : IROp) (r : Option Operand) (x y : Operand) (sw : Bool) :
    (simplifyTable op r x y sw).1.op = op ∨ (simplifyTable op r x y sw).1.op = IROp.ASSIGN ∨
      (simplifyTable op r x y sw).1.op = IROp.SLL := by
  unfold simplifyTable
  simp only
  split_ifs <;> (try split) <;> simp

/-- The table part of the loop body implements the rows of the specification's table
and nothing else. -/
theorem simplifyTable_spec (op : IROp) (r : Option Operand) (x y : Operand) (sw : Bool) :
    specTable { op := op, result := r, arg1 := some x, arg2 := some y }
      (simplifyTable op r x y sw).1 ∧
    (¬ specTableApplies { op := op, result := r, arg1 := some x, arg2 := some y } →
      (simplifyTable op r x y sw).1 = { op := op, result := r, arg1 := some x, arg2 := some y }) ∧
    ((simplifyTable op r x y sw).1.op = IROp.SRA → op = IROp.SRA) := by
  refine ⟨?_, ?_, ?_⟩
  · intro x2 y2 hx hy hty
    have ex : x = x2 := Option.some.inj hx
    have ey : y = y2 := Option.some.inj hy
    subst ex ey
    refine ⟨?_, ?_, ?_, ?_⟩
    · intro hop hv
      replace hop : op = IROp.MUL := hop
      subst hop
      simp [simplifyTable, hty, hv]
    · intro hop hv
      replace hop : op = IROp.MUL ∨ op = IROp.DIV := hop
      rcases hop with h | h <;> subst h <;> simp [simplifyTable, hty, hv]
    · intro hop k hk hv
      replace hop : op = IROp.MUL := hop
      subst hop
      have h2 := two_pow_ge_two k hk
      have h0 : ¬ ((2 : Int) ^ k = 0) := by omega
      have h1 : ¬ ((2 : Int) ^ k = 1) := by omega
      simp [simplifyTable, hty, hv, h0, h1, isPowerOfTwo_pow]
    · intro hop hv
      replace hop : op = IROp.ADD ∨ op = IROp.SUB := hop
      rcases hop with h | h <;> subst h <;> simp [simplifyTable, hty, hv]
  · intro hna
    unfold simplifyTable
    simp only
    by_cases hty : y.type = OperandType.IMM
    · have hrow : ¬ ((op = IROp.MUL ∧ (y.value = 0 ∨ y.value = 1 ∨
            ∃ k : Nat, 1 ≤ k ∧ y.value = 2 ^ k)) ∨
          (op = IROp.DIV ∧ y.value = 1) ∨ ((op = IROp.ADD ∨ op = IROp.SUB) ∧ y.value = 0)) :=
        fun h => hna ⟨x, y, rfl, rfl, hty, h⟩
      simp only [hty, if_true]
      by_cases hmul : op = IROp.MUL
      · have h0 : ¬ y.value = 0 := fun h => hrow (Or.inl ⟨hmul, Or.inl h⟩)
        have h1 : ¬ y.value = 1 := fun h => hrow (Or.inl ⟨hmul, Or.inr (Or.inl h)⟩)
        simp only [hmul, if_true, h0, h1, if_false]
        cases hp : isPowerOfTwo y.value with
        | none => rfl
        | some k =>
          exfalso
          obtain ⟨j, _, hn⟩ := isPowerOfTwo_some _ _ hp
          have hj : 1 ≤ j := by
            rcases Nat.eq_zero_or_pos j with h | h
            · subst h; simp at hn; exact absurd hn h1
            · exact h
          exact hrow (Or.inl ⟨hmul, Or.inr (Or.inr ⟨j, hj, hn⟩)⟩)
      · by_cases hdiv : op = IROp.DIV
        · have h1 : ¬ y.value = 1 := fun h => hrow (Or.inr (Or.inl ⟨hdiv, h⟩))
          simp [hdiv, h1]
        · by_cases hadd : op = IROp.ADD
          · have h0 : ¬ y.value = 0 := fun h => hrow (Or.inr (Or.inr ⟨Or.inl hadd, h⟩))
            simp [hadd, h0]
          · by_cases hsub : op = IROp.SUB
            · have h0 : ¬ y.value = 0 := fun h => hrow (Or.inr (Or.inr ⟨Or.inr hsub, h⟩))
              simp [hsub, h0]
            · simp [hmul, hdiv, hadd, hsub]
    · simp [hty]
  · intro h
    rcases simplifyTable_op op r x y sw with e | e | e
    · rw [← e]; exact h
    · rw [e] at h; exact absurd h (by decide)
    · rw [e] at h; exact absurd h (by decide)

theorem specSwap_op (I : IRInstruction) : (specSwap I).op = I.op := by
  unfold specSwap
  split
  · split <;> rfl
  · rfl

theorem specSwap_of_nonimm_arg1 (op : IROp) (r : Option Operand) (x y : Operand)
    (h : x.type ≠ OperandType.IMM ∨ (op ≠ IROp.ADD ∧ op ≠ IROp.MUL)) :
    specSwap { op := op, result := r, arg1 := some x, arg2 := some y } =
      { op := op, result := r, arg1 := some x, arg2 := some y } := by
  simp only [specSwap]
  apply if_neg
  rintro ⟨h1, h2, _⟩
  rcases h with h | h
  · exact h h2
  · rcases h1 with h1 | h1
    · exact h.1 h1
    · exact h.2 h1

/-- The loop body against the specification: table rows, nothing else, no shift-right. -/
theorem simplifyInstr_spec (I : IRInstruction) :
    specTable (specSwap I) (simplifyInstr I).1 ∧
    (¬ specTableApplies (specSwap I) → (simplifyInstr I).1 = specSwap I) ∧
    ((simplifyInstr I).1.op = IROp.SRA → I.op = IROp.SRA) := by
  rcases simplifyInstr_via_specSwap I with ⟨x, y, sw, _, _, hJ, hN⟩ | ⟨hnone, hJ⟩
  · have hs := simplifyTable_spec (specSwap I).op (specSwap I).result x y sw
    rw [← hN, ← hJ] at hs
    refine ⟨hs.1, hs.2.1, fun h => ?_⟩
    rw [← specSwap_op I]
    exact hs.2.2 h
  · rw [hJ]
    refine ⟨?_, fun _ => rfl, fun h => ?_⟩
    · intro x y hx hy _
      rcases hnone with h | h
      · rw [h] at hx; exact absurd hx (by simp)
      · rw [h] at hy; exact absurd hy (by simp)
    · rw [← specSwap_op I]; exact h

/-- The table of `passAlgebraicSimplification` on values (operands as values, not as
shared objects). For the instruction I at any position of the block, with N the
instruction after the operand swap (ADD or MUL with immediate arg1 and non-immediate
arg2), the output J at the same position is: `ASSIGN r, #0` for MUL by 0;
`ASSIGN r, arg1` for MUL or DIV by 1 and for ADD or SUB of 0; `SLL r, arg1, #k` for MUL
by 2^k with k ≥ 1 (so `MUL t0, x, #8` becomes `SLL t0, x, #3`); N itself in every
other case, in particular a DIV by 0 or by 2^k with k ≥ 1 is left unchanged; and J is a
shift-right only if I already was one. -/
theorem passAlgebraicSimplification_table
    (blk : BasicBlock) (pre post : List IRInstruction) (I : IRInstruction)
    (hblk : blk.instructions = pre ++ I :: post) :
    ∃ J, (passAlgebraicSimplification blk).1.instructions[pre.length]? = some J ∧
      specTable (specSwap I) J ∧
      (¬ specTableApplies (specSwap I) → J = specSwap I) ∧
      (∀ (r : Option Operand) (x y : Operand),
        I = { op := IROp.DIV, result := r, arg1 := some x, arg2 := some y } →
        y.type = OperandType.IMM →
        (y.value = 0 ∨ ∃ k : Nat, 1 ≤ k ∧ y.value = 2 ^ k) → J = I) ∧
      (∀ (r : Option Operand) (x : Operand), x.type ≠ OperandType.IMM →
        I = { op := IROp.MUL, result := r, arg1 := some x, arg2 := some (Operand.imm 8) } →
        J = { op := IROp.SLL, result := r, arg1 := some x, arg2 := some (Operand.imm 3) }) ∧
      (J.op = IROp.SRA → I.op = IROp.SRA) := by
  obtain ⟨htab, hno, hsra⟩ := simplifyInstr_spec I
  refine ⟨(simplifyInstr I).1, ?_, htab, hno, ?_, ?_, hsra⟩
  · simp only [passAlgebraicSimplification, hblk]
    exact simplifyLoop_getElem_mid _ _ _
  · intro r x y hI hty hv
    subst hI
    have hsw := specSwap_of_nonimm_arg1 IROp.DIV r x y (Or.inr ⟨by decide, by decide⟩)
    rw [hsw] at hno
    apply hno
    rintro ⟨x2, y2, hx, hy, _, hrow⟩
    have ey : y = y2 := Option.some.inj hy
    subst ey
    rcases hrow with ⟨h, _⟩ | ⟨_, h1⟩ | ⟨h | h, _⟩
    · exact absurd (show IROp.DIV = IROp.MUL from h) (by decide)
    · rcases hv with h0 | ⟨k, hk, h2⟩
      · omega
      · have := two_pow_ge_two k hk
        omega
    · exact absurd (show IROp.DIV = IROp.ADD from h) (by decide)
    · exact absurd (show IROp.DIV = IROp.SUB from h) (by decide)
  · intro r x hx hI
    subst hI
    have hsw := specSwap_of_nonimm_arg1 IROp.MUL r x (Operand.imm 8) (Or.inl hx)
    rw [hsw] at htab
    exact (htab x (Operand.imm 8) rfl rfl rfl).2.2.1 rfl 3 (by decide) rfl

/-- The table on the block `MUL t0, x, #8`: the output is `SLL t0, x, #3`. -/
theorem passAlgebraicSimplification_table_example :
    ∃ J, (passAlgebraicSimplification { id := 0, instructions := [exMulX8] }).1.instructions[0]? =
        some J ∧
      J = { op := IROp.SLL, result := some exT0, arg1 := some exVarX,
            arg2 := some (Operand.imm 3) } := by
  obtain ⟨J, hout, _, _, _, hmul, _⟩ :=
    passAlgebraicSimplification_table { id := 0, instructions := [exMulX8] } [] [] exMulX8 rfl
  exact ⟨J, hout, hmul (some exT0) exVarX (by decide) rfl⟩

/-! ### Algebraic simplification on operand objects -/

theorem storeRead_delete_ne (h : OperandStore) (p q : Nat) (hne : p ≠ q) :
    storeRead (storeDelete h q) p = storeRead h p := by
  simp only [storeRead, storeDelete]
  rw [List.getElem?_set_ne (fun e => hne e.symm)]

theorem storeRead_lt (h : OperandStore) (p : Nat) (o : Operand) (hp : storeRead h p = some o) :
    p < h.length := by
  by_contra hc
  simp only [storeRead] at hp
  rw [List.getElem?_eq_none (by omega)] at hp
  simp at hp

theorem storeRead_new_old (h : OperandStore) (o x : Operand) (p : Nat)
    (hp : storeRead h p = some x) : storeRead (storeNew h o).2 p = some x := by
  have hlt := storeRead_lt h p x hp
  simp only [storeRead, storeNew] at hp ⊢
  rw [List.getElem?_append_left hlt]
  exact hp

theorem storeRead_new_self (h : OperandStore) (o : Operand) :
    storeRead (storeNew h o).2 (storeNew h o).1 = some o := by
  simp [storeRead, storeNew]

theorem storeDelete_length (h : OperandStore) (q : Nat) :
    (storeDelete h q).length = h.length := by
  simp [storeDelete]

theorem readField_delete_ne (h : OperandStore) (p : Option Nat) (q : Nat)
    (hne : p ≠ some q) : readField (storeDelete h q) p = readField h p := by
  cases p with
  | none => rfl
  | some x =>
    simp only [readField]
    rw [storeRead_delete_ne h x q (fun e => hne (by rw [e]))]

theorem readField_new_old (h : OperandStore) (o : Operand) (p : Option Nat) (r : Option Operand)
    (hp : readField h p = some r) : readField (storeNew h o).2 p = some r := by
  cases p with
  | none => exact hp
  | some x =>
    simp only [readField] at hp ⊢
    cases hx : storeRead h x with
    | none => rw [hx] at hp; simp at hp
    | some y =>
      rw [hx] at hp
      rw [storeRead_new_old h o y x hx]
      exact hp

theorem view_eq (h : OperandStore) (op : IROp) (result a1 a2 : Option Nat)
    (r x y : Option Operand) (hr : readField h result = some r) (hx : readField h a1 = some x)
    (hy : readField h a2 = some y) :
    InstrRef.view h { op := op, result := result, arg1 := a1, arg2 := a2 } =
      some { op := op, result := r, arg1 := x, arg2 := y } := by
  simp only [InstrRef.view, hr, hx, hy]

/-- The rewriting on pointers reads as the rewriting on values when the three pointers of
the instruction are different objects. -/
theorem simplifyTableRef_view (h : OperandStore) (op : IROp) (result : Option Nat)
    (q1 q2 : Nat) (b1 b2 : Operand) (r : Option Operand) (sw : Bool)
    (h1 : storeRead h q1 = some b1) (h2 : storeRead h q2 = some b2)
    (hr : readField h result = some r)
    (d1 : result ≠ some q1) (d2 : result ≠ some q2) (d3 : q1 ≠ q2) :
    (simplifyTableRef h op result q1 q2 b2 sw).2.1.view (simplifyTableRef h op result q1 q2 b2 sw).1 =
        some (simplifyTable op r b1 b2 sw).1 ∧
      (simplifyTableRef h op result q1 q2 b2 sw).2.2 = (simplifyTable op r b1 b2 sw).2 := by
  have f1 : readField h (some q1) = some (some b1) := by simp [readField, h1]
  have f2 : readField h (some q2) = some (some b2) := by simp [readField, h2]
  have keep : InstrRef.view h { op := op, result := result, arg1 := some q1, arg2 := some q2 } =
      some { op := op, result := r, arg1 := some b1, arg2 := some b2 } :=
    view_eq h op result (some q1) (some q2) r (some b1) (some b2) hr f1 f2
  have hrd : readField (storeDelete h q2) result = some r := by
    rw [readField_delete_ne h result q2 d2]; exact hr
  have f1d : readField (storeDelete h q2) (some q1) = some (some b1) := by
    rw [readField_delete_ne h (some q1) q2 (by intro e; exact d3 (Option.some.inj e))]; exact f1
  have toAssign : InstrRef.view (storeDelete h q2)
      { op := IROp.ASSIGN, result := result, arg1 := some q1, arg2 := none } =
      some { op := IROp.ASSIGN, result := r, arg1 := some b1, arg2 := none } :=
    view_eq _ IROp.ASSIGN result (some q1) none r (some b1) none hrd f1d rfl
  unfold simplifyTableRef simplifyTable
  by_cases hi : b2.type = OperandType.IMM
  · simp only [hi, if_true]
    by_cases hm : op = IROp.MUL
    · simp only [hm, if_true]
      by_cases h0 : b2.value = 0
      · simp only [h0, if_true, and_true]
        have e1 : readField (storeDelete h q1) result = some r := by
          rw [readField_delete_ne h result q1 d1]; exact hr
        have e2 := readField_new_old (storeDelete h q1) (Operand.imm 0) result r e1
        have hq2 : q2 < (storeDelete h q1).length := by
          rw [storeDelete_length]; exact storeRead_lt h q2 b2 h2
        have hne : (storeNew (storeDelete h q1) (Operand.imm 0)).1 ≠ q2 := by
          simp only [storeNew]; omega
        have hres : result ≠ some q2 := d2
        apply view_eq
        · rw [readField_delete_ne _ result q2 hres]; exact e2
        · rw [readField_delete_ne _ _ q2 (by intro e; exact hne (Option.some.inj e))]
          simp only [readField, storeRead_new_self, Option.map_some']
        · rfl
      · simp only [h0, if_false]
        by_cases h1v : b2.value = 1
        · simp only [h1v, if_true, and_true]
          exact toAssign
        · simp only [h1v, if_false]
          cases hk : isPowerOfTwo b2.value with
          | none =>
            simp only [and_true]
            rw [hm] at keep
            exact keep
          | some k =>
            simp only [and_true]
            apply view_eq
            · exact readField_new_old _ _ result r hrd
            · exact readField_new_old _ _ (some q1) (some b1) f1d
            · simp only [readField, storeRead_new_self, Option.map_some']
    · simp only [hm, if_false]
      by_cases hd : op = IROp.DIV
      · simp only [hd, if_true]
        rw [hd] at keep
        split_ifs
        · exact ⟨toAssign, rfl⟩
        · exact ⟨keep, rfl⟩
      · simp only [hd, if_false]
        by_cases ha : op = IROp.ADD
        · simp only [ha, if_true]
          rw [ha] at keep
          split_ifs
          · exact ⟨toAssign, rfl⟩
          · exact ⟨keep, rfl⟩
        · simp only [ha, if_false]
          by_cases hs : op = IROp.SUB
          · simp only [hs, if_true]
            rw [hs] at keep
            split_ifs
            · exact ⟨toAssign, rfl⟩
            · exact ⟨keep, rfl⟩
          · simp only [hs, if_false]
            exact ⟨keep, trivial⟩
  · simp only [hi, if_false]
    exact ⟨keep, trivial⟩

/-- The loop body on pointers reads as the loop body on values when the three pointers of
the instruction are different objects: the rewritten instruction is the one of the table. -/
theorem simplifyRef_view (h : OperandStore) (instr : InstrRef) (I : IRInstruction)
    (hv : instr.view h = some I)
    (d1 : ∀ p, instr.result = some p → instr.arg1 ≠ some p ∧ instr.arg2 ≠ some p)
    (d2 : ∀ p, instr.arg1 = some p → instr.arg2 ≠ some p) :
    ∃ s, simplifyRef h instr = some s ∧ s.2.1.view s.1 = some (simplifyInstr I).1 ∧
      s.2.2 = (simplifyInstr I).2 := by
  obtain ⟨op, result, arg1, arg2⟩ := instr
  simp only [InstrRef.view] at hv
  cases hr : readField h result with
  | none => rw [hr] at hv; simp at hv
  | some r =>
    cases ha : readField h arg1 with
    | none => rw [hr, ha] at hv; simp at hv
    | some x =>
      cases hb : readField h arg2 with
      | none => rw [hr, ha, hb] at hv; simp at hv
      | some y =>
        rw [hr, ha, hb] at hv
        simp only [Option.some.injEq] at hv
        subst hv
        cases arg1 with
        | none =>
          simp only [readField, Option.some.injEq] at ha
          subst ha
          refine ⟨_, rfl, ?_, rfl⟩
          simp only [simplifyInstr]
          exact view_eq h op result none arg2 r none y hr rfl hb
        | some p1 =>
          cases arg2 with
          | none =>
            simp only [readField, Option.some.injEq] at hb
            subst hb
            refine ⟨_, rfl, ?_, ?_⟩
            · have : (simplifyInstr { op := op, result := r, arg1 := x, arg2 := none }).1 =
                  { op := op, result := r, arg1 := x, arg2 := none } := by
                cases x <;> rfl
              rw [this]
              exact view_eq h op result (some p1) none r x none hr ha rfl
            · cases x <;> rfl
          | some p2 =>
            simp only [readField] at ha hb
            cases h1 : storeRead h p1 with
            | none => rw [h1] at ha; simp at ha
            | some a1 =>
              cases h2 : storeRead h p2 with
              | none => rw [h2] at hb; simp at hb
              | some a2 =>
                rw [h1] at ha
                rw [h2] at hb
                simp only [Option.map_some', Option.some.injEq] at ha hb
                subst ha hb
                have e12 : p1 ≠ p2 := fun e => d2 p1 rfl (by rw [e])
                have er1 : result ≠ some p1 := fun e => (d1 p1 e).1 rfl
                have er2 : result ≠ some p2 := fun e => (d1 p2 e).2 rfl
                simp only [simplifyRef, h1, h2, simplifyInstr]
                split_ifs with hsw
                · exact ⟨_, rfl, simplifyTableRef_view h op result p2 p1 a2 a1 r true h2 h1 hr
                    er2 er1 (fun e => e12 e.symm)⟩
                · exact ⟨_, rfl, simplifyTableRef_view h op result p1 p2 a1 a2 r false h1 h2 hr
                    er1 er2 e12⟩

/-- C4. The pass does not leave every other instruction unchanged: for MUL by 0 it
executes `delete instr->arg1`, and the object of a temporary is shared with the
instruction that defines it. On `ADD t0, x, b; MUL t1, t0, #0`, the IR of
`(x + b) * 0`, the MUL becomes `ASSIGN t1, #0` and the object of `t0` is freed, so the
result pointer of the ADD, to which no row of the table applies, points to a freed
object and the ADD can no longer be read, where the table on values leaves
`ADD t0, x, b` as it was. What does hold: an instruction whose three pointers are
different live objects is rewritten as the table on values says. -/
theorem C4_mul_by_zero_frees_shared_operand :
    exRefsMulZero.map (InstrRef.view exStoreMulZero) = [some exAddXB, some exMulT0Zero] ∧
    (passAlgebraicSimplification { id := 0, instructions := [exAddXB, exMulT0Zero] }).1.instructions =
      [exAddXB, { op := IROp.ASSIGN, result := some exT1, arg1 := some (Operand.imm 0) }] ∧
    simplifyRefLoop exStoreMulZero exRefsMulZero =
      some ([none, some exVarX, some exVarB, none, some exT1, some (Operand.imm 0)],
        [{ op := IROp.ADD, result := some 0, arg1 := some 1, arg2 := some 2 },
         { op := IROp.ASSIGN, result := some 4, arg1 := some 5, arg2 := none }], true) ∧
    (simplifyRefLoop exStoreMulZero exRefsMulZero).map
        (fun r => r.2.1.map (InstrRef.view r.1)) =
      some [none, some { op := IROp.ASSIGN, result := some exT1, arg1 := some (Operand.imm 0) }] ∧
    (∀ (h : OperandStore) (instr : InstrRef) (I : IRInstruction), instr.view h = some I →
      (∀ p, instr.result = some p → instr.arg1 ≠ some p ∧ instr.arg2 ≠ some p) →
      (∀ p, instr.arg1 = some p → instr.arg2 ≠ some p) →
      ∃ s, simplifyRef h instr = some s ∧ s.2.1.view s.1 = some (simplifyInstr I).1 ∧
        s.2.2 = (simplifyInstr I).2) := by
  exact ⟨by decide, by decide, by decide, by decide, simplifyRef_view⟩

/-! ### Copy propagation and local CSE on operand objects -/

/-- On values the pointer-level `tryReplace` is the lambda of `passCopyPropagation`: the
flag is the same and the operand read through the returned pointer is the operand
the lambda returns. -/
theorem tryReplaceRef_view (h : OperandStore) (copies : CopyMap) (q : Nat) (a : Operand)
    (ha : storeRead h q = some a) :
    ∃ s, tryReplaceRef h copies (some q) = some s ∧
      readField s.1 s.2.1 = some (tryReplace copies (some a)).1 ∧
      s.2.2 = (tryReplace copies (some a)).2 := by
  simp only [tryReplaceRef, ha, tryReplace]
  cases hm : mapFind copies a.toString with
  | none => exact ⟨_, rfl, by simp [readField, ha], rfl⟩
  | some replacement =>
    by_cases himm : replacement.type = OperandType.IMM
    · simp only [if_pos himm]
      exact ⟨_, rfl, by simp [readField, ha], rfl⟩
    · simp only [if_neg himm]
      refine ⟨_, rfl, ?_, rfl⟩
      have hn := storeRead_new_self (storeDelete h q) replacement
      simp only [readField, hn, Option.map_some']

/-- The `delete` of `tryReplace` frees the object of a temporary that the defining
instruction still holds as its result: on `ASSIGN t0, x; ADD t1, t0, b` with the copy
`t0 -> x` recorded, replacing the first argument of the ADD frees the object at
address 0 and the ASSIGN can no longer be read. The `delete` of the rewriting of
`passLocalCSE` frees the first argument in the same way. -/
theorem tryReplaceRef_frees_shared_operand :
    exRefAssignT0X.view exStoreCopy =
      some { op := IROp.ASSIGN, result := some exT0, arg1 := some exVarX } ∧
    tryReplaceRef exStoreCopy [("t0", exVarX)] (some 0) =
      some ([none, some exVarX, some exT1, some exVarB, some exVarX], some 4, true) ∧
    exRefAssignT0X.view [none, some exVarX, some exT1, some exVarB, some exVarX] = none ∧
    (cseRewriteRef exStoreCopy { op := IROp.ADD, result := some 2, arg1 := some 0, arg2 := some 3 }
        "t9").1 =
      [none, some exVarX, some exT1, none, some (Operand.named "t9" OperandType.TEMP)] := by
  decide

/-! ### Local CSE across a call -/

/-- C5 (the code at the failing input): on `ADD t0, g, #1; CALL t1, f; ADD t2, g, #1`
with `g` a global variable, `passLocalCSE` keeps the expression `g + 1` available
across the call and rewrites the third instruction into `ASSIGN t2, t0`, so the
global is not read again after the call. -/
theorem C5_cse_reuses_global_expression_across_call :
    (passLocalCSE exCallBlock).1.instructions =
      [exAddG1, exCallF,
       { op := IROp.ASSIGN, result := some exT2, arg1 := some exT0, arg2 := none }] ∧
    (passLocalCSE exCallBlock).2 = true := by
  decide

/-- The sibling pass: `passCopyPropagation` drops the copy `t0 -> g` of a global at the
call, so the use of `t0` after the call is not replaced by `g`; without the call in
between it is. -/
theorem copyPropagation_invalidates_global_at_call :
    (passCopyPropagation exCopyCallBlock).1.instructions = exCopyCallBlock.instructions ∧
    (passCopyPropagation
        { id := 0,
          instructions :=
            [{ op := IROp.ASSIGN, result := some exT0, arg1 := some exGlobalG },
             { op := IROp.ASSIGN, result := some exT2, arg1 := some exT0 }] }).1.instructions =
      [{ op := IROp.ASSIGN, result := some exT0, arg1 := some exGlobalG },
       { op := IROp.ASSIGN, result := some exT2, arg1 := some exGlobalG }] := by
  decide

/-! ### The driver on dead scalar assignments -/

/-- Counterexample to C7 as stated: after `execute`, the function whose body is
`x = x;` still contains an ASSIGN instruction. -/
theorem C7_self_assignment_survives :
    ¬ (∀ i ∈ getOptimizedIR (execute { originalIR := selfAssignIR exVarX }),
        i.op ≠ IROp.ASSIGN) := by
  decide

/-- C7 as amended: `execute` leaves the IR of `x = x;` as it is, `ASSIGN x, x` included,
and turns `ADD t0, #3, #4; ASSIGN a, t0` into the single `ASSIGN a, #7`: the folded
definition of the temporary is eliminated, the assignment to the variable remains. -/
theorem C7_execute_keeps_variable_assignments :
    getOptimizedIR (execute { originalIR := selfAssignIR exVarX }) = selfAssignIR exVarX ∧
    getOptimizedIR (execute { originalIR := foldAssignIR exVarB }) =
      [exLabelF, { op := IROp.FUNC_ENTRY },
       { op := IROp.ASSIGN, result := some exVarB, arg1 := some (Operand.imm 7), arg2 := none },
       { op := IROp.FUNC_EXIT }] := by
  decide

/-! ### Dead-code elimination -/

theorem mem_nameOf (s : String) (o : Option Operand) :
    s ∈ nameOf o ↔ ∃ a, o = some a ∧ a.toString = s := by
  cases o with
  | none => simp [nameOf]
  | some a =>
    simp only [nameOf, List.mem_singleton, Option.some.injEq, exists_eq_left']
    exact eq_comm

theorem mem_usesOf (s : String) (i : IRInstruction) : s ∈ usesOf i ↔ usedBy s i := by
  unfold usesOf usedBy
  simp only [List.mem_append, mem_nameOf]
  constructor
  · rintro (((((h | h) | h) | h) | h) | h)
    · exact Or.inl h
    · exact Or.inr (Or.inl h)
    · split at h
      · exact Or.inl ((mem_nameOf _ _).1 h)
      · exact absurd h (List.not_mem_nil _)
    · split at h
      · rename_i hop
        exact Or.inr (Or.inr ⟨Or.inl hop, (mem_nameOf _ _).1 h⟩)
      · exact absurd h (List.not_mem_nil _)
    · split at h
      · rename_i hop
        exact Or.inr (Or.inr ⟨Or.inr (Or.inl hop), (mem_nameOf _ _).1 h⟩)
      · exact absurd h (List.not_mem_nil _)
    · split at h
      · rename_i hop
        exact Or.inr (Or.inr ⟨Or.inr (Or.inr hop), (mem_nameOf _ _).1 h⟩)
      · exact absurd h (List.not_mem_nil _)
  · rintro (h | h | ⟨hop | hop | hop, h⟩)
    · exact Or.inl (Or.inl (Or.inl (Or.inl (Or.inl h))))
    · exact Or.inl (Or.inl (Or.inl (Or.inl (Or.inr h))))
    · exact Or.inl (Or.inl (Or.inr (by rw [if_pos hop]; exact (mem_nameOf _ _).2 h)))
    · exact Or.inl (Or.inr (by rw [if_pos hop]; exact (mem_nameOf _ _).2 h))
    · exact Or.inr (by rw [if_pos hop]; exact (mem_nameOf _ _).2 h)

theorem mem_usedVarsOf (s : String) (xs : List IRInstruction) :
    s ∈ usedVarsOf xs ↔ ∃ i ∈ xs, usedBy s i := by
  induction xs with
  | nil => simp [usedVarsOf]
  | cons i rest ih => simp [usedVarsOf, ih, mem_usesOf]

theorem flatten_cons (n : String) (b : BasicBlock) (rest : List BasicBlock) :
    flatten { name := n, blocks := b :: rest } =
      b.instructions ++ flatten { name := n, blocks := rest } := by
  simp [flatten]

theorem mem_usedVars (s : String) (n : String) (blocks : List BasicBlock) :
    s ∈ usedVars blocks ↔ ∃ i ∈ flatten { name := n, blocks := blocks }, usedBy s i := by
  induction blocks with
  | nil => simp [usedVars, flatten]
  | cons b rest ih =>
    rw [flatten_cons]
    simp only [usedVars, List.mem_append, ih, mem_usedVarsOf]
    constructor
    · rintro (⟨i, hi, hu⟩ | ⟨i, hi, hu⟩)
      · exact ⟨i, Or.inl hi, hu⟩
      · exact ⟨i, Or.inr hi, hu⟩
    · rintro ⟨i, hi | hi, hu⟩
      · exact Or.inl ⟨i, hi, hu⟩
      · exact Or.inr ⟨i, hi, hu⟩

theorem dceBlock_fst (used : List String) (xs : List IRInstruction) :
    (dceBlock used xs).1 = xs.filter (fun i => !dceRemoves used i) := by
  induction xs with
  | nil => rfl
  | cons i rest ih =>
    simp only [dceBlock]
    by_cases h : dceRemoves used i = true
    · simp [h, ih]
    · simp [h, ih]

theorem flatten_dceBlocks (used : List String) (n : String) (blocks : List BasicBlock) :
    flatten { name := n, blocks := (dceBlocks used blocks).1 } =
      (flatten { name := n, blocks := blocks }).filter (fun i => !dceRemoves used i) := by
  induction blocks with
  | nil => rfl
  | cons b rest ih =>
    simp only [dceBlocks]
    rw [flatten_cons, flatten_cons, List.filter_append, ← ih, dceBlock_fst]

/-- The output of dead-code elimination is the input filtered by the `remove` decision. -/
theorem flatten_dce (func : Function) :
    flatten (passDeadCodeElimination func).1 =
      (flatten func).filter (fun i => !dceRemoves (usedVars func.blocks) i) := by
  obtain ⟨n, blocks⟩ := func
  exact flatten_dceBlocks _ n blocks

theorem decodeDigits_append (xs ys : List Char) :
    decodeDigits (xs ++ ys) = ys.foldl (fun acc c => 10 * acc + (c.toNat - 48)) (decodeDigits xs) := by
  simp [decodeDigits, List.foldl_append]

theorem digitChar_toNat (k : Nat) (h : k < 10) : (Nat.digitChar k).toNat - 48 = k := by
  interval_cases k <;> rfl

theorem toDigitsCore_append (fuel n : Nat) (ds : List Char) :
    Nat.toDigitsCore 10 fuel n ds = Nat.toDigitsCore 10 fuel n [] ++ ds := by
  induction fuel generalizing n ds with
  | zero => simp [Nat.toDigitsCore]
  | succ f ih =>
    simp only [Nat.toDigitsCore]
    split
    · simp
    · rw [ih (n / 10) (Nat.digitChar (n % 10) :: ds), ih (n / 10) [Nat.digitChar (n % 10)]]
      simp

theorem decode_toDigitsCore (fuel n : Nat) (h : n < fuel) :
    decodeDigits (Nat.toDigitsCore 10 fuel n []) = n := by
  induction fuel generalizing n with
  | zero => omega
  | succ f ih =>
    simp only [Nat.toDigitsCore]
    split
    · rename_i h0
      simp only [decodeDigits, List.foldl]
      rw [digitChar_toNat _ (Nat.mod_lt _ (by norm_num))]
      omega
    · rename_i h0
      rw [toDigitsCore_append, decodeDigits_append, ih (n / 10) (by omega)]
      simp only [List.foldl]
      rw [digitChar_toNat _ (Nat.mod_lt _ (by norm_num))]
      omega

theorem natRepr_injective (a b : Nat) (h : Nat.repr a = Nat.repr b) : a = b := by
  have h2 : Nat.toDigits 10 a = Nat.toDigits 10 b := by
    have := congrArg String.data h
    simpa [Nat.repr, List.asString] using this
  have ha := decode_toDigitsCore (a + 1) a (by omega)
  have hb := decode_toDigitsCore (b + 1) b (by omega)
  unfold Nat.toDigits at h2
  rw [h2] at ha
  omega

theorem labelName_injective (a b : Nat) (h : labelName a = labelName b) : a = b := by
  unfold labelName at h
  have h2 := congrArg String.data h
  simp only [String.data_append, List.append_cancel_left_eq] at h2
  apply natRepr_injective
  exact String.ext h2

theorem visitLAndExp_eq (a : LAndExp) (lt lf : Operand) (g : GenState) :
    visitLAndExp a lt lf g =
      { g with labelCounter := g.labelCounter + a.labels,
               instructions := g.instructions ++ andCode a lt lf g.labelCounter } := by
  induction a generalizing lt lf g with
  | leaf e =>
    simp [visitLAndExp, visitEqExp, emit, andCode, leafTail, LAndExp.labels, mkBeqz, mkJump]
  | and l e ih =>
    simp only [visitLAndExp, newLabel, ih, emitLabel, emit, visitEqExp, andCode, leafTail,
      LAndExp.labels, labelOperand, mkBeqz, mkJump, mkLabel]
    simp [Nat.add_assoc, Nat.add_comm 1]

theorem visitLOrExp_eq (c : LOrExp) (lt lf : Operand) (g : GenState) :
    visitLOrExp c lt lf g =
      { g with labelCounter := g.labelCounter + c.labels,
               instructions := g.instructions ++ orCode c lt lf g.labelCounter } := by
  induction c generalizing lt lf g with
  | land a => simp [visitLOrExp, visitLAndExp_eq, orCode, LOrExp.labels]
  | or l a ih =>
    simp only [visitLOrExp, newLabel, ih, emitLabel, emit, visitLAndExp_eq, orCode,
      LOrExp.labels, labelOperand, mkLabel]
    simp [Nat.add_assoc, Nat.add_comm 1]

theorem findLabel_append (xs ys : List IRInstruction) (name : String) :
    findLabel (xs ++ ys) name =
      match findLabel xs name with
      | some k => some k
      | none => (findLabel ys name).map (· + xs.length) := by
  induction xs with
  | nil => cases h : findLabel ys name <;> simp [findLabel, h]
  | cons i rest ih =>
    simp only [List.cons_append, findLabel]
    split
    · rfl
    · show Option.map (fun x => x + 1) (findLabel (rest ++ ys) name) = _
      rw [ih]
      cases h1 : findLabel rest name with
      | some k => simp
      | none =>
        cases h2 : findLabel ys name with
        | none => simp
        | some k => simp [Nat.add_assoc]

theorem findLabel_straight (xs : List IRInstruction) (name : String)
    (h : xs.all isStraight = true) : findLabel xs name = none := by
  induction xs with
  | nil => rfl
  | cons i rest ih =>
    simp only [List.all_cons, Bool.and_eq_true] at h
    have hi : i.op ≠ IROp.LABEL := by
      have := h.1
      simp only [isStraight, Bool.not_eq_true', Bool.or_eq_false_iff, decide_eq_false_iff_not] at this
      exact this.1.1
    simp [findLabel, hi, ih h.2]

theorem findLabel_leafTail (e : Leaf) (lt lf : Operand) (name : String)
    (h : e.code.all isStraight = true) : findLabel (leafTail e lt lf) name = none := by
  unfold leafTail
  rw [findLabel_append, findLabel_straight _ _ h]
  simp [findLabel, mkBeqz, mkJump]

theorem resultName_label (n : Nat) : resultName (mkLabel (labelOperand n)) = labelName n := rfl

theorem mkLabel_op (l : Operand) : (mkLabel l).op = IROp.LABEL := rfl

theorem findLabel_andCode_none (a : LAndExp) (lt lf : Operand) (n : Nat) (name : String)
    (hs : a.straight = true)
    (hn : ∀ k, n ≤ k → k < n + a.labels → name ≠ labelName k) :
    findLabel (andCode a lt lf n) name = none := by
  induction a generalizing lt lf n with
  | leaf e => exact findLabel_leafTail e lt lf name hs
  | and l e ih =>
    simp only [LAndExp.straight, Bool.and_eq_true] at hs
    simp only [LAndExp.labels] at hn
    simp only [andCode]
    rw [findLabel_append, ih _ _ _ hs.1 (fun k h1 h2 => hn k (by omega) (by omega))]
    have hne : ¬ (labelName n = name) := fun h => hn n (by omega) (by omega) h.symm
    simp [findLabel, resultName_label, mkLabel_op, hne, findLabel_leafTail e lt lf name hs.2]

theorem findLabel_orCode_none (c : LOrExp) (lt lf : Operand) (n : Nat) (name : String)
    (hs : c.straight = true)
    (hn : ∀ k, n ≤ k → k < n + c.labels → name ≠ labelName k) :
    findLabel (orCode c lt lf n) name = none := by
  induction c generalizing lt lf n with
  | land a => exact findLabel_andCode_none a lt lf n name hs hn
  | or l a ih =>
    simp only [LOrExp.straight, Bool.and_eq_true] at hs
    simp only [LOrExp.labels] at hn
    simp only [orCode]
    rw [findLabel_append, ih _ _ _ hs.1 (fun k h1 h2 => hn k (by omega) (by omega))]
    have hne : ¬ (labelName n = name) := fun h => hn n (by omega) (by omega) h.symm
    have ha := findLabel_andCode_none a lt lf (n + 1 + l.labels) name hs.2
      (fun k h1 h2 => hn k (by omega) (by omega))
    simp [findLabel, resultName_label, mkLabel_op, hne, ha]

/-- Position of a label that follows a segment in which it is not defined. -/
theorem findLabel_at (pre xs rest : List IRInstruction) (n : Nat)
    (h1 : findLabel pre (labelName n) = none) (h2 : findLabel xs (labelName n) = none) :
    findLabel (pre ++ (xs ++ (mkLabel (labelOperand n) :: rest))) (labelName n) =
      some (pre.length + xs.length) := by
  rw [findLabel_append, h1, findLabel_append, h2]
  simp [findLabel, resultName_label, mkLabel_op, Nat.add_comm]

theorem getElem?_mid {α : Type} (pre xs post : List α) (y : α) :
    (pre ++ (xs ++ (y :: post)))[pre.length + xs.length]? = some y := by
  rw [← List.append_assoc]
  have h : pre.length + xs.length = (pre ++ xs).length := by simp
  rw [h, List.getElem?_append_right (Nat.le_refl _)]
  simp

section RunLemmas

variable {σ : Type} (exec : IRInstruction → σ → σ) (valueOf : Operand → σ → Int)

theorem run_label (code : List IRInstruction) (fuel pc : Nat) (s : σ) (i : IRInstruction)
    (hi : code[pc]? = some i) (hop : i.op = IROp.LABEL) :
    run exec valueOf code (fuel + 1) pc s = run exec valueOf code fuel (pc + 1) s := by
  simp [run, hi, hop]

theorem run_jump (code : List IRInstruction) (fuel pc : Nat) (s : σ) (i : IRInstruction)
    (hi : code[pc]? = some i) (hop : i.op = IROp.JUMP) :
    run exec valueOf code (fuel + 1) pc s = jumpTo exec valueOf code fuel (resultName i) s := by
  simp [run, hi, hop, jumpTo]

theorem run_beqz_zero (code : List IRInstruction) (fuel pc : Nat) (s : σ) (i : IRInstruction)
    (v : Operand) (hi : code[pc]? = some i) (hop : i.op = IROp.BEQZ) (hv : i.arg1 = some v)
    (hz : valueOf v s = 0) :
    run exec valueOf code (fuel + 1) pc s = jumpTo exec valueOf code fuel (resultName i) s := by
  simp [run, hi, hop, hv, hz, jumpTo]

theorem run_beqz_nonzero (code : List IRInstruction) (fuel pc : Nat) (s : σ) (i : IRInstruction)
    (v : Operand) (hi : code[pc]? = some i) (hop : i.op = IROp.BEQZ) (hv : i.arg1 = some v)
    (hz : valueOf v s ≠ 0) :
    run exec valueOf code (fuel + 1) pc s = run exec valueOf code fuel (pc + 1) s := by
  simp [run, hi, hop, hv, hz]

theorem run_other (code : List IRInstruction) (fuel pc : Nat) (s : σ) (i : IRInstruction)
    (hi : code[pc]? = some i) (hop : isStraight i = true) :
    run exec valueOf code (fuel + 1) pc s = run exec valueOf code fuel (pc + 1) (exec i s) := by
  simp only [isStraight, Bool.not_eq_true', Bool.or_eq_false_iff, decide_eq_false_iff_not] at hop
  simp [run, hi, hop.1.1, hop.1.2, hop.2]

/-- Execution of a straight-line segment. -/
theorem run_straight (xs pre post : List IRInstruction) (fuel : Nat) (s : σ)
    (hx : xs.all isStraight = true) :
    run exec valueOf (pre ++ (xs ++ post)) (fuel + xs.length) pre.length s =
      run exec valueOf (pre ++ (xs ++ post)) fuel (pre.length + xs.length)
        (xs.foldl (fun st i => exec i st) s) := by
  induction xs generalizing pre s with
  | nil => simp
  | cons x rest ih =>
    simp only [List.all_cons, Bool.and_eq_true] at hx
    have hi : (pre ++ (x :: rest ++ post))[pre.length]? = some x := by
      have := getElem?_mid pre [] (rest ++ post) x
      simpa using this
    have e : pre ++ (x :: rest ++ post) = (pre ++ [x]) ++ (rest ++ post) := by simp
    rw [List.length_cons, ← Nat.add_assoc, run_other exec valueOf _ _ _ _ x hi hx.1]
    rw [e]
    have := ih (pre ++ [x]) (exec x s) hx.2
    simp only [List.length_append, List.length_singleton] at this
    rw [this]
    simp [Nat.add_assoc, Nat.add_comm 1]

/-- Execution of a leaf used as a condition. -/
theorem run_leafTail (e : Leaf) (lt lf : Operand) (pre post : List IRInstruction) (s : σ)
    (hs : e.code.all isStraight = true) :
    ∃ j, j ≤ (leafTail e lt lf).length ∧ ∀ fuel,
      run exec valueOf (pre ++ (leafTail e lt lf ++ post)) (fuel + j) pre.length s =
        jumpTo exec valueOf (pre ++ (leafTail e lt lf ++ post)) fuel
          (if (evalLeaf exec valueOf e s).1 then lt.name else lf.name)
          (evalLeaf exec valueOf e s).2 := by
  have ecode : pre ++ (leafTail e lt lf ++ post) =
      pre ++ (e.code ++ (mkBeqz lf e.val :: mkJump lt :: post)) := by
    simp [leafTail]
  have hb := getElem?_mid pre e.code (mkJump lt :: post) (mkBeqz lf e.val)
  have hj : (pre ++ (e.code ++ (mkBeqz lf e.val :: mkJump lt :: post)))[pre.length +
      e.code.length + 1]? = some (mkJump lt) := by
    have := getElem?_mid pre (e.code ++ [mkBeqz lf e.val]) post (mkJump lt)
    simpa [Nat.add_assoc] using this
  rw [ecode]
  by_cases hz : valueOf e.val (e.code.foldl (fun st i => exec i st) s) = 0
  · refine ⟨e.code.length + 1, by simp [leafTail], fun fuel => ?_⟩
    have h1 := run_straight exec valueOf e.code pre (mkBeqz lf e.val :: mkJump lt :: post)
      (fuel + 1) s hs
    have e1 : fuel + (e.code.length + 1) = fuel + 1 + e.code.length := by omega
    rw [e1, h1, run_beqz_zero exec valueOf _ _ _ _ _ e.val hb rfl rfl hz]
    simp [evalLeaf, hz, resultName, mkBeqz]
  · refine ⟨e.code.length + 2, by simp [leafTail], fun fuel => ?_⟩
    have h1 := run_straight exec valueOf e.code pre (mkBeqz lf e.val :: mkJump lt :: post)
      (fuel + 2) s hs
    have e1 : fuel + (e.code.length + 2) = fuel + 2 + e.code.length := by omega
    rw [e1, h1, run_beqz_nonzero exec valueOf _ _ _ _ _ e.val hb rfl rfl hz,
      run_jump exec valueOf _ _ _ _ _ hj rfl]
    simp [evalLeaf, hz, resultName, mkJump]

end RunLemmas

section RunCond

variable {σ : Type} (exec : IRInstruction → σ → σ) (valueOf : Operand → σ → Int)

theorem jumpTo_some (code : List IRInstruction) (fuel k : Nat) (name : String) (s : σ)
    (h : findLabel code name = some k) :
    jumpTo exec valueOf code fuel name s = run exec valueOf code fuel k s := by
  simp [jumpTo, h]

theorem jumpTo_none (code : List IRInstruction) (fuel : Nat) (name : String) (s : σ)
    (h : findLabel code name = none) :
    jumpTo exec valueOf code fuel name s = Outcome.exit name s := by
  simp [jumpTo, h]

theorem labelOperand_name (n : Nat) : (labelOperand n).name = labelName n := rfl

/-- Execution of the code of an `LAndExp` placed anywhere in a sequence whose earlier
part does not define its labels: control is transferred to the true label or to the
false label according to the short-circuit value, in the state C evaluation reaches. -/
theorem run_andCode (a : LAndExp) (lt lf : Operand) (n : Nat) (pre post : List IRInstruction)
    (s : σ) (hs : a.straight = true)
    (hpre : ∀ k, n ≤ k → k < n + a.labels → findLabel pre (labelName k) = none) :
    ∃ j, j ≤ (andCode a lt lf n).length ∧ ∀ fuel,
      run exec valueOf (pre ++ (andCode a lt lf n ++ post)) (fuel + j) pre.length s =
        jumpTo exec valueOf (pre ++ (andCode a lt lf n ++ post)) fuel
          (if (evalLAnd exec valueOf a s).1 then lt.name else lf.name)
          (evalLAnd exec valueOf a s).2 := by
  induction a generalizing lt lf n pre post s with
  | leaf e => exact run_leafTail exec valueOf e lt lf pre post s hs
  | and l e ih =>
    simp only [LAndExp.straight, Bool.and_eq_true] at hs
    simp only [LAndExp.labels] at hpre
    have ec : pre ++ (andCode (LAndExp.and l e) lt lf n ++ post) =
        pre ++ (andCode l (labelOperand n) lf (n + 1) ++
          (mkLabel (labelOperand n) :: (leafTail e lt lf ++ post))) := by
      simp [andCode]
    have ec2 : pre ++ (andCode l (labelOperand n) lf (n + 1) ++
          (mkLabel (labelOperand n) :: (leafTail e lt lf ++ post))) =
        (pre ++ (andCode l (labelOperand n) lf (n + 1) ++ [mkLabel (labelOperand n)])) ++
          (leafTail e lt lf ++ post) := by
      simp
    have hlen : (andCode (LAndExp.and l e) lt lf n).length =
        (andCode l (labelOperand n) lf (n + 1)).length + 1 + (leafTail e lt lf).length := by
      simp [andCode]; omega
    obtain ⟨j1, hj1, h1⟩ := ih (labelOperand n) lf (n + 1) pre
      (mkLabel (labelOperand n) :: (leafTail e lt lf ++ post)) s hs.1
      (fun k hk1 hk2 => hpre k (by omega) (by omega))
    rw [ec, hlen]
    by_cases hb : (evalLAnd exec valueOf l s).1 = true
    · obtain ⟨j2, hj2, h2⟩ := run_leafTail exec valueOf e lt lf
        (pre ++ (andCode l (labelOperand n) lf (n + 1) ++ [mkLabel (labelOperand n)])) post
        (evalLAnd exec valueOf l s).2 hs.2
      refine ⟨j2 + 1 + j1, by omega, fun fuel => ?_⟩
      have hf := findLabel_at pre (andCode l (labelOperand n) lf (n + 1))
        (leafTail e lt lf ++ post) n (hpre n (by omega) (by omega))
        (findLabel_andCode_none l _ _ _ _ hs.1
          (fun k hk1 hk2 h => by have := labelName_injective _ _ h; omega))
      have hl := getElem?_mid pre (andCode l (labelOperand n) lf (n + 1))
        (leafTail e lt lf ++ post) (mkLabel (labelOperand n))
      have e1 : fuel + (j2 + 1 + j1) = (fuel + j2 + 1) + j1 := by omega
      rw [e1, h1, hb]
      simp only [if_true, labelOperand_name]
      rw [jumpTo_some exec valueOf _ _ _ _ _ hf, run_label exec valueOf _ _ _ _ _ hl rfl]
      have h2f := h2 fuel
      rw [← ec2] at h2f
      simp only [List.length_append, List.length_singleton] at h2f
      rw [← Nat.add_assoc] at h2f
      rw [h2f]
      simp [evalLAnd, hb]
    · refine ⟨j1, by omega, fun fuel => ?_⟩
      rw [h1]
      simp [evalLAnd, hb]

/-- Execution of the code of an `LOrExp`, as for `run_andCode`. -/
theorem run_orCode (c : LOrExp) (lt lf : Operand) (n : Nat) (pre post : List IRInstruction)
    (s : σ) (hs : c.straight = true)
    (hpre : ∀ k, n ≤ k → k < n + c.labels → findLabel pre (labelName k) = none) :
    ∃ j, j ≤ (orCode c lt lf n).length ∧ ∀ fuel,
      run exec valueOf (pre ++ (orCode c lt lf n ++ post)) (fuel + j) pre.length s =
        jumpTo exec valueOf (pre ++ (orCode c lt lf n ++ post)) fuel
          (if (evalLOr exec valueOf c s).1 then lt.name else lf.name)
          (evalLOr exec valueOf c s).2 := by
  induction c generalizing lt lf n pre post s with
  | land a => exact run_andCode exec valueOf a lt lf n pre post s hs hpre
  | or l a ih =>
    simp only [LOrExp.straight, Bool.and_eq_true] at hs
    simp only [LOrExp.labels] at hpre
    have ec : pre ++ (orCode (LOrExp.or l a) lt lf n ++ post) =
        pre ++ (orCode l lt (labelOperand n) (n + 1) ++
          (mkLabel (labelOperand n) :: (andCode a lt lf (n + 1 + l.labels) ++ post))) := by
      simp [orCode]
    have ec2 : pre ++ (orCode l lt (labelOperand n) (n + 1) ++
          (mkLabel (labelOperand n) :: (andCode a lt lf (n + 1 + l.labels) ++ post))) =
        (pre ++ (orCode l lt (labelOperand n) (n + 1) ++ [mkLabel (labelOperand n)])) ++
          (andCode a lt lf (n + 1 + l.labels) ++ post) := by
      simp
    have hlen : (orCode (LOrExp.or l a) lt lf n).length =
        (orCode l lt (labelOperand n) (n + 1)).length + 1 +
          (andCode a lt lf (n + 1 + l.labels)).length := by
      simp [orCode]; omega
    obtain ⟨j1, hj1, h1⟩ := ih lt (labelOperand n) (n + 1) pre
      (mkLabel (labelOperand n) :: (andCode a lt lf (n + 1 + l.labels) ++ post)) s hs.1
      (fun k hk1 hk2 => hpre k (by omega) (by omega))
    rw [ec, hlen]
    by_cases hb : (evalLOr exec valueOf l s).1 = true
    · refine ⟨j1, by omega, fun fuel => ?_⟩
      rw [h1]
      simp [evalLOr, hb]
    · have hnone : ∀ k, n + 1 + l.labels ≤ k → k < n + 1 + l.labels + a.labels →
          findLabel (pre ++ (orCode l lt (labelOperand n) (n + 1) ++ [mkLabel (labelOperand n)]))
            (labelName k) = none := by
        intro k hk1 hk2
        rw [findLabel_append, hpre k (by omega) (by omega), findLabel_append,
          findLabel_orCode_none l _ _ _ _ hs.1
            (fun k2 hk3 hk4 h => by have := labelName_injective _ _ h; omega)]
        have hne : ¬ (labelName n = labelName k) := fun h => by
          have := labelName_injective _ _ h; omega
        simp [findLabel, resultName_label, mkLabel_op, hne]
      obtain ⟨j2, hj2, h2⟩ := run_andCode exec valueOf a lt lf (n + 1 + l.labels)
        (pre ++ (orCode l lt (labelOperand n) (n + 1) ++ [mkLabel (labelOperand n)])) post
        (evalLOr exec valueOf l s).2 hs.2 hnone
      refine ⟨j2 + 1 + j1, by omega, fun fuel => ?_⟩
      have hf := findLabel_at pre (orCode l lt (labelOperand n) (n + 1))
        (andCode a lt lf (n + 1 + l.labels) ++ post) n (hpre n (by omega) (by omega))
        (findLabel_orCode_none l _ _ _ _ hs.1
          (fun k hk1 hk2 h => by have := labelName_injective _ _ h; omega))
      have hl := getElem?_mid pre (orCode l lt (labelOperand n) (n + 1))
        (andCode a lt lf (n + 1 + l.labels) ++ post) (mkLabel (labelOperand n))
      have e1 : fuel + (j2 + 1 + j1) = (fuel + j2 + 1) + j1 := by omega
      rw [e1, h1]
      simp only [hb, Bool.false_eq_true, if_false, labelOperand_name]
      rw [jumpTo_some exec valueOf _ _ _ _ _ hf, run_label exec valueOf _ _ _ _ _ hl rfl]
      have h2f := h2 fuel
      rw [← ec2] at h2f
      simp only [List.length_append, List.length_singleton] at h2f
      rw [← Nat.add_assoc] at h2f
      rw [h2f]
      simp [evalLOr, hb]

end RunCond

/-- C9: short-circuit lowering is correct. For every condition built from leaves with
`||` and `&&` whose leaves lower to straight-line code, and true and false labels
that are not among the labels still to be allocated, the instructions emitted by
`visitCond`, executed from the first one on any machine state, leave to the true label
iff the C short-circuit value is nonzero and to the false label otherwise, in exactly
the state C evaluation reaches (the same leaves evaluated in the same order); the run
never falls off the end. For `if (a || b) S;` the emitted order is: code of a,
`BEQZ L_rhs`, `JUMP L_true`, `L_rhs:`, code of b, `BEQZ L_next`, `JUMP L_true`, `L_true:`,
the lowering of S, `L_next:`. -/
theorem C9_short_circuit_lowering {σ : Type} (exec : IRInstruction → σ → σ)
    (valueOf : Operand → σ → Int) (c : LOrExp) (n : Nat) (lt lf : Operand) (s : σ) (fuel : Nat)
    (hs : c.straight = true)
    (hlt : ∀ k, n ≤ k → lt.name ≠ labelName k)
    (hlf : ∀ k, n ≤ k → lf.name ≠ labelName k)
    (hfuel : (visitCond c lt lf { labelCounter := n, instructions := [] }).instructions.length ≤
      fuel) :
    run exec valueOf (visitCond c lt lf { labelCounter := n, instructions := [] }).instructions
        fuel 0 s =
      Outcome.exit (if (evalLOr exec valueOf c s).1 then lt.name else lf.name)
        (evalLOr exec valueOf c s).2 ∧
    ∀ (a b : Leaf) (body : GenState → GenState) (sCode pre : List IRInstruction) (m : Nat),
      (∀ g, (body g).instructions = g.instructions ++ sCode) →
      (visitIfNoElse (LOrExp.or (LOrExp.land (LAndExp.leaf a)) (LAndExp.leaf b)) body
        { labelCounter := m, instructions := pre }).instructions =
        pre ++ a.code ++
          [mkBeqz (labelOperand (m + 3)) a.val, mkJump (labelOperand m),
           mkLabel (labelOperand (m + 3))] ++
          b.code ++
          [mkBeqz (labelOperand (m + 2)) b.val, mkJump (labelOperand m),
           mkLabel (labelOperand m)] ++
          sCode ++ [mkLabel (labelOperand (m + 2))] := by
  constructor
  · have hcode : (visitCond c lt lf { labelCounter := n, instructions := [] }).instructions =
        [] ++ (orCode c lt lf n ++ []) := by
      simp [visitCond, visitLOrExp_eq]
    rw [hcode] at hfuel ⊢
    obtain ⟨j, hj, h⟩ := run_orCode exec valueOf c lt lf n [] [] s hs (fun _ _ _ => rfl)
    have hfl : j ≤ fuel := by
      simp only [List.nil_append, List.append_nil] at hfuel
      omega
    have e : fuel = (fuel - j) + j := by omega
    rw [e]
    have h2 := h (fuel - j)
    simp only [List.length_nil] at h2
    rw [h2]
    apply jumpTo_none
    simp only [List.nil_append, List.append_nil]
    apply findLabel_orCode_none c lt lf n _ hs
    intro k hk1 _
    split
    · exact hlt k hk1
    · exact hlf k hk1
  · intro a b body sCode pre m hbody
    simp only [visitIfNoElse, visitCond, visitLOrExp_eq, newLabel, emitLabel, emit, hbody,
      orCode, andCode, leafTail]
    simp [labelOperand, mkLabel, LOrExp.labels, LAndExp.labels]

/-- Witness for C9 on `x || b` with true label L0, false label L2 and label counter 3,
in a state where x is zero and b is one: control leaves to L0. -/
theorem C9_short_circuit_lowering_witness :
    exCondOr.straight = true ∧
    (∀ k, 3 ≤ k → (labelOperand 0).name ≠ labelName k) ∧
    (∀ k, 3 ≤ k → (labelOperand 2).name ≠ labelName k) ∧
    (visitCond exCondOr (labelOperand 0) (labelOperand 2)
      { labelCounter := 3, instructions := [] }).instructions.length ≤ 5 ∧
    (evalLOr (fun _ (u : Unit) => u) exValueOf exCondOr ()).1 = true ∧
    run (fun _ (u : Unit) => u) exValueOf
        (visitCond exCondOr (labelOperand 0) (labelOperand 2)
          { labelCounter := 3, instructions := [] }).instructions 5 0 () =
      Outcome.exit
        (if (evalLOr (fun _ (u : Unit) => u) exValueOf exCondOr ()).1 then (labelOperand 0).name
         else (labelOperand 2).name)
        (evalLOr (fun _ (u : Unit) => u) exValueOf exCondOr ()).2 := by
  have h0 : ∀ k, 3 ≤ k → (labelOperand 0).name ≠ labelName k := fun k hk h => by
    have := labelName_injective 0 k h
    omega
  have h2 : ∀ k, 3 ≤ k → (labelOperand 2).name ≠ labelName k := fun k hk h => by
    have := labelName_injective 2 k h
    omega
  exact ⟨by decide, h0, h2, by decide, by decide,
    (C9_short_circuit_lowering (fun _ (u : Unit) => u) exValueOf exCondOr 3 (labelOperand 0)
      (labelOperand 2) () 5 (by decide) h0 h2 (by decide)).1⟩

/-! ### Calls and the prologue -/

theorem exCallF5_text :
    exCallF5.map MipsInstr.text =
      ["li $t8, 1", "subu $sp, $sp, 4", "sw $t8, 0($sp)",
       "li $t8, 2", "subu $sp, $sp, 4", "sw $t8, 0($sp)",
       "li $t8, 3", "subu $sp, $sp, 4", "sw $t8, 0($sp)",
       "li $t8, 4", "subu $sp, $sp, 4", "sw $t8, 0($sp)",
       "li $t8, 5", "subu $sp, $sp, 4", "sw $t8, 0($sp)",
       "lw $a0, 16($sp)", "lw $a1, 12($sp)", "lw $a2, 8($sp)", "lw $a3, 4($sp)",
       "jal _f", "addiu $sp, $sp, 20"] := by
  decide

theorem callLoads_eq (pc : Int) (k i : Nat) :
    callLoads pc k i =
      (List.range k).map (fun j =>
        MipsInstr.lw (argReg (i + j)) (wrap32 ((pc - 1 - ((i + j : Nat) : Int)) * 4)) MipsReg.SP) := by
  induction k generalizing i with
  | zero => rfl
  | succ k ih =>
    rw [List.range_succ_eq_map, callLoads, ih]
    simp only [List.map_cons, List.map_map, Nat.add_zero]
    congr 1
    apply List.map_congr_left
    intro j _
    simp only [Function.comp, Nat.succ_eq_add_one]
    rw [show i + 1 + j = i + (j + 1) by omega]

theorem runMips_append (a b : List MipsInstr) (m : Machine) :
    runMips (a ++ b) m = runMips b (runMips a m) := by
  simp [runMips, List.foldl_append]

theorem pushAll_append_singleton (vs : List Int) (v : Int) :
    pushAll (vs ++ [v]) =
      pushAll vs ++ [MipsInstr.li MipsReg.T8 v, MipsInstr.subu MipsReg.SP MipsReg.SP 4,
        MipsInstr.sw MipsReg.T8 0 MipsReg.SP] := by
  simp [pushAll, visitParam, getRegImm]

/-- After the pushes `$sp` has moved down by four bytes per argument and the word of
the i-th argument lies `4 * (i + 1)` bytes below the initial `$sp`. -/
theorem pushAll_state (vs : List Int) (m0 : Machine) (hsmall : vs.length < 536870912)
    (hsp : 0 ≤ m0.reg MipsReg.SP ∧ m0.reg MipsReg.SP < 4294967296) :
    (runMips (pushAll vs) m0).reg MipsReg.SP = wrapU (m0.reg MipsReg.SP - 4 * vs.length) ∧
    ∀ (i : Nat) (v : Int), vs[i]? = some v →
      (runMips (pushAll vs) m0).mem (wrapU (m0.reg MipsReg.SP - 4 * ((i : Int) + 1))) = wrapU v := by
  induction vs using List.reverseRecOn with
  | nil =>
    constructor
    · simp only [pushAll, runMips, List.flatMap_nil, List.foldl, List.length_nil]
      unfold wrapU
      omega
    · intro i v h; simp at h
  | append_singleton l a ih =>
    have hl : l.length < 536870912 := by simp at hsmall; omega
    obtain ⟨ihsp, ihmem⟩ := ih hl
    rw [pushAll_append_singleton, runMips_append]
    generalize runMips (pushAll l) m0 = m1 at ihsp ihmem
    simp only [runMips, List.foldl, step, Machine.setReg, Machine.setMem]
    constructor
    · simp only [if_true, List.length_append, List.length_singleton]
      rw [ihsp]
      unfold wrapU
      push_cast
      omega
    · intro i v hv
      simp only [if_true]
      have hT8 : (MipsReg.SP = MipsReg.T8) = False := by simp
      simp only [hT8, if_false, reduceCtorEq]
      rw [ihsp]
      by_cases hi : i < l.length
      · rw [List.getElem?_append_left hi] at hv
        have hne : ¬ (wrapU (m0.reg MipsReg.SP - 4 * ((i : Int) + 1)) =
            wrapU (wrapU (wrapU (m0.reg MipsReg.SP - 4 * (l.length : Int)) - 4) + 0)) := by
          unfold wrapU
          omega
        rw [if_neg hne]
        exact ihmem i v hv
      · have hi2 : i = l.length := by
          have := (List.getElem?_eq_some.1 hv).1
          simp at this
          omega
        subst hi2
        simp at hv
        subst hv
        have he : wrapU (m0.reg MipsReg.SP - 4 * ((l.length : Int) + 1)) =
            wrapU (wrapU (wrapU (m0.reg MipsReg.SP - 4 * (l.length : Int)) - 4) + 0) := by
          unfold wrapU
          omega
        rw [if_pos he]

/-- The register loads of the call: memory and `$sp` are unchanged and `$a<i>` receives
the word at the offset of the i-th load. -/
theorem callLoads_state (pc : Int) (k : Nat) (hk : k ≤ 4) (m : Machine) :
    (runMips (callLoads pc k 0) m).mem = m.mem ∧
    (runMips (callLoads pc k 0) m).reg MipsReg.SP = m.reg MipsReg.SP ∧
    ∀ i, i < k →
      (runMips (callLoads pc k 0) m).reg (argReg i) =
        m.mem (wrapU (m.reg MipsReg.SP + wrap32 ((pc - 1 - (i : Int)) * 4))) := by
  interval_cases k
  · exact ⟨rfl, rfl, fun i hi => absurd hi (by omega)⟩
  · refine ⟨rfl, rfl, fun i hi => ?_⟩
    interval_cases i
    simp [callLoads, runMips, step, Machine.setReg, argReg]
  · refine ⟨rfl, rfl, fun i hi => ?_⟩
    interval_cases i <;> simp [callLoads, runMips, step, Machine.setReg, argReg]
  · refine ⟨rfl, rfl, fun i hi => ?_⟩
    interval_cases i <;> simp [callLoads, runMips, step, Machine.setReg, argReg]
  · refine ⟨rfl, rfl, fun i hi => ?_⟩
    interval_cases i <;> simp [callLoads, runMips, step, Machine.setReg, argReg]

/-- The `jal` and the four frame-setup lines: `$fp` becomes the `$sp` of the call site
and no word at or above that `$sp` (within `2^31` bytes) is written. -/
theorem frameSetup_state (label : String) (F : Int) (m : Machine)
    (hsp : 0 ≤ m.reg MipsReg.SP ∧ m.reg MipsReg.SP < 4294967296) :
    (runMips (MipsInstr.jal label :: frameSetup F) m).reg MipsReg.FP = m.reg MipsReg.SP ∧
    ∀ d : Int, 0 ≤ d → d < 2147483648 →
      (runMips (MipsInstr.jal label :: frameSetup F) m).mem (wrapU (m.reg MipsReg.SP + d)) =
        m.mem (wrapU (m.reg MipsReg.SP + d)) := by
  simp only [runMips, frameSetup, List.foldl, step, Machine.setReg, Machine.setMem]
  constructor
  · simp only [if_true, reduceCtorEq, if_false]
    unfold wrapU
    omega
  · intro d hd0 hd1
    simp only [if_true, reduceCtorEq, if_false]
    have h1 : ¬ (wrapU (m.reg MipsReg.SP + d) =
        wrapU (wrapU (m.reg MipsReg.SP - F) + wrap32 (F - 8))) := by
      unfold wrapU wrap32
      omega
    have h2 : ¬ (wrapU (m.reg MipsReg.SP + d) =
        wrapU (wrapU (m.reg MipsReg.SP - F) + wrap32 (F - 4))) := by
      unfold wrapU wrap32
      omega
    rw [if_neg h1, if_neg h2]

theorem paramMoves_append (info : CodeGenFunctionInfo) (tp : Int) (idx : Nat)
    (l1 l2 : List String) :
    paramMoves info tp idx (l1 ++ l2) =
      paramMoves info tp idx l1 ++ paramMoves info tp (idx + l1.length) l2 := by
  induction l1 generalizing idx with
  | nil => simp [paramMoves]
  | cons p rest ih =>
    simp only [List.cons_append, paramMoves, List.length_cons, List.append_assoc]
    rw [show rest.append l2 = rest ++ l2 from rfl, ih (idx + 1),
      show idx + 1 + rest.length = idx + (rest.length + 1) by omega]

/-- The prologue reads a stack-passed parameter from `((N - 1 - i) * 4)($fp)`. -/
theorem visitFuncEntry_stack_param (info : CodeGenFunctionInfo) (i : Nat)
    (hi4 : 4 ≤ i) (hi : i < info.paramList.length) (e : CodeGenSymbolEntry)
    (he : mapFind info.symbolMap info.paramList[i] = some e)
    (hsmall : info.paramList.length < 536870912) :
    ∃ pre post, visitFuncEntry (some info) =
      pre ++ [MipsInstr.lw MipsReg.T8 (((info.paramList.length : Int) - 1 - (i : Int)) * 4)
                MipsReg.FP,
              MipsInstr.swNeg MipsReg.T8 e.offset MipsReg.FP] ++ post := by
  have hsplit : info.paramList =
      info.paramList.take i ++ info.paramList[i] :: info.paramList.drop (i + 1) := by
    rw [← List.drop_eq_getElem_cons hi, List.take_append_drop]
  have hlen : (info.paramList.take i).length = i := by
    rw [List.length_take]; omega
  have hw1 : wrap32 (info.paramList.length : Int) = (info.paramList.length : Int) :=
    wrap32_of_inInt32 _ (by unfold inInt32; omega)
  have hw2 : wrap32 (((info.paramList.length : Int) - 1 - (i : Int)) * 4) =
      ((info.paramList.length : Int) - 1 - (i : Int)) * 4 :=
    wrap32_of_inInt32 _ (by unfold inInt32; omega)
  refine ⟨frameSetup info.frameSize ++
      paramMoves info (info.paramList.length : Int) 0 (info.paramList.take i),
    paramMoves info (info.paramList.length : Int) (i + 1) (info.paramList.drop (i + 1)), ?_⟩
  have hnot : ¬ (i < 4) := by omega
  have hpm : paramMoves info (info.paramList.length : Int) 0 info.paramList =
      paramMoves info (info.paramList.length : Int) 0
        (info.paramList.take i ++ info.paramList[i] :: info.paramList.drop (i + 1)) := by
    rw [← hsplit]
  simp only [visitFuncEntry, hw1]
  rw [hpm, paramMoves_append, hlen]
  simp only [paramMoves, he, Nat.zero_add, hnot, if_false, hw2, List.append_assoc,
    List.cons_append, List.nil_append]

theorem callLoads_length (pc : Int) (k i : Nat) : (callLoads pc k i).length = k := by
  rw [callLoads_eq]; simp

theorem visitCallCore_eq (table : List (String × CodeGenFunctionInfo)) (name : String)
    (info : CodeGenFunctionInfo) (N : Nat)
    (htab : mapFind table name = some info) (hN : info.paramList.length = N)
    (hsmall : N < 536870912) :
    visitCallCore table name =
      callLoads (N : Int) (min N 4) 0 ++ [MipsInstr.jal (getMipsLabel name)] ++
        (if N = 0 then [] else [MipsInstr.addiu MipsReg.SP MipsReg.SP (4 * (N : Int))]) := by
  have hw1 : wrap32 (N : Int) = (N : Int) := wrap32_of_inInt32 _ (by unfold inInt32; omega)
  have hw2 : wrap32 ((N : Int) * 4) = 4 * (N : Int) := by
    rw [wrap32_of_inInt32 _ (by unfold inInt32; omega)]; ring
  have hk : (if (N : Int) > 4 then 4 else (N : Int).toNat) = min N 4 := by
    split
    · omega
    · simp only [Int.toNat_ofNat]; omega
  have hpc : paramCountOf table name = (N : Int) := by
    simp only [paramCountOf, htab, hN, hw1]
  have hrel : (if (N : Int) > 0 then
        [MipsInstr.addiu MipsReg.SP MipsReg.SP (wrap32 ((N : Int) * 4))] else []) =
      (if N = 0 then [] else [MipsInstr.addiu MipsReg.SP MipsReg.SP (4 * (N : Int))]) := by
    by_cases h0 : N = 0
    · subst h0; rfl
    · have : (N : Int) > 0 := by omega
      rw [if_pos this, if_neg h0, hw2]
  unfold visitCallCore
  simp only [hpc]
  rw [hk, hrel]

/-- C10: caller and callee agree on where arguments are. For a callee `name` with N
declared parameters called with N (immediate) arguments pushed by PARAM:
`visitCall` emits `lw $a<i>, ((N-1-i)*4)($sp)` for each i below min(N,4), then
`jal` to the callee's label (`_<name>`, `main` excepted), then `addiu $sp, $sp, 4N`
(nothing when N = 0); the prologue reads each stack-passed parameter i ≥ 4 from
`((N-1-i)*4)($fp)`; at the `jal` the word at `((N-1-i)*4)($sp)` is the i-th pushed
value and `$a<i>` holds it for i < 4; after the frame setup `$fp` equals the `$sp` of
the `jal` and the word at `((N-1-i)*4)($fp)` is still the i-th pushed value. For
`f(1,2,3,4,5)` the lines are the five pushes, `lw $a0, 16($sp)` to `lw $a3, 4($sp)`,
`jal _f`, `addiu $sp, $sp, 20`. -/
theorem C10_call_and_prologue_agree
    (table : List (String × CodeGenFunctionInfo)) (name : String) (info : CodeGenFunctionInfo)
    (vs : List Int) (m0 : Machine)
    (htab : mapFind table name = some info)
    (hN : info.paramList.length = vs.length)
    (hsmall : vs.length < 536870912)
    (hsp : 0 ≤ m0.reg MipsReg.SP ∧ m0.reg MipsReg.SP < 4294967296) :
    visitCallCore table name =
      (List.range (min vs.length 4)).map (fun i =>
          MipsInstr.lw (argReg i) (((vs.length : Int) - 1 - (i : Int)) * 4) MipsReg.SP) ++
        [MipsInstr.jal (getMipsLabel name)] ++
        (if vs.length = 0 then []
         else [MipsInstr.addiu MipsReg.SP MipsReg.SP (4 * (vs.length : Int))]) ∧
    (name ≠ "main" → getMipsLabel name = "_" ++ name) ∧
    (∀ (i : Nat) (hi : i < info.paramList.length) (e : CodeGenSymbolEntry), 4 ≤ i →
      mapFind info.symbolMap info.paramList[i] = some e →
      ∃ pre post, visitFuncEntry (some info) =
        pre ++ [MipsInstr.lw MipsReg.T8 (((vs.length : Int) - 1 - (i : Int)) * 4) MipsReg.FP,
                MipsInstr.swNeg MipsReg.T8 e.offset MipsReg.FP] ++ post) ∧
    (∀ (i : Nat) (v : Int), vs[i]? = some v →
      (stateAtJal table name vs m0).mem
          (wrapU ((stateAtJal table name vs m0).reg MipsReg.SP +
            ((vs.length : Int) - 1 - (i : Int)) * 4)) = wrapU v ∧
      (i < 4 → (stateAtJal table name vs m0).reg (argReg i) = wrapU v) ∧
      (stateInCallee table name info vs m0).mem
          (wrapU ((stateInCallee table name info vs m0).reg MipsReg.FP +
            ((vs.length : Int) - 1 - (i : Int)) * 4)) = wrapU v) ∧
    (stateInCallee table name info vs m0).reg MipsReg.FP =
      (stateAtJal table name vs m0).reg MipsReg.SP ∧
    exCallF5.map MipsInstr.text =
      ["li $t8, 1", "subu $sp, $sp, 4", "sw $t8, 0($sp)",
       "li $t8, 2", "subu $sp, $sp, 4", "sw $t8, 0($sp)",
       "li $t8, 3", "subu $sp, $sp, 4", "sw $t8, 0($sp)",
       "li $t8, 4", "subu $sp, $sp, 4", "sw $t8, 0($sp)",
       "li $t8, 5", "subu $sp, $sp, 4", "sw $t8, 0($sp)",
       "lw $a0, 16($sp)", "lw $a1, 12($sp)", "lw $a2, 8($sp)", "lw $a3, 4($sp)",
       "jal _f", "addiu $sp, $sp, 20"] := by
  have hcore := visitCallCore_eq table name info vs.length htab hN hsmall
  have htake : (visitCallCore table name).take (min vs.length 4) =
      callLoads (vs.length : Int) (min vs.length 4) 0 := by
    rw [hcore, List.append_assoc]
    exact List.take_left' (callLoads_length _ _ _)
  obtain ⟨hpsp, hpmem⟩ := pushAll_state vs m0 hsmall hsp
  obtain ⟨hlmem, hlsp, hlreg⟩ := callLoads_state (vs.length : Int) (min vs.length 4)
    (Nat.min_le_right _ _) (runMips (pushAll vs) m0)
  have hjal : stateAtJal table name vs m0 =
      runMips (callLoads (vs.length : Int) (min vs.length 4) 0) (runMips (pushAll vs) m0) := by
    rw [stateAtJal, htake, runMips_append]
  have hjsp : (stateAtJal table name vs m0).reg MipsReg.SP =
      wrapU (m0.reg MipsReg.SP - 4 * vs.length) := by rw [hjal, hlsp, hpsp]
  have hjrange : 0 ≤ (stateAtJal table name vs m0).reg MipsReg.SP ∧
      (stateAtJal table name vs m0).reg MipsReg.SP < 4294967296 := by
    rw [hjsp]; unfold wrapU; omega
  obtain ⟨hfp, hfmem⟩ := frameSetup_state (getMipsLabel name) info.frameSize
    (stateAtJal table name vs m0) hjrange
  have hcal : stateInCallee table name info vs m0 =
      runMips (MipsInstr.jal (getMipsLabel name) :: frameSetup info.frameSize)
        (stateAtJal table name vs m0) := rfl
  refine ⟨?_, ?_, ?_, ?_, ?_, exCallF5_text⟩
  · rw [hcore, callLoads_eq]
    congr 2
    apply List.map_congr_left
    intro i hi
    rw [List.mem_range] at hi
    have hw : wrap32 (((vs.length : Int) - 1 - ((0 + i : Nat) : Int)) * 4) =
        ((vs.length : Int) - 1 - (i : Int)) * 4 := by
      rw [wrap32_of_inInt32 _ (by unfold inInt32; push_cast; omega)]
      push_cast; ring
    rw [hw, Nat.zero_add]
  · intro hne
    simp [getMipsLabel, hne]
  · intro i hi e hi4 he
    have := visitFuncEntry_stack_param info i hi4 hi e he (by omega)
    rw [hN] at this
    exact this
  · intro i v hv
    have hilt : i < vs.length := (List.getElem?_eq_some.1 hv).1
    have haddr : wrapU ((stateAtJal table name vs m0).reg MipsReg.SP +
        ((vs.length : Int) - 1 - (i : Int)) * 4) =
        wrapU (m0.reg MipsReg.SP - 4 * ((i : Int) + 1)) := by
      rw [hjsp]; unfold wrapU; omega
    have hmemJ : (stateAtJal table name vs m0).mem
        (wrapU ((stateAtJal table name vs m0).reg MipsReg.SP +
          ((vs.length : Int) - 1 - (i : Int)) * 4)) = wrapU v := by
      rw [haddr, hjal, hlmem]
      exact hpmem i v hv
    refine ⟨hmemJ, ?_, ?_⟩
    · intro hi4
      have hmin : i < min vs.length 4 := by omega
      have hw : wrap32 (((vs.length : Int) - 1 - (i : Int)) * 4) =
          ((vs.length : Int) - 1 - (i : Int)) * 4 :=
        wrap32_of_inInt32 _ (by unfold inInt32; omega)
      rw [hjal, hlreg i hmin, hw, hpsp]
      have haddr2 : wrapU (wrapU (m0.reg MipsReg.SP - 4 * (vs.length : Int)) +
          ((vs.length : Int) - 1 - (i : Int)) * 4) =
          wrapU (m0.reg MipsReg.SP - 4 * ((i : Int) + 1)) := by
        unfold wrapU; omega
      rw [haddr2]
      exact hpmem i v hv
    · rw [hcal, hfp, hfmem _ (by omega) (by omega)]
      exact hmemJ
  · rw [hcal, hfp]

/-- Witness for C10 on the call `f(1,2,3,4,5)`: the register loads, the `jal` and the
release of 20 bytes, and the stack parameter read from `0($fp)`. -/
theorem C10_call_and_prologue_agree_witness :
    mapFind exTableF "f" = some exInfoF ∧
    exInfoF.paramList.length = [1, 2, 3, 4, (5 : Int)].length ∧
    (0 ≤ exMachine.reg MipsReg.SP ∧ exMachine.reg MipsReg.SP < 4294967296) ∧
    visitCallCore exTableF "f" =
      [MipsInstr.lw MipsReg.A0 16 MipsReg.SP, MipsInstr.lw MipsReg.A1 12 MipsReg.SP,
       MipsInstr.lw MipsReg.A2 8 MipsReg.SP, MipsInstr.lw MipsReg.A3 4 MipsReg.SP,
       MipsInstr.jal "_f", MipsInstr.addiu MipsReg.SP MipsReg.SP 20] ∧
    (stateInCallee exTableF "f" exInfoF [1, 2, 3, 4, 5] exMachine).mem
      (wrapU ((stateInCallee exTableF "f" exInfoF [1, 2, 3, 4, 5] exMachine).reg MipsReg.FP +
        (((([1, 2, 3, 4, (5 : Int)] : List Int).length : Nat) : Int) - 1 - ((4 : Nat) : Int)) * 4)) =
      wrapU 5 := by
  have h := C10_call_and_prologue_agree exTableF "f" exInfoF [1, 2, 3, 4, 5] exMachine
    (by decide) (by decide) (by decide) (by decide)
  refine ⟨by decide, by decide, by decide, ?_, ?_⟩
  · rw [h.1]; decide
  · exact (h.2.2.2.1 4 5 (by decide)).2.2

/-! ### Global defines in the output of the optimizer -/

theorem leadingGlobals_append_drop (ir : List IRInstruction) :
    leadingGlobals ir ++ ir.drop (leadingGlobals ir).length = ir := by
  induction ir with
  | nil => rfl
  | cons instr rest ih =>
    unfold leadingGlobals
    by_cases h : isFuncStart instr rest.head? = true
    · simp [h]
    · simp only [h, if_false, List.length_cons, List.drop_succ_cons, List.cons_append, ih,
        Bool.false_eq_true]

theorem appendToCurrent_spec (fs : List Function) (instr : IRInstruction) (hne : fs ≠ [])
    (hb : ∀ f ∈ fs, f.blocks ≠ []) :
    (appendToCurrent fs instr).flatMap flatten = fs.flatMap flatten ++ [instr] ∧
    appendToCurrent fs instr ≠ [] ∧
    (∀ f ∈ appendToCurrent fs instr, f.blocks ≠ []) ∧
    (appendToCurrent fs instr).map Function.name = fs.map Function.name := by
  rcases List.eq_nil_or_concat fs with h | ⟨init, f, rfl⟩
  · exact absurd h hne
  · have hfb : f.blocks ≠ [] := hb f (by simp)
    rcases List.eq_nil_or_concat f.blocks with h | ⟨binit, b, hbl⟩
    · exact absurd h hfb
    · simp only [appendToCurrent, List.concat_eq_append, List.reverse_append, List.reverse_cons,
        List.reverse_nil, List.nil_append, List.singleton_append, hbl, List.reverse_reverse]
      refine ⟨?_, ?_, ?_, ?_⟩
      · simp [flatten, hbl, List.flatMap_append]
      · simp
      · intro g hg
        simp only [List.mem_append, List.mem_singleton] at hg
        rcases hg with hg | hg
        · exact hb g (by simp [hg])
        · subst hg; simp
      · simp

theorem splitLoop_spec (rest : List IRInstruction) :
    ∀ (fs : List Function) (gs : List IRInstruction), (∀ f ∈ fs, f.blocks ≠ []) →
      (splitLoop fs gs rest).2 = (if fs = [] then gs ++ leadingGlobals rest else gs) ∧
      (splitLoop fs gs rest).1.flatMap flatten =
        fs.flatMap flatten ++
          (if fs = [] then rest.drop (leadingGlobals rest).length else rest) := by
  induction rest with
  | nil =>
    intro fs gs _
    simp [splitLoop, leadingGlobals]
  | cons instr rest ih =>
    intro fs gs hb
    unfold splitLoop
    by_cases hstart : isFuncStart instr rest.head? = true
    · rw [if_pos hstart]
      have hb2 : ∀ f ∈ fs ++ [({ name := resultName instr, blocks := [{ id := 0, instructions := [instr] }] } : Function)], f.blocks ≠ [] := by
        intro f hf
        simp only [List.mem_append, List.mem_singleton] at hf
        rcases hf with hf | hf
        · exact hb f hf
        · subst hf; simp
      obtain ⟨h1, h2⟩ := ih _ gs hb2
      rw [h1, h2]
      have hne : fs ++ [({ name := resultName instr, blocks := [{ id := 0, instructions := [instr] }] } : Function)] ≠ [] := by simp
      rw [if_neg hne, if_neg hne]
      by_cases hfs : fs = []
      · subst hfs
        simp [leadingGlobals, hstart, flatten]
      · simp [hfs, flatten, List.flatMap_append]
    · rw [if_neg hstart]
      by_cases hfs : fs = []
      · subst hfs
        have hb0 : ∀ f ∈ ([] : List Function), f.blocks ≠ [] := by simp
        obtain ⟨h1, h2⟩ := ih [] (gs ++ [instr]) hb0
        simp only [ne_eq, not_true_eq_false, if_false, if_true] at h1 h2 ⊢
        rw [h1, h2]
        simp [leadingGlobals, hstart]
      · obtain ⟨ha1, ha2, ha3, _⟩ := appendToCurrent_spec fs instr hfs hb
        obtain ⟨h1, h2⟩ := ih (appendToCurrent fs instr) gs ha3
        simp only [ne_eq, hfs, not_false_eq_true, if_true, if_false] at h1 h2 ⊢
        rw [h1, h2, if_neg ha2, if_neg ha2, ha1]
        simp

/-- Claim C20, counterexample: for `ASSIGN g, #1; LABEL main; FUNC_ENTRY; RET` the output
of the optimizer is the input listing, with the global define in first position; it is
not the functions followed by the global defines. -/
theorem C20_global_defines_are_emitted_first :
    getOptimizedIR (execute { originalIR := exGlobalIR }) = exGlobalIR ∧
    getOptimizedIR (execute { originalIR := exGlobalIR }) ≠
      (execute { originalIR := exGlobalIR }).functions.flatMap flatten ++
        (execute { originalIR := exGlobalIR }).globalDefines := by
  decide

/-- Claim C20, amended: the output of `getOptimizedIR` after `execute` is the global
defines followed by the instructions of the functions in function order; the global
defines are exactly the instructions that precede the first function start, unchanged
and in their original order; and splitting alone, followed by `getOptimizedIR`, gives
back the input listing. -/
theorem C20_getOptimizedIR_global_defines_then_functions (ir : List IRInstruction) :
    getOptimizedIR (execute { originalIR := ir }) =
      leadingGlobals ir ++ (execute { originalIR := ir }).functions.flatMap flatten ∧
    (execute { originalIR := ir }).globalDefines = leadingGlobals ir ∧
    leadingGlobals ir = ir.take (leadingGlobals ir).length ∧
    getOptimizedIR (splitFunctions { originalIR := ir }) = ir := by
  have hb0 : ∀ f ∈ ([] : List Function), f.blocks ≠ [] := by simp
  obtain ⟨h1, h2⟩ := splitLoop_spec ir [] [] hb0
  simp only [if_true, List.nil_append, List.flatMap_nil] at h1 h2
  have hg : (execute { originalIR := ir }).globalDefines = leadingGlobals ir := by
    simp only [execute, splitFunctions]
    exact h1
  refine ⟨?_, hg, ?_, ?_⟩
  · unfold getOptimizedIR
    rw [hg]
  · have h := leadingGlobals_append_drop ir
    conv_lhs => rw [← List.take_left (leadingGlobals ir) (ir.drop (leadingGlobals ir).length)]
    rw [h]
  · simp only [getOptimizedIR, splitFunctions]
    rw [h1, h2]
    exact leadingGlobals_append_drop ir

/-! ### Symbol table -/

theorem wrap32_small (x : Int) (h0 : 0 ≤ x) (h1 : x ≤ 2147483647) : wrap32 x = x := by
  unfold wrap32
  omega

theorem wrap32_succ (x : Int) : wrap32 (wrap32 x + 1) = wrap32 (x + 1) := by
  unfold wrap32
  omega

theorem idFind_idErase_ne (m : List (Int × Nat)) (k id : Int) (h : k ≠ id) :
    idFind (idErase m k) id = idFind m id := by
  induction m with
  | nil => rfl
  | cons p rest ih =>
    obtain ⟨k2, v⟩ := p
    by_cases h2 : k2 = k
    · have h3 : k2 ≠ id := by rw [h2]; exact h
      simp [idErase, idFind, h2, ih, h]
    · by_cases h3 : k2 = id
      · subst h3
        simp [idErase, idFind, h2]
      · simp [idErase, idFind, h2, h3, ih]

theorem idFind_idSet (m : List (Int × Nat)) (k id : Int) (v : Nat) :
    idFind (idSet m k v) id = if k = id then some v else idFind m id := by
  unfold idSet
  by_cases h : k = id
  · simp [idFind, h]
  · simp only [idFind, h, if_false]
    exact idFind_idErase_ne m k id h

theorem find?_append_singleton_name (l : List SymbolEntry) (e : SymbolEntry) (name : String) :
    (l ++ [e]).find? (fun x => decide (x.name = name)) =
      match l.find? (fun x => decide (x.name = name)) with
      | some x => some x
      | none => if e.name = name then some e else none := by
  induction l with
  | nil =>
    by_cases h : e.name = name <;> simp [List.find?, h]
  | cons a rest ih =>
    by_cases h : a.name = name
    · simp [List.find?, h]
    · simp only [List.cons_append, List.find?, h, decide_False]
      exact ih

theorem tableInv_construct : TableInv SymbolTable.construct := by
  refine ⟨by decide, ?_, ?_, ?_, ?_, ?_, ?_⟩
  · intro i s h
    cases i with
    | zero =>
      simp [SymbolTable.construct, SymbolTable.enterScope] at h
      subst h
      decide
    | succ n => simp [SymbolTable.construct, SymbolTable.enterScope] at h
  · intro _ id
    simp only [SymbolTable.construct, SymbolTable.enterScope, List.nil_append, List.length_nil,
      List.length_singleton, idFind_idSet, idFind]
    by_cases h : (1 : Int) = id
    · subst h; simp
    · rw [if_neg h, if_neg]
      simp
      omega
  · intro _ id hid
    simp [SymbolTable.construct, SymbolTable.enterScope] at hid
    subst hid
    simp [SymbolTable.construct, SymbolTable.enterScope]
  · intro s hs name
    simp [SymbolTable.construct, SymbolTable.enterScope] at hs
    subst hs
    rfl
  · intro s hs
    simp [SymbolTable.construct, SymbolTable.enterScope] at hs
    subst hs
    simp
  · intro i s h e he
    cases i with
    | zero =>
      simp [SymbolTable.construct, SymbolTable.enterScope] at h
      subst h
      simp at he
    | succ n => simp [SymbolTable.construct, SymbolTable.enterScope] at h

theorem tableInv_enterScope (t : SymbolTable) (h : TableInv t) : TableInv t.enterScope := by
  refine ⟨?_, ?_, ?_, ?_, ?_, ?_, ?_⟩
  · simp only [SymbolTable.enterScope, List.length_append, List.length_singleton, h.counter]
    rw [wrap32_succ]
    push_cast
    rfl
  · intro i s hs
    simp only [SymbolTable.enterScope] at hs
    by_cases hi : i < t.scopes.length
    · rw [List.getElem?_append_left hi] at hs
      exact h.ids i s hs
    · have hi2 : t.scopes.length ≤ i := Nat.le_of_not_lt hi
      rw [List.getElem?_append_right hi2] at hs
      have hi3 : i - t.scopes.length = 0 := by
        by_contra hc
        have : i - t.scopes.length = (i - t.scopes.length - 1) + 1 := by omega
        rw [this] at hs
        simp at hs
      rw [hi3] at hs
      simp at hs
      subst hs
      simp only
      rw [h.counter]
      have : i = t.scopes.length := by omega
      rw [this]
  · intro hb id
    simp only [SymbolTable.enterScope, List.length_append, List.length_singleton] at hb ⊢
    have hb2 : t.scopes.length ≤ 2147483647 := by omega
    rw [idFind_idSet, h.byId hb2 id, h.counter]
    rw [wrap32_small _ (by omega) (by omega)]
    by_cases hk : ((t.scopes.length : Int) + 1) = id
    · rw [if_pos hk, if_pos]
      · congr 1
        omega
      · push_cast
        omega
    · rw [if_neg hk]
      by_cases hr : 1 ≤ id ∧ id ≤ (t.scopes.length : Int)
      · rw [if_pos hr, if_pos]
        push_cast
        omega
      · rw [if_neg hr, if_neg]
        push_cast
        omega
  · intro hb id hid
    simp only [SymbolTable.enterScope, List.length_append, List.length_singleton,
      List.mem_append, List.mem_singleton] at hb hid ⊢
    have hb2 : t.scopes.length ≤ 2147483647 := by omega
    rcases hid with hid | hid
    · have := h.stack hb2 id hid
      omega
    · rw [hid, h.counter, wrap32_small _ (by omega) (by omega)]
      push_cast
      omega
  · intro s hs name
    simp only [SymbolTable.enterScope, List.mem_append, List.mem_singleton] at hs
    rcases hs with hs | hs
    · exact h.maps s hs name
    · subst hs
      rfl
  · intro s hs
    simp only [SymbolTable.enterScope, List.mem_append, List.mem_singleton] at hs
    rcases hs with hs | hs
    · exact h.names s hs
    · subst hs
      simp
  · intro i s hs e he
    simp only [SymbolTable.enterScope] at hs
    by_cases hi : i < t.scopes.length
    · rw [List.getElem?_append_left hi] at hs
      exact h.scopeOf i s hs e he
    · have hi2 : t.scopes.length ≤ i := Nat.le_of_not_lt hi
      rw [List.getElem?_append_right hi2] at hs
      have hi3 : i - t.scopes.length = 0 := by
        by_contra hc
        have : i - t.scopes.length = (i - t.scopes.length - 1) + 1 := by omega
        rw [this] at hs
        simp at hs
      rw [hi3] at hs
      simp at hs
      subst hs
      simp at he

theorem tableInv_exitScope (t : SymbolTable) (h : TableInv t) : TableInv t.exitScope := by
  unfold SymbolTable.exitScope
  by_cases hs : t.scopeStack ≠ []
  · rw [if_pos hs]
    refine ⟨h.counter, h.ids, h.byId, ?_, h.maps, h.names, h.scopeOf⟩
    intro hb id hid
    exact h.stack hb id (List.mem_of_mem_dropLast hid)
  · rw [if_neg hs]
    exact h

theorem list_set_same {α : Type} (l : List α) (k : Nat) (a : α) (h : l[k]? = some a) :
    l.set k a = l := by
  induction l generalizing k with
  | nil => rfl
  | cons x rest ih =>
    cases k with
    | zero =>
      simp at h
      simp [h]
    | succ n =>
      simp at h
      simp [ih n h]

theorem getElem?_some_mem {α : Type} {l : List α} {k : Nat} {a : α}
    (h : l[k]? = some a) : a ∈ l := by
  obtain ⟨hk, rfl⟩ := List.getElem?_eq_some.1 h
  exact List.getElem_mem hk

theorem scope_addSymbol_fst (s : Scope) (e : SymbolEntry) :
    (s.addSymbol e).1 = true ↔ mapFind s.symbols e.name = none := by
  unfold Scope.addSymbol
  cases hm : mapFind s.symbols e.name <;> simp

theorem scope_addSymbol_of_false (s : Scope) (e : SymbolEntry) (h : (s.addSymbol e).1 = false) :
    (s.addSymbol e).2 = s := by
  unfold Scope.addSymbol at h ⊢
  cases hm : mapFind s.symbols e.name
  · simp [hm] at h
  · simp

theorem scope_addSymbol_of_true (s : Scope) (e : SymbolEntry) (h : (s.addSymbol e).1 = true) :
    (s.addSymbol e).2 = s.withEntry e := by
  have hm := (scope_addSymbol_fst s e).1 h
  unfold Scope.addSymbol
  simp [hm]

theorem addSymbol_fst (t : SymbolTable) (e : SymbolEntry) :
    (t.addSymbol e).1 = true ↔
      1 ≤ e.scope ∧ e.scope ≤ t.scopes.length ∧
        ∃ s, t.scopes[(e.scope - 1).toNat]? = some s ∧ mapFind s.symbols e.name = none := by
  unfold SymbolTable.addSymbol
  by_cases hempty : t.scopes.isEmpty = true
  · rw [if_pos hempty]
    have hl : t.scopes.length = 0 := by
      cases hsc : t.scopes with
      | nil => rfl
      | cons a b => rw [hsc] at hempty; simp at hempty
    constructor
    · intro h; simp at h
    · rintro ⟨h1, h2, _⟩
      rw [hl] at h2
      simp at h2
      omega
  · rw [if_neg hempty]
    by_cases hr : e.scope ≤ 0 ∨ (t.scopes.length : Int) < e.scope
    · simp only [hr, if_true]
      constructor
      · intro h; simp at h
      · rintro ⟨h1, h2, _⟩
        omega
    · simp only [hr, if_false]
      have hlt : (e.scope - 1).toNat < t.scopes.length := by omega
      have hget : t.scopes[(e.scope - 1).toNat]? = some (t.scopes[(e.scope - 1).toNat]) :=
        List.getElem?_eq_getElem hlt
      rw [hget]
      simp only [scope_addSymbol_fst]
      constructor
      · intro h
        exact ⟨by omega, by omega, _, rfl, h⟩
      · rintro ⟨_, _, s, hs, hm⟩
        simp only [Option.some.injEq] at hs
        rw [hs]
        exact hm

theorem addSymbol_of_false (t : SymbolTable) (e : SymbolEntry) (h : (t.addSymbol e).1 = false) :
    (t.addSymbol e).2 = t := by
  unfold SymbolTable.addSymbol at h ⊢
  by_cases hempty : t.scopes.isEmpty = true
  · rw [if_pos hempty]
  · rw [if_neg hempty] at h ⊢
    by_cases hr : e.scope ≤ 0 ∨ (t.scopes.length : Int) < e.scope
    · simp only [hr, if_true]
    · simp only [hr, if_false] at h ⊢
      cases hget : t.scopes[(e.scope - 1).toNat]? with
      | none => rfl
      | some s =>
        rw [hget] at h
        simp only at h ⊢
        rw [scope_addSymbol_of_false s e h]
        unfold SymbolTable.setScope
        rw [list_set_same _ _ _ hget]

theorem addSymbol_of_true (t : SymbolTable) (e : SymbolEntry) (h : (t.addSymbol e).1 = true) :
    ∃ s, t.scopes[(e.scope - 1).toNat]? = some s ∧ 1 ≤ e.scope ∧
      e.scope ≤ t.scopes.length ∧ mapFind s.symbols e.name = none ∧
      (t.addSymbol e).2 = t.setScope (e.scope - 1).toNat (s.withEntry e) := by
  obtain ⟨h1, h2, s, hs, hm⟩ := (addSymbol_fst t e).1 h
  refine ⟨s, hs, h1, h2, hm, ?_⟩
  have hne : ¬ (t.scopes.isEmpty = true) := by
    intro hc
    cases hsc : t.scopes with
    | nil => rw [hsc] at h2; simp at h2; omega
    | cons a b => rw [hsc] at hc; simp at hc
  have hr : ¬ (e.scope ≤ 0 ∨ (t.scopes.length : Int) < e.scope) := by omega
  have hst : (s.addSymbol e).1 = true := (scope_addSymbol_fst s e).2 hm
  unfold SymbolTable.addSymbol
  rw [if_neg hne]
  simp only [hr, if_false, hs]
  rw [scope_addSymbol_of_true s e hst]

theorem tableInv_addSymbol (t : SymbolTable) (e : SymbolEntry) (h : TableInv t) :
    TableInv (t.addSymbol e).2 := by
  cases hres : (t.addSymbol e).1 with
  | false => rw [addSymbol_of_false t e hres]; exact h
  | true =>
    obtain ⟨s, hs, h1, h2, hm, heq⟩ := addSymbol_of_true t e hres
    rw [heq]
    unfold SymbolTable.setScope Scope.withEntry
    have hklt : (e.scope - 1).toNat < t.scopes.length := by omega
    refine ⟨?_, ?_, ?_, ?_, ?_, ?_, ?_⟩
    · simp only [List.length_set]
      exact h.counter
    · intro i s2 hs2
      simp only [List.getElem?_set] at hs2
      by_cases hi : (e.scope - 1).toNat = i
      · rw [if_pos hi] at hs2
        simp only [hklt, if_true, Option.some.injEq] at hs2
        subst hs2
        simp only
        rw [← hi]
        exact h.ids _ s hs
      · rw [if_neg hi] at hs2
        exact h.ids i s2 hs2
    · intro hb id
      simp only [List.length_set] at hb ⊢
      exact h.byId hb id
    · intro hb id hid
      simp only [List.length_set] at hb ⊢
      exact h.stack hb id hid
    · intro s2 hs2 name
      simp only at hs2
      rcases List.mem_or_eq_of_mem_set hs2 with hmem | heq2
      · exact h.maps s2 hmem name
      · subst heq2
        simp only
        have hold := h.maps s (getElem?_some_mem hs) name
        rw [find?_append_singleton_name, ← hold]
        by_cases hn : e.name = name
        · subst hn
          rw [mapFind_mapSet_self, hm]
          simp
        · rw [mapFind_mapSet_ne _ _ _ _ hn]
          cases mapFind s.symbols name <;> simp [hn]
    · intro s2 hs2
      simp only at hs2
      rcases List.mem_or_eq_of_mem_set hs2 with hmem | heq2
      · exact h.names s2 hmem
      · subst heq2
        simp only [List.map_append, List.map_cons, List.map_nil]
        have hsm := getElem?_some_mem hs
        have hfind := h.maps s hsm e.name
        rw [hm] at hfind
        have hnone := List.find?_eq_none.1 hfind.symm
        rw [List.nodup_append]
        refine ⟨h.names s hsm, List.nodup_singleton _, ?_⟩
        intro a ha hb
        simp only [List.mem_singleton] at hb
        obtain ⟨x, hx, hxn⟩ := List.mem_map.1 ha
        have := hnone x hx
        simp only [decide_eq_true_eq] at this
        exact this (hxn.trans hb)
    · intro i s2 hs2 x hx
      simp only [List.getElem?_set] at hs2
      by_cases hi : (e.scope - 1).toNat = i
      · rw [if_pos hi] at hs2
        simp only [hklt, if_true, Option.some.injEq] at hs2
        subst hs2
        simp only [List.mem_append, List.mem_singleton] at hx
        rcases hx with hx | hx
        · rw [← hi]
          exact h.scopeOf _ s hs x hx
        · subst hx
          omega
      · rw [if_neg hi] at hs2
        exact h.scopeOf i s2 hs2 x hx

theorem tableInv_apply (t : SymbolTable) (op : TableOp) (h : TableInv t) :
    TableInv (t.apply op) := by
  cases op with
  | enterScope => exact tableInv_enterScope t h
  | exitScope => exact tableInv_exitScope t h
  | addSymbol e => exact tableInv_addSymbol t e h

theorem tableInv_runOps (ops : List TableOp) :
    ∀ t : SymbolTable, TableInv t → TableInv (t.runOps ops) := by
  induction ops with
  | nil => intro t h; exact h
  | cons op rest ih => intro t h; exact ih _ (tableInv_apply t op h)

theorem tableInv_after (ops : List TableOp) : TableInv (SymbolTable.after ops) :=
  tableInv_runOps ops _ tableInv_construct

theorem runOps_append (ops more : List TableOp) :
    ∀ t : SymbolTable, t.runOps (ops ++ more) = (t.runOps ops).runOps more := by
  induction ops with
  | nil => intro t; rfl
  | cons op rest ih => intro t; exact ih _

theorem after_append (ops more : List TableOp) :
    SymbolTable.after (ops ++ more) = (SymbolTable.after ops).runOps more :=
  runOps_append ops more _

theorem addSymbol_length (t : SymbolTable) (e : SymbolEntry) :
    (t.addSymbol e).2.scopes.length = t.scopes.length := by
  cases hres : (t.addSymbol e).1 with
  | false => rw [addSymbol_of_false t e hres]
  | true =>
    obtain ⟨s, _, _, _, _, heq⟩ := addSymbol_of_true t e hres
    rw [heq]
    simp [SymbolTable.setScope]

theorem exitScope_scopes (t : SymbolTable) : t.exitScope.scopes = t.scopes := by
  unfold SymbolTable.exitScope
  split <;> rfl

theorem exitScope_scopeById (t : SymbolTable) : t.exitScope.scopeById = t.scopeById := by
  unfold SymbolTable.exitScope
  split <;> rfl

theorem exitScope_getScopeById (t : SymbolTable) (id : Int) :
    t.exitScope.getScopeById id = t.getScopeById id := by
  unfold SymbolTable.getScopeById
  rw [exitScope_scopes, exitScope_scopeById]

theorem apply_length (t : SymbolTable) (op : TableOp) :
    (t.apply op).scopes.length = t.scopes.length + enterCount [op] := by
  cases op with
  | enterScope => simp [SymbolTable.apply, SymbolTable.enterScope, enterCount]
  | exitScope => simp [SymbolTable.apply, exitScope_scopes, enterCount]
  | addSymbol e => simp [SymbolTable.apply, addSymbol_length, enterCount]

theorem enterCount_cons (op : TableOp) (rest : List TableOp) :
    enterCount (op :: rest) = enterCount [op] + enterCount rest := by
  cases op with
  | enterScope => simp only [enterCount]; omega
  | exitScope => simp only [enterCount]; omega
  | addSymbol e => simp only [enterCount]; omega

theorem runOps_length (ops : List TableOp) :
    ∀ t : SymbolTable, (t.runOps ops).scopes.length = t.scopes.length + enterCount ops := by
  induction ops with
  | nil => intro t; simp [SymbolTable.runOps, enterCount]
  | cons op rest ih =>
    intro t
    have h1 := ih (t.apply op)
    have h2 := apply_length t op
    have h3 := enterCount_cons op rest
    rw [SymbolTable.runOps]
    omega

theorem after_length (ops : List TableOp) :
    (SymbolTable.after ops).scopes.length = enterCount ops + 1 := by
  unfold SymbolTable.after
  rw [runOps_length]
  simp [SymbolTable.construct, SymbolTable.enterScope]
  omega

theorem getScopeById_eq (t : SymbolTable) (h : TableInv t) (hb : t.scopes.length ≤ 2147483647)
    (id : Int) :
    t.getScopeById id =
      if 1 ≤ id ∧ id ≤ t.scopes.length then t.scopes[(id - 1).toNat]? else none := by
  unfold SymbolTable.getScopeById
  rw [h.byId hb id]
  by_cases hc : 1 ≤ id ∧ id ≤ (t.scopes.length : Int)
  · rw [if_pos hc, if_pos hc]
  · rw [if_neg hc, if_neg hc]

theorem scopeId_eq (t : SymbolTable) (h : TableInv t) (hb : t.scopes.length ≤ 2147483647)
    (i : Nat) (s : Scope) (hs : t.scopes[i]? = some s) : s.scopeId = (i : Int) + 1 := by
  rw [h.ids i s hs]
  have hi := (List.getElem?_eq_some.1 hs).1
  exact wrap32_small _ (by omega) (by omega)

theorem apply_scopeIds (t : SymbolTable) (op : TableOp) :
    ∃ added, (t.apply op).scopes.map Scope.scopeId = t.scopes.map Scope.scopeId ++ added := by
  cases op with
  | enterScope => exact ⟨[t.currentScopeId], by simp [SymbolTable.apply, SymbolTable.enterScope]⟩
  | exitScope => exact ⟨[], by simp [SymbolTable.apply, exitScope_scopes]⟩
  | addSymbol e =>
    refine ⟨[], ?_⟩
    simp only [SymbolTable.apply, List.append_nil]
    cases hres : (t.addSymbol e).1 with
    | false => rw [addSymbol_of_false t e hres]
    | true =>
      obtain ⟨s, hs, _, _, _, heq⟩ := addSymbol_of_true t e hres
      rw [heq]
      simp only [SymbolTable.setScope]
      apply List.ext_getElem?
      intro i
      simp only [List.getElem?_map, List.getElem?_set]
      by_cases hi : (e.scope - 1).toNat = i
      · subst hi
        rw [if_pos rfl, hs]
        have hlt := (List.getElem?_eq_some.1 hs).1
        rw [if_pos hlt]
        rfl
      · rw [if_neg hi]

theorem runOps_scopeIds (ops : List TableOp) :
    ∀ t : SymbolTable, ∃ added,
      (t.runOps ops).scopes.map Scope.scopeId = t.scopes.map Scope.scopeId ++ added := by
  induction ops with
  | nil => intro t; exact ⟨[], by simp [SymbolTable.runOps]⟩
  | cons op rest ih =>
    intro t
    obtain ⟨a1, h1⟩ := apply_scopeIds t op
    obtain ⟨a2, h2⟩ := ih (t.apply op)
    exact ⟨a1 ++ a2, by rw [SymbolTable.runOps, h2, h1, List.append_assoc]⟩

theorem scope_findSymbol_none (t : SymbolTable) (h : TableInv t) (s : Scope) (hs : s ∈ t.scopes)
    (name : String) :
    s.findSymbol name = none ↔ ∀ x ∈ s.getSymbols, x.name ≠ name := by
  unfold Scope.findSymbol Scope.getSymbols
  rw [h.maps s hs name, List.find?_eq_none]
  simp

theorem find?_name_of_nodup (l : List SymbolEntry) (hn : (l.map SymbolEntry.name).Nodup)
    (e : SymbolEntry) (he : e ∈ l) :
    l.find? (fun x => decide (x.name = e.name)) = some e := by
  induction l with
  | nil => simp at he
  | cons a rest ih =>
    simp only [List.map_cons, List.nodup_cons] at hn
    rcases List.mem_cons.1 he with hea | her
    · subst hea
      simp [List.find?]
    · have hne : a.name ≠ e.name := by
        intro hc
        exact hn.1 (hc ▸ List.mem_map_of_mem SymbolEntry.name her)
      simp only [List.find?, hne, decide_False]
      exact ih hn.2 her

theorem scope_findSymbol_some (t : SymbolTable) (h : TableInv t) (s : Scope) (hs : s ∈ t.scopes)
    (name : String) (e : SymbolEntry) :
    s.findSymbol name = some e ↔ e ∈ s.getSymbols ∧ e.name = name := by
  unfold Scope.findSymbol Scope.getSymbols
  rw [h.maps s hs name]
  constructor
  · intro hf
    have h1 := List.find?_some hf
    simp only [decide_eq_true_eq] at h1
    exact ⟨List.mem_of_find?_eq_some hf, h1⟩
  · rintro ⟨hmem, hname⟩
    subst hname
    exact find?_name_of_nodup _ (h.names s hs) e hmem

theorem getScopeById_mem (t : SymbolTable) (id : Int) (s : Scope)
    (h : t.getScopeById id = some s) : s ∈ t.scopes := by
  unfold SymbolTable.getScopeById at h
  cases hf : idFind t.scopeById id with
  | none => rw [hf] at h; simp at h
  | some pos =>
    rw [hf] at h
    exact getElem?_some_mem h

theorem findLoop_none (t : SymbolTable) (name : String) (ids : List Int) :
    t.findLoop name ids = none ↔
      ∀ id ∈ ids, ∀ s, t.getScopeById id = some s → s.findSymbol name = none := by
  induction ids with
  | nil => simp [SymbolTable.findLoop]
  | cons id rest ih =>
    unfold SymbolTable.findLoop
    cases hg : t.getScopeById id with
    | none =>
      simp only [ih, List.mem_cons, forall_eq_or_imp, hg]
      simp
    | some s =>
      dsimp only
      cases hf : s.findSymbol name with
      | none =>
        simp only [ih, List.mem_cons, forall_eq_or_imp, hg, Option.some.injEq]
        constructor
        · intro h2
          refine ⟨?_, h2⟩
          intro s2 hs2
          rw [← hs2]
          exact hf
        · intro h2
          exact h2.2
      | some e =>
        simp only [List.mem_cons, forall_eq_or_imp, hg, Option.some.injEq]
        constructor
        · intro h2; simp at h2
        · intro h2
          have := h2.1 s rfl
          rw [hf] at this
          simp at this

theorem findLoop_some (t : SymbolTable) (name : String) (e : SymbolEntry) (ids : List Int) :
    t.findLoop name ids = some e ↔
      ∃ before id rest s, ids = before ++ id :: rest ∧ t.getScopeById id = some s ∧
        s.findSymbol name = some e ∧
        ∀ id2 ∈ before, ∀ s2, t.getScopeById id2 = some s2 → s2.findSymbol name = none := by
  induction ids with
  | nil =>
    simp [SymbolTable.findLoop]
  | cons id rest ih =>
    unfold SymbolTable.findLoop
    have hskip : (∀ s, t.getScopeById id = some s → s.findSymbol name = none) →
        ((t.findLoop name rest = some e) ↔
          ∃ before id2 rest2 s, id :: rest = before ++ id2 :: rest2 ∧
            t.getScopeById id2 = some s ∧ s.findSymbol name = some e ∧
            ∀ id3 ∈ before, ∀ s3, t.getScopeById id3 = some s3 → s3.findSymbol name = none) := by
      intro hno
      rw [ih]
      constructor
      · rintro ⟨before, id2, rest2, s, heq, hg, hf, hall⟩
        refine ⟨id :: before, id2, rest2, s, by rw [heq]; rfl, hg, hf, ?_⟩
        intro id3 hid3 s3 hs3
        rcases List.mem_cons.1 hid3 with h3 | h3
        · subst h3
          exact hno s3 hs3
        · exact hall id3 h3 s3 hs3
      · rintro ⟨before, id2, rest2, s, heq, hg, hf, hall⟩
        cases before with
        | nil =>
          simp only [List.nil_append, List.cons.injEq] at heq
          obtain ⟨h1, _⟩ := heq
          subst h1
          have := hno s hg
          rw [hf] at this
          simp at this
        | cons b before2 =>
          simp only [List.cons_append, List.cons.injEq] at heq
          obtain ⟨_, h2⟩ := heq
          refine ⟨before2, id2, rest2, s, h2, hg, hf, ?_⟩
          intro id3 hid3 s3 hs3
          exact hall id3 (List.mem_cons_of_mem _ hid3) s3 hs3
    cases hg : t.getScopeById id with
    | none =>
      simp only
      apply hskip
      intro s hs
      rw [hg] at hs
      simp at hs
    | some s =>
      dsimp only
      cases hf : s.findSymbol name with
      | none =>
        dsimp only
        apply hskip
        intro s2 hs2
        rw [hg] at hs2
        simp only [Option.some.injEq] at hs2
        rw [← hs2]
        exact hf
      | some e2 =>
        simp only [Option.some.injEq]
        constructor
        · intro he
          subst he
          exact ⟨[], id, rest, s, rfl, hg, hf, by simp⟩
        · rintro ⟨before, id2, rest2, s2, heq, hg2, hf2, hall⟩
          cases before with
          | nil =>
            simp only [List.nil_append, List.cons.injEq] at heq
            obtain ⟨h1, _⟩ := heq
            subst h1
            rw [hg] at hg2
            simp only [Option.some.injEq] at hg2
            subst hg2
            rw [hf] at hf2
            simpa using hf2
          | cons b before2 =>
            simp only [List.cons_append, List.cons.injEq] at heq
            obtain ⟨h1, _⟩ := heq
            subst h1
            have := hall id (by simp) s hg
            rw [hf] at this
            simp at this

theorem findLoop_congr (t1 t2 : SymbolTable) (name : String) (ids : List Int)
    (h : ∀ id ∈ ids, t1.getScopeById id = t2.getScopeById id) :
    t1.findLoop name ids = t2.findLoop name ids := by
  induction ids with
  | nil => rfl
  | cons id rest ih =>
    unfold SymbolTable.findLoop
    rw [h id (by simp), ih (fun id2 hid2 => h id2 (List.mem_cons_of_mem _ hid2))]

/-- Claim C16: after the constructor and any sequence of calls with `n` calls of
`enterScope` (at most `INT_MAX` scopes in all), the scopes have the IDs `1..n+1` in
creation order, `getScopeById i` returns the scope with ID `i` (the one at position
`i - 1`) for `1 ≤ i ≤ n+1` and nothing for any other `i`; further calls only append
to the list of IDs, and `exitScope` leaves the scopes and what `getScopeById` returns
unchanged. -/
theorem C16_scope_ids_dense_and_stable (ops : List TableOp)
    (hn : enterCount ops + 1 ≤ 2147483647) :
    (SymbolTable.after ops).scopes.map Scope.scopeId =
      (List.range (enterCount ops + 1)).map (fun (i : Nat) => (i : Int) + 1) ∧
    (∀ i : Int, 1 ≤ i → i ≤ (enterCount ops : Int) + 1 →
      ∃ s, (SymbolTable.after ops).getScopeById i = some s ∧ s.scopeId = i ∧
        (SymbolTable.after ops).scopes[(i - 1).toNat]? = some s) ∧
    (∀ i : Int, ¬ (1 ≤ i ∧ i ≤ (enterCount ops : Int) + 1) →
      (SymbolTable.after ops).getScopeById i = none) ∧
    (∀ more : List TableOp, ∃ added,
      (SymbolTable.after (ops ++ more)).scopes.map Scope.scopeId =
        (SymbolTable.after ops).scopes.map Scope.scopeId ++ added) ∧
    (SymbolTable.after ops).exitScope.scopes = (SymbolTable.after ops).scopes ∧
    (∀ i : Int, (SymbolTable.after ops).exitScope.getScopeById i =
      (SymbolTable.after ops).getScopeById i) := by
  have hinv := tableInv_after ops
  have hlen := after_length ops
  have hb : (SymbolTable.after ops).scopes.length ≤ 2147483647 := by omega
  refine ⟨?_, ?_, ?_, ?_, exitScope_scopes _, exitScope_getScopeById _⟩
  · apply List.ext_getElem?
    intro i
    simp only [List.getElem?_map]
    by_cases hi : i < enterCount ops + 1
    · have hi2 : i < (SymbolTable.after ops).scopes.length := by omega
      rw [List.getElem?_range hi, List.getElem?_eq_getElem hi2]
      simp only [Option.map_some', Option.some.injEq]
      exact scopeId_eq _ hinv hb i _ (List.getElem?_eq_getElem hi2)
    · have h1 : (SymbolTable.after ops).scopes[i]? = none :=
        List.getElem?_eq_none (by omega)
      have h2 : (List.range (enterCount ops + 1))[i]? = none :=
        List.getElem?_eq_none (by simp; omega)
      rw [h1, h2]
      rfl
  · intro i h1 h2
    have hi2 : (i - 1).toNat < (SymbolTable.after ops).scopes.length := by omega
    refine ⟨(SymbolTable.after ops).scopes[(i - 1).toNat], ?_, ?_, List.getElem?_eq_getElem hi2⟩
    · rw [getScopeById_eq _ hinv hb, if_pos ⟨h1, by omega⟩]
      exact List.getElem?_eq_getElem hi2
    · rw [scopeId_eq _ hinv hb _ _ (List.getElem?_eq_getElem hi2)]
      omega
  · intro i hi
    rw [getScopeById_eq _ hinv hb, if_neg]
    rw [hlen]
    push_cast
    exact hi
  · intro more
    rw [after_append]
    exact runOps_scopeIds more _

/-- Claim C16 at the sequence `addSymbol a; enterScope; addSymbol a`. -/
theorem C16_scope_ids_dense_and_stable_witness :
    enterCount exOps + 1 ≤ 2147483647 ∧
    (SymbolTable.after exOps).scopes.map Scope.scopeId =
      (List.range (enterCount exOps + 1)).map (fun (i : Nat) => (i : Int) + 1) :=
  ⟨by decide, (C16_scope_ids_dense_and_stable exOps (by decide)).1⟩

/-- Claim C14: in a table reached from the constructor (at most `INT_MAX` scopes),
`addSymbol e` returns true exactly when `1 ≤ e.scope ≤` the number of scopes created so
far and the scope with ID `e.scope` has no entry named `e.name`; on success that scope
gains `e` at the end of its insertion order and nothing else changes; on failure the
table is unchanged. -/
theorem C14_addSymbol_true_iff_and_effect (ops : List TableOp) (e : SymbolEntry)
    (hn : enterCount ops + 1 ≤ 2147483647) :
    (((SymbolTable.after ops).addSymbol e).1 = true ↔
      (1 ≤ e.scope ∧ e.scope ≤ (enterCount ops : Int) + 1 ∧
        ∃ s, (SymbolTable.after ops).getScopeById e.scope = some s ∧ s.scopeId = e.scope ∧
          ∀ x ∈ s.getSymbols, x.name ≠ e.name)) ∧
    (((SymbolTable.after ops).addSymbol e).1 = true →
      ∃ s, (SymbolTable.after ops).getScopeById e.scope = some s ∧
        ((SymbolTable.after ops).addSymbol e).2 =
          (SymbolTable.after ops).setScope (e.scope - 1).toNat (s.withEntry e) ∧
        ((SymbolTable.after ops).addSymbol e).2.getScopeById e.scope = some (s.withEntry e) ∧
        (s.withEntry e).getSymbols = s.getSymbols ++ [e] ∧
        (s.withEntry e).scopeId = s.scopeId ∧
        (∀ i : Int, i ≠ e.scope →
          ((SymbolTable.after ops).addSymbol e).2.getScopeById i =
            (SymbolTable.after ops).getScopeById i) ∧
        ((SymbolTable.after ops).addSymbol e).2.scopeStack =
          (SymbolTable.after ops).scopeStack) ∧
    (((SymbolTable.after ops).addSymbol e).1 = false →
      ((SymbolTable.after ops).addSymbol e).2 = SymbolTable.after ops) := by
  have hinv := tableInv_after ops
  have hlen := after_length ops
  have hb : (SymbolTable.after ops).scopes.length ≤ 2147483647 := by omega
  generalize SymbolTable.after ops = t at hinv hlen hb
  refine ⟨?_, ?_, addSymbol_of_false t e⟩
  · rw [addSymbol_fst]
    constructor
    · rintro ⟨h1, h2, s, hs, hm⟩
      refine ⟨h1, by omega, s, ?_, ?_, ?_⟩
      · rw [getScopeById_eq t hinv hb, if_pos ⟨h1, h2⟩]
        exact hs
      · rw [scopeId_eq t hinv hb _ s hs]
        omega
      · exact (scope_findSymbol_none t hinv s (getElem?_some_mem hs) e.name).1 hm
    · rintro ⟨h1, h2, s, hs, _, hfresh⟩
      have h2b : e.scope ≤ (t.scopes.length : Int) := by omega
      rw [getScopeById_eq t hinv hb, if_pos ⟨h1, h2b⟩] at hs
      exact ⟨h1, h2b, s, hs,
        (scope_findSymbol_none t hinv s (getElem?_some_mem hs) e.name).2 hfresh⟩
  · intro htrue
    obtain ⟨s, hs, h1, h2, hm, heq⟩ := addSymbol_of_true t e htrue
    have hinv2 := tableInv_addSymbol t e hinv
    have hlen2 := addSymbol_length t e
    have hb2 : (t.addSymbol e).2.scopes.length ≤ 2147483647 := by omega
    have hk : (e.scope - 1).toNat < t.scopes.length := by omega
    have hsc : (t.addSymbol e).2.scopes = t.scopes.set (e.scope - 1).toNat (s.withEntry e) := by
      rw [heq]; rfl
    refine ⟨s, ?_, heq, ?_, rfl, rfl, ?_, ?_⟩
    · rw [getScopeById_eq t hinv hb, if_pos ⟨h1, h2⟩]
      exact hs
    · rw [getScopeById_eq _ hinv2 hb2, hlen2, if_pos ⟨h1, h2⟩, hsc, List.getElem?_set,
        if_pos rfl, if_pos hk]
    · intro i hi
      rw [getScopeById_eq _ hinv2 hb2, getScopeById_eq t hinv hb, hlen2]
      by_cases hc : 1 ≤ i ∧ i ≤ (t.scopes.length : Int)
      · rw [if_pos hc, if_pos hc, hsc, List.getElem?_set, if_neg]
        omega
      · rw [if_neg hc, if_neg hc]
    · rw [heq]; rfl

/-- Claim C14 at the table after `addSymbol a; enterScope; addSymbol a`, whose active
stack is `[1, 2]`: the global `b` of scope 1 is accepted although scope 1 is not the top
of the stack and is appended to scope 1, and a third `a` of scope 1 is refused and leaves
the table unchanged. -/
theorem C14_addSymbol_true_iff_and_effect_witness :
    enterCount exOps + 1 ≤ 2147483647 ∧
    (SymbolTable.after exOps).scopeStack = [1, 2] ∧
    ((SymbolTable.after exOps).addSymbol exSymB1).1 = true ∧
    (((SymbolTable.after exOps).addSymbol exSymB1).2.getScopeById 1).map Scope.getSymbols =
      some [exSymA1, exSymB1] ∧
    ((SymbolTable.after exOps).addSymbol exSymA1).1 = false ∧
    ((SymbolTable.after exOps).addSymbol exSymA1).2 = SymbolTable.after exOps :=
  ⟨by decide, by decide, by decide, by decide, by decide,
    (C14_addSymbol_true_iff_and_effect exOps exSymA1 (by decide)).2.2 (by decide)⟩

theorem findSymbol_some_iff (t : SymbolTable) (h : TableInv t) (name : String) (e : SymbolEntry) :
    t.findSymbol name = some e ↔
      ∃ outer id inner s, t.scopeStack = outer ++ id :: inner ∧
        t.getScopeById id = some s ∧ e ∈ s.getSymbols ∧ e.name = name ∧
        ∀ id2 ∈ inner, ∀ s2, t.getScopeById id2 = some s2 →
          ∀ x ∈ s2.getSymbols, x.name ≠ name := by
  unfold SymbolTable.findSymbol
  rw [findLoop_some]
  constructor
  · rintro ⟨before, id, rest, s, heq, hg, hf, hall⟩
    refine ⟨rest.reverse, id, before.reverse, s, ?_, hg, ?_⟩
    · have := congrArg List.reverse heq
      simpa using this
    · have hs := getScopeById_mem t id s hg
      obtain ⟨h1, h2⟩ := (scope_findSymbol_some t h s hs name e).1 hf
      refine ⟨h1, h2, ?_⟩
      intro id2 hid2 s2 hs2
      exact (scope_findSymbol_none t h s2 (getScopeById_mem t id2 s2 hs2) name).1
        (hall id2 (List.mem_reverse.1 hid2) s2 hs2)
  · rintro ⟨outer, id, inner, s, heq, hg, hmem, hname, hall⟩
    refine ⟨inner.reverse, id, outer.reverse, s, ?_, hg, ?_, ?_⟩
    · rw [heq]
      simp
    · exact (scope_findSymbol_some t h s (getScopeById_mem t id s hg) name e).2 ⟨hmem, hname⟩
    · intro id2 hid2 s2 hs2
      exact (scope_findSymbol_none t h s2 (getScopeById_mem t id2 s2 hs2) name).2
        (hall id2 (List.mem_reverse.1 hid2) s2 hs2)

theorem findSymbol_none_iff (t : SymbolTable) (h : TableInv t) (name : String) :
    t.findSymbol name = none ↔
      ∀ id ∈ t.scopeStack, ∀ s, t.getScopeById id = some s →
        ∀ x ∈ s.getSymbols, x.name ≠ name := by
  unfold SymbolTable.findSymbol
  rw [findLoop_none]
  constructor
  · intro hall id hid s hs
    exact (scope_findSymbol_none t h s (getScopeById_mem t id s hs) name).1
      (hall id (List.mem_reverse.2 hid) s hs)
  · intro hall id hid s hs
    exact (scope_findSymbol_none t h s (getScopeById_mem t id s hs) name).2
      (hall id (List.mem_reverse.1 hid) s hs)

theorem enter_add_exit (t : SymbolTable) (h : TableInv t) (hb : t.scopes.length + 1 ≤ 2147483647)
    (e : SymbolEntry) (he : e.scope = (t.scopes.length : Int) + 1) :
    (t.enterScope.addSymbol e).1 = true ∧
    (t.enterScope.addSymbol e).2.findSymbol e.name = some e ∧
    ∀ name : String,
      (t.enterScope.addSymbol e).2.exitScope.findSymbol name = t.findSymbol name := by
  have hb0 : t.scopes.length ≤ 2147483647 := by omega
  have hinv1 := tableInv_enterScope t h
  have hlen1 : t.enterScope.scopes.length = t.scopes.length + 1 := by
    simp [SymbolTable.enterScope]
  have hcid : t.currentScopeId = (t.scopes.length : Int) + 1 := by
    rw [h.counter]
    exact wrap32_small _ (by omega) (by omega)
  have hnew : t.enterScope.scopes[(e.scope - 1).toNat]? = some ({ scopeId := t.currentScopeId } : Scope) := by
    have hk : (e.scope - 1).toNat = t.scopes.length := by omega
    rw [hk]
    simp [SymbolTable.enterScope]
  have htrue : (t.enterScope.addSymbol e).1 = true := by
    rw [addSymbol_fst]
    refine ⟨by omega, by rw [hlen1]; push_cast; omega, _, hnew, rfl⟩
  obtain ⟨s, hs, h1, h2, hm, heq⟩ := addSymbol_of_true t.enterScope e htrue
  rw [hnew] at hs
  simp only [Option.some.injEq] at hs
  subst hs
  have hinv2 := tableInv_addSymbol t.enterScope e hinv1
  have hlen2 : (t.enterScope.addSymbol e).2.scopes.length = t.scopes.length + 1 := by
    rw [addSymbol_length, hlen1]
  have hb2 : (t.enterScope.addSymbol e).2.scopes.length ≤ 2147483647 := by omega
  have hstack : (t.enterScope.addSymbol e).2.scopeStack = t.scopeStack ++ [t.currentScopeId] := by
    rw [heq]; rfl
  have hsc : (t.enterScope.addSymbol e).2.scopes =
      (t.scopes ++ [({ scopeId := t.currentScopeId } : Scope)]).set (e.scope - 1).toNat
        (Scope.withEntry ({ scopeId := t.currentScopeId } : Scope) e) := by
    rw [heq]; rfl
  have hk : (e.scope - 1).toNat = t.scopes.length := by omega
  refine ⟨htrue, ?_, ?_⟩
  · unfold SymbolTable.findSymbol
    rw [hstack, List.reverse_append, List.reverse_singleton, List.singleton_append]
    unfold SymbolTable.findLoop
    have hg : (t.enterScope.addSymbol e).2.getScopeById t.currentScopeId =
        some (Scope.withEntry ({ scopeId := t.currentScopeId } : Scope) e) := by
      rw [getScopeById_eq _ hinv2 hb2, hlen2, if_pos (by rw [hcid]; push_cast; omega), hsc,
        hcid, List.getElem?_set]
      have hk2 : ((t.scopes.length : Int) + 1 - 1).toNat = t.scopes.length := by omega
      rw [hk, hk2, if_pos rfl, if_pos (by simp)]
    rw [hg]
    simp only [Scope.findSymbol, Scope.withEntry, mapFind_mapSet_self]
  · intro name
    have hne : (t.enterScope.addSymbol e).2.scopeStack ≠ [] := by rw [hstack]; simp
    unfold SymbolTable.findSymbol
    have hst2 : (t.enterScope.addSymbol e).2.exitScope.scopeStack = t.scopeStack := by
      unfold SymbolTable.exitScope
      rw [if_pos hne]
      simp only [hstack, List.dropLast_concat]
    rw [hst2]
    apply findLoop_congr
    intro id hid
    have hr := h.stack hb0 id (List.mem_reverse.1 hid)
    rw [exitScope_getScopeById, getScopeById_eq _ hinv2 hb2, getScopeById_eq t h hb0, hlen2,
      if_pos (by push_cast; omega), if_pos hr, hsc, List.getElem?_set, if_neg (by omega),
      List.getElem?_append_left (by omega)]

/-- Claim C15: in a table reached from the constructor (at most `INT_MAX` scopes),
`findSymbol name` returns an entry exactly when it is the entry named `name` of a scope
on the active stack such that no scope further in contains the name, and returns none
exactly when no scope on the active stack contains the name; every ID on the stack
names a scope; after `enterScope` and a successful `addSymbol e` into the new scope,
`e` is found under its name, and after the following `exitScope` every lookup gives
what it gave before `enterScope`. -/
theorem C15_findSymbol_innermost_active_scope (ops : List TableOp) (name : String)
    (hn : enterCount ops + 2 ≤ 2147483647) :
    (∀ e : SymbolEntry, (SymbolTable.after ops).findSymbol name = some e ↔
      ∃ outer id inner s, (SymbolTable.after ops).scopeStack = outer ++ id :: inner ∧
        (SymbolTable.after ops).getScopeById id = some s ∧ e ∈ s.getSymbols ∧ e.name = name ∧
        ∀ id2 ∈ inner, ∀ s2, (SymbolTable.after ops).getScopeById id2 = some s2 →
          ∀ x ∈ s2.getSymbols, x.name ≠ name) ∧
    ((SymbolTable.after ops).findSymbol name = none ↔
      ∀ id ∈ (SymbolTable.after ops).scopeStack, ∀ s,
        (SymbolTable.after ops).getScopeById id = some s →
          ∀ x ∈ s.getSymbols, x.name ≠ name) ∧
    (∀ id ∈ (SymbolTable.after ops).scopeStack,
      ∃ s, (SymbolTable.after ops).getScopeById id = some s ∧ s.scopeId = id) ∧
    (∀ e : SymbolEntry, e.scope = (enterCount ops : Int) + 2 →
      ((SymbolTable.after ops).enterScope.addSymbol e).1 = true ∧
      ((SymbolTable.after ops).enterScope.addSymbol e).2.findSymbol e.name = some e ∧
      ∀ name2 : String,
        ((SymbolTable.after ops).enterScope.addSymbol e).2.exitScope.findSymbol name2 =
          (SymbolTable.after ops).findSymbol name2) := by
  have hinv := tableInv_after ops
  have hlen := after_length ops
  have hb : (SymbolTable.after ops).scopes.length ≤ 2147483647 := by omega
  refine ⟨fun e => findSymbol_some_iff _ hinv name e, findSymbol_none_iff _ hinv name, ?_, ?_⟩
  · intro id hid
    have hr := hinv.stack hb id hid
    have hk : (id - 1).toNat < (SymbolTable.after ops).scopes.length := by omega
    refine ⟨(SymbolTable.after ops).scopes[(id - 1).toNat], ?_, ?_⟩
    · rw [getScopeById_eq _ hinv hb, if_pos hr]
      exact List.getElem?_eq_getElem hk
    · rw [scopeId_eq _ hinv hb _ _ (List.getElem?_eq_getElem hk)]
      omega
  · intro e he
    exact enter_add_exit _ hinv (by omega) e (by rw [hlen, he]; push_cast; ring)

/-- Claim C15 at the table after `addSymbol a; enterScope; addSymbol a`: the inner `a` of
scope 2 is found, and a further nested `a` of scope 3 is found while its scope is
active. -/
theorem C15_findSymbol_innermost_active_scope_witness :
    enterCount exOps + 2 ≤ 2147483647 ∧
    (SymbolTable.after exOps).findSymbol "a" = some exSymA2 ∧
    ((SymbolTable.after exOps).enterScope.addSymbol exSymA3).2.findSymbol "a" = some exSymA3 ∧
    ((SymbolTable.after exOps).enterScope.addSymbol exSymA3).2.exitScope.findSymbol "a" =
      some exSymA2 :=
  ⟨by decide, by decide,
    ((C15_findSymbol_innermost_active_scope exOps "a" (by decide)).2.2.2 exSymA3
      (by decide)).2.1,
    (((C15_findSymbol_innermost_active_scope exOps "a" (by decide)).2.2.2 exSymA3
      (by decide)).2.2 "a").trans (by decide)⟩

theorem symsAt_apply (t : SymbolTable) (op : TableOp) (i : Nat) :
    symsAt (t.apply op) i =
      symsAt t i ++ (addedFrom t [op]).filter (fun e => decide (e.scope = (i : Int) + 1)) := by
  cases op with
  | enterScope =>
    simp only [SymbolTable.apply, addedFrom, List.append_nil, List.filter_nil]
    unfold symsAt SymbolTable.enterScope
    by_cases hi : i < t.scopes.length
    · rw [List.getElem?_append_left hi]
    · have h1 : t.scopes[i]? = none := List.getElem?_eq_none (by omega)
      rw [h1]
      by_cases hi2 : i = t.scopes.length
      · subst hi2
        simp [Scope.getSymbols]
      · have h2 : (t.scopes ++ [({ scopeId := t.currentScopeId } : Scope)])[i]? = none :=
          List.getElem?_eq_none (by simp; omega)
        rw [h2]
  | exitScope =>
    simp only [SymbolTable.apply, addedFrom, List.append_nil, List.filter_nil]
    unfold symsAt
    rw [exitScope_scopes]
  | addSymbol e =>
    simp only [SymbolTable.apply, addedFrom, List.append_nil]
    cases hres : (t.addSymbol e).1 with
    | false =>
      rw [addSymbol_of_false t e hres]
      simp
    | true =>
      obtain ⟨s, hs, h1, h2, _, heq⟩ := addSymbol_of_true t e hres
      rw [heq]
      simp only [if_true]
      unfold symsAt SymbolTable.setScope
      simp only [List.getElem?_set]
      have hk : (e.scope - 1).toNat < t.scopes.length := by omega
      by_cases hi : (e.scope - 1).toNat = i
      · have hsc : e.scope = (i : Int) + 1 := by omega
        rw [if_pos hi, if_pos hk, ← hi, hs]
        simp [Scope.getSymbols, Scope.withEntry, hi, hsc]
      · have hsc : ¬ (e.scope = (i : Int) + 1) := by omega
        rw [if_neg hi]
        simp [hsc]

theorem symsAt_runOps (ops : List TableOp) (i : Nat) :
    ∀ t : SymbolTable, symsAt (t.runOps ops) i =
      symsAt t i ++ (addedFrom t ops).filter (fun e => decide (e.scope = (i : Int) + 1)) := by
  induction ops with
  | nil => intro t; simp [SymbolTable.runOps, addedFrom]
  | cons op rest ih =>
    intro t
    rw [SymbolTable.runOps, ih, symsAt_apply]
    simp only [addedFrom, List.append_nil, List.filter_append, List.append_assoc]

theorem flatMap_eq_range {α β : Type} (l : List α) (f : α → List β) :
    l.flatMap f =
      (List.range l.length).flatMap (fun i => match l[i]? with
        | some x => f x
        | none => []) := by
  induction l using List.reverseRecOn with
  | nil => rfl
  | append_singleton l a ih =>
    rw [List.flatMap_append, List.length_append, List.length_singleton, List.range_succ,
      List.flatMap_append, List.flatMap_singleton, List.flatMap_singleton]
    congr 1
    · rw [ih]
      apply List.flatMap_congr
      intro i hi
      rw [List.getElem?_append_left (List.mem_range.1 hi)]
    · simp

theorem getAllSymbols_eq (t : SymbolTable) :
    t.getAllSymbols = (List.range t.scopes.length).flatMap (symsAt t) := by
  unfold SymbolTable.getAllSymbols
  rw [flatMap_eq_range]
  apply List.flatMap_congr
  intro i _
  unfold symsAt
  cases t.scopes[i]? <;> rfl

theorem addedFrom_scope (ops : List TableOp) :
    ∀ t : SymbolTable, ∀ e ∈ addedFrom t ops,
      1 ≤ e.scope ∧ e.scope ≤ ((t.runOps ops).scopes.length : Int) := by
  induction ops with
  | nil => intro t e he; simp [addedFrom] at he
  | cons op rest ih =>
    intro t e he
    simp only [addedFrom, List.mem_append] at he
    rcases he with he | he
    · cases op with
      | enterScope => simp at he
      | exitScope => simp at he
      | addSymbol e2 =>
        simp only at he
        by_cases hres : (t.addSymbol e2).1 = true
        · rw [if_pos hres] at he
          simp only [List.mem_singleton] at he
          subst he
          obtain ⟨h1, h2, _⟩ := (addSymbol_fst t e).1 hres
          have hl := runOps_length (TableOp.addSymbol e :: rest) t
          omega
        · rw [if_neg hres] at he
          simp at he
    · exact ih _ e he

theorem flatMap_indicator_nil (a : SymbolEntry) (n : Nat) (h : (n : Int) < a.scope) :
    (List.range n).flatMap
      (fun i => if a.scope = (i : Int) + 1 then [a] else []) = [] := by
  rw [List.flatMap_eq_nil_iff]
  intro i hi
  have := List.mem_range.1 hi
  rw [if_neg]
  omega

theorem flatMap_indicator (a : SymbolEntry) (n : Nat) (h1 : 1 ≤ a.scope)
    (h2 : a.scope ≤ (n : Int)) :
    (List.range n).flatMap
      (fun i => if a.scope = (i : Int) + 1 then [a] else []) = [a] := by
  induction n with
  | zero => simp at h2; omega
  | succ n ih =>
    rw [List.range_succ, List.flatMap_append, List.flatMap_singleton]
    by_cases hc : a.scope = (n : Int) + 1
    · rw [if_pos hc, flatMap_indicator_nil a n (by omega)]
      rfl
    · rw [if_neg hc, ih (by push_cast at h2; omega)]
      rfl

theorem perm_group_by_scope (l : List SymbolEntry) (n : Nat)
    (h : ∀ e ∈ l, 1 ≤ e.scope ∧ e.scope ≤ (n : Int)) :
    ((List.range n).flatMap
      (fun i => l.filter (fun e => decide (e.scope = (i : Int) + 1)))).Perm l := by
  induction l with
  | nil => simp
  | cons a rest ih =>
    have ha := h a (by simp)
    have hrest := ih (fun e he => h e (List.mem_cons_of_mem _ he))
    have hsplit : ∀ i : Nat,
        (a :: rest).filter (fun e => decide (e.scope = (i : Int) + 1)) =
          (if a.scope = (i : Int) + 1 then [a] else []) ++
            rest.filter (fun e => decide (e.scope = (i : Int) + 1)) := by
      intro i
      by_cases hc : a.scope = (i : Int) + 1
      · simp [List.filter, hc]
      · simp [List.filter, hc]
    simp only [hsplit]
    refine (List.flatMap_append_perm _ _ _).symm.trans ?_
    rw [flatMap_indicator a n ha.1 ha.2]
    exact List.Perm.cons a hrest

/-- Claim C17, counterexample: two entries of scope 1 added with lines 7 and 1 come back
from `getAllSymbols` in the order of the calls, the entry of line 7 first. -/
theorem C17_getAllSymbols_keeps_insertion_order :
    addedEntries exOpsOutOfLineOrder = [exSymB1, exSymA1] ∧
    (SymbolTable.after exOpsOutOfLineOrder).getAllSymbols = [exSymB1, exSymA1] ∧
    ((SymbolTable.after exOpsOutOfLineOrder).getAllSymbols.map SymbolEntry.line) = [7, 1] ∧
    ¬ ((SymbolTable.after exOpsOutOfLineOrder).getAllSymbols.Pairwise
        (fun a b => a.scope = b.scope → a.line ≤ b.line)) := by
  decide

/-- Claim C17, amended: after any sequence of calls, `getAllSymbols` is the list of the
successfully added entries grouped by scope ID ascending, the entries of one scope in
the order of their `addSymbol` calls; it holds every added entry exactly once. -/
theorem C17_getAllSymbols_scope_then_insertion_order (ops : List TableOp) :
    (SymbolTable.after ops).getAllSymbols =
      (List.range (enterCount ops + 1)).flatMap
        (fun i => (addedEntries ops).filter (fun e => decide (e.scope = (i : Int) + 1))) ∧
    (SymbolTable.after ops).getAllSymbols.Perm (addedEntries ops) ∧
    (SymbolTable.after ops).getAllSymbols.Pairwise (fun a b => a.scope ≤ b.scope) := by
  have hlen := after_length ops
  have hform : (SymbolTable.after ops).getAllSymbols =
      (List.range (enterCount ops + 1)).flatMap
        (fun i => (addedEntries ops).filter (fun e => decide (e.scope = (i : Int) + 1))) := by
    rw [getAllSymbols_eq, hlen]
    apply List.flatMap_congr
    intro i _
    unfold SymbolTable.after addedEntries
    rw [symsAt_runOps]
    have h0 : symsAt SymbolTable.construct i = [] := by
      cases i with
      | zero => rfl
      | succ k => rfl
    rw [h0, List.nil_append]
  refine ⟨hform, ?_, ?_⟩
  · rw [hform]
    apply perm_group_by_scope
    intro e he
    have := addedFrom_scope ops SymbolTable.construct e he
    have hl : (SymbolTable.construct.runOps ops).scopes.length = enterCount ops + 1 := hlen
    rw [hl] at this
    exact this
  · rw [hform, List.pairwise_flatMap]
    constructor
    · intro i _
      apply List.pairwise_of_forall_mem_list
      intro x hx y hy
      have h1 := (List.mem_filter.1 hx).2
      have h2 := (List.mem_filter.1 hy).2
      simp only [decide_eq_true_eq] at h1 h2
      omega
    · apply List.Pairwise.imp _ (List.pairwise_lt_range _)
      intro i j hij x hx y hy
      have h1 := (List.mem_filter.1 hx).2
      have h2 := (List.mem_filter.1 hy).2
      simp only [decide_eq_true_eq] at h1 h2
      omega

/-! ### Text of operands -/

theorem getVarOperand_type_symbol (entry : SymbolEntry) :
    (getVarOperand entry).type = OperandType.VAR ∧ (getVarOperand entry).symbol = some entry := by
  unfold getVarOperand
  simp only [Operand.ofSymbol]
  split_ifs <;> exact ⟨rfl, rfl⟩

/-- Claim C18: `Operand::toString` gives `#` and the decimal value for an immediate and
the operand name for a temporary or a label, but for the operand `getVar` builds for a
variable it gives the source name of the symbol entry, not the name carried by the
operand: the local `a` of scope 3 carries the name `a_3` and prints as `a`, as does the
local `a` of scope 2; constant folding, which keys its table by this text, then turns
`ASSIGN a_2, #1; ASSIGN a_3, #2; PRINTINT a_2` into a listing that prints `#2`. -/
theorem C18_toString_prints_source_name_of_variable :
    (∀ v : Int, (Operand.imm v).toString = "#" ++ ToString.toString v) ∧
    (∀ n : String, (Operand.named n OperandType.TEMP).toString = n) ∧
    (∀ n : String, (Operand.named n OperandType.LABEL).toString = n) ∧
    (∀ entry : SymbolEntry, (getVarOperand entry).toString = entry.name) ∧
    getVar exNestedScopes [exSymA1, exSymA2, exSymA3] "a" = some (getVarOperand exSymA3) ∧
    (getVarOperand exSymA3).name = "a_3" ∧
    (getVarOperand exSymA3).toString = "a" ∧
    (getVarOperand exSymA2).name = "a_2" ∧
    (getVarOperand exSymA2).toString = (getVarOperand exSymA3).toString ∧
    (passConstantFolding exShadowBlock).1.instructions.getLast? =
      some { op := IROp.PRINTINT, arg1 := some (Operand.imm 2) } := by
  refine ⟨fun v => rfl, fun n => rfl, fun n => rfl, ?_, by decide, by decide, by decide,
    by decide, by decide, by decide⟩
  intro entry
  obtain ⟨h1, h2⟩ := getVarOperand_type_symbol entry
  unfold Operand.toString
  rw [h1, h2]
  rfl

/-! ### Lowering of `printf` -/

theorem strLabel_injective (a b : Nat) (h : strLabel a = strLabel b) : a = b := by
  unfold strLabel at h
  have h2 := congrArg String.data h
  simp only [String.data_append, List.append_cancel_left_eq] at h2
  apply natRepr_injective
  exact String.ext h2

theorem printfChildren_spec (children : List StmtChild) :
    ∀ (rawStr : List Char) (args : List Operand) (g : GenState),
      printfChildren children rawStr args g =
        (quotedText children rawStr, args ++ (printfArgs children).map Leaf.val,
          { g with instructions := g.instructions ++ (printfArgs children).flatMap Leaf.code }) := by
  induction children with
  | nil =>
    intro rawStr args g
    simp [printfChildren, quotedText, printfArgs]
  | cons c rest ih =>
    intro rawStr args g
    cases c with
    | terminal value =>
      by_cases hq : '"' ∈ value
      · simp only [printfChildren, hq, if_true, ih, quotedText, printfArgs]
      · simp only [printfChildren, hq, if_false, ih, quotedText, printfArgs]
    | exp e =>
      simp only [printfChildren, visitExp, ih, quotedText, printfArgs, List.map_cons,
        List.flatMap_cons, List.append_assoc, List.singleton_append]
    | other =>
      simp only [printfChildren, ih, quotedText, printfArgs]

theorem printArg_eq (args : List Operand) (argIdx : Nat) (g : GenState) (items : List FmtItem) :
    withItems items (args.drop (printArg args argIdx g).2) (printArg args argIdx g).1 =
      withItems (FmtItem.arg :: items) (args.drop argIdx) g := by
  unfold printArg
  cases h : args[argIdx]? with
  | none =>
    have hlen : args.length ≤ argIdx := by
      by_contra hc
      rw [List.getElem?_eq_getElem (by omega)] at h
      simp at h
    simp only [List.drop_eq_nil_of_le hlen, withItems]
  | some a =>
    have hlt := (List.getElem?_eq_some.1 h).1
    have ha := (List.getElem?_eq_some.1 h).2
    have hd : args.drop argIdx = a :: args.drop (argIdx + 1) := by
      rw [← ha]
      exact List.drop_eq_getElem_cons hlt
    simp only [hd, withItems]

theorem printfLoop_items (args : List Operand) (fmt : List Char) :
    ∀ (argIdx : Nat) (buffer : List Char) (g : GenState),
      ∃ items : List FmtItem,
        printfLoop args fmt argIdx buffer g = withItems items (args.drop argIdx) g ∧
        items.flatMap FmtItem.tokens = buffer.map FmtToken.lit ++ fmtTokens fmt ∧
        (∀ s, FmtItem.text s ∈ items → s ≠ []) ∧
        items.Chain' (fun a b => ¬ (a.isText = true ∧ b.isText = true)) := by
  induction fmt using fmtTokens.induct with
  | case1 =>
    intro argIdx buffer g
    by_cases hb : buffer = []
    · subst hb
      exact ⟨[], by simp [printfLoop, flushBuffer, withItems], by simp [fmtTokens], by simp,
        List.chain'_nil⟩
    · refine ⟨[FmtItem.text buffer], by simp [printfLoop, withItems],
        by simp [fmtTokens, FmtItem.tokens], ?_, List.chain'_singleton _⟩
      intro s hs
      simp only [List.mem_singleton, FmtItem.text.injEq] at hs
      rw [hs]
      exact hb
  | case2 c =>
    intro argIdx buffer g
    refine ⟨[FmtItem.text (buffer ++ [c])], by simp [printfLoop, withItems],
      by simp [fmtTokens, FmtItem.tokens], ?_, List.chain'_singleton _⟩
    intro s hs
    simp only [List.mem_singleton, FmtItem.text.injEq] at hs
    rw [hs]
    simp
  | case3 c d rest hcd ih =>
    intro argIdx buffer g
    obtain ⟨items, h1, h2, h3, h4⟩ :=
      ih (printArg args argIdx (flushBuffer g buffer)).2 []
        (printArg args argIdx (flushBuffer g buffer)).1
    have hloop : printfLoop args (c :: d :: rest) argIdx buffer g =
        withItems (FmtItem.arg :: items) (args.drop argIdx) (flushBuffer g buffer) := by
      rw [← printArg_eq, ← h1]
      simp only [printfLoop, hcd, and_self, if_true]
    by_cases hb : buffer = []
    · subst hb
      refine ⟨FmtItem.arg :: items, ?_, ?_, ?_, ?_⟩
      · rw [hloop]
        simp [flushBuffer]
      · simp [fmtTokens, hcd, FmtItem.tokens, h2]
      · intro s hs
        simp only [List.mem_cons, reduceCtorEq, false_or] at hs
        exact h3 s hs
      · apply List.Chain'.cons' h4
        intro y _
        simp [FmtItem.isText]
    · refine ⟨FmtItem.text buffer :: FmtItem.arg :: items, ?_, ?_, ?_, ?_⟩
      · rw [hloop]
        simp only [withItems]
      · simp [fmtTokens, hcd, FmtItem.tokens, h2]
      · intro s hs
        simp only [List.mem_cons, FmtItem.text.injEq, reduceCtorEq, false_or] at hs
        rcases hs with hs | hs
        · rw [hs]; exact hb
        · exact h3 s hs
      · apply List.Chain'.cons'
        · apply List.Chain'.cons' h4
          intro y _
          simp [FmtItem.isText]
        · intro y hy
          simp only [List.head?_cons, Option.mem_def, Option.some.injEq] at hy
          subst hy
          simp [FmtItem.isText]
  | case4 c d rest hcd hnl ih =>
    intro argIdx buffer g
    obtain ⟨items, h1, h2, h3, h4⟩ := ih argIdx (buffer ++ ['\n']) g
    refine ⟨items, ?_, ?_, h3, h4⟩
    · rw [← h1]
      simp only [printfLoop]
      rw [if_neg hcd, if_pos hnl]
    · rw [h2]
      simp [fmtTokens, hcd, hnl]
  | case5 c d rest hcd hnl ih =>
    intro argIdx buffer g
    obtain ⟨items, h1, h2, h3, h4⟩ := ih argIdx (buffer ++ [c]) g
    refine ⟨items, ?_, ?_, h3, h4⟩
    · rw [← h1]
      simp only [printfLoop]
      rw [if_neg hcd, if_neg hnl]
    · rw [h2]
      simp [fmtTokens, hcd, hnl]

theorem flushBuffer_of_ne (g : GenState) (s : List Char) (hs : s ≠ []) :
    flushBuffer g s =
      { g with instructions := g.instructions ++
                 [{ op := IROp.PRINTSTR,
                    arg1 := some (Operand.named (strLabel g.stringCounter) OperandType.LABEL) }],
               stringCounter := g.stringCounter + 1,
               stringConstants := mapSet g.stringConstants (strLabel g.stringCounter) (String.mk s) } := by
  simp [flushBuffer, hs, addStringConstant, emit]

theorem withItems_instructions (items : List FmtItem) :
    ∀ (as : List Operand) (g : GenState), (∀ s, FmtItem.text s ∈ items → s ≠ []) →
      (withItems items as g).instructions =
        g.instructions ++ itemInstrs items as g.stringCounter ∧
      (withItems items as g).stringCounter =
        g.stringCounter + (items.filter FmtItem.isText).length ∧
      (withItems items as g).labelCounter = g.labelCounter := by
  induction items with
  | nil => intro as g _; simp [withItems, itemInstrs]
  | cons it rest ih =>
    intro as g hne
    have hrest : ∀ s, FmtItem.text s ∈ rest → s ≠ [] :=
      fun s hs => hne s (List.mem_cons_of_mem _ hs)
    cases it with
    | text s =>
      have hs : s ≠ [] := hne s (by simp)
      obtain ⟨h1, h2, h3⟩ := ih as (flushBuffer g s) hrest
      simp only [withItems, itemInstrs, h1, h2, h3]
      rw [flushBuffer_of_ne g s hs]
      simp [FmtItem.isText]
      omega
    | arg =>
      cases as with
      | nil =>
        obtain ⟨h1, h2, h3⟩ := ih [] g hrest
        simp only [withItems, itemInstrs, h1, h2, h3]
        simp [FmtItem.isText]
      | cons a as2 =>
        obtain ⟨h1, h2, h3⟩ := ih as2 (emit g IROp.PRINTINT none (some a) none) hrest
        simp only [withItems, itemInstrs, h1, h2, h3]
        simp [FmtItem.isText, emit]

theorem withItems_consts_other (items : List FmtItem) (label : String) :
    ∀ (as : List Operand) (g : GenState), (∀ k, g.stringCounter ≤ k → strLabel k ≠ label) →
      mapFind (withItems items as g).stringConstants label = mapFind g.stringConstants label := by
  induction items with
  | nil => intro as g _; rfl
  | cons it rest ih =>
    intro as g hk
    cases it with
    | text s =>
      simp only [withItems]
      by_cases hs : s = []
      · subst hs
        have : flushBuffer g [] = g := by simp [flushBuffer]
        rw [this]
        exact ih as g hk
      · rw [ih as (flushBuffer g s) (by
          intro k hk2
          rw [flushBuffer_of_ne g s hs] at hk2
          exact hk k (by simp at hk2; omega))]
        rw [flushBuffer_of_ne g s hs]
        exact mapFind_mapSet_ne _ _ _ _ (hk _ (Nat.le_refl _))
    | arg =>
      cases as with
      | nil => exact ih [] g hk
      | cons a as2 => exact ih as2 _ hk

theorem withItems_consts_new (items : List FmtItem) (label : String) :
    ∀ (as : List Operand) (g : GenState), (∀ s, FmtItem.text s ∈ items → s ≠ []) →
      mapFind (withItems items as g).stringConstants label = mapFind g.stringConstants label ∨
      ∃ s, s ≠ [] ∧ mapFind (withItems items as g).stringConstants label = some (String.mk s) := by
  induction items with
  | nil => intro as g _; exact Or.inl rfl
  | cons it rest ih =>
    intro as g hne
    have hrest : ∀ s, FmtItem.text s ∈ rest → s ≠ [] :=
      fun s hs => hne s (List.mem_cons_of_mem _ hs)
    cases it with
    | text s =>
      have hs : s ≠ [] := hne s (by simp)
      simp only [withItems]
      rcases ih as (flushBuffer g s) hrest with h | h
      · rw [h, flushBuffer_of_ne g s hs]
        by_cases hl : strLabel g.stringCounter = label
        · right
          exact ⟨s, hs, by rw [← hl]; exact mapFind_mapSet_self _ _ _⟩
        · left
          exact mapFind_mapSet_ne _ _ _ _ hl
      · exact Or.inr h
    | arg =>
      cases as with
      | nil => exact ih [] g hrest
      | cons a as2 => exact ih as2 _ hrest

theorem expand_lits (s : List Char) (toks : List FmtToken) (vs : List (List Char)) :
    expand (s.map FmtToken.lit ++ toks) vs = s ++ expand toks vs := by
  induction s with
  | nil => rfl
  | cons c rest ih => simp [expand, ih]

theorem render_cons (consts : List (String × String)) (valueOf : Operand → List Char)
    (i : IRInstruction) (rest : List IRInstruction) :
    render consts valueOf (i :: rest) =
      renderInstr consts valueOf i ++ render consts valueOf rest := by
  simp [render]

theorem render_withItems (valueOf : Operand → List Char) (items : List FmtItem) :
    ∀ (as : List Operand) (g : GenState), (∀ s, FmtItem.text s ∈ items → s ≠ []) →
      render (withItems items as g).stringConstants valueOf
          (itemInstrs items as g.stringCounter) =
        expand (items.flatMap FmtItem.tokens) (as.map valueOf) := by
  induction items with
  | nil => intro as g _; rfl
  | cons it rest ih =>
    intro as g hne
    have hrest : ∀ s, FmtItem.text s ∈ rest → s ≠ [] :=
      fun s hs => hne s (List.mem_cons_of_mem _ hs)
    cases it with
    | text s =>
      have hs : s ≠ [] := hne s (by simp)
      have hcnt : (flushBuffer g s).stringCounter = g.stringCounter + 1 := by
        rw [flushBuffer_of_ne g s hs]
      have hih := ih as (flushBuffer g s) hrest
      rw [hcnt] at hih
      have hfind : mapFind (withItems rest as (flushBuffer g s)).stringConstants
          (strLabel g.stringCounter) = some (String.mk s) := by
        rw [withItems_consts_other rest (strLabel g.stringCounter) as (flushBuffer g s) (by
          intro k hk heq
          rw [hcnt] at hk
          have := strLabel_injective _ _ heq
          omega)]
        rw [flushBuffer_of_ne g s hs]
        exact mapFind_mapSet_self _ _ _
      simp only [withItems, itemInstrs, render_cons, hih, List.flatMap_cons, FmtItem.tokens,
        expand_lits]
      congr 1
      simp [renderInstr, Operand.named, hfind]
    | arg =>
      cases as with
      | nil =>
        have hih := ih [] g hrest
        simp only [withItems, itemInstrs, List.flatMap_cons, FmtItem.tokens, List.map_nil,
          List.singleton_append, expand] at hih ⊢
        exact hih
      | cons a as2 =>
        have hih := ih as2 (emit g IROp.PRINTINT none (some a) none) hrest
        have hc : (emit g IROp.PRINTINT none (some a) none).stringCounter = g.stringCounter := rfl
        rw [hc] at hih
        simp only [withItems, itemInstrs, render_cons, hih, List.flatMap_cons, FmtItem.tokens,
          List.map_cons, List.singleton_append, expand]
        congr 1

theorem specCount_append (a b : List FmtToken) :
    specCount (a ++ b) = specCount a + specCount b := by
  induction a with
  | nil => simp [specCount]
  | cons t rest ih =>
    cases t with
    | lit c => simp [specCount, ih]
    | spec => simp [specCount, ih]; omega

theorem specCount_lits (s : List Char) : specCount (s.map FmtToken.lit) = 0 := by
  induction s with
  | nil => rfl
  | cons c rest ih => simp [specCount, ih]

theorem printIntArgs_itemInstrs (items : List FmtItem) :
    ∀ (as : List Operand) (counter : Nat),
      printIntArgs (itemInstrs items as counter) =
        as.take (specCount (items.flatMap FmtItem.tokens)) := by
  induction items with
  | nil => intro as counter; simp [itemInstrs, printIntArgs, specCount]
  | cons it rest ih =>
    intro as counter
    cases it with
    | text s =>
      simp only [itemInstrs, printIntArgs, List.flatMap_cons, FmtItem.tokens, specCount_append,
        specCount_lits, ih]
      simp
    | arg =>
      cases as with
      | nil => simp [itemInstrs, ih]
      | cons a as2 =>
        simp only [itemInstrs, printIntArgs, List.flatMap_cons, FmtItem.tokens,
          List.singleton_append, specCount, ih]
        rfl

theorem withItems_consts_text (items : List FmtItem) :
    ∀ (as : List Operand) (g : GenState), (∀ s, FmtItem.text s ∈ items → s ≠ []) →
      ∀ (j : Nat) (s : List Char), (items.filter FmtItem.isText)[j]? = some (FmtItem.text s) →
        mapFind (withItems items as g).stringConstants (strLabel (g.stringCounter + j)) =
          some (String.mk s) := by
  induction items with
  | nil => intro as g _ j s h; simp at h
  | cons it rest ih =>
    intro as g hne j s h
    have hrest : ∀ s, FmtItem.text s ∈ rest → s ≠ [] :=
      fun s hs => hne s (List.mem_cons_of_mem _ hs)
    cases it with
    | text s0 =>
      have hs0 : s0 ≠ [] := hne s0 (by simp)
      have hcnt : (flushBuffer g s0).stringCounter = g.stringCounter + 1 := by
        rw [flushBuffer_of_ne g s0 hs0]
      have hf : (FmtItem.text s0 :: rest).filter FmtItem.isText =
          FmtItem.text s0 :: rest.filter FmtItem.isText := by
        simp [List.filter, FmtItem.isText]
      rw [hf] at h
      simp only [withItems]
      cases j with
      | zero =>
        simp only [List.getElem?_cons_zero, Option.some.injEq, FmtItem.text.injEq] at h
        subst h
        rw [Nat.add_zero, withItems_consts_other rest (strLabel g.stringCounter) as
          (flushBuffer g s0) (by
            intro k hk heq
            rw [hcnt] at hk
            have := strLabel_injective _ _ heq
            omega)]
        rw [flushBuffer_of_ne g s0 hs0]
        exact mapFind_mapSet_self _ _ _
      | succ j2 =>
        simp only [List.getElem?_cons_succ] at h
        have := ih as (flushBuffer g s0) hrest j2 s h
        rw [hcnt] at this
        rw [show g.stringCounter + (j2 + 1) = g.stringCounter + 1 + j2 by omega]
        exact this
    | arg =>
      have hf : (FmtItem.arg :: rest).filter FmtItem.isText = rest.filter FmtItem.isText := by
        simp [List.filter, FmtItem.isText]
      rw [hf] at h
      cases as with
      | nil => exact ih [] g hrest j s h
      | cons a as2 => exact ih as2 (emit g IROp.PRINTINT none (some a) none) hrest j s h

theorem visitPrintf_example :
    (visitPrintf exPrintfChildren exGenEmpty).instructions =
      [{ op := IROp.PRINTSTR, arg1 := some (Operand.named "str_0" OperandType.LABEL) },
       { op := IROp.PRINTINT, arg1 := some exVarX },
       { op := IROp.PRINTSTR, arg1 := some (Operand.named "str_1" OperandType.LABEL) }] ∧
    (visitPrintf exPrintfChildren exGenEmpty).stringConstants =
      [("str_1", "\n"), ("str_0", "x=")] := by
  decide

/-- Claim C19: for a `printf` statement whose format has as many `%d` specifiers as there
are argument expressions, the instructions appended are the code of all arguments in
order followed by output instructions that stand for a list of items: the items spell
the format from left to right, every run of literal characters is non-empty and no two
runs are neighbours, there is one PRINTSTR per run, whose string constant is the run,
and one PRINTINT per specifier, the i-th with the operand of the i-th argument; what
the output instructions write is the format with the i-th specifier replaced by the
i-th value; every string constant created is non-empty. -/
theorem C19_printf_lowering (children : List StmtChild) (g : GenState)
    (valueOf : Operand → List Char)
    (hcount : specCount (fmtTokens (printfFormat children)) = (printfArgs children).length) :
    ∃ items : List FmtItem,
      (visitPrintf children g).instructions =
        g.instructions ++ (printfArgs children).flatMap Leaf.code ++
          itemInstrs items ((printfArgs children).map Leaf.val) g.stringCounter ∧
      items.flatMap FmtItem.tokens = fmtTokens (printfFormat children) ∧
      (∀ s, FmtItem.text s ∈ items → s ≠ []) ∧
      items.Chain' (fun a b => ¬ (a.isText = true ∧ b.isText = true)) ∧
      printIntArgs (itemInstrs items ((printfArgs children).map Leaf.val) g.stringCounter) =
        (printfArgs children).map Leaf.val ∧
      (∀ (j : Nat) (s : List Char), (items.filter FmtItem.isText)[j]? = some (FmtItem.text s) →
        mapFind (visitPrintf children g).stringConstants (strLabel (g.stringCounter + j)) =
          some (String.mk s)) ∧
      render (visitPrintf children g).stringConstants valueOf
          (itemInstrs items ((printfArgs children).map Leaf.val) g.stringCounter) =
        expand (fmtTokens (printfFormat children))
          (((printfArgs children).map Leaf.val).map valueOf) ∧
      (visitPrintf children g).stringCounter =
        g.stringCounter + (items.filter FmtItem.isText).length ∧
      (∀ label : String,
        mapFind (visitPrintf children g).stringConstants label =
            mapFind g.stringConstants label ∨
          ∃ s, s ≠ [] ∧
            mapFind (visitPrintf children g).stringConstants label = some (String.mk s)) := by
  have hvp : visitPrintf children g =
      printfLoop ((printfArgs children).map Leaf.val) (printfFormat children) 0 []
        { g with instructions := g.instructions ++ (printfArgs children).flatMap Leaf.code } := by
    unfold visitPrintf
    rw [printfChildren_spec]
    simp [printfFormat]
  obtain ⟨items, h1, h2, h3, h4⟩ :=
    printfLoop_items ((printfArgs children).map Leaf.val) (printfFormat children) 0 []
      { g with instructions := g.instructions ++ (printfArgs children).flatMap Leaf.code }
  simp only [List.drop_zero, List.map_nil, List.nil_append] at h1 h2
  rw [hvp, h1]
  obtain ⟨hi1, hi2, _⟩ := withItems_instructions items ((printfArgs children).map Leaf.val)
    { g with instructions := g.instructions ++ (printfArgs children).flatMap Leaf.code } h3
  refine ⟨items, hi1, h2, h3, h4, ?_, ?_, ?_, hi2, ?_⟩
  · rw [printIntArgs_itemInstrs, h2, hcount]
    simp
  · intro j s hj
    exact withItems_consts_text items _
      { g with instructions := g.instructions ++ (printfArgs children).flatMap Leaf.code } h3 j s hj
  · have := render_withItems valueOf items ((printfArgs children).map Leaf.val)
      { g with instructions := g.instructions ++ (printfArgs children).flatMap Leaf.code } h3
    rw [h2] at this
    exact this
  · intro label
    exact withItems_consts_new items label _
      { g with instructions := g.instructions ++ (printfArgs children).flatMap Leaf.code } h3

/-- Claim C19 at the statement `printf("x=%d\n", x);`. -/
theorem C19_printf_lowering_witness :
    specCount (fmtTokens (printfFormat exPrintfChildren)) = (printfArgs exPrintfChildren).length ∧
    ∃ items : List FmtItem,
      (visitPrintf exPrintfChildren exGenEmpty).instructions =
        exGenEmpty.instructions ++ (printfArgs exPrintfChildren).flatMap Leaf.code ++
          itemInstrs items ((printfArgs exPrintfChildren).map Leaf.val) exGenEmpty.stringCounter ∧
      items.flatMap FmtItem.tokens = fmtTokens (printfFormat exPrintfChildren) :=
  ⟨by decide,
    (C19_printf_lowering exPrintfChildren exGenEmpty (fun _ => ['7']) (by decide)).imp
      (fun _ h => ⟨h.1, h.2.1⟩)⟩

/-! ### Register allocation -/

theorem regFind_regErase_self (m : List (MipsReg × String)) (k : MipsReg) :
    regFind (regErase m k) k = none := by
  induction m with
  | nil => rfl
  | cons p rest ih =>
    obtain ⟨k2, v⟩ := p
    by_cases h : k2 = k
    · simp [regErase, h, ih]
    · simp [regErase, regFind, h, ih]

theorem regFind_regErase_ne (m : List (MipsReg × String)) (k key : MipsReg) (h : k ≠ key) :
    regFind (regErase m k) key = regFind m key := by
  induction m with
  | nil => rfl
  | cons p rest ih =>
    obtain ⟨k2, v⟩ := p
    by_cases h2 : k2 = k
    · have h3 : k2 ≠ key := by rw [h2]; exact h
      simp [regErase, regFind, h2, ih, h]
    · by_cases h3 : k2 = key
      · subst h3
        simp [regErase, regFind, h2]
      · simp [regErase, regFind, h2, h3, ih]

theorem regFind_regSet_self (m : List (MipsReg × String)) (k : MipsReg) (v : String) :
    regFind (regSet m k v) k = some v := by
  simp [regSet, regFind]

theorem regFind_regSet_ne (m : List (MipsReg × String)) (k key : MipsReg) (v : String)
    (h : k ≠ key) : regFind (regSet m k v) key = regFind m key := by
  simp [regSet, regFind, h, regFind_regErase_ne m k key h]

theorem mapFind_mapErase (m : List (String × β)) (k key : String) :
    mapFind (mapErase m k) key = if k = key then none else mapFind m key := by
  by_cases h : k = key
  · subst h; simp [mapFind_mapErase_self]
  · simp [h, mapFind_mapErase_ne m k key h]

theorem mapFind_mapSet (m : List (String × β)) (k key : String) (v : β) :
    mapFind (mapSet m k v) key = if k = key then some v else mapFind m key := by
  by_cases h : k = key
  · subst h; simp [mapFind_mapSet_self]
  · simp [h, mapFind_mapSet_ne m k key v h]

theorem regFind_regErase (m : List (MipsReg × String)) (k key : MipsReg) :
    regFind (regErase m k) key = if k = key then none else regFind m key := by
  by_cases h : k = key
  · subst h; simp [regFind_regErase_self]
  · simp [h, regFind_regErase_ne m k key h]

theorem regFind_regSet (m : List (MipsReg × String)) (k key : MipsReg) (v : String) :
    regFind (regSet m k v) key = if k = key then some v else regFind m key := by
  by_cases h : k = key
  · subst h; simp [regFind_regSet_self]
  · simp [h, regFind_regSet_ne m k key v h]

theorem allocInv_construct : AllocInv RegisterManager.construct := by
  refine ⟨?_, ?_, ?_, ?_, ?_, ?_⟩
  · simp [RegisterManager.construct]
  · intro r v h; simp [RegisterManager.construct, regFind] at h
  · intro v r h; simp [RegisterManager.construct, mapFind] at h
  · intro r h; simp [RegisterManager.construct] at h
  · intro r h; simp [RegisterManager.construct] at h
  · intro v s h; simp [RegisterManager.construct, mapFind] at h

theorem allocInv_clearMap (rm : RegisterManager) (h : AllocInv rm) : AllocInv (clearMap rm) := by
  refine ⟨?_, ?_, ?_, ?_, ?_, ?_⟩
  · simpa [clearMap] using h.perm
  · intro r v h2; simp [clearMap, regFind] at h2
  · intro v r h2; simp [clearMap, mapFind] at h2
  · intro r h2; simp [clearMap] at h2
  · intro r h2; simp [clearMap] at h2
  · intro v s h2; simp [clearMap, mapFind] at h2

theorem allocatable_nodup : allocatable.Nodup := by decide

theorem allocInv_nodup (rm : RegisterManager) (h : AllocInv rm) :
    (rm.freeRegs ++ rm.busyRegs).Nodup :=
  (List.Perm.nodup_iff h.perm).2 allocatable_nodup

theorem allocInv_inj (rm : RegisterManager) (h : AllocInv rm) (r1 r2 : MipsReg) (v : String)
    (h1 : regFind rm.regToVar r1 = some v) (h2 : regFind rm.regToVar r2 = some v) : r1 = r2 := by
  have a1 := (h.regVar r1 v h1).2
  have a2 := (h.regVar r2 v h2).2
  rw [a1] at a2
  exact Option.some.inj a2

theorem spillReg_ok (info : Option CodeGenFunctionInfo) (rm : RegisterManager) (reg : MipsReg)
    (hres : ∀ v, regFind rm.regToVar reg = some v → reg ∈ rm.dirtyRegs →
      ∃ a, getAddress info (spillOperand rm v) MipsReg.T9 = Except.ok a) :
    spillReg info rm reg = Except.ok (spillLines info rm reg, rm.forgetReg reg) := by
  unfold spillReg spillLines RegisterManager.forgetReg
  cases hf : regFind rm.regToVar reg with
  | none => rfl
  | some v =>
    by_cases hd : reg ∈ rm.dirtyRegs
    · obtain ⟨a, ha⟩ := hres v hf hd
      simp only [hd, if_true, ha]
    · simp only [hd, if_false]

theorem forgetReg_regFind (rm : RegisterManager) (reg r : MipsReg) :
    regFind (rm.forgetReg reg).regToVar r = if reg = r then none else regFind rm.regToVar r := by
  unfold RegisterManager.forgetReg
  cases hf : regFind rm.regToVar reg with
  | none =>
    by_cases h : reg = r
    · subst h; simp [hf]
    · simp [h]
  | some v =>
    simp only [RegisterManager.forget, regFind_regErase]

theorem forgetReg_varToReg (rm : RegisterManager) (reg : MipsReg) (v : String) :
    mapFind (rm.forgetReg reg).varToReg v =
      if regFind rm.regToVar reg = some v then none else mapFind rm.varToReg v := by
  unfold RegisterManager.forgetReg
  cases hf : regFind rm.regToVar reg with
  | none => simp
  | some v0 =>
    simp only [RegisterManager.forget, mapFind_mapErase, Option.some.injEq]

theorem forgetReg_varToSymbol (rm : RegisterManager) (reg : MipsReg) (v : String) :
    mapFind (rm.forgetReg reg).varToSymbol v =
      if regFind rm.regToVar reg = some v then none else mapFind rm.varToSymbol v := by
  unfold RegisterManager.forgetReg
  cases hf : regFind rm.regToVar reg with
  | none => simp
  | some v0 =>
    simp only [RegisterManager.forget, mapFind_mapErase, Option.some.injEq]

theorem forgetReg_dirty (rm : RegisterManager) (reg r : MipsReg) :
    r ∈ (rm.forgetReg reg).dirtyRegs → r ∈ rm.dirtyRegs := by
  unfold RegisterManager.forgetReg
  cases hf : regFind rm.regToVar reg with
  | none => exact id
  | some v =>
    simp only [RegisterManager.forget, List.mem_filter]
    exact fun h => h.1

theorem forgetReg_dirty_ne (rm : RegisterManager) (reg r : MipsReg) (hne : r ≠ reg) :
    r ∈ (rm.forgetReg reg).dirtyRegs ↔ r ∈ rm.dirtyRegs := by
  unfold RegisterManager.forgetReg
  cases hf : regFind rm.regToVar reg with
  | none => exact Iff.rfl
  | some v =>
    simp only [RegisterManager.forget, List.mem_filter, decide_eq_true_eq]
    exact ⟨fun h => h.1, fun h => ⟨h, hne⟩⟩

theorem forgetReg_queues (rm : RegisterManager) (reg : MipsReg) :
    (rm.forgetReg reg).freeRegs = rm.freeRegs ∧ (rm.forgetReg reg).busyRegs = rm.busyRegs := by
  unfold RegisterManager.forgetReg
  cases hf : regFind rm.regToVar reg with
  | none => exact ⟨rfl, rfl⟩
  | some v => exact ⟨rfl, rfl⟩

theorem spillLoop_spec (info : Option CodeGenFunctionInfo) (L : List MipsReg) :
    ∀ rm : RegisterManager, L.Nodup →
      (∀ r1 r2 v, regFind rm.regToVar r1 = some v → regFind rm.regToVar r2 = some v → r1 = r2) →
      (∀ r ∈ L, ∀ v, regFind rm.regToVar r = some v → r ∈ rm.dirtyRegs →
        ∃ a, getAddress info (spillOperand rm v) MipsReg.T9 = Except.ok a) →
      ∃ rm2, spillLoop info L rm = Except.ok (L.flatMap (spillLines info rm), rm2) ∧
        rm2.freeRegs = rm.freeRegs ++ L ∧ rm2.busyRegs = rm.busyRegs ∧
        (∀ r, regFind rm2.regToVar r = if r ∈ L then none else regFind rm.regToVar r) ∧
        (∀ v, mapFind rm2.varToReg v =
          if ∃ r ∈ L, regFind rm.regToVar r = some v then none else mapFind rm.varToReg v) ∧
        (∀ v, mapFind rm2.varToSymbol v =
          if ∃ r ∈ L, regFind rm.regToVar r = some v then none
          else mapFind rm.varToSymbol v) := by
  induction L with
  | nil =>
    intro rm _ _ _
    exact ⟨rm, rfl, by simp, rfl, by simp, by simp, by simp⟩
  | cons reg rest ih =>
    intro rm hnd hinj hres
    have hnd2 := (List.nodup_cons.1 hnd).2
    have hnotin := (List.nodup_cons.1 hnd).1
    have hok := spillReg_ok info rm reg (hres reg (by simp))
    have hq := forgetReg_queues rm reg
    -- the state handed to the rest of the loop
    obtain ⟨rm1, hrm1⟩ : ∃ rm1 : RegisterManager,
        rm1 = { rm.forgetReg reg with freeRegs := (rm.forgetReg reg).freeRegs ++ [reg] } :=
      ⟨_, rfl⟩
    have hreg1 : ∀ r, regFind rm1.regToVar r = if reg = r then none else regFind rm.regToVar r := by
      intro r; rw [hrm1]; exact forgetReg_regFind rm reg r
    have hv1 : ∀ v, mapFind rm1.varToReg v =
        if regFind rm.regToVar reg = some v then none else mapFind rm.varToReg v := by
      intro v; rw [hrm1]; exact forgetReg_varToReg rm reg v
    have hs1 : ∀ v, mapFind rm1.varToSymbol v =
        if regFind rm.regToVar reg = some v then none else mapFind rm.varToSymbol v := by
      intro v; rw [hrm1]; exact forgetReg_varToSymbol rm reg v
    have hd1 : ∀ r, r ≠ reg → (r ∈ rm1.dirtyRegs ↔ r ∈ rm.dirtyRegs) := by
      intro r hr; rw [hrm1]; exact forgetReg_dirty_ne rm reg r hr
    have hne : ∀ r ∈ rest, r ≠ reg := fun r hr hc => hnotin (hc ▸ hr)
    have hsym : ∀ r ∈ rest, ∀ v, regFind rm.regToVar r = some v →
        spillOperand rm1 v = spillOperand rm v := by
      intro r hr v hv
      unfold spillOperand
      rw [hs1 v, if_neg]
      intro hc
      exact hne r hr (hinj r reg v hv hc)
    have hlines : ∀ r ∈ rest, spillLines info rm1 r = spillLines info rm r := by
      intro r hr
      have hrne := hne r hr
      unfold spillLines
      rw [hreg1 r, if_neg (fun hc => hrne hc.symm)]
      cases hf : regFind rm.regToVar r with
      | none => rfl
      | some v =>
        simp only
        rw [hsym r hr v hf]
        by_cases hd : r ∈ rm.dirtyRegs
        · rw [if_pos hd, if_pos ((hd1 r hrne).2 hd)]
        · rw [if_neg hd, if_neg (fun hc => hd ((hd1 r hrne).1 hc))]
    have hinj1 : ∀ r1 r2 v, regFind rm1.regToVar r1 = some v →
        regFind rm1.regToVar r2 = some v → r1 = r2 := by
      intro r1 r2 v h1 h2
      rw [hreg1] at h1 h2
      by_cases c1 : reg = r1
      · rw [if_pos c1] at h1; simp at h1
      · by_cases c2 : reg = r2
        · rw [if_pos c2] at h2; simp at h2
        · rw [if_neg c1] at h1
          rw [if_neg c2] at h2
          exact hinj r1 r2 v h1 h2
    have hres1 : ∀ r ∈ rest, ∀ v, regFind rm1.regToVar r = some v → r ∈ rm1.dirtyRegs →
        ∃ a, getAddress info (spillOperand rm1 v) MipsReg.T9 = Except.ok a := by
      intro r hr v hv hd
      have hrne := hne r hr
      rw [hreg1 r, if_neg (fun hc => hrne hc.symm)] at hv
      rw [hsym r hr v hv]
      exact hres r (List.mem_cons_of_mem _ hr) v hv ((hd1 r hrne).1 hd)
    obtain ⟨rm2, h0, h1, h2, h3, h4, h5⟩ := ih rm1 hnd2 hinj1 hres1
    refine ⟨rm2, ?_, ?_, ?_, ?_, ?_, ?_⟩
    · unfold spillLoop
      rw [hok]
      simp only
      rw [← hrm1, h0]
      simp only [List.flatMap_cons]
      rw [List.flatMap_congr hlines]
    · rw [h1, hrm1]
      simp [hq.1]
    · rw [h2, hrm1]
      exact hq.2
    · intro r
      rw [h3 r, hreg1 r]
      by_cases c1 : r ∈ rest
      · simp [c1]
      · by_cases c2 : reg = r
        · simp [c2]
        · have : ¬ (r = reg) := fun hc => c2 hc.symm
          simp [c1, c2, this]
    · intro v
      rw [h4 v]
      by_cases c1 : regFind rm.regToVar reg = some v
      · have : ∃ r ∈ reg :: rest, regFind rm.regToVar r = some v := ⟨reg, by simp, c1⟩
        rw [if_pos this]
        by_cases c2 : ∃ r ∈ rest, regFind rm1.regToVar r = some v
        · rw [if_pos c2]
        · rw [if_neg c2, hv1 v, if_pos c1]
      · by_cases c2 : ∃ r ∈ rest, regFind rm.regToVar r = some v
        · obtain ⟨r, hr, hrv⟩ := c2
          have h6 : ∃ r ∈ rest, regFind rm1.regToVar r = some v :=
            ⟨r, hr, by rw [hreg1 r, if_neg (fun hc => hne r hr hc.symm)]; exact hrv⟩
          have h7 : ∃ r ∈ reg :: rest, regFind rm.regToVar r = some v :=
            ⟨r, List.mem_cons_of_mem _ hr, hrv⟩
          rw [if_pos h6, if_pos h7]
        · have h6 : ¬ ∃ r ∈ rest, regFind rm1.regToVar r = some v := by
            rintro ⟨r, hr, hrv⟩
            rw [hreg1 r, if_neg (fun hc => hne r hr hc.symm)] at hrv
            exact c2 ⟨r, hr, hrv⟩
          have h7 : ¬ ∃ r ∈ reg :: rest, regFind rm.regToVar r = some v := by
            rintro ⟨r, hr, hrv⟩
            rcases List.mem_cons.1 hr with hr | hr
            · subst hr; exact c1 hrv
            · exact c2 ⟨r, hr, hrv⟩
          rw [if_neg h6, if_neg h7, hv1 v, if_neg c1]
    · intro v
      rw [h5 v]
      by_cases c1 : regFind rm.regToVar reg = some v
      · have : ∃ r ∈ reg :: rest, regFind rm.regToVar r = some v := ⟨reg, by simp, c1⟩
        rw [if_pos this]
        by_cases c2 : ∃ r ∈ rest, regFind rm1.regToVar r = some v
        · rw [if_pos c2]
        · rw [if_neg c2, hs1 v, if_pos c1]
      · by_cases c2 : ∃ r ∈ rest, regFind rm.regToVar r = some v
        · obtain ⟨r, hr, hrv⟩ := c2
          have h6 : ∃ r ∈ rest, regFind rm1.regToVar r = some v :=
            ⟨r, hr, by rw [hreg1 r, if_neg (fun hc => hne r hr hc.symm)]; exact hrv⟩
          have h7 : ∃ r ∈ reg :: rest, regFind rm.regToVar r = some v :=
            ⟨r, List.mem_cons_of_mem _ hr, hrv⟩
          rw [if_pos h6, if_pos h7]
        · have h6 : ¬ ∃ r ∈ rest, regFind rm1.regToVar r = some v := by
            rintro ⟨r, hr, hrv⟩
            rw [hreg1 r, if_neg (fun hc => hne r hr hc.symm)] at hrv
            exact c2 ⟨r, hr, hrv⟩
          have h7 : ¬ ∃ r ∈ reg :: rest, regFind rm.regToVar r = some v := by
            rintro ⟨r, hr, hrv⟩
            rcases List.mem_cons.1 hr with hr | hr
            · subst hr; exact c1 hrv
            · exact c2 ⟨r, hr, hrv⟩
          rw [if_neg h6, if_neg h7, hs1 v, if_neg c1]

theorem spillReg_state (info : Option CodeGenFunctionInfo) (rm : RegisterManager) (reg : MipsReg)
    (r : List MipsInstr × RegisterManager) (hok : spillReg info rm reg = Except.ok r) :
    r.2 = rm.forgetReg reg := by
  unfold spillReg at hok
  unfold RegisterManager.forgetReg
  cases hf : regFind rm.regToVar reg with
  | none =>
    rw [hf] at hok
    simp only [Except.ok.injEq] at hok
    rw [← hok]
  | some v =>
    rw [hf] at hok
    simp only at hok
    by_cases hd : reg ∈ rm.dirtyRegs
    · rw [if_pos hd] at hok
      cases ha : getAddress info (spillOperand rm v) MipsReg.T9 with
      | error e => rw [ha] at hok; simp at hok
      | ok a =>
        rw [ha] at hok
        simp only [Except.ok.injEq] at hok
        rw [← hok]
    · rw [if_neg hd] at hok
      simp only [Except.ok.injEq] at hok
      rw [← hok]

theorem forgetReg_not_dirty (rm : RegisterManager) (reg : MipsReg) (v : String)
    (hf : regFind rm.regToVar reg = some v) : reg ∉ (rm.forgetReg reg).dirtyRegs := by
  unfold RegisterManager.forgetReg
  rw [hf]
  simp [RegisterManager.forget]

theorem takeReg_free (info : Option CodeGenFunctionInfo) (rm : RegisterManager) (reg : MipsReg)
    (rest : List MipsReg) (hfree : rm.freeRegs = reg :: rest) :
    takeReg info rm = Except.ok ([], { rm with freeRegs := rest }, reg) := by
  unfold takeReg
  rw [hfree]

theorem takeReg_evict (info : Option CodeGenFunctionInfo) (rm : RegisterManager) (reg : MipsReg)
    (rest : List MipsReg) (hfree : rm.freeRegs = []) (hbusy : rm.busyRegs = reg :: rest) :
    takeReg info rm =
      match spillReg info { rm with busyRegs := rest } reg with
      | Except.ok r => Except.ok (r.1, r.2, reg)
      | Except.error e => Except.error e := by
  unfold takeReg
  rw [hfree, hbusy]

theorem takeReg_pre (info : Option CodeGenFunctionInfo) (rm : RegisterManager) (h : AllocInv rm)
    (r : List MipsInstr × RegisterManager × MipsReg) (hok : takeReg info rm = Except.ok r) :
    AllocPre r.2.1 r.2.2 ∧
      (∀ v x, mapFind r.2.1.varToReg v = some x → mapFind rm.varToReg v = some x) := by
  cases hfree : rm.freeRegs with
  | cons reg rest =>
    rw [takeReg_free info rm reg rest hfree] at hok
    simp only [Except.ok.injEq] at hok
    rw [← hok]
    have hp := h.perm
    rw [hfree] at hp
    exact ⟨⟨hp, h.regVar, h.varReg, h.busyMapped, h.dirtyBusy, h.symVar⟩, fun _ _ hx => hx⟩
  | nil =>
    cases hbusy : rm.busyRegs with
    | nil =>
      have hp := h.perm
      rw [hfree, hbusy] at hp
      have := hp.length_eq
      simp [allocatable] at this
    | cons reg rest =>
      rw [takeReg_evict info rm reg rest hfree hbusy] at hok
      cases hs : spillReg info { rm with busyRegs := rest } reg with
      | error e => rw [hs] at hok; simp at hok
      | ok r1 =>
        rw [hs] at hok
        simp only [Except.ok.injEq] at hok
        have hst := spillReg_state info _ reg r1 hs
        rw [← hok]
        simp only
        rw [hst]
        have hp := h.perm
        rw [hfree, hbusy] at hp
        have hnd : (reg :: rest).Nodup := by
          have := (List.Perm.nodup_iff hp).2 allocatable_nodup
          simpa using this
        have hnotin := (List.nodup_cons.1 hnd).1
        obtain ⟨v0, hv0⟩ := h.busyMapped reg (by rw [hbusy]; simp)
        have hreg : ∀ x, regFind (RegisterManager.forgetReg { rm with busyRegs := rest } reg).regToVar x =
            if reg = x then none else regFind rm.regToVar x := fun x => forgetReg_regFind _ reg x
        have hvar : ∀ v, mapFind (RegisterManager.forgetReg { rm with busyRegs := rest } reg).varToReg v =
            if regFind rm.regToVar reg = some v then none else mapFind rm.varToReg v :=
          fun v => forgetReg_varToReg _ reg v
        have hsy : ∀ v, mapFind (RegisterManager.forgetReg { rm with busyRegs := rest } reg).varToSymbol v =
            if regFind rm.regToVar reg = some v then none else mapFind rm.varToSymbol v :=
          fun v => forgetReg_varToSymbol _ reg v
        have hq := forgetReg_queues { rm with busyRegs := rest } reg
        refine ⟨⟨?_, ?_, ?_, ?_, ?_, ?_⟩, ?_⟩
        · rw [hq.1, hq.2]
          simpa [hfree] using hp
        · intro x v hx
          rw [hreg x] at hx
          by_cases c : reg = x
          · rw [if_pos c] at hx; simp at hx
          · rw [if_neg c] at hx
            obtain ⟨hb, hm⟩ := h.regVar x v hx
            rw [hbusy] at hb
            refine ⟨?_, ?_⟩
            · rw [hq.2]
              rcases List.mem_cons.1 hb with hb | hb
              · exact absurd hb.symm c
              · exact hb
            · rw [hvar v, if_neg]
              · exact hm
              · intro hc
                exact c (allocInv_inj rm h reg x v hc hx)
        · intro v x hx
          rw [hvar v] at hx
          by_cases c : regFind rm.regToVar reg = some v
          · rw [if_pos c] at hx; simp at hx
          · rw [if_neg c] at hx
            have hrx := h.varReg v x hx
            rw [hreg x, if_neg]
            · exact hrx
            · intro hc
              subst hc
              exact c hrx
        · intro x hx
          rw [hq.2] at hx
          have hxne : reg ≠ x := fun hc => hnotin (hc ▸ hx)
          obtain ⟨v, hv⟩ := h.busyMapped x (by rw [hbusy]; exact List.mem_cons_of_mem _ hx)
          exact ⟨v, by rw [hreg x, if_neg hxne]; exact hv⟩
        · intro x hx
          rw [hq.2]
          have hxd := forgetReg_dirty _ reg x hx
          have hxb := h.dirtyBusy x hxd
          rw [hbusy] at hxb
          rcases List.mem_cons.1 hxb with hxb | hxb
          · subst hxb
            exact absurd hx (forgetReg_not_dirty _ x v0 hv0)
          · exact hxb
        · intro v s hv
          rw [hsy v] at hv
          by_cases c : regFind rm.regToVar reg = some v
          · rw [if_pos c] at hv; simp at hv
          · rw [if_neg c] at hv
            obtain ⟨x, hx⟩ := h.symVar v s hv
            exact ⟨x, by rw [hvar v, if_neg c]; exact hx⟩
        · intro v x hx
          rw [hvar v] at hx
          by_cases c : regFind rm.regToVar reg = some v
          · rw [if_pos c] at hx; simp at hx
          · rw [if_neg c] at hx
            exact hx

theorem bind_inv (rm1 : RegisterManager) (reg : MipsReg) (op : Operand) (d : List MipsReg)
    (hpre : AllocPre rm1 reg) (hmiss : mapFind rm1.varToReg op.name = none)
    (hd : ∀ r ∈ d, r ∈ rm1.dirtyRegs ∨ r = reg) :
    AllocInv { (rm1.bind op reg) with dirtyRegs := d } := by
  have hnd : (reg :: (rm1.freeRegs ++ rm1.busyRegs)).Nodup :=
    (List.Perm.nodup_iff hpre.perm).2 allocatable_nodup
  have hnotin : reg ∉ rm1.busyRegs := by
    have := (List.nodup_cons.1 hnd).1
    intro hc
    exact this (List.mem_append_right _ hc)
  have hunm : regFind rm1.regToVar reg = none := by
    cases hf : regFind rm1.regToVar reg with
    | none => rfl
    | some v => exact absurd (hpre.regVar reg v hf).1 hnotin
  refine ⟨?_, ?_, ?_, ?_, ?_, ?_⟩
  · simp only [RegisterManager.bind]
    refine List.Perm.trans ?_ hpre.perm
    rw [← List.append_assoc]
    exact List.perm_append_singleton reg _ |>.trans (List.Perm.refl _)
  · intro r v hr
    simp only [RegisterManager.bind, regFind_regSet] at hr
    simp only [RegisterManager.bind, mapFind_mapSet, List.mem_append, List.mem_singleton]
    by_cases c : reg = r
    · rw [if_pos c] at hr
      simp only [Option.some.injEq] at hr
      subst hr
      exact ⟨Or.inr c.symm, by simp [c]⟩
    · rw [if_neg c] at hr
      obtain ⟨hb, hm⟩ := hpre.regVar r v hr
      refine ⟨Or.inl hb, ?_⟩
      rw [if_neg]
      · exact hm
      · intro hc
        rw [← hc, hmiss] at hm
        simp at hm
  · intro v r hv
    simp only [RegisterManager.bind, mapFind_mapSet] at hv
    simp only [RegisterManager.bind, regFind_regSet]
    by_cases c : op.name = v
    · rw [if_pos c] at hv
      simp only [Option.some.injEq] at hv
      subst hv
      simp [c]
    · rw [if_neg c] at hv
      have hrv := hpre.varReg v r hv
      rw [if_neg]
      · exact hrv
      · intro hc
        subst hc
        rw [hunm] at hrv
        simp at hrv
  · intro r hr
    simp only [RegisterManager.bind, List.mem_append, List.mem_singleton] at hr
    simp only [RegisterManager.bind, regFind_regSet]
    by_cases c : reg = r
    · exact ⟨op.name, by rw [if_pos c]⟩
    · rcases hr with hr | hr
      · obtain ⟨v, hv⟩ := hpre.busyMapped r hr
        exact ⟨v, by rw [if_neg c]; exact hv⟩
      · exact absurd hr.symm c
  · intro r hr
    simp only [RegisterManager.bind, List.mem_append, List.mem_singleton]
    rcases hd r hr with h1 | h1
    · exact Or.inl (hpre.dirtyBusy r h1)
    · exact Or.inr h1
  · intro v s hv
    simp only [RegisterManager.bind, mapFind_mapSet]
    by_cases c : op.name = v
    · exact ⟨reg, by rw [if_pos c]⟩
    · have hold : mapFind rm1.varToSymbol v = some s := by
        simp only [RegisterManager.bind] at hv
        cases hsym : op.symbol with
        | none => rw [hsym] at hv; exact hv
        | some s0 =>
          rw [hsym] at hv
          simp only [mapFind_mapSet, if_neg c] at hv
          exact hv
      obtain ⟨r, hr⟩ := hpre.symVar v s hold
      exact ⟨r, by rw [if_neg c]; exact hr⟩

theorem allocInv_getReg (info : Option CodeGenFunctionInfo) (rm : RegisterManager)
    (op : Operand) (isLoad : Bool) (h : AllocInv rm)
    (r : List MipsInstr × RegisterManager × MipsReg)
    (hok : getReg info rm op isLoad = Except.ok r) : AllocInv r.2.1 := by
  unfold getReg at hok
  by_cases himm : op.type = OperandType.IMM
  · rw [if_pos himm] at hok
    simp only [Except.ok.injEq] at hok
    rw [← hok]
    exact h
  · rw [if_neg himm] at hok
    cases hfind : mapFind rm.varToReg op.name with
    | some reg =>
      rw [hfind] at hok
      simp only [Except.ok.injEq] at hok
      rw [← hok]
      exact h
    | none =>
      rw [hfind] at hok
      simp only at hok
      cases ht : takeReg info rm with
      | error e => rw [ht] at hok; simp at hok
      | ok t =>
        rw [ht] at hok
        simp only at hok
        obtain ⟨hpre, hsub⟩ := takeReg_pre info rm h t ht
        have hmiss : mapFind t.2.1.varToReg op.name = none := by
          cases hx : mapFind t.2.1.varToReg op.name with
          | none => rfl
          | some x =>
            have := hsub op.name x hx
            rw [hfind] at this
            simp at this
        have hinv := bind_inv t.2.1 t.2.2 op
          ((t.2.1.bind op t.2.2).dirtyRegs.filter (fun x => decide (x ≠ t.2.2))) hpre hmiss
          (by
            intro x hx
            exact Or.inl (List.mem_filter.1 hx).1)
        by_cases hl : isLoad = true
        · rw [if_pos hl] at hok
          cases ha : getAddress info op MipsReg.T9 with
          | error e => rw [ha] at hok; simp at hok
          | ok a =>
            rw [ha] at hok
            simp only [Except.ok.injEq] at hok
            rw [← hok]
            exact hinv
        · rw [if_neg hl] at hok
          simp only [Except.ok.injEq] at hok
          rw [← hok]
          exact hinv

theorem allocInv_allocateReg (info : Option CodeGenFunctionInfo) (rm : RegisterManager)
    (op : Operand) (h : AllocInv rm) (r : List MipsInstr × RegisterManager × MipsReg)
    (hok : allocateReg info rm op = Except.ok r) : AllocInv r.2.1 := by
  unfold allocateReg at hok
  cases hfind : mapFind rm.varToReg op.name with
  | some reg =>
    rw [hfind] at hok
    simp only [Except.ok.injEq] at hok
    rw [← hok]
    refine ⟨h.perm, h.regVar, h.varReg, h.busyMapped, ?_, h.symVar⟩
    intro x hx
    simp only [dirtyInsert] at hx
    by_cases c : reg ∈ rm.dirtyRegs
    · rw [if_pos c] at hx
      exact h.dirtyBusy x hx
    · rw [if_neg c] at hx
      rcases List.mem_cons.1 hx with hx | hx
      · subst hx
        exact (h.regVar x op.name (h.varReg op.name x hfind)).1
      · exact h.dirtyBusy x hx
  | none =>
    rw [hfind] at hok
    simp only at hok
    cases ht : takeReg info rm with
    | error e => rw [ht] at hok; simp at hok
    | ok t =>
      rw [ht] at hok
      simp only [Except.ok.injEq] at hok
      obtain ⟨hpre, hsub⟩ := takeReg_pre info rm h t ht
      have hmiss : mapFind t.2.1.varToReg op.name = none := by
        cases hx : mapFind t.2.1.varToReg op.name with
        | none => rfl
        | some x =>
          have := hsub op.name x hx
          rw [hfind] at this
          simp at this
      rw [← hok]
      apply bind_inv t.2.1 t.2.2 op _ hpre hmiss
      intro x hx
      simp only [dirtyInsert] at hx
      by_cases c : t.2.2 ∈ (t.2.1.bind op t.2.2).dirtyRegs
      · rw [if_pos c] at hx
        exact Or.inl hx
      · rw [if_neg c] at hx
        rcases List.mem_cons.1 hx with hx | hx
        · exact Or.inr hx
        · exact Or.inl hx

theorem homes_resolve (info : Option CodeGenFunctionInfo) (rm : RegisterManager)
    (h : AllocInv rm) (hres : HomesResolve info rm) (r : MipsReg) (v : String)
    (hv : regFind rm.regToVar r = some v) (hd : r ∈ rm.dirtyRegs) :
    ∃ a, getAddress info (spillOperand rm v) MipsReg.T9 = Except.ok a := by
  have hr := hres r (h.regVar r v hv).1 hd
  unfold homeResolves at hr
  rw [hv] at hr
  simp only at hr
  cases ha : getAddress info (spillOperand rm v) MipsReg.T9 with
  | ok a => exact ⟨a, rfl⟩
  | error e => rw [ha] at hr; simp at hr

theorem spillAll_spec (info : Option CodeGenFunctionInfo) (rm : RegisterManager)
    (h : AllocInv rm) (hres : HomesResolve info rm) :
    ∃ rm2, spillAll info rm = Except.ok (rm.busyRegs.flatMap (spillLines info rm), rm2) ∧
      AllocEmpty rm2 := by
  have hnd : rm.busyRegs.Nodup := (List.nodup_append.1 (allocInv_nodup rm h)).2.1
  obtain ⟨rm1, h0, h1, h2, h3, h4, h5⟩ := spillLoop_spec info rm.busyRegs rm hnd
    (allocInv_inj rm h) (fun r _ v hv hd => homes_resolve info rm h hres r v hv hd)
  refine ⟨{ rm1 with busyRegs := [], dirtyRegs := [] }, ?_, ?_, ?_, ?_, rfl, rfl, ?_⟩
  · unfold spillAll
    rw [h0]
  · intro v
    simp only
    rw [h4 v]
    by_cases c : ∃ r ∈ rm.busyRegs, regFind rm.regToVar r = some v
    · rw [if_pos c]
    · rw [if_neg c]
      cases hf : mapFind rm.varToReg v with
      | none => rfl
      | some r =>
        have hrv := h.varReg v r hf
        exact absurd ⟨r, (h.regVar r v hrv).1, hrv⟩ c
  · intro r
    simp only
    rw [h3 r]
    by_cases c : r ∈ rm.busyRegs
    · rw [if_pos c]
    · rw [if_neg c]
      cases hf : regFind rm.regToVar r with
      | none => rfl
      | some v => exact absurd (h.regVar r v hf).1 c
  · intro v
    simp only
    rw [h5 v]
    by_cases c : ∃ r ∈ rm.busyRegs, regFind rm.regToVar r = some v
    · rw [if_pos c]
    · rw [if_neg c]
      cases hf : mapFind rm.varToSymbol v with
      | none => rfl
      | some s =>
        obtain ⟨r, hr⟩ := h.symVar v s hf
        have hrv := h.varReg v r hr
        exact absurd ⟨r, (h.regVar r v hrv).1, hrv⟩ c
  · simp only
    rw [h1]
    exact h.perm

theorem allocInv_of_empty (rm : RegisterManager) (h : AllocEmpty rm) : AllocInv rm := by
  obtain ⟨h1, h2, h3, h4, h5, h6⟩ := h
  refine ⟨?_, ?_, ?_, ?_, ?_, ?_⟩
  · rw [h5]; simpa using h6
  · intro r v hr; rw [h2 r] at hr; simp at hr
  · intro v r hv; rw [h1 v] at hv; simp at hv
  · intro r hr; rw [h5] at hr; simp at hr
  · intro r hr; rw [h4] at hr; simp at hr
  · intro v s hv; rw [h3 v] at hv; simp at hv

theorem runAllocOp_inv (rm : RegisterManager) (op : AllocOp) (h : AllocInv rm)
    (rm2 : RegisterManager) (hok : runAllocOp rm op = some rm2) : AllocInv rm2 := by
  cases op with
  | getReg info o =>
    simp only [runAllocOp] at hok
    cases hg : getReg info rm o true with
    | error e => rw [hg] at hok; simp at hok
    | ok r =>
      rw [hg] at hok
      simp only [Option.some.injEq] at hok
      rw [← hok]
      exact allocInv_getReg info rm o true h r hg
  | allocateReg info o =>
    simp only [runAllocOp] at hok
    cases hg : allocateReg info rm o with
    | error e => rw [hg] at hok; simp at hok
    | ok r =>
      rw [hg] at hok
      simp only [Option.some.injEq] at hok
      rw [← hok]
      exact allocInv_allocateReg info rm o h r hg
  | spillAll info =>
    simp only [runAllocOp] at hok
    cases hg : spillAll info rm with
    | error e => rw [hg] at hok; simp at hok
    | ok r =>
      rw [hg] at hok
      simp only [Option.some.injEq] at hok
      rw [← hok]
      -- the state after a spillAll that returned
      unfold spillAll at hg
      cases hl : spillLoop info rm.busyRegs rm with
      | error e => rw [hl] at hg; simp at hg
      | ok r1 =>
        rw [hl] at hg
        simp only [Except.ok.injEq] at hg
        rw [← hg]
        have hnd : rm.busyRegs.Nodup := (List.nodup_append.1 (allocInv_nodup rm h)).2.1
        -- follow the loop without the assumption that every home resolves
        have key : ∀ (L : List MipsReg) (st : RegisterManager)
            (out : List MipsInstr × RegisterManager),
            spillLoop info L st = Except.ok out →
            out.2.freeRegs = st.freeRegs ++ L ∧
            (∀ r v, regFind out.2.regToVar r = some v → r ∉ L ∧ regFind st.regToVar r = some v) ∧
            (∀ v x, mapFind out.2.varToReg v = some x →
              mapFind st.varToReg v = some x ∧ ∀ r ∈ L, regFind st.regToVar r ≠ some v) ∧
            (∀ v s, mapFind out.2.varToSymbol v = some s →
              mapFind st.varToSymbol v = some s ∧ ∀ r ∈ L, regFind st.regToVar r ≠ some v) := by
          intro L
          induction L with
          | nil =>
            intro st out ho
            simp only [spillLoop, Except.ok.injEq] at ho
            rw [← ho]
            exact ⟨by simp, fun r v hv => ⟨by simp, hv⟩,
              fun v x hx => ⟨hx, by simp⟩, fun v s hs => ⟨hs, by simp⟩⟩
          | cons reg rest ih =>
            intro st out ho
            unfold spillLoop at ho
            cases hs : spillReg info st reg with
            | error e => rw [hs] at ho; simp at ho
            | ok s1 =>
              rw [hs] at ho
              simp only at ho
              have hst := spillReg_state info st reg s1 hs
              cases hl2 : spillLoop info rest
                  { s1.2 with freeRegs := s1.2.freeRegs ++ [reg] } with
              | error e => rw [hl2] at ho; simp at ho
              | ok o2 =>
                rw [hl2] at ho
                simp only [Except.ok.injEq] at ho
                obtain ⟨a1, a3, a4, a5⟩ := ih _ o2 hl2
                rw [← ho]
                simp only at a1 a3 a4 a5 ⊢
                rw [hst] at a1 a3 a4 a5
                refine ⟨?_, ?_, ?_, ?_⟩
                · rw [a1, (forgetReg_queues st reg).1]
                  simp
                · intro r v hv
                  obtain ⟨b1, b2⟩ := a3 r v hv
                  rw [forgetReg_regFind] at b2
                  by_cases c : reg = r
                  · rw [if_pos c] at b2; simp at b2
                  · rw [if_neg c] at b2
                    refine ⟨?_, b2⟩
                    intro hc
                    rcases List.mem_cons.1 hc with hc | hc
                    · exact c hc.symm
                    · exact b1 hc
                · intro v x hx
                  obtain ⟨b1, b2⟩ := a4 v x hx
                  rw [forgetReg_varToReg] at b1
                  by_cases c : regFind st.regToVar reg = some v
                  · rw [if_pos c] at b1; simp at b1
                  · rw [if_neg c] at b1
                    refine ⟨b1, ?_⟩
                    intro r hr
                    rcases List.mem_cons.1 hr with hr | hr
                    · subst hr; exact c
                    · have := b2 r hr
                      rw [forgetReg_regFind] at this
                      by_cases c2 : reg = r
                      · subst c2; exact c
                      · rw [if_neg c2] at this; exact this
                · intro v s hs2
                  obtain ⟨b1, b2⟩ := a5 v s hs2
                  rw [forgetReg_varToSymbol] at b1
                  by_cases c : regFind st.regToVar reg = some v
                  · rw [if_pos c] at b1; simp at b1
                  · rw [if_neg c] at b1
                    refine ⟨b1, ?_⟩
                    intro r hr
                    rcases List.mem_cons.1 hr with hr | hr
                    · subst hr; exact c
                    · have := b2 r hr
                      rw [forgetReg_regFind] at this
                      by_cases c2 : reg = r
                      · subst c2; exact c
                      · rw [if_neg c2] at this; exact this
        obtain ⟨k1, k3, k4, k5⟩ := key rm.busyRegs rm r1 hl
        apply allocInv_of_empty
        refine ⟨?_, ?_, ?_, rfl, rfl, ?_⟩
        · intro v
          simp only
          cases hf : mapFind r1.2.varToReg v with
          | none => rfl
          | some x =>
            obtain ⟨b1, b2⟩ := k4 v x hf
            have hrv := h.varReg v x b1
            exact absurd hrv (b2 x (h.regVar x v hrv).1)
        · intro r
          simp only
          cases hf : regFind r1.2.regToVar r with
          | none => rfl
          | some v =>
            obtain ⟨b1, b2⟩ := k3 r v hf
            exact absurd (h.regVar r v b2).1 b1
        · intro v
          simp only
          cases hf : mapFind r1.2.varToSymbol v with
          | none => rfl
          | some s =>
            obtain ⟨b1, b2⟩ := k5 v s hf
            obtain ⟨x, hx⟩ := h.symVar v s b1
            have hrv := h.varReg v x hx
            exact absurd hrv (b2 x (h.regVar x v hrv).1)
        · simp only
          rw [k1]
          exact h.perm
  | clearMap =>
    simp only [runAllocOp, Option.some.injEq] at hok
    rw [← hok]
    exact allocInv_clearMap rm h

theorem runAllocOps_inv (ops : List AllocOp) :
    ∀ rm : RegisterManager, AllocInv rm → ∀ rm2, runAllocOps rm ops = some rm2 → AllocInv rm2 := by
  induction ops with
  | nil =>
    intro rm h rm2 hok
    simp only [runAllocOps, Option.some.injEq] at hok
    rw [← hok]
    exact h
  | cons op rest ih =>
    intro rm h rm2 hok
    simp only [runAllocOps] at hok
    cases hr : runAllocOp rm op with
    | none => rw [hr] at hok; simp at hok
    | some rm1 =>
      rw [hr] at hok
      exact ih rm1 (runAllocOp_inv rm op h rm1 hr) rm2 hok

theorem getAddress_lines_not_store (info : Option CodeGenFunctionInfo) (op : Operand)
    (t : MipsReg) (a : List MipsInstr × Address) (h : getAddress info op t = Except.ok a) :
    ∀ i ∈ a.1, i.isStore = false := by
  unfold getAddress at h
  by_cases h1 : op.type = OperandType.TEMP ∨ op.type = OperandType.VAR
  · rw [if_pos h1] at h
    cases hb : info.bind (fun i => mapFind i.symbolMap op.name) with
    | some e =>
      rw [hb] at h
      simp only [Except.ok.injEq] at h
      rw [← h]
      simp
    | none =>
      rw [hb] at h
      simp only at h
      split_ifs at h
      simp only [Except.ok.injEq] at h
      rw [← h]
      simp [MipsInstr.isStore]
  · rw [if_neg h1] at h
    simp at h

theorem storeTo_isStore (r : MipsReg) (a : Address) : (storeTo r a).isStore = true := by
  cases a <;> rfl

theorem spillLines_dirty (info : Option CodeGenFunctionInfo) (rm : RegisterManager)
    (h : AllocInv rm) (hres : HomesResolve info rm) (r : MipsReg) (hb : r ∈ rm.busyRegs)
    (hd : r ∈ rm.dirtyRegs) :
    ∃ v a, regFind rm.regToVar r = some v ∧
      getAddress info (spillOperand rm v) MipsReg.T9 = Except.ok a ∧
      spillLines info rm r = a.1 ++ [storeTo r a.2] ∧ ∀ i ∈ a.1, i.isStore = false := by
  obtain ⟨v, hv⟩ := h.busyMapped r hb
  obtain ⟨a, ha⟩ := homes_resolve info rm h hres r v hv hd
  refine ⟨v, a, hv, ha, ?_, getAddress_lines_not_store info _ _ a ha⟩
  unfold spillLines
  rw [hv]
  simp only [hd, if_true, ha]

theorem spillLines_clean (info : Option CodeGenFunctionInfo) (rm : RegisterManager)
    (r : MipsReg) (hd : r ∉ rm.dirtyRegs) : spillLines info rm r = [] := by
  unfold spillLines
  cases regFind rm.regToVar r with
  | none => rfl
  | some v => simp only [hd, if_false]

theorem spill_store_count (info : Option CodeGenFunctionInfo) (rm : RegisterManager)
    (h : AllocInv rm) (hres : HomesResolve info rm) (L : List MipsReg)
    (hL : ∀ r ∈ L, r ∈ rm.busyRegs) :
    ((L.flatMap (spillLines info rm)).filter MipsInstr.isStore).length =
      (L.filter (fun r => decide (r ∈ rm.dirtyRegs))).length := by
  induction L with
  | nil => rfl
  | cons r rest ih =>
    have ihr := ih (fun x hx => hL x (List.mem_cons_of_mem _ hx))
    rw [List.flatMap_cons, List.filter_append, List.length_append, ihr]
    by_cases hd : r ∈ rm.dirtyRegs
    · obtain ⟨v, a, _, _, hl, hns⟩ := spillLines_dirty info rm h hres r (hL r (by simp)) hd
      have h1 : (a.1.filter MipsInstr.isStore) = [] := by
        rw [List.filter_eq_nil_iff]
        intro i hi
        rw [hns i hi]
        simp
      rw [hl, List.filter_append, h1]
      simp [List.filter, storeTo_isStore, hd]
      omega
    · rw [spillLines_clean info rm r hd]
      simp [List.filter, hd]

theorem allocateReg_of_empty (info : Option CodeGenFunctionInfo) (rm : RegisterManager)
    (h : AllocEmpty rm) (res : Operand) :
    ∃ a, allocateReg info rm res = Except.ok a := by
  obtain ⟨h1, _, _, _, h5, h6⟩ := h
  unfold allocateReg
  rw [h1 res.name]
  simp only
  cases hf : rm.freeRegs with
  | nil =>
    have := h6.length_eq
    rw [hf] at this
    simp [allocatable] at this
  | cons reg rest =>
    rw [takeReg_free info rm reg rest hf]
    exact ⟨_, rfl⟩

/-- Claim C12: in every allocator state reached from the constructor by calls of `getReg`,
`allocateReg`, `spillAll` and `clearMap` that returned, if every dirty busy register has
a home address in the current layout, `spillAll` returns; it emits, busy register by
busy register, for a dirty one the lines of `getAddress` (which contain no store)
followed by one `sw <reg>, <home>` and nothing for a clean one, so the number of stores
is the number of dirty busy registers; afterwards the allocator holds nothing and the
free queue is `$t0..$t7`. Hence the LABEL and JUMP cases end in that state, the call
reaches its `jal` in that state, and a branch whose condition register was obtained
ends in that state. -/
theorem C12_spillAll_writes_back_and_empties (ops : List AllocOp) (rm : RegisterManager)
    (info : Option CodeGenFunctionInfo)
    (hreach : runAllocOps RegisterManager.construct ops = some rm)
    (hhome : HomesResolve info rm) :
    ∃ rm2 : RegisterManager,
      spillAll info rm = Except.ok (rm.busyRegs.flatMap (spillLines info rm), rm2) ∧
      (∀ r ∈ rm.busyRegs, r ∈ rm.dirtyRegs →
        ∃ v a, regFind rm.regToVar r = some v ∧
          getAddress info (spillOperand rm v) MipsReg.T9 = Except.ok a ∧
          spillLines info rm r = a.1 ++ [storeTo r a.2] ∧ ∀ i ∈ a.1, i.isStore = false) ∧
      (∀ r ∈ rm.busyRegs, r ∉ rm.dirtyRegs → spillLines info rm r = []) ∧
      ((rm.busyRegs.flatMap (spillLines info rm)).filter MipsInstr.isStore).length =
        (rm.busyRegs.filter (fun r => decide (r ∈ rm.dirtyRegs))).length ∧
      AllocEmpty rm2 ∧
      (∀ name : String, visitLabel info rm name =
        Except.ok (rm.busyRegs.flatMap (spillLines info rm) ++
          [MipsInstr.label (getMipsLabel name)], rm2)) ∧
      (∀ name : String, visitJump info rm name =
        Except.ok (rm.busyRegs.flatMap (spillLines info rm) ++
          [MipsInstr.j (getMipsLabel name)], rm2)) ∧
      (∀ (table : List (String × CodeGenFunctionInfo)) (funcName : String)
        (result : Option Operand),
        ∃ lines rmEnd, visitCallAlloc info table rm funcName result =
          Except.ok (lines, rm2, rmEnd)) ∧
      (∀ (cond : Operand) (target : String) (g : List MipsInstr × RegisterManager × MipsReg),
        getReg info rm cond true = Except.ok g → HomesResolve info g.2.1 →
        ∃ rm3, visitBranch info rm cond target =
            Except.ok (g.1 ++ g.2.1.busyRegs.flatMap (spillLines info g.2.1) ++
              [MipsInstr.beqz g.2.2 (getMipsLabel target)], rm3) ∧
          AllocEmpty rm3) := by
  have hinv := runAllocOps_inv ops _ allocInv_construct rm hreach
  obtain ⟨rm2, hs, hempty⟩ := spillAll_spec info rm hinv hhome
  refine ⟨rm2, hs, ?_, ?_, ?_, hempty, ?_, ?_, ?_, ?_⟩
  · intro r hb hd
    exact spillLines_dirty info rm hinv hhome r hb hd
  · intro r _ hd
    exact spillLines_clean info rm r hd
  · exact spill_store_count info rm hinv hhome rm.busyRegs (fun _ hr => hr)
  · intro name
    unfold visitLabel
    rw [hs]
  · intro name
    unfold visitJump
    rw [hs]
  · intro table funcName result
    unfold visitCallAlloc
    rw [hs]
    cases result with
    | none => exact ⟨_, _, rfl⟩
    | some res =>
      obtain ⟨a, ha⟩ := allocateReg_of_empty info rm2 hempty res
      simp only [ha]
      exact ⟨_, _, rfl⟩
  · intro cond target g hg hh
    have hinvg := allocInv_getReg info rm cond true hinv g hg
    obtain ⟨rm3, hs3, he3⟩ := spillAll_spec info g.2.1 hinvg hh
    refine ⟨rm3, ?_, he3⟩
    unfold visitBranch
    rw [hg]
    simp only
    rw [hs3]

/-- Claim C12 at the state in which `t0` sits dirty in `$t0` and the global `g` clean in
`$t1`: `spillAll` emits the single line `sw $t0, -12($fp)`. -/
theorem C12_spillAll_writes_back_and_empties_witness :
    runAllocOps RegisterManager.construct exAllocOps = some exAllocState ∧
    HomesResolve (some exInfoT0) exAllocState ∧
    exAllocState.busyRegs.flatMap (spillLines (some exInfoT0) exAllocState) =
      [MipsInstr.swNeg MipsReg.T0 12 MipsReg.FP] ∧
    ∃ rm2 : RegisterManager,
      spillAll (some exInfoT0) exAllocState =
        Except.ok (exAllocState.busyRegs.flatMap (spillLines (some exInfoT0) exAllocState),
          rm2) ∧
      AllocEmpty rm2 :=
  ⟨by decide, by decide, by decide,
    (C12_spillAll_writes_back_and_empties exAllocOps exAllocState (some exInfoT0) (by decide)
      (by decide)).imp (fun _ h => ⟨h.1, h.2.2.2.2.1⟩)⟩

/-! ### Address of a local array element -/

theorem mem_allocatable_ne_T9 (r : MipsReg) (h : r = MipsReg.T8 ∨ r ∈ allocatable) :
    r ≠ MipsReg.T9 := by
  rcases h with h | h
  · rw [h]; decide
  · intro hc
    rw [hc] at h
    revert h
    decide

theorem takeReg_reg (info : Option CodeGenFunctionInfo) (rm : RegisterManager) (h : AllocInv rm)
    (r : List MipsInstr × RegisterManager × MipsReg) (hok : takeReg info rm = Except.ok r) :
    r.2.2 ∈ allocatable := by
  have hp := (takeReg_pre info rm h r hok).1.perm
  exact (List.Perm.mem_iff hp).1 (List.mem_cons_self _ _)

theorem getReg_reg (info : Option CodeGenFunctionInfo) (rm : RegisterManager) (op : Operand)
    (h : AllocInv rm) (r : List MipsInstr × RegisterManager × MipsReg)
    (hok : getReg info rm op true = Except.ok r) : r.2.2 = MipsReg.T8 ∨ r.2.2 ∈ allocatable := by
  unfold getReg at hok
  by_cases himm : op.type = OperandType.IMM
  · rw [if_pos himm] at hok
    simp only [Except.ok.injEq] at hok
    rw [← hok]
    exact Or.inl rfl
  · rw [if_neg himm] at hok
    cases hfind : mapFind rm.varToReg op.name with
    | some reg =>
      rw [hfind] at hok
      simp only [Except.ok.injEq] at hok
      rw [← hok]
      right
      have hb := (h.regVar reg op.name (h.varReg op.name reg hfind)).1
      exact (List.Perm.mem_iff h.perm).1 (List.mem_append_right _ hb)
    | none =>
      rw [hfind] at hok
      simp only at hok
      cases ht : takeReg info rm with
      | error e => rw [ht] at hok; simp at hok
      | ok t =>
        rw [ht] at hok
        simp only [if_true] at hok
        have hreg := takeReg_reg info rm h t ht
        cases ha : getAddress info op MipsReg.T9 with
        | error e => rw [ha] at hok; simp at hok
        | ok a =>
          rw [ha] at hok
          simp only [Except.ok.injEq] at hok
          rw [← hok]
          exact Or.inr hreg

theorem baseAddress_local (info : CodeGenFunctionInfo) (rm : RegisterManager) (baseOp : Operand)
    (dest : MipsReg) (e : CodeGenSymbolEntry) (hptr : baseIsPointer baseOp = false)
    (hlay : mapFind info.symbolMap baseOp.name = some e) :
    baseAddress (some info) rm baseOp dest =
      Except.ok ([MipsInstr.addiuNeg dest MipsReg.FP (wrap32 (e.offset + e.size - 4))], rm) := by
  unfold baseAddress
  rw [hptr]
  simp only [Bool.false_eq_true, if_false, Option.bind, hlay]

/-- Claim C13: for a base operand that is not a pointer and is registered in the current
layout with offset `o` and size `s`, GET_ADDR with the immediate offset `m` emits
`addiu <reg>, $fp, -(o + s - 4)` and, for `m ≠ 0`, `addiu <reg>, <reg>, m`, after which
the register holds `$fp - (o + s - 4) + m`; STORE emits `addiu $t9, $fp, -(o + s - 4)` and
`sw <val>, m($t9)`, which writes the word at that address; for a frame that lies in the
address space the address of element `k` (`m = 4k`, `0 ≤ k < s/4`) is the number
`$fp - (o + s - 4) + 4k`, between `$fp - (o + s - 4)` and `$fp - o`, different for
different `k`; for `o = 20`, `s = 40` the line is `addiu $t0, $fp, -56`. -/
theorem C13_local_array_element_address (ops : List AllocOp) (rm : RegisterManager)
    (info : CodeGenFunctionInfo) (baseOp : Operand) (e : CodeGenSymbolEntry) (m : Int)
    (hreach : runAllocOps RegisterManager.construct ops = some rm)
    (hptr : baseIsPointer baseOp = false)
    (hlay : mapFind info.symbolMap baseOp.name = some e) :
    (∀ (resOp : Operand) (d : List MipsInstr × RegisterManager × MipsReg),
      allocateReg (some info) rm resOp = Except.ok d →
      visitLoadStore (some info) rm
          { op := IROp.GET_ADDR, result := some resOp, arg1 := some baseOp,
            arg2 := some (Operand.imm m) } =
        Except.ok (d.1 ++ [MipsInstr.addiuNeg d.2.2 MipsReg.FP (wrap32 (e.offset + e.size - 4))] ++
          (if m ≠ 0 then [MipsInstr.addiu d.2.2 d.2.2 m] else []), d.2.1) ∧
      ∀ M : Machine,
        (runMips ([MipsInstr.addiuNeg d.2.2 MipsReg.FP (wrap32 (e.offset + e.size - 4))] ++
          (if m ≠ 0 then [MipsInstr.addiu d.2.2 d.2.2 m] else [])) M).reg d.2.2 =
          wrapU (M.reg MipsReg.FP - (e.offset + e.size - 4) + m)) ∧
    (∀ (valOp : Operand) (v : List MipsInstr × RegisterManager × MipsReg),
      getReg (some info) rm valOp true = Except.ok v →
      visitLoadStore (some info) rm
          { op := IROp.STORE, result := some valOp, arg1 := some baseOp,
            arg2 := some (Operand.imm m) } =
        Except.ok (v.1 ++ [MipsInstr.addiuNeg MipsReg.T9 MipsReg.FP (wrap32 (e.offset + e.size - 4)),
          MipsInstr.sw v.2.2 m MipsReg.T9], v.2.1) ∧
      ∀ M : Machine,
        (runMips [MipsInstr.addiuNeg MipsReg.T9 MipsReg.FP (wrap32 (e.offset + e.size - 4)),
          MipsInstr.sw v.2.2 m MipsReg.T9] M).mem
            (wrapU (M.reg MipsReg.FP - (e.offset + e.size - 4) + m)) = M.reg v.2.2) ∧
    (∀ fp k : Int, 0 ≤ e.offset → e.offset + e.size - 4 ≤ fp → fp < 4294967296 →
      0 ≤ k → k < e.size / 4 →
      wrapU (fp - (e.offset + e.size - 4) + 4 * k) = fp - (e.offset + e.size - 4) + 4 * k ∧
      fp - (e.offset + e.size - 4) ≤ wrapU (fp - (e.offset + e.size - 4) + 4 * k) ∧
      wrapU (fp - (e.offset + e.size - 4) + 4 * k) ≤ fp - e.offset ∧
      ∀ k2 : Int, 0 ≤ k2 → k2 < e.size / 4 →
        wrapU (fp - (e.offset + e.size - 4) + 4 * k) =
          wrapU (fp - (e.offset + e.size - 4) + 4 * k2) → k = k2) ∧
    (MipsInstr.addiuNeg MipsReg.T0 MipsReg.FP (wrap32 (20 + 40 - 4))).text =
      "addiu $t0, $fp, -56" := by
  have hinv := runAllocOps_inv ops _ allocInv_construct rm hreach
  refine ⟨?_, ?_, ?_, by decide⟩
  · intro resOp d hd
    constructor
    · simp only [visitLoadStore, visitGetAddr, hd, baseAddress_local info d.2.1 baseOp d.2.2 e hptr hlay,
        Operand.imm]
      simp
    · intro M
      by_cases hm : m = 0
      · subst hm
        simp only [ne_eq, not_true_eq_false, if_false, List.append_nil, runMips, List.foldl, step,
          Machine.setReg, if_true]
        unfold wrapU wrap32
        omega
      · simp only [ne_eq, hm, not_false_eq_true, if_true, runMips, List.singleton_append,
          List.foldl, step, Machine.setReg]
        unfold wrapU wrap32
        omega
  · intro valOp v hv
    have hne : v.2.2 ≠ MipsReg.T9 :=
      mem_allocatable_ne_T9 _ (getReg_reg (some info) rm valOp hinv v hv)
    constructor
    · simp only [visitLoadStore, visitStore, hv,
        baseAddress_local info v.2.1 baseOp MipsReg.T9 e hptr hlay, Operand.imm]
      simp
    · intro M
      simp only [runMips, List.foldl, step, Machine.setReg, Machine.setMem, if_true, hne, if_false]
      have haddr : wrapU (M.reg MipsReg.FP - (e.offset + e.size - 4) + m) =
          wrapU (wrapU (M.reg MipsReg.FP - wrap32 (e.offset + e.size - 4)) + m) := by
        unfold wrapU wrap32
        omega
      rw [if_pos haddr]
  · intro fp k h0 h1 h2 h3 h4
    have hw : ∀ j : Int, 0 ≤ j → j < e.size / 4 →
        wrapU (fp - (e.offset + e.size - 4) + 4 * j) = fp - (e.offset + e.size - 4) + 4 * j := by
      intro j hj0 hj1
      unfold wrapU
      omega
    refine ⟨hw k h3 h4, ?_, ?_, ?_⟩
    · rw [hw k h3 h4]; omega
    · rw [hw k h3 h4]; omega
    · intro k2 h5 h6 heq
      rw [hw k h3 h4, hw k2 h5 h6] at heq
      omega

/-- Claim C13 at the array `a_2` with offset 20 and size 40: `GET_ADDR t0, a_2, #8` gives
the two lines `addiu $t0, $fp, -56` and `addiu $t0, $t0, 8`. -/
theorem C13_local_array_element_address_witness :
    runAllocOps RegisterManager.construct [] = some RegisterManager.construct ∧
    baseIsPointer exArrOp = false ∧
    mapFind exInfoArr.symbolMap exArrOp.name = some { name := "a_2", offset := 20, size := 40 } ∧
    (visitLoadStore (some exInfoArr) RegisterManager.construct exGetAddr).toOption.map
        (fun r => r.1.map MipsInstr.text) =
      some ["addiu $t0, $fp, -56", "addiu $t0, $t0, 8"] ∧
    ∀ fp k : Int, (0 : Int) ≤ 20 → 20 + 40 - 4 ≤ fp → fp < 4294967296 → 0 ≤ k → k < 40 / 4 →
      wrapU (fp - (20 + 40 - 4) + 4 * k) = fp - (20 + 40 - 4) + 4 * k :=
  ⟨rfl, by decide, by decide, by decide,
    fun fp k h0 h1 h2 h3 h4 =>
      ((C13_local_array_element_address [] RegisterManager.construct exInfoArr exArrOp
        { name := "a_2", offset := 20, size := 40 } 8 rfl (by decide) (by decide)).2.2.1
        fp k h0 h1 h2 h3 h4).1⟩

/-! ### Prologue, epilogue and the offsets of the layout -/

/-- After the four frame-setup lines `$fp` is the `$sp` at entry and the words at
`-4($fp)` and `-8($fp)` hold the `$ra` and the `$fp` at entry. -/
theorem frameSetup_saves (F : Int) (m : Machine)
    (hsp : 0 ≤ m.reg MipsReg.SP ∧ m.reg MipsReg.SP < 4294967296) :
    (runMips (frameSetup F) m).reg MipsReg.FP = m.reg MipsReg.SP ∧
    (runMips (frameSetup F) m).mem (wrapU (m.reg MipsReg.SP - 4)) = m.reg MipsReg.RA ∧
    (runMips (frameSetup F) m).mem (wrapU (m.reg MipsReg.SP - 8)) = m.reg MipsReg.FP := by
  simp only [runMips, frameSetup, List.foldl, step, Machine.setReg, Machine.setMem]
  refine ⟨?_, ?_, ?_⟩
  · simp only [if_true, reduceCtorEq, if_false]
    unfold wrapU
    omega
  · simp only [if_true, reduceCtorEq, if_false]
    have h1 : ¬ (wrapU (m.reg MipsReg.SP - 4) =
        wrapU (wrapU (m.reg MipsReg.SP - F) + wrap32 (F - 8))) := by
      unfold wrapU wrap32
      omega
    have h2 : wrapU (m.reg MipsReg.SP - 4) =
        wrapU (wrapU (m.reg MipsReg.SP - F) + wrap32 (F - 4)) := by
      unfold wrapU wrap32
      omega
    rw [if_neg h1, if_pos h2]
  · simp only [if_true, reduceCtorEq, if_false]
    have h1 : wrapU (m.reg MipsReg.SP - 8) =
        wrapU (wrapU (m.reg MipsReg.SP - F) + wrap32 (F - 8)) := by
      unfold wrapU wrap32
      omega
    rw [if_pos h1]

/-- The epilogue reads `$ra` from `-4($fp)`, sets `$sp` to `$fp` and reads `$fp` from
`-8` below it. -/
theorem frameRestore_state (m : Machine) :
    (runMips frameRestore m).reg MipsReg.SP = m.reg MipsReg.FP ∧
    (runMips frameRestore m).reg MipsReg.FP = m.mem (wrapU (m.reg MipsReg.FP - 8)) ∧
    (runMips frameRestore m).reg MipsReg.RA = m.mem (wrapU (m.reg MipsReg.FP - 4)) := by
  simp only [runMips, frameRestore, List.foldl, step, Machine.setReg, Machine.setMem]
  refine ⟨?_, ?_, ?_⟩
  · simp
  · simp only [if_true, reduceCtorEq, if_false]
    rw [show m.reg MipsReg.FP + -8 = m.reg MipsReg.FP - 8 by omega]
  · simp only [reduceCtorEq, if_false, if_true]
    rw [show m.reg MipsReg.FP + -4 = m.reg MipsReg.FP - 4 by omega]

theorem slot_ne_saved (fp off : Int) (h1 : 12 ≤ off) (h2 : off ≤ 2147483647) :
    wrapU (fp - off) ≠ wrapU (fp - 4) ∧ wrapU (fp - off) ≠ wrapU (fp - 8) := by
  unfold wrapU
  constructor <;> omega

theorem paramMoves_preserve (info : CodeGenFunctionInfo) (tp : Int)
    (hoff : OffsetsFromTwelve info) (names : List String) :
    ∀ (idx : Nat) (m : Machine),
      (runMips (paramMoves info tp idx names) m).reg MipsReg.FP = m.reg MipsReg.FP ∧
      (runMips (paramMoves info tp idx names) m).mem (wrapU (m.reg MipsReg.FP - 4)) =
        m.mem (wrapU (m.reg MipsReg.FP - 4)) ∧
      (runMips (paramMoves info tp idx names) m).mem (wrapU (m.reg MipsReg.FP - 8)) =
        m.mem (wrapU (m.reg MipsReg.FP - 8)) := by
  induction names with
  | nil => intro idx m; simp [paramMoves, runMips]
  | cons p rest ih =>
    intro idx m
    simp only [paramMoves]
    rw [runMips_append]
    cases hf : mapFind info.symbolMap p with
    | none =>
      simp only [runMips, List.foldl]
      exact ih (idx + 1) m
    | some e =>
      obtain ⟨ho1, ho2⟩ := hoff p e hf
      obtain ⟨hn4, hn8⟩ := slot_ne_saved (m.reg MipsReg.FP) e.offset ho1 ho2
      simp only
      by_cases hi : idx < 4
      · rw [if_pos hi]
        obtain ⟨a1, a2, a3⟩ := ih (idx + 1)
          (runMips [MipsInstr.swNeg (argReg idx) e.offset MipsReg.FP] m)
        have hfp : (runMips [MipsInstr.swNeg (argReg idx) e.offset MipsReg.FP] m).reg MipsReg.FP =
            m.reg MipsReg.FP := by
          simp [runMips, step, Machine.setMem]
        rw [hfp] at a1 a2 a3
        refine ⟨a1, ?_, ?_⟩
        · rw [a2]
          simp only [runMips, List.foldl, step, Machine.setMem]
          rw [if_neg (fun hc => hn4 hc.symm)]
        · rw [a3]
          simp only [runMips, List.foldl, step, Machine.setMem]
          rw [if_neg (fun hc => hn8 hc.symm)]
      · rw [if_neg hi]
        obtain ⟨a1, a2, a3⟩ := ih (idx + 1)
          (runMips [MipsInstr.lw MipsReg.T8 (wrap32 ((tp - 1 - (idx : Int)) * 4)) MipsReg.FP,
            MipsInstr.swNeg MipsReg.T8 e.offset MipsReg.FP] m)
        have hfp : (runMips [MipsInstr.lw MipsReg.T8 (wrap32 ((tp - 1 - (idx : Int)) * 4)) MipsReg.FP,
            MipsInstr.swNeg MipsReg.T8 e.offset MipsReg.FP] m).reg MipsReg.FP =
            m.reg MipsReg.FP := by
          simp [runMips, step, Machine.setMem, Machine.setReg]
        rw [hfp] at a1 a2 a3
        refine ⟨a1, ?_, ?_⟩
        · rw [a2]
          simp only [runMips, List.foldl, step, Machine.setMem, Machine.setReg, reduceCtorEq,
            if_false]
          rw [if_neg (fun hc => hn4 hc.symm)]
        · rw [a3]
          simp only [runMips, List.foldl, step, Machine.setMem, Machine.setReg, reduceCtorEq,
            if_false]
          rw [if_neg (fun hc => hn8 hc.symm)]

theorem sortParamList_symbolMap (keepParam : Bool) (info : CodeGenFunctionInfo) :
    (sortParamList keepParam info).symbolMap = info.symbolMap := by
  cases keepParam <;> rfl

theorem sortParamList_frameSize (keepParam : Bool) (info : CodeGenFunctionInfo) :
    (sortParamList keepParam info).frameSize = info.frameSize := by
  cases keepParam <;> rfl

theorem insertParam_perm (m : List (String × CodeGenSymbolEntry)) (a : String) :
    ∀ l : List String, (insertParam m a l).Perm (a :: l)
  | [] => List.Perm.refl _
  | b :: rest => by
    unfold insertParam
    by_cases h : paramOffset m b < paramOffset m a
    · rw [if_pos h]
      exact ((insertParam_perm m a rest).cons b).trans (List.Perm.swap a b rest)
    · rw [if_neg h]

theorem sortParams_perm (m : List (String × CodeGenSymbolEntry)) :
    ∀ l : List String, (sortParams m l).Perm l
  | [] => List.Perm.refl _
  | a :: rest => by
    unfold sortParams
    exact (insertParam_perm m a _).trans ((sortParams_perm m rest).cons a)

theorem insertParam_sorted (m : List (String × CodeGenSymbolEntry)) (a : String) :
    ∀ l : List String, l.Pairwise (fun x y => paramOffset m x ≤ paramOffset m y) →
      (insertParam m a l).Pairwise (fun x y => paramOffset m x ≤ paramOffset m y)
  | [], _ => List.pairwise_singleton _ _
  | b :: rest, h => by
    unfold insertParam
    obtain ⟨hb, hrest⟩ := List.pairwise_cons.1 h
    by_cases hlt : paramOffset m b < paramOffset m a
    · rw [if_pos hlt]
      refine List.pairwise_cons.2 ⟨?_, insertParam_sorted m a rest hrest⟩
      intro y hy
      rcases List.mem_cons.1 ((insertParam_perm m a rest).subset hy) with hya | hyr
      · rw [hya]
        exact Int.le_of_lt hlt
      · exact hb y hyr
    · rw [if_neg hlt]
      refine List.pairwise_cons.2 ⟨?_, h⟩
      intro y hy
      rcases List.mem_cons.1 hy with hyb | hyr
      · rw [hyb]
        exact Int.not_lt.1 hlt
      · exact Int.le_trans (Int.not_lt.1 hlt) (hb y hyr)

/-- The sort returns the parameter names in ascending order of their offsets, and returns
the same names. -/
theorem sortParams_sorted (m : List (String × CodeGenSymbolEntry)) :
    ∀ l : List String,
      (sortParams m l).Pairwise (fun x y => paramOffset m x ≤ paramOffset m y)
  | [] => List.Pairwise.nil
  | a :: rest => by
    unfold sortParams
    exact insertParam_sorted m a _ (sortParams_sorted m rest)

/-- The parameters `q` at offset 4 and `p` at offset 0, met in this order by the loop, are
recorded as `p_2, q_2`. -/
theorem buildLayout_params_by_offset :
    (buildLayout true "f"
      [{ name := "q", type := SymbolType.Int, scope := 2, isParam := true, offset := 4 },
       { name := "p", type := SymbolType.Int, scope := 2, isParam := true, offset := 0 }]
      none [] 0).paramList = ["p_2", "q_2"] := by
  decide

/-- Every name the loop appends to `paramList` is a key of `symbolMap` when the loop
ends. -/
theorem collectScope_params_stored (keepParam : Bool) :
    ∀ (syms : List SymbolEntry) (info : CodeGenFunctionInfo),
      (∀ n ∈ info.paramList, (mapFind info.symbolMap n).isSome = true) →
      ∀ n ∈ (collectScope keepParam syms info).paramList,
        (mapFind (collectScope keepParam syms info).symbolMap n).isSome = true
  | [], _, h => h
  | sym :: rest, info, h => by
    unfold collectScope
    by_cases hst : isStaticSymbol sym = true
    · rw [if_pos hst]
      exact collectScope_params_stored keepParam rest info h
    · rw [if_neg hst]
      refine collectScope_params_stored keepParam rest _ ?_
      intro n hn
      show (mapFind (mapSet info.symbolMap (uniqueName sym) (localEntry sym keepParam)) n).isSome
        = true
      rw [mapFind_mapSet]
      by_cases hk : uniqueName sym = n
      · rw [if_pos hk]
        rfl
      · rw [if_neg hk]
        refine h n ?_
        have hn2 : n ∈ (if (keepParam && sym.isParam) = true then
            info.paramList ++ [uniqueName sym] else info.paramList) := hn
        by_cases hp : (keepParam && sym.isParam) = true
        · rw [if_pos hp] at hn2
          rcases List.mem_append.1 hn2 with h1 | h2
          · exact h1
          · exact absurd (List.mem_singleton.1 h2).symm hk
        · rw [if_neg hp] at hn2
          exact hn2

theorem collectScope_offsets (keepParam : Bool) (syms : List SymbolEntry)
    (hs : ∀ sym ∈ syms, 0 ≤ sym.offset ∧ sym.offset ≤ 2147483635) :
    ∀ info : CodeGenFunctionInfo, OffsetsFromTwelve info →
      OffsetsFromTwelve (collectScope keepParam syms info) ∧
      (collectScope keepParam syms info).frameSize = info.frameSize := by
  induction syms with
  | nil => intro info h; exact ⟨h, rfl⟩
  | cons sym rest ih =>
    intro info h
    have hrest := ih (fun s hs2 => hs s (List.mem_cons_of_mem _ hs2))
    unfold collectScope
    by_cases hst : isStaticSymbol sym = true
    · rw [if_pos hst]
      exact hrest info h
    · rw [if_neg hst]
      refine hrest _ ?_
      intro name e he
      simp only [mapFind_mapSet] at he
      by_cases hn : uniqueName sym = name
      · rw [if_pos hn] at he
        simp only [Option.some.injEq] at he
        rw [← he]
        obtain ⟨h0, h1⟩ := hs sym (by simp)
        simp only [localEntry]
        rw [wrap32_small _ (by omega) (by omega)]
        constructor <;> omega
      · rw [if_neg hn] at he
        exact h name e he

theorem registerLocal_offsets (entry : SymbolEntry) (info : CodeGenFunctionInfo)
    (he : 0 ≤ entry.offset ∧ entry.offset ≤ 2147483635) (h : OffsetsFromTwelve info) :
    OffsetsFromTwelve (registerLocal entry info) ∧
      (registerLocal entry info).frameSize = info.frameSize := by
  unfold registerLocal
  split_ifs
  · refine ⟨?_, rfl⟩
    intro name e hf
    simp only [mapFind_mapSet] at hf
    by_cases hn : (getVarOperand entry).name = name
    · rw [if_pos hn] at hf
      simp only [Option.some.injEq] at hf
      rw [← hf]
      simp only
      rw [wrap32_small _ (by omega) (by omega)]
      constructor <;> omega
    · rw [if_neg hn] at hf
      exact h name e hf
  · exact ⟨h, rfl⟩

theorem registerTemp_offsets (tc : Nat) (info : CodeGenFunctionInfo)
    (hf : 12 ≤ info.frameSize ∧ info.frameSize + 4 ≤ 2147483647) (h : OffsetsFromTwelve info) :
    OffsetsFromTwelve (registerTemp tc info) ∧
      (registerTemp tc info).frameSize = info.frameSize + 4 := by
  unfold registerTemp
  refine ⟨?_, ?_⟩
  · intro name e he
    simp only [mapFind_mapSet] at he
    by_cases hn : "t" ++ ToString.toString tc = name
    · rw [if_pos hn] at he
      simp only [Option.some.injEq] at he
      rw [← he]
      simp only
      constructor <;> omega
    · rw [if_neg hn] at he
      exact h name e he
  · simp only
    exact wrap32_small _ (by omega) (by omega)

theorem runLayoutOps_offsets (ops : List LayoutOp) :
    ∀ (tc : Nat) (info : CodeGenFunctionInfo),
      (∀ sym ∈ declaredLocals ops, 0 ≤ sym.offset ∧ sym.offset ≤ 2147483635) →
      12 ≤ info.frameSize → info.frameSize + 4 * (tempCount ops : Int) ≤ 2147483647 →
      OffsetsFromTwelve info →
      OffsetsFromTwelve (runLayoutOps ops tc info) ∧
        (runLayoutOps ops tc info).frameSize = info.frameSize + 4 * (tempCount ops : Int) := by
  induction ops with
  | nil =>
    intro tc info _ _ _ h
    simp [runLayoutOps, tempCount, h]
  | cons op rest ih =>
    intro tc info hd hf1 hf2 h
    cases op with
    | declare entry =>
      simp only [declaredLocals, List.mem_cons, forall_eq_or_imp] at hd
      simp only [tempCount] at hf2
      obtain ⟨a1, a2⟩ := registerLocal_offsets entry info hd.1 h
      simp only [runLayoutOps, tempCount]
      have := ih tc (registerLocal entry info) hd.2 (by rw [a2]; exact hf1)
        (by rw [a2]; exact hf2) a1
      rw [a2] at this
      exact this
    | newTemp =>
      simp only [declaredLocals] at hd
      simp only [tempCount, Nat.cast_add, Nat.cast_one] at hf2
      obtain ⟨a1, a2⟩ := registerTemp_offsets tc info ⟨hf1, by omega⟩ h
      simp only [runLayoutOps, tempCount, Nat.cast_add, Nat.cast_one]
      have := ih (tc + 1) (registerTemp tc info) hd (by rw [a2]; omega) (by rw [a2]; omega) a1
      rw [a2] at this
      refine ⟨this.1, ?_⟩
      rw [this.2]
      omega

theorem initFrameSize_frameSize (funcSym : Option SymbolEntry) (info : CodeGenFunctionInfo) :
    (initFrameSize funcSym info).frameSize = wrap32 (frameBase funcSym + 12) := by
  cases funcSym with
  | none => rfl
  | some f => rfl

theorem buildLayout_offsets (keepParam : Bool) (funcName : String)
    (scopeSyms : List SymbolEntry) (funcSym : Option SymbolEntry) (ops : List LayoutOp)
    (tempCounter : Nat)
    (hscope : ∀ sym ∈ scopeSyms, 0 ≤ sym.offset ∧ sym.offset ≤ 2147483635)
    (hdecl : ∀ sym ∈ declaredLocals ops, 0 ≤ sym.offset ∧ sym.offset ≤ 2147483635)
    (hframe : 0 ≤ frameBase funcSym)
    (hfit : frameBase funcSym + 12 + 4 * (tempCount ops : Int) ≤ 2147483647) :
    OffsetsFromTwelve (buildLayout keepParam funcName scopeSyms funcSym ops tempCounter) ∧
      12 ≤ (buildLayout keepParam funcName scopeSyms funcSym ops tempCounter).frameSize := by
  unfold buildLayout
  have h0 : OffsetsFromTwelve
      { funcName := funcName, frameSize := 0, symbolMap := [], paramList := [] } := by
    intro name e he
    simp [mapFind] at he
  obtain ⟨c1, _⟩ := collectScope_offsets keepParam scopeSyms hscope _ h0
  have c2 : OffsetsFromTwelve (initFrameSize funcSym (sortParamList keepParam
      (collectScope keepParam scopeSyms
        { funcName := funcName, frameSize := 0, symbolMap := [], paramList := [] }))) := by
    intro name e he
    refine c1 name e ?_
    rw [← sortParamList_symbolMap keepParam]
    exact he
  have c3 : (initFrameSize funcSym (sortParamList keepParam (collectScope keepParam scopeSyms
      { funcName := funcName, frameSize := 0, symbolMap := [], paramList := [] }))).frameSize =
      frameBase funcSym + 12 := by
    rw [initFrameSize_frameSize]
    exact wrap32_small _ (by omega) (by omega)
  obtain ⟨d1, d2⟩ := runLayoutOps_offsets ops tempCounter _ hdecl (by rw [c3]; omega)
    (by rw [c3]; exact hfit) c2
  refine ⟨d1, ?_⟩
  rw [d2, c3]
  omega

theorem getAddress_frame (info : CodeGenFunctionInfo) (op : Operand) (t : MipsReg)
    (e : CodeGenSymbolEntry) (htype : op.type = OperandType.TEMP ∨ op.type = OperandType.VAR)
    (hlay : mapFind info.symbolMap op.name = some e) :
    getAddress (some info) op t = Except.ok ([], Address.frame e.offset) := by
  unfold getAddress
  rw [if_pos htype]
  simp only [Option.bind, hlay]

/-- Claim C11: for every frame size `F` and every machine state whose `$sp` is a 32-bit
word, if after the four frame-setup lines of the prologue the register `$fp` and the
words at `-4($fp)` and `-8($fp)` are left as they are, the four lines of the epilogue
of a function other than `main` restore `$sp`, `$fp` and `$ra` to their values at
entry; `visitFuncExit` emits these four lines after the exit label and the spills.
In a layout built by the generator from symbols with offsets from 0 on and a
non-negative stack-frame size (within the range of `int`), every entry has an offset
of at least 12, so its home slot `-offset($fp)` is neither of the two saved words, and
the parameter moves of the prologue leave `$fp` and the two saved words untouched. -/
theorem C11_prologue_epilogue_inverse (F : Int) (M0 M2 : Machine)
    (keepParam : Bool) (funcName : String) (scopeSyms : List SymbolEntry)
    (funcSym : Option SymbolEntry) (ops : List LayoutOp) (tempCounter : Nat)
    (hsp : 0 ≤ M0.reg MipsReg.SP ∧ M0.reg MipsReg.SP < 4294967296)
    (hfp : M2.reg MipsReg.FP = (runMips (frameSetup F) M0).reg MipsReg.FP)
    (hra : M2.mem (wrapU (M2.reg MipsReg.FP - 4)) =
      (runMips (frameSetup F) M0).mem (wrapU (M2.reg MipsReg.FP - 4)))
    (hold : M2.mem (wrapU (M2.reg MipsReg.FP - 8)) =
      (runMips (frameSetup F) M0).mem (wrapU (M2.reg MipsReg.FP - 8)))
    (hscope : ∀ sym ∈ scopeSyms, 0 ≤ sym.offset ∧ sym.offset ≤ 2147483635)
    (hdecl : ∀ sym ∈ declaredLocals ops, 0 ≤ sym.offset ∧ sym.offset ≤ 2147483635)
    (hframe : 0 ≤ frameBase funcSym)
    (hfit : frameBase funcSym + 12 + 4 * (tempCount ops : Int) ≤ 2147483647) :
    ((runMips frameRestore M2).reg MipsReg.SP = M0.reg MipsReg.SP ∧
      (runMips frameRestore M2).reg MipsReg.FP = M0.reg MipsReg.FP ∧
      (runMips frameRestore M2).reg MipsReg.RA = M0.reg MipsReg.RA) ∧
    (∀ (info : Option CodeGenFunctionInfo) (rm : RegisterManager) (name : String)
      (s : List MipsInstr × RegisterManager), name ≠ "main" → spillAll info rm = Except.ok s →
      visitFuncExit info rm name =
        Except.ok ([MipsInstr.label (getMipsLabel ("__end_" ++ name))] ++ s.1 ++ frameRestore ++
          [MipsInstr.blank], s.2)) ∧
    OffsetsFromTwelve (buildLayout keepParam funcName scopeSyms funcSym ops tempCounter) ∧
    12 ≤ (buildLayout keepParam funcName scopeSyms funcSym ops tempCounter).frameSize ∧
    (∀ (op : Operand) (e : CodeGenSymbolEntry),
      op.type = OperandType.TEMP ∨ op.type = OperandType.VAR →
      mapFind (buildLayout keepParam funcName scopeSyms funcSym ops tempCounter).symbolMap
        op.name = some e →
      getAddress (some (buildLayout keepParam funcName scopeSyms funcSym ops tempCounter)) op
          MipsReg.T9 = Except.ok ([], Address.frame e.offset) ∧
        12 ≤ e.offset ∧
        ∀ fp : Int, wrapU (fp - e.offset) ≠ wrapU (fp - 4) ∧
          wrapU (fp - e.offset) ≠ wrapU (fp - 8)) ∧
    (∀ M : Machine,
      (runMips (visitFuncEntry
          (some (buildLayout keepParam funcName scopeSyms funcSym ops tempCounter))) M).reg
          MipsReg.FP =
        (runMips (frameSetup
          (buildLayout keepParam funcName scopeSyms funcSym ops tempCounter).frameSize) M).reg
          MipsReg.FP ∧
      ∀ d : Int, d = 4 ∨ d = 8 →
        (runMips (visitFuncEntry
            (some (buildLayout keepParam funcName scopeSyms funcSym ops tempCounter))) M).mem
            (wrapU ((runMips (frameSetup
              (buildLayout keepParam funcName scopeSyms funcSym ops tempCounter).frameSize)
                M).reg MipsReg.FP - d)) =
          (runMips (frameSetup
              (buildLayout keepParam funcName scopeSyms funcSym ops tempCounter).frameSize)
                M).mem
            (wrapU ((runMips (frameSetup
              (buildLayout keepParam funcName scopeSyms funcSym ops tempCounter).frameSize)
                M).reg MipsReg.FP - d))) := by
  obtain ⟨s1, s2, s3⟩ := frameSetup_saves F M0 hsp
  obtain ⟨r1, r2, r3⟩ := frameRestore_state M2
  obtain ⟨hoff, hfs⟩ := buildLayout_offsets keepParam funcName scopeSyms funcSym ops tempCounter
    hscope hdecl hframe hfit
  refine ⟨⟨?_, ?_, ?_⟩, ?_, hoff, hfs, ?_, ?_⟩
  · rw [r1, hfp, s1]
  · rw [r2, hold, hfp, s1, s3]
  · rw [r3, hra, hfp, s1, s2]
  · intro info rm name s hname hs
    unfold visitFuncExit
    rw [hs]
    simp only [if_neg hname]
  · intro op e htype hlay
    obtain ⟨h1, h2⟩ := hoff op.name e hlay
    exact ⟨getAddress_frame _ op MipsReg.T9 e htype hlay, h1,
      fun fp => slot_ne_saved fp e.offset h1 h2⟩
  · intro M
    simp only [visitFuncEntry]
    rw [runMips_append]
    obtain ⟨p1, p2, p3⟩ := paramMoves_preserve
      (buildLayout keepParam funcName scopeSyms funcSym ops tempCounter)
      (wrap32 ((buildLayout keepParam funcName scopeSyms funcSym ops tempCounter).paramList.length : Int))
      hoff (buildLayout keepParam funcName scopeSyms funcSym ops tempCounter).paramList 0
      (runMips (frameSetup
        (buildLayout keepParam funcName scopeSyms funcSym ops tempCounter).frameSize) M)
    refine ⟨p1, ?_⟩
    intro d hd
    rcases hd with hd | hd
    · rw [hd]; exact p2
    · rw [hd]; exact p3

/-- Claim C11 at the function `f(int p)` with one local and two temporaries (frame size
28) entered with `$sp = 1000`, `$fp = 2000`, `$ra = 3000`: after the whole prologue,
the epilogue gives the three registers their values at entry. -/
theorem C11_prologue_epilogue_inverse_witness :
    (runMips (visitFuncEntry (some exLayout)) exMachineRegs).reg MipsReg.FP =
      (runMips (frameSetup 28) exMachineRegs).reg MipsReg.FP ∧
    (∀ sym ∈ exScopeSyms, 0 ≤ sym.offset ∧ sym.offset ≤ 2147483635) ∧
    (runMips frameRestore (runMips (visitFuncEntry (some exLayout)) exMachineRegs)).reg
        MipsReg.SP = 1000 ∧
    (runMips frameRestore (runMips (visitFuncEntry (some exLayout)) exMachineRegs)).reg
        MipsReg.FP = 2000 ∧
    (runMips frameRestore (runMips (visitFuncEntry (some exLayout)) exMachineRegs)).reg
        MipsReg.RA = 3000 :=
  ⟨by decide, by decide,
    (C11_prologue_epilogue_inverse 28 exMachineRegs
      (runMips (visitFuncEntry (some exLayout)) exMachineRegs) true "f" exScopeSyms
      (some exFuncSym) [LayoutOp.newTemp, LayoutOp.newTemp] 0 (by decide) (by decide)
      (by decide) (by decide) (by decide) (by decide) (by decide) (by decide)).1⟩

/-! ### Termination of the driver and of the inner loops -/

theorem startsWith_length (cs pat : List Char) (h : startsWith cs pat = true) :
    pat.length ≤ cs.length := by
  induction cs generalizing pat with
  | nil =>
    cases pat with
    | nil => simp
    | cons q qs => simp [startsWith] at h
  | cons c cs ih =>
    cases pat with
    | nil => simp
    | cons q qs =>
      simp only [startsWith, Bool.and_eq_true, decide_eq_true_eq] at h
      have := ih qs h.2
      simp only [List.length_cons]
      omega

theorem findIn_bounds (cs pat : List Char) (i p : Nat) (h : findIn cs pat i = some p) :
    i ≤ p ∧ p + pat.length ≤ i + cs.length := by
  induction cs generalizing i with
  | nil =>
    unfold findIn at h
    split_ifs at h with hp
    · simp only [Option.some.injEq] at h
      subst h
      simp [hp]
  | cons c cs ih =>
    unfold findIn at h
    split_ifs at h with hs
    · simp only [Option.some.injEq] at h
      subst h
      have := startsWith_length _ _ hs
      omega
    · have := ih (i + 1) h
      simp only [List.length_cons]
      omega

theorem strFind_bounds (hay pat : List Char) (start p : Nat)
    (h : strFind hay pat start = some p) : start ≤ p ∧ p + pat.length ≤ hay.length := by
  unfold strFind at h
  split_ifs at h with hs
  have := findIn_bounds _ _ _ _ h
  simp only [List.length_drop] at this
  omega

/-- With enough iterations the scan of a key for a non-empty pattern leaves its loop
through the loop condition, and the result is the one the model computes. -/
theorem wordScanExit_eq (key pat : List Char) (hpat : pat ≠ []) (f : Nat) (pos : Option Nat)
    (hpos : ∀ p, pos = some p → key.length + 1 ≤ f + p ∧ p + pat.length ≤ key.length) :
    wordScanExit f key pat pos = some (wordScan f key pat pos) := by
  have hlen : 0 < pat.length := List.length_pos.2 hpat
  induction f generalizing pos with
  | zero =>
    cases pos with
    | none => rfl
    | some p =>
      have := hpos p rfl
      omega
  | succ f ih =>
    cases pos with
    | none => rfl
    | some p =>
      have hp := hpos p rfl
      simp only [wordScanExit, wordScan]
      split_ifs with hacc
      · rfl
      · apply ih
        intro p2 hp2
        have := strFind_bounds _ _ _ _ hp2
        omega

theorem pow2LoopExit_eq (f n p : Nat) (h : n ≤ f) :
    pow2LoopExit f n p = some (pow2Loop f n p) := by
  induction f generalizing n p with
  | zero =>
    have hn : n = 0 := by omega
    subst hn
    rfl
  | succ f ih =>
    simp only [pow2LoopExit, pow2Loop]
    split_ifs with hn
    · apply ih
      rw [Nat.shiftRight_eq_div_pow]
      simp only [pow_one]
      omega
    · rfl

/-- The driver loop started with `passCount = p` and `n = 10 - p` rounds still allowed:
it leaves the loop within `n` iterations, in the state described. -/
theorem driverLoop_spec (n : Nat) :
    ∀ (p : Nat) (f : Function) (fuel : Nat), p + n = 10 → n ≤ fuel →
      ∃ s : DriverState,
        driverLoop fuel { changed := true, passCount := p, func := f } = some s ∧
        s.func = optimizeLoop n f ∧
        p ≤ s.passCount ∧ s.passCount ≤ 10 ∧
        (s.passCount < 10 → s.changed = false) ∧
        (s.passCount = p → s = { changed := true, passCount := p, func := f }) ∧
        s.func = (fun g => (runRound g).1)^[s.passCount - p] f ∧
        (∀ j : Nat, j + 1 < s.passCount - p →
          (runRound ((fun g => (runRound g).1)^[j] f)).2 = true) ∧
        (p < s.passCount →
          s.changed = (runRound ((fun g => (runRound g).1)^[s.passCount - p - 1] f)).2) := by
  induction n with
  | zero =>
    intro p f fuel hp _
    have hp10 : p = 10 := by omega
    subst hp10
    refine ⟨{ changed := true, passCount := 10, func := f }, ?_, rfl, le_refl _, le_refl _,
      ?_, fun _ => rfl, ?_, ?_, ?_⟩
    · cases fuel <;> rfl
    · intro h; exact absurd h (lt_irrefl 10)
    · simp
    · intro j hj; simp at hj
    · intro h; exact absurd h (lt_irrefl _)
  | succ n ih =>
    intro p f fuel hp hfuel
    obtain ⟨k, rfl⟩ : ∃ k, fuel = k + 1 := ⟨fuel - 1, by omega⟩
    have hp10 : p < 10 := by omega
    have hstep : driverLoop (k + 1) { changed := true, passCount := p, func := f } =
        driverLoop k { changed := (runRound f).2, passCount := p + 1, func := (runRound f).1 } := by
      simp [driverLoop, hp10, driverStep]
    rw [hstep]
    cases hr : (runRound f).2 with
    | false =>
      refine ⟨{ changed := false, passCount := p + 1, func := (runRound f).1 }, ?_, ?_, ?_, ?_,
        ?_, ?_, ?_, ?_, ?_⟩
      · cases k <;> rfl
      · simp [optimizeLoop, hr]
      · simp
      · simp only; omega
      · intro _; rfl
      · intro h; simp at h
      · simp
      · intro j hj
        simp only [Nat.add_sub_cancel_left] at hj
        omega
      · intro _
        simp [hr]
    | true =>
      obtain ⟨s, h1, h2, h3, h4, h5, h6, h7, h8, h9⟩ :=
        ih (p + 1) (runRound f).1 k (by omega) (by omega)
      have hsub : s.passCount - p = (s.passCount - (p + 1)) + 1 := by omega
      refine ⟨s, h1, ?_, by omega, h4, h5, ?_, ?_, ?_, ?_⟩
      · rw [h2]; simp [optimizeLoop, hr]
      · intro h; omega
      · rw [hsub, Function.iterate_succ_apply]
        exact h7
      · intro j hj
        cases j with
        | zero => simpa using hr
        | succ j =>
          rw [Function.iterate_succ_apply]
          exact h8 j (by omega)
      · intro _
        by_cases hq : s.passCount = p + 1
        · have hs := h6 hq
          rw [hs]
          simp [hr]
        · have hlt : p + 1 < s.passCount := by omega
          rw [h9 hlt]
          have hsub2 : s.passCount - p - 1 = (s.passCount - (p + 1) - 1) + 1 := by omega
          rw [hsub2, Function.iterate_succ_apply]

/-- The loop of `execute` as long as every pass returns: `execute` optimizes every
function with the loop `while (changed && passCount < 10)`; started with
`changed = true` and `passCount = 0` the loop leaves through its condition after at
least one and at most ten rounds, every round but the last reported a change, and when
fewer than ten rounds were run the last one reported none; the function at the exit is
the one `execute` stores. The two inner `while` loops (the scan of an expression key
for `_<name>` and the shift loop of `isPowerOfTwo`) leave through their conditions
too; every other loop runs over a finite list. The round in which constant folding
traps is treated by `driverRun`. -/
theorem optimizeLoop_leaves_within_ten_rounds (o : Optimizer) :
    (execute o).functions =
      (splitFunctions o).functions.map (fun f => optimizeLoop 10 (buildCFG f)) ∧
    (∀ (f : Function) (fuel : Nat), 10 ≤ fuel →
      ∃ s : DriverState,
        driverLoop fuel { changed := true, passCount := 0, func := f } = some s ∧
        s.func = optimizeLoop 10 f ∧
        1 ≤ s.passCount ∧ s.passCount ≤ 10 ∧
        (s.passCount < 10 → s.changed = false) ∧
        s.func = (fun g => (runRound g).1)^[s.passCount] f ∧
        (∀ j : Nat, j + 1 < s.passCount →
          (runRound ((fun g => (runRound g).1)^[j] f)).2 = true) ∧
        s.changed = (runRound ((fun g => (runRound g).1)^[s.passCount - 1] f)).2) ∧
    (∀ key name : String,
      wordScanExit (key.length + 1) key.data ("_" ++ name).data
          (strFind key.data ("_" ++ name).data 0) =
        some (keyMentions key ("_" ++ name))) ∧
    (∀ n : Nat, pow2LoopExit n n 0 = some (pow2Loop n n 0)) := by
  refine ⟨rfl, ?_, ?_, fun n => pow2LoopExit_eq n n 0 (le_refl _)⟩
  · intro f fuel hfuel
    obtain ⟨s, h1, h2, h3, h4, h5, h6, h7, h8, h9⟩ := driverLoop_spec 10 0 f fuel rfl hfuel
    have hpos : 0 < s.passCount := by
      by_contra hc
      have h0 : s.passCount = 0 := by omega
      have hs := h6 h0
      have := h5 (by omega)
      rw [hs] at this
      simp at this
    exact ⟨s, h1, h2, hpos, h4, h5, by simpa using h7, by simpa using h8, by simpa using h9 hpos⟩
  · intro key name
    unfold keyMentions
    apply wordScanExit_eq
    · simp [String.data_append]
    · intro p hp
      have := strFind_bounds _ _ _ _ hp
      have hl : key.length = key.data.length := rfl
      omega

/-! ### The driver and the division that traps -/

/-- The loop with the trap either traps or ends as the loop without it. -/
theorem driverRun_cases (fuel : Nat) :
    ∀ s : DriverState, driverRun fuel s = DriverOutcome.trapped ∨
      (∀ t, driverLoop fuel s = some t → driverRun fuel s = DriverOutcome.exited t) ∧
      (driverLoop fuel s = none → driverRun fuel s = DriverOutcome.running) := by
  induction fuel with
  | zero =>
    intro s
    right
    simp only [driverRun, driverLoop]
    split_ifs
    · exact ⟨fun t h => (by cases h), fun _ => rfl⟩
    · exact ⟨fun t h => (by rw [Option.some.inj h]), fun h => (by cases h)⟩
  | succ k ih =>
    intro s
    simp only [driverRun, driverLoop]
    split_ifs with hc ht
    · left; rfl
    · exact ih (driverStep s)
    · right
      exact ⟨fun t h => (by rw [Option.some.inj h]), fun h => (by cases h)⟩

/-- C21. `execute` does not terminate on every IR: in
`int main() { printf("%d", (-2147483647 - 1) / (-1)); return 0; }` constant folding
turns the operands of `DIV t3, t1, t2` into `#-2147483648` and `#-1` in the first round
and evaluates `v1 / v2`, of which only `v2 != 0` is guarded; the division traps, the
loop of `main` ends in no state and `execute` does not return. What does hold: for
every function, the loop `while (changed && passCount < 10)` either traps in some round
or leaves through its condition after at least one and at most ten rounds, with
`changed` false when fewer than ten rounds were run, in the state the loop without the
trap reaches. -/
theorem C21_execute_traps_on_division_of_int_min :
    (splitFunctions { originalIR := exDivTrapIR }).functions.map buildCFG = [exDivTrapFunc] ∧
    (exDivTrapFunc.blocks.map (fun b => (passConstantFoldingRun b).isNone)) =
      [false, true, false] ∧
    driverRun 10 { changed := true, passCount := 0, func := exDivTrapFunc } =
      DriverOutcome.trapped ∧
    executeRun { originalIR := exDivTrapIR } = none ∧
    (∀ (f : Function) (fuel : Nat), 10 ≤ fuel →
      driverRun fuel { changed := true, passCount := 0, func := f } = DriverOutcome.trapped ∨
      ∃ s : DriverState,
        driverRun fuel { changed := true, passCount := 0, func := f } =
          DriverOutcome.exited s ∧
        s.func = optimizeLoop 10 f ∧
        1 ≤ s.passCount ∧ s.passCount ≤ 10 ∧
        (s.passCount < 10 → s.changed = false)) := by
  refine ⟨by decide, by decide, by decide, by decide, ?_⟩
  intro f fuel hfuel
  obtain ⟨s, h1, h2, _, h4, h5, h6, _, _, _⟩ := driverLoop_spec 10 0 f fuel rfl hfuel
  rcases driverRun_cases fuel { changed := true, passCount := 0, func := f } with ht | hr
  · exact Or.inl ht
  · right
    have hpos : 0 < s.passCount := by
      by_contra hc
      have h0 : s.passCount = 0 := by omega
      have hs := h6 h0
      have := h5 (by omega)
      rw [hs] at this
      simp at this
    exact ⟨s, hr.1 s h1, h2, hpos, h4, h5⟩

/-! ### Copy propagation: redefinition of a source or a destination -/

theorem copyStep_assign_keeps_others (copies : CopyMap) (x y : Operand)
    (hy : mapFind copies y.toString = none)
    (hty : y.type = OperandType.TEMP ∨ y.type = OperandType.VAR) (z : String)
    (hz : z ≠ x.toString) :
    mapFind (copyStep copies { op := IROp.ASSIGN, result := some x, arg1 := some y }).1 z =
      mapFind copies z := by
  have h1 : tryReplace copies (some y) = (some y, false) := by
    simp [tryReplace, hy]
  have hru : isResultUse IROp.ASSIGN = false := by decide
  have hstep : (copyStep copies { op := IROp.ASSIGN, result := some x, arg1 := some y }).1 =
      mapSet copies x.toString y := by
    simp only [copyStep, hru, reduceCtorEq, if_false, Bool.false_eq_true]
    rw [h1]
    simp [hty]
  rw [hstep]
  exact mapFind_mapSet_ne _ _ _ _ (Ne.symm hz)

/-- Claim C22: on the swap `ASSIGN t, a; ASSIGN a, b; ASSIGN b, t`, `passCopyPropagation`
keeps the copy `t -> a` when `a` is redefined by the second instruction and rewrites the
third into `ASSIGN b, a`; the input block exchanges the values of `a` and `b`, the
output block leaves `b` with its old value; the whole driver ends with `ASSIGN b, b`.
In general an ASSIGN from a variable that has no copy itself changes the entry of its
result only: a copy of another destination whose source is the assigned variable stays. -/
theorem C22_copy_propagation_breaks_swap :
    (passCopyPropagation exSwapBlock).1.instructions =
      [{ op := IROp.ASSIGN, result := some (getVarOperand exSymT2),
         arg1 := some (getVarOperand exSymA2) },
       { op := IROp.ASSIGN, result := some (getVarOperand exSymA2),
         arg1 := some (getVarOperand exSymB2) },
       { op := IROp.ASSIGN, result := some (getVarOperand exSymB2),
         arg1 := some (getVarOperand exSymA2) }] ∧
    (∀ ρ : String → Int,
      execBlock ρ exSwapBlock.instructions "a" = ρ "b" ∧
      execBlock ρ exSwapBlock.instructions "b" = ρ "a") ∧
    (∀ ρ : String → Int,
      execBlock ρ (passCopyPropagation exSwapBlock).1.instructions "a" = ρ "b" ∧
      execBlock ρ (passCopyPropagation exSwapBlock).1.instructions "b" = ρ "b") ∧
    getOptimizedIR (execute { originalIR := funcIR exSwapBlock.instructions }) =
      funcIR
        [{ op := IROp.ASSIGN, result := some (getVarOperand exSymT2),
           arg1 := some (getVarOperand exSymA2) },
         { op := IROp.ASSIGN, result := some (getVarOperand exSymA2),
           arg1 := some (getVarOperand exSymB2) },
         { op := IROp.ASSIGN, result := some (getVarOperand exSymB2),
           arg1 := some (getVarOperand exSymB2) }] ∧
    (∀ (copies : CopyMap) (x y : Operand), mapFind copies y.toString = none →
      y.type = OperandType.TEMP ∨ y.type = OperandType.VAR →
      ∀ z : String, z ≠ x.toString →
        mapFind (copyStep copies { op := IROp.ASSIGN, result := some x, arg1 := some y }).1 z =
          mapFind copies z) := by
  refine ⟨by decide, fun ρ => ⟨rfl, rfl⟩, ?_, by decide, copyStep_assign_keeps_others⟩
  intro ρ
  have h : (passCopyPropagation exSwapBlock).1.instructions =
      [{ op := IROp.ASSIGN, result := some (getVarOperand exSymT2),
         arg1 := some (getVarOperand exSymA2) },
       { op := IROp.ASSIGN, result := some (getVarOperand exSymA2),
         arg1 := some (getVarOperand exSymB2) },
       { op := IROp.ASSIGN, result := some (getVarOperand exSymB2),
         arg1 := some (getVarOperand exSymA2) }] := by decide
  rw [h]
  exact ⟨rfl, rfl⟩

theorem mapFind_filter_none {β : Type} (m : List (String × β)) (p : String × β → Bool)
    (k : String) (h : mapFind m k = none) : mapFind (m.filter p) k = none := by
  induction m with
  | nil => rfl
  | cons e rest ih =>
    obtain ⟨k2, v⟩ := e
    simp only [mapFind] at h
    split_ifs at h with hk
    simp only [List.filter]
    split
    · simp only [mapFind, if_neg hk]
      exact ih h
    · exact ih h

/-- The kill branch of `passCopyPropagation`: after an instruction that defines `res`
and is not an ASSIGN with a source operand, no copy has `res` as destination or as
source. -/
theorem copyStep_kills (copies : CopyMap) (I : IRInstruction) (res : Operand)
    (hres : I.result = some res) (hdef : isResultUse I.op = false)
    (hop : I.op ≠ IROp.ASSIGN ∨ I.arg1 = none) :
    mapFind (copyStep copies I).1 res.toString = none ∧
    ∀ e ∈ (copyStep copies I).1, e.2.toString ≠ res.toString := by
  have hkill : ∀ c1 : CopyMap,
      mapFind ((mapErase c1 res.toString).filter
          (fun e => !decide (e.2.toString = res.toString))) res.toString = none ∧
      ∀ e ∈ (mapErase c1 res.toString).filter
          (fun e => !decide (e.2.toString = res.toString)), e.2.toString ≠ res.toString := by
    intro c1
    refine ⟨mapFind_filter_none _ _ _ (mapFind_mapErase_self _ _), ?_⟩
    intro e he
    rw [List.mem_filter] at he
    simpa using he.2
  unfold copyStep
  simp only [hdef, hres, Bool.false_eq_true, if_false]
  rcases hop with hop | harg
  · simp only [if_neg hop]
    split
    · rename_i r s hr hs
      simp only [Option.some.injEq] at hr
      subst hr
      exact hkill _
    · rename_i r hr hs
      simp only [Option.some.injEq] at hr
      subst hr
      exact hkill _
    · rename_i hr
      simp at hr
  · rw [harg]
    simp only [tryReplace]
    exact hkill _

/-- Claim C23: an ASSIGN of an immediate takes neither branch of the copy maintenance:
on `ASSIGN g, b; ASSIGN g, #5; PRINTINT g` the copy `g -> b` survives the second
instruction and the third becomes `PRINTINT b`, also after the whole driver; every
definition that is not an ASSIGN with a source operand does erase the copies from and
to its result. -/
theorem C23_assign_of_immediate_keeps_copy :
    mapFind (copyStep [("g", getVarOperand exSymB2)]
        { op := IROp.ASSIGN, result := some exGlobalG, arg1 := some (Operand.imm 5) }).1 "g" =
      some (getVarOperand exSymB2) ∧
    (passCopyPropagation exAssignImmBlock).1.instructions =
      [{ op := IROp.ASSIGN, result := some exGlobalG, arg1 := some (getVarOperand exSymB2) },
       { op := IROp.ASSIGN, result := some exGlobalG, arg1 := some (Operand.imm 5) },
       { op := IROp.PRINTINT, arg1 := some (getVarOperand exSymB2) }] ∧
    getOptimizedIR (execute { originalIR := funcIR exAssignImmBlock.instructions }) =
      funcIR
        [{ op := IROp.ASSIGN, result := some exGlobalG, arg1 := some (getVarOperand exSymB2) },
         { op := IROp.ASSIGN, result := some exGlobalG, arg1 := some (Operand.imm 5) },
         { op := IROp.PRINTINT, arg1 := some (getVarOperand exSymB2) }] ∧
    (∀ (copies : CopyMap) (I : IRInstruction) (res : Operand),
      I.result = some res → isResultUse I.op = false → I.op ≠ IROp.ASSIGN ∨ I.arg1 = none →
      mapFind (copyStep copies I).1 res.toString = none ∧
      ∀ e ∈ (copyStep copies I).1, e.2.toString ≠ res.toString) := by
  exact ⟨by decide, by decide, by decide, copyStep_kills⟩

/-! ### Local CSE: expression keys, invalidation and STORE -/

theorem cseKey_underscore (op : IROp) (a b c : String) :
    cseKey op (Operand.named (a ++ "_" ++ b) OperandType.TEMP) (Operand.named c OperandType.TEMP) =
      cseKey op (Operand.named a OperandType.TEMP)
        (Operand.named (b ++ "_" ++ c) OperandType.TEMP) := by
  simp [cseKey, Operand.toString, Operand.named, String.append_assoc]

/-- Claim C24: the operand pairs `(a_b, c)` and `(a, b_c)` have the same expression key
`ADD_a_b_c`, and on `ADD t0, a_b, c; PRINTINT t0; ADD t1, a, b_c; PRINTINT t1`
`passLocalCSE` rewrites the second addition into `ASSIGN t1, t0`; after the whole
driver both PRINTINT print `t0`. For all names `a`, `b`, `c` the pairs `(a_b, c)` and
`(a, b_c)` have the same key under every opcode. -/
theorem C24_distinct_operands_share_expression_key :
    cseKey IROp.ADD (getVarOperand exSymAB) (getVarOperand exSymC) = "ADD_a_b_c" ∧
    cseKey IROp.ADD (getVarOperand exSymA2) (getVarOperand exSymBC) = "ADD_a_b_c" ∧
    getVarOperand exSymAB ≠ getVarOperand exSymA2 ∧
    getVarOperand exSymAB ≠ getVarOperand exSymBC ∧
    (passLocalCSE exKeyClashBlock).1.instructions =
      [{ op := IROp.ADD, result := some exT0, arg1 := some (getVarOperand exSymAB),
         arg2 := some (getVarOperand exSymC) },
       { op := IROp.PRINTINT, arg1 := some exT0 },
       { op := IROp.ASSIGN, result := some exT1, arg1 := some exT0, arg2 := none },
       { op := IROp.PRINTINT, arg1 := some exT1 }] ∧
    getOptimizedIR (execute { originalIR := funcIR exKeyClashBlock.instructions }) =
      funcIR
        [{ op := IROp.ADD, result := some exT0, arg1 := some (getVarOperand exSymAB),
           arg2 := some (getVarOperand exSymC) },
         { op := IROp.PRINTINT, arg1 := some exT0 },
         { op := IROp.PRINTINT, arg1 := some exT0 }] ∧
    (∀ (op : IROp) (a b c : String),
      cseKey op (Operand.named (a ++ "_" ++ b) OperandType.TEMP)
          (Operand.named c OperandType.TEMP) =
        cseKey op (Operand.named a OperandType.TEMP)
          (Operand.named (b ++ "_" ++ c) OperandType.TEMP)) := by
  exact ⟨by decide, by decide, by decide, by decide, by decide, by decide, cseKey_underscore⟩

/-- Claim C25: the key `ADD_a_a_` of `a + a_` is not recognised as mentioning `a_`: the
scan finds `_a_` at position 3, rejects it because the next character is `a`, and
resumes behind it, past the occurrence at position 5. On
`ADD t0, a, a_; PRINTINT t0; GETINT t1; ASSIGN a_, t1; ADD t2, a, a_; PRINTINT t2` the
expression stays available after `a_` is redefined, the second addition becomes
`ASSIGN t2, t0`, and after the whole driver both PRINTINT print `t0`. -/
theorem C25_redefined_operand_stays_available :
    keyMentions "ADD_a_a_" "_a_" = false ∧
    strFind "ADD_a_a_".data "_a_".data 0 = some 3 ∧
    strFind "ADD_a_a_".data "_a_".data 6 = none ∧
    cseInvalidate [("ADD_a_a_", "t0")] "a_" = [("ADD_a_a_", "t0")] ∧
    (passLocalCSE exStaleBlock).1.instructions =
      [{ op := IROp.ADD, result := some exT0, arg1 := some (getVarOperand exSymA2),
         arg2 := some (getVarOperand exSymAUnderscore) },
       { op := IROp.PRINTINT, arg1 := some exT0 },
       { op := IROp.GETINT, result := some exT1 },
       { op := IROp.ASSIGN, result := some (getVarOperand exSymAUnderscore), arg1 := some exT1 },
       { op := IROp.ASSIGN, result := some exT2, arg1 := some exT0, arg2 := none },
       { op := IROp.PRINTINT, arg1 := some exT2 }] ∧
    getOptimizedIR (execute { originalIR := funcIR exStaleBlock.instructions }) =
      funcIR
        [{ op := IROp.ADD, result := some exT0, arg1 := some (getVarOperand exSymA2),
           arg2 := some (getVarOperand exSymAUnderscore) },
         { op := IROp.PRINTINT, arg1 := some exT0 },
         { op := IROp.GETINT, result := some exT1 },
         { op := IROp.ASSIGN, result := some (getVarOperand exSymAUnderscore),
           arg1 := some exT1 },
         { op := IROp.PRINTINT, arg1 := some exT0 }] := by
  decide

theorem cseStep_store (m : ExprMap) (r a1 a2 : Operand) (prev : String)
    (h : mapFind (cseInvalidate m r.toString) (cseKey IROp.STORE a1 a2) = some prev) :
    (cseStep m { op := IROp.STORE, result := some r, arg1 := some a1, arg2 := some a2 }).2.1 =
      { op := IROp.ASSIGN, result := some r, arg1 := some (Operand.named prev OperandType.TEMP),
        arg2 := none } := by
  have hs : cseSkips IROp.STORE = false := by decide
  simp [cseStep, hs, h]

theorem cseStep_store_records (m : ExprMap) (r a1 a2 : Operand)
    (h : mapFind (cseInvalidate m r.toString) (cseKey IROp.STORE a1 a2) = none) :
    (cseStep m { op := IROp.STORE, result := some r, arg1 := some a1, arg2 := some a2 }).1 =
      mapSet (cseInvalidate m r.toString) (cseKey IROp.STORE a1 a2) r.toString := by
  have hs : cseSkips IROp.STORE = false := by decide
  simp [cseStep, hs, h]

/-- Claim C28: on `STORE t0, a, #0; STORE t1, a, #0` `passLocalCSE` records the first
STORE under the key `STORE_a_#0` and rewrites the second into `ASSIGN t1, t0`, so the
second write to memory is lost. In general a STORE whose key is not in the table is
recorded under it with the text of its value operand, and a STORE whose key is in the
table is rewritten into an ASSIGN from the recorded name. -/
theorem C28_cse_rewrites_second_store :
    cseSkips IROp.STORE = false ∧
    hasSideEffect { op := IROp.STORE, result := some exT1, arg1 := some exArrOp,
                    arg2 := some (Operand.imm 0) } = true ∧
    cseKey IROp.STORE exArrOp (Operand.imm 0) = "STORE_a_#0" ∧
    (passLocalCSE exStoreBlock).1.instructions =
      [{ op := IROp.STORE, result := some exT0, arg1 := some exArrOp,
         arg2 := some (Operand.imm 0) },
       { op := IROp.ASSIGN, result := some exT1, arg1 := some exT0, arg2 := none }] ∧
    (passLocalCSE exStoreBlock).2 = true ∧
    (∀ (m : ExprMap) (r a1 a2 : Operand) (prev : String),
      mapFind (cseInvalidate m r.toString) (cseKey IROp.STORE a1 a2) = some prev →
      (cseStep m { op := IROp.STORE, result := some r, arg1 := some a1, arg2 := some a2 }).2.1 =
        { op := IROp.ASSIGN, result := some r,
          arg1 := some (Operand.named prev OperandType.TEMP), arg2 := none }) ∧
    (∀ (m : ExprMap) (r a1 a2 : Operand),
      mapFind (cseInvalidate m r.toString) (cseKey IROp.STORE a1 a2) = none →
      (cseStep m { op := IROp.STORE, result := some r, arg1 := some a1, arg2 := some a2 }).1 =
        mapSet (cseInvalidate m r.toString) (cseKey IROp.STORE a1 a2) r.toString) := by
  exact ⟨by decide, by decide, by decide, by decide, by decide, cseStep_store,
    cseStep_store_records⟩

/-! ### Constant folding: table keys -/

theorem substOperand_same_text (m : ConstMap) (o : Operand) (v : Int)
    (hty : o.type ≠ OperandType.IMM) (h : mapFind m o.toString = some v) :
    substOperand m (some o) = (some (Operand.imm v), true) := by
  simp [substOperand, hty, h]

/-- Claim C26: the constant recorded for the local `a` of scope 3 is substituted for the
global `a`: on `ASSIGN a_3, #5; PRINTINT a` with the second operand the global variable,
`passConstantFolding` gives `PRINTINT #5`, although no instruction of the block defines
the global. In general the substitution looks an operand up by its text alone. -/
theorem C26_constant_of_local_replaces_global_of_same_name :
    getVarOperand exSymA3 ≠ getVarOperand exSymA1 ∧
    (getVarOperand exSymA3).symbol ≠ (getVarOperand exSymA1).symbol ∧
    (getVarOperand exSymA3).toString = (getVarOperand exSymA1).toString ∧
    constValuesAfter [] [{ op := IROp.ASSIGN, result := some (getVarOperand exSymA3),
                           arg1 := some (Operand.imm 5) }] = [("a", 5)] ∧
    (∀ K ∈ exGlobalShadowBlock.instructions, K.result ≠ some (getVarOperand exSymA1)) ∧
    (passConstantFolding exGlobalShadowBlock).1.instructions =
      [{ op := IROp.ASSIGN, result := some (getVarOperand exSymA3), arg1 := some (Operand.imm 5) },
       { op := IROp.PRINTINT, arg1 := some (Operand.imm 5) }] ∧
    (∀ (m : ConstMap) (o : Operand) (v : Int), o.type ≠ OperandType.IMM →
      mapFind m o.toString = some v → substOperand m (some o) = (some (Operand.imm v), true)) := by
  exact ⟨by decide, by decide, by decide, by decide, by decide, by decide,
    substOperand_same_text⟩

/-- C1: the constant recorded for the temporary is lost to a variable of the same source
name. On `ADD t0, #3, #4; ASSIGN t0_2, #9; PRINTINT t0`, where `t0_2` is the local
variable `t0` of scope 2, no instruction after the addition has the temporary as its
result, yet the entry `t0 = 7` of the table is overwritten by the assignment to the
variable (both operands print as `t0`) and `passConstantFolding` replaces the use of
the temporary by `#9`, not by `#7`. In general the substitution looks an operand up by
its text alone. -/
theorem C1_constant_of_local_replaces_temporary_of_same_name :
    getVarOperand exSymT0Local ≠ exT0 ∧
    (getVarOperand exSymT0Local).type = OperandType.VAR ∧
    (getVarOperand exSymT0Local).name = "t0_2" ∧
    exT0.type = OperandType.TEMP ∧
    (getVarOperand exSymT0Local).toString = exT0.toString ∧
    exTempClashBlock.instructions[0]? = some exAdd34 ∧
    (∀ K ∈ exTempClashBlock.instructions.tail, K.result ≠ some exT0) ∧
    constValuesAfter [] [exAdd34] = [("t0", 7)] ∧
    constValuesAfter [] [exAdd34, exAssignLocalT0] = [("t0", 9)] ∧
    (passConstantFolding exTempClashBlock).1.instructions =
      [{ op := IROp.ASSIGN, result := some exT0, arg1 := some (Operand.imm 7) },
       exAssignLocalT0,
       { op := IROp.PRINTINT, arg1 := some (Operand.imm 9) }] ∧
    (∀ (m : ConstMap) (o : Operand) (v : Int), o.type ≠ OperandType.IMM →
      mapFind m o.toString = some v → substOperand m (some o) = (some (Operand.imm v), true)) := by
  exact ⟨by decide, by decide, by decide, by decide, by decide, by decide, by decide,
    by decide, by decide, by decide, substOperand_same_text⟩

theorem substOperand_label (m : ConstMap) (l : Operand) (v : Int)
    (hl : l.type = OperandType.LABEL) (h : mapFind m l.name = some v) :
    substOperand m (some l) = (some (Operand.imm v), true) := by
  have ht : l.toString = l.name := by simp [Operand.toString, hl]
  simp [substOperand, hl, ht, h]

theorem tryReplace_label (copies : CopyMap) (l src : Operand)
    (hl : l.type = OperandType.LABEL) (h : mapFind copies l.name = some src)
    (hsrc : src.type ≠ OperandType.IMM) :
    tryReplace copies (some l) = (some src, true) := by
  have ht : l.toString = l.name := by simp [Operand.toString, hl]
  simp [tryReplace, ht, h, hsrc]

/-- Claim C27: a LABEL operand whose name is also the name of a variable is replaced like
a use of the variable. `passConstantFolding` turns `ASSIGN str_0, #5; PRINTSTR str_0`
into `... PRINTSTR #5` and `ASSIGN f_3, #1; CALL t1, f` into `... CALL t1, #1`;
`passCopyPropagation` turns `ASSIGN str_0, b; PRINTSTR str_0` into `... PRINTSTR b` and
`ASSIGN f_3, b; CALL t1, f` into `... CALL t1, b`. In general both substitutions
replace a LABEL operand whose name is a key of their table. -/
theorem C27_label_operand_replaced_by_variable_value :
    exLabelStr0.type = OperandType.LABEL ∧
    (passConstantFolding exPrintStrBlock).1.instructions =
      [{ op := IROp.ASSIGN, result := some (getVarOperand exSymStr0),
         arg1 := some (Operand.imm 5) },
       { op := IROp.PRINTSTR, arg1 := some (Operand.imm 5) }] ∧
    (passConstantFolding exCallLabelBlock).1.instructions =
      [{ op := IROp.ASSIGN, result := some (getVarOperand exSymF3), arg1 := some (Operand.imm 1) },
       { op := IROp.CALL, result := some exT1, arg1 := some (Operand.imm 1) }] ∧
    (passCopyPropagation exPrintStrCopyBlock).1.instructions =
      [{ op := IROp.ASSIGN, result := some (getVarOperand exSymStr0),
         arg1 := some (getVarOperand exSymB2) },
       { op := IROp.PRINTSTR, arg1 := some (getVarOperand exSymB2) }] ∧
    (passCopyPropagation exCallLabelCopyBlock).1.instructions =
      [{ op := IROp.ASSIGN, result := some (getVarOperand exSymF3),
         arg1 := some (getVarOperand exSymB2) },
       { op := IROp.CALL, result := some exT1, arg1 := some (getVarOperand exSymB2) }] ∧
    (∀ (m : ConstMap) (l : Operand) (v : Int), l.type = OperandType.LABEL →
      mapFind m l.name = some v → substOperand m (some l) = (some (Operand.imm v), true)) ∧
    (∀ (copies : CopyMap) (l src : Operand), l.type = OperandType.LABEL →
      mapFind copies l.name = some src → src.type ≠ OperandType.IMM →
      tryReplace copies (some l) = (some src, true)) := by
  exact ⟨by decide, by decide, by decide, by decide, by decide, substOperand_label,
    tryReplace_label⟩

/-! ### Constant folding: the safety gate -/

theorem isSafeToFold_global_or_static (res : Operand) (sym : SymbolEntry)
    (hvar : res.type = OperandType.VAR) (hsym : res.symbol = some sym)
    (hgate : sym.scope = 1 ∨ sym.type = SymbolType.StaticInt ∨
      sym.type = SymbolType.StaticIntArray) :
    isSafeToFold res = false := by
  unfold isSafeToFold
  rw [hvar, hsym]
  rcases hgate with h | h | h <;> simp [h]

/-- Claim C29: an instruction whose result operand is a variable of scope 1 or of a
static kind keeps its opcode in `passConstantFolding`, whatever its source operands
are. When the instruction defines its result (its opcode is not one of the five that
read the result field) only its source operands are substituted, its result stays, no
constant is recorded, and the table afterwards is the table before without the entry
of the result name; for the five reading opcodes the table is left as it is. -/
theorem C29_folding_gate_for_globals_and_statics (block : BasicBlock)
    (pre post : List IRInstruction) (I : IRInstruction) (res : Operand) (sym : SymbolEntry)
    (hblock : block.instructions = pre ++ I :: post)
    (hres : I.result = some res) (hvar : res.type = OperandType.VAR)
    (hsym : res.symbol = some sym)
    (hgate : sym.scope = 1 ∨ sym.type = SymbolType.StaticInt ∨
      sym.type = SymbolType.StaticIntArray) :
    (passConstantFolding block).1.instructions[pre.length]? =
      some (foldStep (constValuesAfter [] pre) I).2.1 ∧
    constValuesAfter [] (pre ++ [I]) = (foldStep (constValuesAfter [] pre) I).1 ∧
    ∀ m : ConstMap,
      (foldStep m I).2.1.op = I.op ∧
      (isResultUse I.op = false →
        (foldStep m I).2.1 = (substituteUses m I).1 ∧
        (foldStep m I).2.1.result = some res ∧
        (foldStep m I).1 = mapErase m res.toString ∧
        mapFind (foldStep m I).1 res.toString = none ∧
        ∀ key : String, key ≠ res.toString → mapFind (foldStep m I).1 key = mapFind m key) ∧
      (isResultUse I.op = true → (foldStep m I).1 = m) := by
  have hsafe := isSafeToFold_global_or_static res sym hvar hsym hgate
  refine ⟨?_, ?_, ?_⟩
  · simp only [passConstantFolding, hblock]
    exact foldLoop_getElem_mid [] pre I post
  · rw [constValuesAfter_append]
    rfl
  · intro m
    by_cases hu : isResultUse I.op = true
    · refine ⟨?_, fun h => ?_, fun _ => ?_⟩
      · simp [foldStep, processDef, substituteUses, hu]
      · rw [hu] at h
        exact absurd h (by decide)
      · simp [foldStep, processDef, substituteUses, hu]
    · have hu2 : isResultUse I.op = false := by simpa using hu
      have hstep : foldStep m I = (mapErase m res.toString, (substituteUses m I).1,
          (substituteUses m I).2 || false) := by
        simp only [foldStep, processDef, substituteUses, hu2, hres, hvar, hsafe,
          Bool.false_eq_true, if_false, or_true, if_true]
      rw [hstep]
      refine ⟨?_, fun _ => ⟨rfl, ?_, rfl, mapFind_mapErase_self _ _,
        fun key hk => mapFind_mapErase_ne _ _ _ (Ne.symm hk)⟩, fun h => ?_⟩
      · exact substituteUses_op m I
      · simp [substituteUses, hu2, hres]
      · rw [hu2] at h
        exact absurd h (by decide)

/-- Claim C29 at `ADD g, #3, #4; PRINTINT g` with `g` global: the addition of two
immediates is left as it is, and a constant 7 recorded under `g` is removed by it. -/
theorem C29_folding_gate_for_globals_and_statics_witness :
    exGlobalDefBlock.instructions = [] ++ exAddGlobal34 :: [exPrintG] ∧
    exGlobalG.type = OperandType.VAR ∧
    (passConstantFolding exGlobalDefBlock).1.instructions = exGlobalDefBlock.instructions ∧
    (foldStep [("g", 7)] exAddGlobal34).2.1.op = IROp.ADD ∧
    mapFind (foldStep [("g", 7)] exAddGlobal34).1 exGlobalG.toString = none :=
  ⟨rfl, rfl, by decide,
    ((C29_folding_gate_for_globals_and_statics exGlobalDefBlock [] _ exAddGlobal34 exGlobalG
      { name := "g", type := SymbolType.Int, scope := 1, label := "g" } rfl rfl rfl rfl
      (Or.inl rfl)).2.2 [("g", 7)]).1,
    (((C29_folding_gate_for_globals_and_statics exGlobalDefBlock [] _ exAddGlobal34 exGlobalG
      { name := "g", type := SymbolType.Int, scope := 1, label := "g" } rfl rfl rfl rfl
      (Or.inl rfl)).2.2 [("g", 7)]).2.1 (by decide)).2.2.2.1⟩

/-! ### Dead-code elimination: the names counted as used -/

/-- Claim C30, counterexample: in the function `ADD t0, x, b; PARAM t0` with the temporary
in the result field of the PARAM, the name `t0` is not in the set of used names and
the addition that defines it is removed. -/
theorem C30_param_result_is_not_counted_as_use :
    usedVars exParamResultFunc.blocks = ["x", "b"] ∧
    (∃ j ∈ flatten exParamResultFunc, j.op = IROp.PARAM ∧ j.result = some exT0) ∧
    { op := IROp.ADD, result := some exT0, arg1 := some exVarX, arg2 := some exVarB } ∈
      flatten exParamResultFunc ∧
    { op := IROp.ADD, result := some exT0, arg1 := some exVarX, arg2 := some exVarB } ∉
      flatten (passDeadCodeElimination exParamResultFunc).1 := by
  decide

/-- Claim C30, amended: the names `passDeadCodeElimination` counts as used are the texts
of every `arg1` and `arg2` (the value of a PARAM is its `arg1`) and of the result
field of every RET, BEQZ and STORE of the function, and no others; an instruction
whose result has such a name is never removed. -/
theorem C30_dce_keeps_definitions_of_used_names (func : Function) :
    (∀ s : String, s ∈ usedVars func.blocks ↔
      ∃ j ∈ flatten func,
        (∃ o, j.arg1 = some o ∧ o.toString = s) ∨ (∃ o, j.arg2 = some o ∧ o.toString = s) ∨
          ((j.op = IROp.RET ∨ j.op = IROp.BEQZ ∨ j.op = IROp.STORE) ∧
            ∃ o, j.result = some o ∧ o.toString = s)) ∧
    (∀ i ∈ flatten func, ∀ r : Operand, i.result = some r →
      (∃ j ∈ flatten func,
        (∃ o, j.arg1 = some o ∧ o.toString = r.toString) ∨
          (∃ o, j.arg2 = some o ∧ o.toString = r.toString) ∨
          ((j.op = IROp.RET ∨ j.op = IROp.BEQZ ∨ j.op = IROp.STORE) ∧
            ∃ o, j.result = some o ∧ o.toString = r.toString)) →
      i ∈ flatten (passDeadCodeElimination func).1) ∧
    (∀ i ∈ flatten func, ∀ r : Operand, i.result = some r →
      (∃ j ∈ flatten func, j.op = IROp.PARAM ∧ ∃ o, j.arg1 = some o ∧ o.toString = r.toString) →
      i ∈ flatten (passDeadCodeElimination func).1) := by
  have hused : ∀ s, s ∈ usedVars func.blocks ↔ ∃ j ∈ flatten func, usedBy s j := by
    intro s
    obtain ⟨n, blocks⟩ := func
    exact mem_usedVars s n blocks
  have hkeep : ∀ i ∈ flatten func, ∀ r : Operand, i.result = some r →
      (∃ j ∈ flatten func, usedBy r.toString j) →
      i ∈ flatten (passDeadCodeElimination func).1 := by
    intro i hi r hr hu
    rw [flatten_dce, List.mem_filter]
    refine ⟨hi, ?_⟩
    have hm : r.toString ∈ usedVars func.blocks := (hused _).2 hu
    simp [dceRemoves, hr, hm]
  refine ⟨hused, hkeep, ?_⟩
  intro i hi r hr hu
  obtain ⟨j, hj, _, o, ho, hs⟩ := hu
  exact hkeep i hi r hr ⟨j, hj, Or.inl ⟨o, ho, hs⟩⟩

/-! ### The register pool: invariant, eviction order and dirty bits -/

theorem runAllocOps_reach (ops : List AllocOp) (rm : RegisterManager)
    (hreach : runAllocOps RegisterManager.construct ops = some rm) : AllocInv rm :=
  runAllocOps_inv ops RegisterManager.construct allocInv_construct rm hreach

/-- Claim C32: in every allocator state reached from the constructor by calls of `getReg`,
`allocateReg`, `spillAll` and `clearMap` that returned, the free queue and the busy
queue have no duplicates and no common register, a register is in one of them exactly
when it is one of `$t0..$t7` (so `$t8` and `$t9` are in neither), `varToReg` maps a
name to a register exactly when `regToVar` maps the register to the name, the
registers with a name are the busy ones, and every dirty register is busy. -/
theorem C32_register_pool_invariant (ops : List AllocOp) (rm : RegisterManager)
    (hreach : runAllocOps RegisterManager.construct ops = some rm) :
    rm.freeRegs.Nodup ∧ rm.busyRegs.Nodup ∧
    (∀ r ∈ rm.freeRegs, r ∉ rm.busyRegs) ∧
    (∀ r : MipsReg, (r ∈ rm.freeRegs ∨ r ∈ rm.busyRegs) ↔ r ∈ allocatable) ∧
    rm.freeRegs.length + rm.busyRegs.length = 8 ∧
    MipsReg.T8 ∉ rm.freeRegs ∧ MipsReg.T8 ∉ rm.busyRegs ∧
    MipsReg.T9 ∉ rm.freeRegs ∧ MipsReg.T9 ∉ rm.busyRegs ∧
    (∀ (v : String) (r : MipsReg),
      mapFind rm.varToReg v = some r ↔ regFind rm.regToVar r = some v) ∧
    (∀ r : MipsReg, r ∈ rm.busyRegs ↔ ∃ v, regFind rm.regToVar r = some v) ∧
    (∀ (v1 v2 : String) (r : MipsReg), mapFind rm.varToReg v1 = some r →
      mapFind rm.varToReg v2 = some r → v1 = v2) ∧
    (∀ r ∈ rm.dirtyRegs, r ∈ rm.busyRegs) := by
  have h := runAllocOps_reach ops rm hreach
  have hnd := allocInv_nodup rm h
  have hmem : ∀ r : MipsReg, (r ∈ rm.freeRegs ∨ r ∈ rm.busyRegs) ↔ r ∈ allocatable := by
    intro r
    rw [← List.mem_append]
    exact h.perm.mem_iff
  have hlen : rm.freeRegs.length + rm.busyRegs.length = 8 := by
    have := h.perm.length_eq
    simpa [allocatable] using this
  have h8 : MipsReg.T8 ∉ allocatable := by decide
  have h9 : MipsReg.T9 ∉ allocatable := by decide
  rw [List.nodup_append] at hnd
  refine ⟨hnd.1, hnd.2.1, fun r hf hb => hnd.2.2 hf hb, hmem, hlen,
    fun hc => h8 ((hmem _).1 (Or.inl hc)), fun hc => h8 ((hmem _).1 (Or.inr hc)),
    fun hc => h9 ((hmem _).1 (Or.inl hc)), fun hc => h9 ((hmem _).1 (Or.inr hc)),
    fun v r => ⟨h.varReg v r, fun hr => (h.regVar r v hr).2⟩,
    fun r => ⟨h.busyMapped r, fun ⟨v, hv⟩ => (h.regVar r v hv).1⟩, ?_, h.dirtyBusy⟩
  intro v1 v2 r h1 h2
  have a1 := h.varReg v1 r h1
  have a2 := h.varReg v2 r h2
  rw [a1] at a2
  exact Option.some.inj a2

/-- Claim C32 at the state with `t0` in `$t0` and the global `g` in `$t1`. -/
theorem C32_register_pool_invariant_witness :
    runAllocOps RegisterManager.construct exAllocOps = some exAllocState ∧
    exAllocState.freeRegs.Nodup ∧ exAllocState.busyRegs.Nodup ∧
    (∀ r ∈ exAllocState.freeRegs, r ∉ exAllocState.busyRegs) :=
  ⟨by decide,
    (C32_register_pool_invariant exAllocOps exAllocState (by decide)).1,
    (C32_register_pool_invariant exAllocOps exAllocState (by decide)).2.1,
    (C32_register_pool_invariant exAllocOps exAllocState (by decide)).2.2.1⟩
theorem spillLines_busy_irrel (info : Option CodeGenFunctionInfo) (rm : RegisterManager)
    (busy : List MipsReg) (reg : MipsReg) :
    spillLines info { rm with busyRegs := busy } reg = spillLines info rm reg := rfl

theorem forgetReg_busy_irrel (rm : RegisterManager) (busy : List MipsReg) (reg : MipsReg) :
    ({ rm with busyRegs := busy } : RegisterManager).forgetReg reg =
      { rm.forgetReg reg with busyRegs := busy } := by
  unfold RegisterManager.forgetReg
  cases regFind rm.regToVar reg <;> rfl

/-- Step 3 with an empty free queue: the front of the busy queue is spilled. -/
theorem takeReg_evict_ok (info : Option CodeGenFunctionInfo) (rm : RegisterManager)
    (reg : MipsReg) (rest : List MipsReg) (hfree : rm.freeRegs = [])
    (hbusy : rm.busyRegs = reg :: rest)
    (hres : ∀ v, regFind rm.regToVar reg = some v → reg ∈ rm.dirtyRegs →
      ∃ a, getAddress info (spillOperand rm v) MipsReg.T9 = Except.ok a) :
    takeReg info rm =
      Except.ok (spillLines info rm reg, { rm.forgetReg reg with busyRegs := rest }, reg) := by
  rw [takeReg_evict info rm reg rest hfree hbusy]
  have h := spillReg_ok info { rm with busyRegs := rest } reg hres
  rw [h, spillLines_busy_irrel, forgetReg_busy_irrel]

theorem getReg_of_takeReg (info : Option CodeGenFunctionInfo) (rm : RegisterManager)
    (op : Operand) (t : List MipsInstr × RegisterManager × MipsReg)
    (a : List MipsInstr × Address)
    (himm : op.type ≠ OperandType.IMM) (hmiss : mapFind rm.varToReg op.name = none)
    (htake : takeReg info rm = Except.ok t)
    (ha : getAddress info op MipsReg.T9 = Except.ok a) :
    getReg info rm op true =
      Except.ok (t.1 ++ a.1 ++ [loadFrom t.2.2 a.2], afterGetReg t.2.1 op t.2.2, t.2.2) := by
  unfold getReg
  rw [if_neg himm, hmiss]
  simp only [htake, ha, if_true]
  rfl

theorem allocateReg_of_takeReg (info : Option CodeGenFunctionInfo) (rm : RegisterManager)
    (op : Operand) (t : List MipsInstr × RegisterManager × MipsReg)
    (hmiss : mapFind rm.varToReg op.name = none)
    (htake : takeReg info rm = Except.ok t) :
    allocateReg info rm op = Except.ok (t.1, afterAllocateReg t.2.1 op t.2.2, t.2.2) := by
  unfold allocateReg
  rw [hmiss]
  simp only [htake]
  rfl

theorem mem_dirtyInsert (d : List MipsReg) (reg r : MipsReg) :
    r ∈ dirtyInsert d reg ↔ r = reg ∨ r ∈ d := by
  unfold dirtyInsert
  split_ifs with h
  · constructor
    · exact fun hr => Or.inr hr
    · rintro (hr | hr)
      · rw [hr]; exact h
      · exact hr
  · simp

theorem bind_varToReg (rm1 : RegisterManager) (op : Operand) (reg : MipsReg) (v : String) :
    mapFind (rm1.bind op reg).varToReg v =
      if op.name = v then some reg else mapFind rm1.varToReg v := by
  simp only [RegisterManager.bind, mapFind_mapSet]

theorem spillLines_store_iff (info : Option CodeGenFunctionInfo) (rm : RegisterManager)
    (reg : MipsReg) (v : String) (hv : regFind rm.regToVar reg = some v)
    (hres : reg ∈ rm.dirtyRegs →
      ∃ a, getAddress info (spillOperand rm v) MipsReg.T9 = Except.ok a) :
    ((∃ i ∈ spillLines info rm reg, i.isStore = true) ↔ reg ∈ rm.dirtyRegs) ∧
    (reg ∈ rm.dirtyRegs →
      ∃ a, getAddress info (spillOperand rm v) MipsReg.T9 = Except.ok a ∧
        spillLines info rm reg = a.1 ++ [storeTo reg a.2] ∧
        ((spillLines info rm reg).filter MipsInstr.isStore) = [storeTo reg a.2]) ∧
    (reg ∉ rm.dirtyRegs → spillLines info rm reg = []) := by
  by_cases hd : reg ∈ rm.dirtyRegs
  · obtain ⟨a, ha⟩ := hres hd
    have hl : spillLines info rm reg = a.1 ++ [storeTo reg a.2] := by
      unfold spillLines
      rw [hv]
      simp only [hd, if_true, ha]
    have hns := getAddress_lines_not_store info _ _ a ha
    have hfil : (spillLines info rm reg).filter MipsInstr.isStore = [storeTo reg a.2] := by
      rw [hl, List.filter_append]
      have h1 : a.1.filter MipsInstr.isStore = [] := by
        rw [List.filter_eq_nil_iff]
        intro i hi
        rw [hns i hi]
        decide
      rw [h1]
      simp [storeTo_isStore]
    refine ⟨⟨fun _ => hd, fun _ => ⟨storeTo reg a.2, ?_, storeTo_isStore _ _⟩⟩,
      fun _ => ⟨a, ha, hl, hfil⟩, fun h => absurd hd h⟩
    rw [hl]
    simp
  · have hl := spillLines_clean info rm reg hd
    refine ⟨⟨?_, fun h => absurd h hd⟩, fun h => absurd h hd, fun _ => hl⟩
    rintro ⟨i, hi, _⟩
    rw [hl] at hi
    simp at hi
theorem tookFree_bind (rm : RegisterManager) (op : Operand) (reg : MipsReg)
    (rest : List MipsReg) (d : List MipsReg) :
    TookFree rm { (({ rm with freeRegs := rest } : RegisterManager).bind op reg) with
      dirtyRegs := d } op.name reg rest := by
  refine ⟨rfl, rfl, ?_, ?_⟩
  · show mapFind (({ rm with freeRegs := rest } : RegisterManager).bind op reg).varToReg op.name
      = some reg
    rw [bind_varToReg]
    simp
  · intro v hv
    show mapFind (({ rm with freeRegs := rest } : RegisterManager).bind op reg).varToReg v
      = mapFind rm.varToReg v
    rw [bind_varToReg, if_neg (Ne.symm hv)]

theorem evicted_bind (rm : RegisterManager) (h : AllocInv rm) (op : Operand) (reg : MipsReg)
    (rest : List MipsReg) (victim : String) (d : List MipsReg)
    (hfree : rm.freeRegs = []) (hv : regFind rm.regToVar reg = some victim)
    (hmiss : mapFind rm.varToReg op.name = none) :
    Evicted rm { (({ rm.forgetReg reg with busyRegs := rest } : RegisterManager).bind op reg) with
      dirtyRegs := d } op.name victim reg rest := by
  have hne : victim ≠ op.name := by
    intro e
    have := (h.regVar reg victim hv).2
    rw [e, hmiss] at this
    simp at this
  have hvr : ∀ v, mapFind (({ rm.forgetReg reg with busyRegs := rest } :
      RegisterManager).bind op reg).varToReg v =
      if op.name = v then some reg
      else if regFind rm.regToVar reg = some v then none else mapFind rm.varToReg v := by
    intro v
    rw [bind_varToReg]
    show (if op.name = v then some reg else mapFind (rm.forgetReg reg).varToReg v) = _
    rw [forgetReg_varToReg]
  refine ⟨?_, rfl, ?_, ?_, ?_, ?_⟩
  · show (rm.forgetReg reg).freeRegs = []
    rw [(forgetReg_queues rm reg).1, hfree]
  · show mapFind (({ rm.forgetReg reg with busyRegs := rest } :
      RegisterManager).bind op reg).varToReg op.name = some reg
    rw [hvr]; simp
  · show regFind (regSet (rm.forgetReg reg).regToVar reg op.name) reg = some op.name
    exact regFind_regSet_self _ _ _
  · show mapFind (({ rm.forgetReg reg with busyRegs := rest } :
      RegisterManager).bind op reg).varToReg victim = none
    rw [hvr, if_neg (Ne.symm hne), hv]
    simp
  · intro v h1 h2
    show mapFind (({ rm.forgetReg reg with busyRegs := rest } :
      RegisterManager).bind op reg).varToReg v = mapFind rm.varToReg v
    rw [hvr, if_neg (Ne.symm h1), hv]
    have : ¬ (some victim = some v) := by
      intro e
      exact h2 (Option.some.inj e).symm
    rw [if_neg this]

/-- Claim C33: in a reachable allocator state, `getReg` on an immediate emits
`li $t8, <value>`, returns `$t8` and leaves the state as it is; on a name that has a
register both functions return that register without a line and without touching the
queues. On a name without a register the first register of the free queue is taken
when there is one, it joins the back of the busy queue and no other name is affected;
when the free queue is empty the busy queue has a first register, which holds a victim:
it is spilled (`sw` to the home of the victim exactly when it is dirty), moves to the
back of the busy queue and is given to the requested name, and only the victim loses
its register. `getReg` then loads the value with `lw`; `spillAll` and `clearMap` empty
the busy queue. -/
theorem C33_fifo_eviction (ops : List AllocOp) (rm : RegisterManager)
    (info : Option CodeGenFunctionInfo) (op : Operand)
    (hreach : runAllocOps RegisterManager.construct ops = some rm) :
    (op.type = OperandType.IMM → ∀ isLoad : Bool,
      getReg info rm op isLoad =
        Except.ok ([MipsInstr.li MipsReg.T8 op.value], rm, MipsReg.T8)) ∧
    (∀ r : MipsReg, mapFind rm.varToReg op.name = some r →
      (op.type ≠ OperandType.IMM → ∀ isLoad : Bool,
        getReg info rm op isLoad = Except.ok ([], rm, r)) ∧
      ∃ rm2, allocateReg info rm op = Except.ok ([], rm2, r) ∧
        rm2.freeRegs = rm.freeRegs ∧ rm2.busyRegs = rm.busyRegs ∧
        rm2.varToReg = rm.varToReg ∧ rm2.regToVar = rm.regToVar) ∧
    (mapFind rm.varToReg op.name = none → ∀ (reg : MipsReg) (rest : List MipsReg),
      rm.freeRegs = reg :: rest →
      (∃ rm2, allocateReg info rm op = Except.ok ([], rm2, reg) ∧
        TookFree rm rm2 op.name reg rest) ∧
      (op.type ≠ OperandType.IMM → ∀ a, getAddress info op MipsReg.T9 = Except.ok a →
        ∃ rm2, getReg info rm op true = Except.ok (a.1 ++ [loadFrom reg a.2], rm2, reg) ∧
          TookFree rm rm2 op.name reg rest)) ∧
    (mapFind rm.varToReg op.name = none → rm.freeRegs = [] →
      ∃ (reg : MipsReg) (rest : List MipsReg) (victim : String),
        rm.busyRegs = reg :: rest ∧ regFind rm.regToVar reg = some victim ∧
        mapFind rm.varToReg victim = some reg ∧
        (reg ∉ rm.dirtyRegs → spillLines info rm reg = []) ∧
        (reg ∈ rm.dirtyRegs → ∀ h : List MipsInstr × Address,
          getAddress info (spillOperand rm victim) MipsReg.T9 = Except.ok h →
          spillLines info rm reg = h.1 ++ [storeTo reg h.2]) ∧
        ((reg ∈ rm.dirtyRegs →
            ∃ h, getAddress info (spillOperand rm victim) MipsReg.T9 = Except.ok h) →
          (∃ rm2, allocateReg info rm op = Except.ok (spillLines info rm reg, rm2, reg) ∧
            Evicted rm rm2 op.name victim reg rest) ∧
          (op.type ≠ OperandType.IMM → ∀ a, getAddress info op MipsReg.T9 = Except.ok a →
            ∃ rm2, getReg info rm op true =
                Except.ok (spillLines info rm reg ++ a.1 ++ [loadFrom reg a.2], rm2, reg) ∧
              Evicted rm rm2 op.name victim reg rest))) ∧
    (∀ r, spillAll info rm = Except.ok r → r.2.busyRegs = []) ∧
    (clearMap rm).busyRegs = [] := by
  have hinv := runAllocOps_reach ops rm hreach
  refine ⟨?_, ?_, ?_, ?_, ?_, rfl⟩
  · intro himm isLoad
    unfold getReg
    rw [if_pos himm]
  · intro r hr
    refine ⟨?_, ?_⟩
    · intro himm isLoad
      unfold getReg
      rw [if_neg himm, hr]
    · refine ⟨{ rm with dirtyRegs := dirtyInsert rm.dirtyRegs r }, ?_, rfl, rfl, rfl, rfl⟩
      unfold allocateReg
      rw [hr]
  · intro hmiss reg rest hfree
    have htake := takeReg_free info rm reg rest hfree
    refine ⟨⟨_, allocateReg_of_takeReg info rm op _ hmiss htake, tookFree_bind rm op reg rest _⟩,
      ?_⟩
    intro himm a ha
    exact ⟨_, getReg_of_takeReg info rm op _ a himm hmiss htake ha,
      tookFree_bind rm op reg rest _⟩
  · intro hmiss hfree
    have hlen := hinv.perm.length_eq
    rw [hfree] at hlen
    cases hbusy : rm.busyRegs with
    | nil =>
      rw [hbusy] at hlen
      simp [allocatable] at hlen
    | cons reg rest =>
      have hmem : reg ∈ rm.busyRegs := by rw [hbusy]; exact List.mem_cons_self _ _
      obtain ⟨victim, hv⟩ := hinv.busyMapped reg hmem
      refine ⟨reg, rest, victim, rfl, hv, (hinv.regVar reg victim hv).2,
        spillLines_clean info rm reg, ?_, ?_⟩
      · intro hd h hh
        unfold spillLines
        rw [hv]
        simp only [hd, if_true, hh]
      · intro hhome
        have hres : ∀ v, regFind rm.regToVar reg = some v → reg ∈ rm.dirtyRegs →
            ∃ a, getAddress info (spillOperand rm v) MipsReg.T9 = Except.ok a := by
          intro v hv2 hd
          rw [hv] at hv2
          rw [← Option.some.inj hv2]
          exact hhome hd
        have htake := takeReg_evict_ok info rm reg rest hfree hbusy hres
        refine ⟨⟨_, allocateReg_of_takeReg info rm op _ hmiss htake,
          evicted_bind rm hinv op reg rest victim _ hfree hv hmiss⟩, ?_⟩
        intro himm a ha
        exact ⟨_, getReg_of_takeReg info rm op _ a himm hmiss htake ha,
          evicted_bind rm hinv op reg rest victim _ hfree hv hmiss⟩
  · intro r hr
    unfold spillAll at hr
    cases hl : spillLoop info rm.busyRegs rm with
    | error e => rw [hl] at hr; simp at hr
    | ok x =>
      rw [hl] at hr
      simp only [Except.ok.injEq] at hr
      rw [← hr]

/-- Claim C33 at the state in which `$t0..$t7` hold `t0..t7`: a request for the global `g`
finds the free queue empty and evicts `$t0`, the front of the busy queue, with a store of
`t0`. -/
theorem C33_fifo_eviction_witness :
    runAllocOps RegisterManager.construct exFillOps = some exFullState ∧
    (∃ (reg : MipsReg) (rest : List MipsReg) (victim : String),
      exFullState.busyRegs = reg :: rest ∧
      regFind exFullState.regToVar reg = some victim) ∧
    (getReg (some exInfoTemps) exFullState exGlobalG true).toOption.map
        (fun r => (r.1.map MipsInstr.text, r.2.2)) =
      some (["sw $t0, -12($fp)", "la $t9, _g", "lw $t0, 0($t9)"], MipsReg.T0) :=
  ⟨by decide,
    ((C33_fifo_eviction exFillOps exFullState (some exInfoTemps) exGlobalG (by decide)).2.2.2.1
      (by decide) (by decide)).imp
      (fun _ h1 => h1.imp (fun _ h2 => h2.imp (fun _ h3 => ⟨h3.1, h3.2.1⟩))),
    by decide⟩
theorem spillReg_lines (info : Option CodeGenFunctionInfo) (rm : RegisterManager) (reg : MipsReg)
    (r : List MipsInstr × RegisterManager) (hok : spillReg info rm reg = Except.ok r) :
    r.1 = spillLines info rm reg ∧
    ∀ v, regFind rm.regToVar reg = some v → reg ∈ rm.dirtyRegs →
      ∃ a, getAddress info (spillOperand rm v) MipsReg.T9 = Except.ok a := by
  unfold spillReg at hok
  unfold spillLines
  cases hf : regFind rm.regToVar reg with
  | none =>
    rw [hf] at hok
    simp only [Except.ok.injEq] at hok
    rw [← hok]
    exact ⟨rfl, fun v hv => by simp at hv⟩
  | some v =>
    rw [hf] at hok
    simp only at hok
    by_cases hd : reg ∈ rm.dirtyRegs
    · simp only [hd, if_true] at hok ⊢
      cases ha : getAddress info (spillOperand rm v) MipsReg.T9 with
      | error e => rw [ha] at hok; simp at hok
      | ok a =>
        rw [ha] at hok
        simp only [Except.ok.injEq] at hok
        rw [← hok]
        refine ⟨rfl, ?_⟩
        intro v2 hv2 _
        rw [← Option.some.inj hv2]
        exact ⟨a, ha⟩
    · simp only [hd, if_false] at hok ⊢
      simp only [Except.ok.injEq] at hok
      rw [← hok]
      exact ⟨rfl, fun _ _ h => False.elim h⟩

/-- Claim C34: in a reachable allocator state, the register `getReg` returns after a miss
is not dirty in the state it leaves, the register `allocateReg` returns is dirty in the
state it leaves (hit or miss), and a spill of a busy register returns whenever the
home of its variable resolves, emits one `sw` when the register is dirty and no line
when it is clean, and leaves the register neither dirty nor mapped, without changing
the dirty bit of any other register. -/
theorem C34_dirty_bit_discipline (ops : List AllocOp) (rm : RegisterManager)
    (info : Option CodeGenFunctionInfo) (op : Operand)
    (hreach : runAllocOps RegisterManager.construct ops = some rm) :
    (∀ (isLoad : Bool) (g : List MipsInstr × RegisterManager × MipsReg),
      op.type ≠ OperandType.IMM → mapFind rm.varToReg op.name = none →
      getReg info rm op isLoad = Except.ok g → g.2.2 ∉ g.2.1.dirtyRegs) ∧
    (∀ d : List MipsInstr × RegisterManager × MipsReg,
      allocateReg info rm op = Except.ok d → d.2.2 ∈ d.2.1.dirtyRegs) ∧
    (∀ reg ∈ rm.busyRegs, ∃ v : String, regFind rm.regToVar reg = some v ∧
      (∀ r : List MipsInstr × RegisterManager, spillReg info rm reg = Except.ok r →
        ((∃ i ∈ r.1, i.isStore = true) ↔ reg ∈ rm.dirtyRegs) ∧
        reg ∉ r.2.dirtyRegs ∧ regFind r.2.regToVar reg = none ∧
        mapFind r.2.varToReg v = none ∧
        ∀ r2 : MipsReg, r2 ≠ reg → (r2 ∈ r.2.dirtyRegs ↔ r2 ∈ rm.dirtyRegs)) ∧
      (reg ∈ rm.dirtyRegs → ∀ a, getAddress info (spillOperand rm v) MipsReg.T9 = Except.ok a →
        spillReg info rm reg = Except.ok (a.1 ++ [storeTo reg a.2], rm.forgetReg reg) ∧
        (a.1 ++ [storeTo reg a.2]).filter MipsInstr.isStore = [storeTo reg a.2]) ∧
      (reg ∉ rm.dirtyRegs → spillReg info rm reg = Except.ok ([], rm.forgetReg reg))) := by
  have hinv := runAllocOps_reach ops rm hreach
  refine ⟨?_, ?_, ?_⟩
  · intro isLoad g himm hmiss hok
    unfold getReg at hok
    rw [if_neg himm, hmiss] at hok
    simp only at hok
    cases ht : takeReg info rm with
    | error e => rw [ht] at hok; simp at hok
    | ok t =>
      rw [ht] at hok
      simp only at hok
      have hnot : ∀ d : List MipsReg, t.2.2 ∉ d.filter (fun x => decide (x ≠ t.2.2)) := by
        intro d hc
        rw [List.mem_filter] at hc
        simpa using hc.2
      cases isLoad with
      | false =>
        simp only [Bool.false_eq_true, if_false, Except.ok.injEq] at hok
        rw [← hok]
        exact hnot _
      | true =>
        simp only [if_true] at hok
        cases ha : getAddress info op MipsReg.T9 with
        | error e => rw [ha] at hok; simp at hok
        | ok a =>
          rw [ha] at hok
          simp only [Except.ok.injEq] at hok
          rw [← hok]
          exact hnot _
  · intro d hok
    unfold allocateReg at hok
    cases hf : mapFind rm.varToReg op.name with
    | some reg =>
      rw [hf] at hok
      simp only [Except.ok.injEq] at hok
      rw [← hok]
      exact (mem_dirtyInsert _ _ _).2 (Or.inl rfl)
    | none =>
      rw [hf] at hok
      simp only at hok
      cases ht : takeReg info rm with
      | error e => rw [ht] at hok; simp at hok
      | ok t =>
        rw [ht] at hok
        simp only [Except.ok.injEq] at hok
        rw [← hok]
        exact (mem_dirtyInsert _ _ _).2 (Or.inl rfl)
  · intro reg hreg
    obtain ⟨v, hv⟩ := hinv.busyMapped reg hreg
    refine ⟨v, hv, ?_, ?_, ?_⟩
    · intro r hok
      obtain ⟨hl, hres⟩ := spillReg_lines info rm reg r hok
      have hst := spillReg_state info rm reg r hok
      have hiff := (spillLines_store_iff info rm reg v hv (hres v hv)).1
      rw [hl, hst]
      refine ⟨hiff, forgetReg_not_dirty rm reg v hv, ?_, ?_, ?_⟩
      · rw [forgetReg_regFind]; simp
      · rw [forgetReg_varToReg, hv]; simp
      · intro r2 hne
        exact forgetReg_dirty_ne rm reg r2 hne
    · intro hd a ha
      have hres : ∀ v2, regFind rm.regToVar reg = some v2 → reg ∈ rm.dirtyRegs →
          ∃ a, getAddress info (spillOperand rm v2) MipsReg.T9 = Except.ok a := by
        intro v2 hv2 _
        rw [hv] at hv2
        rw [← Option.some.inj hv2]
        exact ⟨a, ha⟩
      obtain ⟨a2, ha2, hl2, hf2⟩ := (spillLines_store_iff info rm reg v hv (hres v hv)).2.1 hd
      rw [ha] at ha2
      have hEq : a = a2 := Except.ok.inj ha2
      rw [spillReg_ok info rm reg hres, hl2, ← hEq]
      refine ⟨rfl, ?_⟩
      rw [← hEq] at hf2 hl2
      rw [← hl2]
      exact hf2
    · intro hd
      have hres : ∀ v2, regFind rm.regToVar reg = some v2 → reg ∈ rm.dirtyRegs →
          ∃ a, getAddress info (spillOperand rm v2) MipsReg.T9 = Except.ok a :=
        fun _ _ h => absurd h hd
      rw [spillReg_ok info rm reg hres, spillLines_clean info rm reg hd]

/-- Claim C34 at the state with `t0` dirty in `$t0` and the global `g` clean in `$t1`:
the register `allocateReg` returns for `t1` is dirty, the spill of `$t0` emits
`sw $t0, -12($fp)` and the spill of `$t1` emits nothing. -/
theorem C34_dirty_bit_discipline_witness :
    runAllocOps RegisterManager.construct exAllocOps = some exAllocState ∧
    (allocateReg (some exInfoT0) exAllocState exT1).toOption.map (fun d => d.2.2) =
      some MipsReg.T2 ∧
    (∀ d : List MipsInstr × RegisterManager × MipsReg,
      allocateReg (some exInfoT0) exAllocState exT1 = Except.ok d → d.2.2 ∈ d.2.1.dirtyRegs) ∧
    (spillReg (some exInfoT0) exAllocState MipsReg.T0).toOption.map
        (fun r => r.1.map MipsInstr.text) = some ["sw $t0, -12($fp)"] ∧
    (spillReg (some exInfoT0) exAllocState MipsReg.T1).toOption.map
        (fun r => r.1.map MipsInstr.text) = some [] :=
  ⟨by decide, by decide,
    (C34_dirty_bit_discipline exAllocOps exAllocState (some exInfoT0) exT1 (by decide)).2.1,
    by decide, by decide⟩
/-! ### Source operands of a binary operation -/

/-- With an empty free queue, a request that misses takes the front register of the busy
queue, whatever it holds: a variable that was found in that register by the request
before has lost it. -/
theorem getReg_evicts_front (info : Option CodeGenFunctionInfo) (rm : RegisterManager)
    (hinv : AllocInv rm) (a b : Operand) (reg : MipsReg) (rest : List MipsReg)
    (hfree : rm.freeRegs = []) (hbusy : rm.busyRegs = reg :: rest)
    (ha : mapFind rm.varToReg a.name = some reg) (hatype : a.type ≠ OperandType.IMM)
    (hbtype : b.type ≠ OperandType.IMM) (hmiss : mapFind rm.varToReg b.name = none)
    (g1 g2 : List MipsInstr × RegisterManager × MipsReg)
    (h1 : getReg info rm a true = Except.ok g1)
    (h2 : getReg info g1.2.1 b true = Except.ok g2) :
    g1.2.2 = reg ∧ g2.2.2 = reg ∧ mapFind g2.2.1.varToReg a.name = none ∧
      mapFind g2.2.1.varToReg b.name = some reg := by
  have hg1 : g1 = ([], rm, reg) := by
    unfold getReg at h1
    rw [if_neg hatype, ha] at h1
    exact (Except.ok.inj h1).symm
  subst hg1
  simp only at h2
  have hne : a.name ≠ b.name := by
    intro e
    rw [e, hmiss] at ha
    simp at ha
  have hv : regFind rm.regToVar reg = some a.name := hinv.varReg a.name reg ha
  unfold getReg at h2
  rw [if_neg hbtype, hmiss, takeReg_evict info rm reg rest hfree hbusy] at h2
  simp only at h2
  cases hs : spillReg info { rm with busyRegs := rest } reg with
  | error e => rw [hs] at h2; simp at h2
  | ok s =>
    have hst := spillReg_state info _ reg s hs
    rw [forgetReg_busy_irrel] at hst
    rw [hs] at h2
    simp only [if_true] at h2
    cases hb : getAddress info b MipsReg.T9 with
    | error e => rw [hb] at h2; simp at h2
    | ok x =>
      rw [hb] at h2
      simp only [Except.ok.injEq] at h2
      rw [← h2]
      refine ⟨rfl, rfl, ?_, ?_⟩
      · show mapFind (s.2.bind b reg).varToReg a.name = none
        rw [bind_varToReg, if_neg (Ne.symm hne), hst]
        show mapFind (rm.forgetReg reg).varToReg a.name = none
        rw [forgetReg_varToReg, hv]
        simp
      · show mapFind (s.2.bind b reg).varToReg b.name = some reg
        rw [bind_varToReg]
        simp

/-- Claim C31: in the state reached by giving registers to the results `t0..t7` in this
order, all eight registers are busy and `t0` sits in `$t0`, the front of the busy queue.
For `ADD t8, t0, g` the request for `t0` returns `$t0`; the request for `g` evicts
`$t0`, returns `$t0` too and leaves `t0` without a register; the line emitted is
`addu $t1, $t0, $t0`. In general a request that misses while the free queue is empty
takes the front register of the busy queue even when the preceding request has just
returned it. -/
theorem C31_second_operand_evicts_first :
    runAllocOps RegisterManager.construct exFillOps = some exFullState ∧
    exFullState.freeRegs = [] ∧ exFullState.busyRegs.head? = some MipsReg.T0 ∧
    mapFind exFullState.varToReg "t0" = some MipsReg.T0 ∧
    (getReg (some exInfoTemps) exFullState (exTemp 0) true).toOption =
      some ([], exFullState, MipsReg.T0) ∧
    (getReg (some exInfoTemps) exFullState exGlobalG true).toOption.map
        (fun r => (r.1.map MipsInstr.text, r.2.2, mapFind r.2.1.varToReg "t0",
          mapFind r.2.1.varToReg "g")) =
      some (["sw $t0, -12($fp)", "la $t9, _g", "lw $t0, 0($t9)"], MipsReg.T0, none,
        some MipsReg.T0) ∧
    (visitBinaryOp (some exInfoTemps) exFullState exAddT0G "addu").toOption.map
        (fun r => r.1.map MipsInstr.text) =
      some ["sw $t0, -12($fp)", "la $t9, _g", "lw $t0, 0($t9)", "sw $t1, -16($fp)",
        "addu $t1, $t0, $t0"] ∧
    (∀ (ops : List AllocOp) (rm : RegisterManager) (info : Option CodeGenFunctionInfo)
      (a b : Operand) (reg : MipsReg) (rest : List MipsReg)
      (g1 g2 : List MipsInstr × RegisterManager × MipsReg),
      runAllocOps RegisterManager.construct ops = some rm →
      rm.freeRegs = [] → rm.busyRegs = reg :: rest →
      mapFind rm.varToReg a.name = some reg → a.type ≠ OperandType.IMM →
      b.type ≠ OperandType.IMM → mapFind rm.varToReg b.name = none →
      getReg info rm a true = Except.ok g1 → getReg info g1.2.1 b true = Except.ok g2 →
      g1.2.2 = reg ∧ g2.2.2 = reg ∧ mapFind g2.2.1.varToReg a.name = none ∧
        mapFind g2.2.1.varToReg b.name = some reg) := by
  refine ⟨by decide, by decide, by decide, by decide, by decide, by decide, by decide, ?_⟩
  intro ops rm info a b reg rest g1 g2 hreach hfree hbusy ha hat hbt hmiss h1 h2
  exact getReg_evicts_front info rm (runAllocOps_reach ops rm hreach) a b reg rest hfree hbusy
    ha hat hbt hmiss g1 g2 h1 h2

/-! ### Control-flow graph (buildCFG, buildCFGEdges) -/

theorem splitByLoop_append {α : Type} (R : α → α → Bool) (l : List α) (a : α) (g : List α)
    (gs : List (List α)) :
    List.splitBy.loop R l a g gs = gs.reverse ++ List.splitBy.loop R l a g [] := by
  induction l generalizing a g gs with
  | nil => simp [List.splitBy.loop]
  | cons b l ih =>
    simp only [List.splitBy.loop]
    cases R a b with
    | true => exact ih b (a :: g) gs
    | false =>
      rw [ih b [] ((a :: g).reverse :: gs), ih b [] [(a :: g).reverse]]
      simp

theorem isLeader_some (x : IRInstruction) (b : BasicBlock) (a : IRInstruction)
    (g : List IRInstruction) (hb : b.instructions = g.reverse ++ [a]) :
    isLeader x (some b) = isLeaderAfter a x := by
  have hlast : b.instructions.getLast? = some a := by
    rw [hb]
    simp
  simp only [isLeader, isLeaderAfter, endsBlock, hlast]

/-- The partition loop of `buildCFG` with a block under construction whose instructions
are `g` reversed followed by `a`. -/
theorem partitionBlocks_loop (rest : List IRInstruction) :
    ∀ (done : List BasicBlock) (b : BasicBlock) (a : IRInstruction) (g : List IRInstruction),
      b.instructions = g.reverse ++ [a] →
      (partitionBlocks done (some b) rest).map (fun x => x.instructions) =
        done.map (fun x => x.instructions) ++ List.splitBy.loop continuesBlock rest a g [] := by
  induction rest with
  | nil =>
    intro done b a g hb
    simp [partitionBlocks, List.splitBy.loop, hb]
  | cons x rest ih =>
    intro done b a g hb
    have hl := isLeader_some x b a g hb
    simp only [partitionBlocks, List.splitBy.loop, hl]
    cases hx : isLeaderAfter a x with
    | true =>
      simp only [if_true, continuesBlock, hx, Bool.not_true]
      rw [ih (done ++ [b]) _ x [] (by simp),
        splitByLoop_append continuesBlock rest x [] [(a :: g).reverse]]
      simp [hb]
    | false =>
      simp only [Bool.false_eq_true, if_false, continuesBlock, hx, Bool.not_false]
      exact ih done _ x (a :: g) (by simp [hb])

theorem partitionBlocks_splitBy (xs : List IRInstruction) :
    (partitionBlocks [] none xs).map (fun x => x.instructions) = xs.splitBy continuesBlock := by
  cases xs with
  | nil => rfl
  | cons x rest =>
    have h : partitionBlocks [] none (x :: rest) =
        partitionBlocks [] (some { id := 0, instructions := [x] }) rest := by
      simp [partitionBlocks, isLeader]
    rw [h, partitionBlocks_loop rest [] _ x [] (by simp)]
    simp [List.splitBy]

/-! ### Edges of the control-flow graph -/

theorem addEdge_length (blocks : List BasicBlock) (src dst : Nat) :
    (addEdge blocks src dst).length = blocks.length := by
  unfold addEdge
  cases blocks[src]? with
  | none => rfl
  | some f =>
    simp only
    split_ifs
    · rfl
    · simp [List.length_modify]

theorem addEdge_instructions (blocks : List BasicBlock) (src dst k : Nat) :
    ((addEdge blocks src dst)[k]?).map (fun b => b.instructions) =
      (blocks[k]?).map (fun b => b.instructions) := by
  unfold addEdge
  cases blocks[src]? with
  | none => rfl
  | some f =>
    simp only
    split_ifs
    · rfl
    · rw [List.getElem?_modify, List.getElem?_modify]
      cases blocks[k]? with
      | none => rfl
      | some b =>
        simp only [Option.map_eq_map, Option.map_some']
        split_ifs <;> rfl

theorem addEdge_succs (blocks : List BasicBlock) (src dst k : Nat) :
    ((addEdge blocks src dst)[k]?).map (fun b => b.succs) =
      (blocks[k]?).map (fun b => if k = src then addTo b.succs dst else b.succs) := by
  unfold addEdge
  cases hsrc : blocks[src]? with
  | none =>
    simp only
    cases hk : blocks[k]? with
    | none => rfl
    | some b =>
      have hne : k ≠ src := by
        intro e
        rw [e, hsrc] at hk
        simp at hk
      simp [hne]
  | some f =>
    simp only
    by_cases hmem : dst ∈ f.succs
    · rw [if_pos hmem]
      cases hk : blocks[k]? with
      | none => rfl
      | some b =>
        by_cases hks : k = src
        · subst hks
          rw [hsrc] at hk
          have hbf : f = b := Option.some.inj hk
          subst hbf
          simp [addTo, hmem]
        · simp [hks]
    · rw [if_neg hmem, List.getElem?_modify, List.getElem?_modify]
      cases hk : blocks[k]? with
      | none => rfl
      | some b =>
        by_cases hks : k = src
        · subst hks
          rw [hsrc] at hk
          have hbf : f = b := Option.some.inj hk
          subst hbf
          by_cases hd : dst = k
          · subst hd
            simp [addTo, hmem]
          · simp [addTo, hmem, hd]
        · have hsk : ¬ src = k := fun e => hks e.symm
          by_cases hd : dst = k
          · simp [hks, hsk, hd]
          · simp [hks, hsk, hd]

theorem edgesOnly_refl (i : Nat) (bs : List BasicBlock) : EdgesOnly i bs bs id := by
  refine ⟨rfl, fun _ => rfl, fun _ _ => rfl, ?_⟩
  cases bs[i]? <;> rfl

theorem edgesOnly_trans (i : Nat) (bs bs2 bs3 : List BasicBlock) (f g : List Nat → List Nat)
    (h1 : EdgesOnly i bs bs2 f) (h2 : EdgesOnly i bs2 bs3 g) :
    EdgesOnly i bs bs3 (fun s => g (f s)) := by
  obtain ⟨a1, a2, a3, a4⟩ := h1
  obtain ⟨b1, b2, b3, b4⟩ := h2
  refine ⟨b1.trans a1, fun k => (b2 k).trans (a2 k), fun k hk => (b3 k hk).trans (a3 k hk), ?_⟩
  rw [b4]
  cases h : bs[i]? with
  | none =>
    rw [h] at a4
    cases h2 : bs2[i]? with
    | none => rfl
    | some x => rw [h2] at a4; simp at a4
  | some x =>
    rw [h] at a4
    cases h2 : bs2[i]? with
    | none => rw [h2] at a4; simp at a4
    | some y =>
      rw [h2] at a4
      simp only [Option.map_some', Option.some.injEq] at a4 ⊢
      rw [a4]

theorem edgesOnly_addEdge (i d : Nat) (bs : List BasicBlock) :
    EdgesOnly i bs (addEdge bs i d) (fun s => addTo s d) := by
  refine ⟨addEdge_length bs i d, fun k => addEdge_instructions bs i d k, ?_, ?_⟩
  · intro k hk
    rw [addEdge_succs]
    simp [hk]
  · rw [addEdge_succs]
    simp

/-- The edges added for the block at position `i` change the successor list of that
block only, into `succsAfter`. -/
theorem edgesOfBlock_spec (labels : List (String × Nat)) (blocks : List BasicBlock) (i : Nat)
    (curr : BasicBlock) (hcurr : blocks[i]? = some curr) :
    (edgesOfBlock labels blocks i curr).length = blocks.length ∧
    (∀ k : Nat, ((edgesOfBlock labels blocks i curr)[k]?).map (fun b => b.instructions) =
      (blocks[k]?).map (fun b => b.instructions)) ∧
    (∀ k : Nat, k ≠ i → ((edgesOfBlock labels blocks i curr)[k]?).map (fun b => b.succs) =
      (blocks[k]?).map (fun b => b.succs)) ∧
    ((edgesOfBlock labels blocks i curr)[i]?).map (fun b => b.succs) =
      some (succsAfter labels blocks.length i curr) := by
  have hfall : ∀ bs : List BasicBlock,
      EdgesOnly i bs (if i + 1 < bs.length then addEdge bs i (i + 1) else bs)
        (fun s => if i + 1 < bs.length then addTo s (i + 1) else s) := by
    intro bs
    split_ifs
    · exact edgesOnly_addEdge i (i + 1) bs
    · exact edgesOnly_refl i bs
  have hjump : ∀ (bs : List BasicBlock) (last : IRInstruction),
      EdgesOnly i bs
        (match last.result with
         | some r =>
           (match mapFind labels r.name with
            | some t => addEdge bs i t
            | none => bs)
         | none => bs)
        (fun s =>
          match last.result with
          | some r =>
            (match mapFind labels r.name with
             | some t => addTo s t
             | none => s)
          | none => s) := by
    intro bs last
    cases last.result with
    | none => exact edgesOnly_refl i bs
    | some r =>
      simp only
      cases mapFind labels r.name with
      | none => exact edgesOnly_refl i bs
      | some t => exact edgesOnly_addEdge i t bs
  have key : ∃ f : List Nat → List Nat,
      EdgesOnly i blocks (edgesOfBlock labels blocks i curr) f ∧
        f curr.succs = succsAfter labels blocks.length i curr := by
    unfold edgesOfBlock succsAfter
    cases hl : curr.instructions.getLast? with
    | none => exact ⟨_, hfall blocks, rfl⟩
    | some last =>
      simp only
      by_cases h1 : last.op = IROp.JUMP
      · rw [if_pos h1, if_pos h1]
        exact ⟨_, hjump blocks last, rfl⟩
      · rw [if_neg h1, if_neg h1]
        by_cases h2 : last.op = IROp.BEQZ
        · rw [if_pos h2, if_pos h2]
          have hj := hjump blocks last
          have hf := hfall (match last.result with
            | some r =>
              (match mapFind labels r.name with
               | some t => addEdge blocks i t
               | none => blocks)
            | none => blocks)
          have ht := edgesOnly_trans i _ _ _ _ _ hj hf
          refine ⟨_, ht, ?_⟩
          simp only [hj.1]
        · rw [if_neg h2, if_neg h2]
          by_cases h3 : last.op = IROp.RET
          · rw [if_pos h3, if_pos h3]
            exact ⟨_, edgesOnly_refl i blocks, rfl⟩
          · rw [if_neg h3, if_neg h3]
            exact ⟨_, hfall blocks, rfl⟩
  obtain ⟨f, ⟨a1, a2, a3, a4⟩, hf⟩ := key
  refine ⟨a1, a2, a3, ?_⟩
  rw [a4, hcurr]
  simp [hf]

theorem succsAfter_congr (labels : List (String × Nat)) (len k : Nat) (b1 b : BasicBlock)
    (hi : b1.instructions = b.instructions) (hs : b1.succs = b.succs) :
    succsAfter labels len k b1 = succsAfter labels len k b := by
  unfold succsAfter
  rw [hi, hs]

/-- The loop of `buildCFGEdges` from position `i` for `n` iterations: instructions stay, the
successor list of every block at a position `i ≤ k < i + n` becomes `succsAfter`, the
others are untouched. -/
theorem edgesLoop_spec (labels : List (String × Nat)) (n : Nat) :
    ∀ (i : Nat) (blocks : List BasicBlock),
      (edgesLoop labels n i blocks).length = blocks.length ∧
      (∀ k : Nat, ((edgesLoop labels n i blocks)[k]?).map (fun b => b.instructions) =
        (blocks[k]?).map (fun b => b.instructions)) ∧
      (∀ (k : Nat) (b : BasicBlock), blocks[k]? = some b →
        ((edgesLoop labels n i blocks)[k]?).map (fun b => b.succs) =
          some (if i ≤ k ∧ k < i + n then succsAfter labels blocks.length k b else b.succs)) := by
  induction n with
  | zero =>
    intro i blocks
    refine ⟨rfl, fun _ => rfl, ?_⟩
    intro k b hb
    have : ¬ (i ≤ k ∧ k < i + 0) := by omega
    simp only [edgesLoop, hb, Option.map_some', if_neg this]
  | succ n ih =>
    intro i blocks
    cases hcurr : blocks[i]? with
    | none =>
      have hR : edgesLoop labels (n + 1) i blocks = blocks := by
        simp only [edgesLoop, hcurr]
      rw [hR]
      refine ⟨rfl, fun _ => rfl, ?_⟩
      intro k b hb
      have hi : blocks.length ≤ i := by
        by_contra hc
        have : i < blocks.length := by omega
        rw [List.getElem?_eq_getElem this] at hcurr
        simp at hcurr
      have hk : k < blocks.length := by
        by_contra hc
        rw [List.getElem?_eq_none (by omega)] at hb
        simp at hb
      have : ¬ (i ≤ k ∧ k < i + (n + 1)) := by omega
      simp only [hb, Option.map_some', if_neg this]
    | some curr =>
      have hR : edgesLoop labels (n + 1) i blocks =
          edgesLoop labels n (i + 1) (edgesOfBlock labels blocks i curr) := by
        simp only [edgesLoop, hcurr]
      rw [hR]
      obtain ⟨e1, e2, e3, e4⟩ := edgesOfBlock_spec labels blocks i curr hcurr
      obtain ⟨l1, l2, l3⟩ := ih (i + 1) (edgesOfBlock labels blocks i curr)
      refine ⟨l1.trans e1, fun k => (l2 k).trans (e2 k), ?_⟩
      intro k b hb
      have hk : k < (edgesOfBlock labels blocks i curr).length := by
        rw [e1]
        by_contra hc
        rw [List.getElem?_eq_none (by omega)] at hb
        simp at hb
      have hb1 : (edgesOfBlock labels blocks i curr)[k]? =
          some ((edgesOfBlock labels blocks i curr)[k]) := List.getElem?_eq_getElem hk
      rw [l3 k _ hb1, e1]
      have hins := e2 k
      rw [hb1, hb] at hins
      simp only [Option.map_some', Option.some.injEq] at hins
      by_cases hki : k = i
      · subst hki
        rw [hb1] at e4
        simp only [Option.map_some', Option.some.injEq] at e4
        rw [hcurr] at hb
        have hbc : curr = b := Option.some.inj hb
        subst hbc
        have h1 : ¬ (k + 1 ≤ k ∧ k < k + 1 + n) := by omega
        have h2 : k ≤ k ∧ k < k + (n + 1) := by omega
        rw [if_neg h1, if_pos h2, e4]
      · have hs := e3 k hki
        rw [hb1, hb] at hs
        simp only [Option.map_some', Option.some.injEq] at hs
        rw [succsAfter_congr labels blocks.length k _ b hins hs, hs]
        by_cases hc : i ≤ k ∧ k < i + (n + 1)
        · have hc2 : i + 1 ≤ k ∧ k < i + 1 + n := by omega
          rw [if_pos hc, if_pos hc2]
        · have hc2 : ¬ (i + 1 ≤ k ∧ k < i + 1 + n) := by omega
          rw [if_neg hc, if_neg hc2]

theorem buildCFGEdges_spec (func : Function) :
    (buildCFGEdges func).blocks.length = func.blocks.length ∧
    (buildCFGEdges func).blocks.map (fun b => b.instructions) =
      func.blocks.map (fun b => b.instructions) ∧
    (∀ (k : Nat) (b : BasicBlock), func.blocks[k]? = some b →
      ((buildCFGEdges func).blocks[k]?).map (fun b => b.succs) =
        some (succsAfter (labelToBlock func.blocks 0 []) func.blocks.length k b)) := by
  obtain ⟨l1, l2, l3⟩ := edgesLoop_spec (labelToBlock func.blocks 0 []) func.blocks.length 0
    func.blocks
  refine ⟨l1, ?_, ?_⟩
  · apply List.ext_getElem?
    intro k
    rw [List.getElem?_map, List.getElem?_map]
    exact l2 k
  · intro k b hb
    have hk : k < func.blocks.length := by
      by_contra hc
      rw [List.getElem?_eq_none (by omega)] at hb
      simp at hb
    have h := l3 k b hb
    have hc : 0 ≤ k ∧ k < 0 + func.blocks.length := by omega
    rw [if_pos hc] at h
    exact h

/-! ### The label map -/

theorem labelFold_miss (xs : List IRInstruction) (i : Nat) (L : String) :
    ∀ m : List (String × Nat), (∀ x ∈ xs, ¬ (x.op = IROp.LABEL ∧ resultName x = L)) →
      mapFind (xs.foldl
        (fun acc instr => if instr.op = IROp.LABEL then mapSet acc (resultName instr) i else acc)
        m) L = mapFind m L := by
  induction xs with
  | nil => intro m _; rfl
  | cons x rest ih =>
    intro m h
    simp only [List.foldl]
    rw [ih _ (fun y hy => h y (List.mem_cons_of_mem _ hy))]
    have hx := h x (List.mem_cons_self _ _)
    split_ifs with hop
    · have hne : resultName x ≠ L := fun e => hx ⟨hop, e⟩
      exact mapFind_mapSet_ne _ _ _ _ hne
    · rfl

theorem labelFold_hit (xs : List IRInstruction) (i : Nat) (L : String) :
    ∀ m : List (String × Nat), (∃ x ∈ xs, x.op = IROp.LABEL ∧ resultName x = L) →
      mapFind (xs.foldl
        (fun acc instr => if instr.op = IROp.LABEL then mapSet acc (resultName instr) i else acc)
        m) L = some i := by
  induction xs with
  | nil => intro m h; obtain ⟨x, hx, _⟩ := h; simp at hx
  | cons x rest ih =>
    intro m h
    simp only [List.foldl]
    by_cases hr : ∃ y ∈ rest, y.op = IROp.LABEL ∧ resultName y = L
    · exact ih _ hr
    · have hr2 : ∀ y ∈ rest, ¬ (y.op = IROp.LABEL ∧ resultName y = L) :=
        fun y hy hc => hr ⟨y, hy, hc⟩
      rw [labelFold_miss rest i L _ hr2]
      obtain ⟨y, hy, hop, hname⟩ := h
      rcases List.mem_cons.1 hy with e | e
      · subst e
        rw [if_pos hop, hname]
        exact mapFind_mapSet_self _ _ _
      · exact absurd ⟨hop, hname⟩ (hr2 y e)

theorem labelToBlock_miss (bs : List BasicBlock) (L : String) :
    ∀ (i : Nat) (m : List (String × Nat)), (∀ b ∈ bs, ¬ hasLabel b L) →
      mapFind (labelToBlock bs i m) L = mapFind m L := by
  induction bs with
  | nil => intro i m _; rfl
  | cons b rest ih =>
    intro i m h
    simp only [labelToBlock]
    rw [ih _ _ (fun y hy => h y (List.mem_cons_of_mem _ hy))]
    apply labelFold_miss
    intro x hx hc
    exact h b (List.mem_cons_self _ _) ⟨x, hx, hc⟩

theorem labelToBlock_unique (bs : List BasicBlock) (L : String) :
    ∀ (i : Nat) (m : List (String × Nat)) (t : Nat), LabelAt bs L t →
      mapFind (labelToBlock bs i m) L = some (i + t) := by
  induction bs with
  | nil =>
    intro i m t h
    obtain ⟨⟨b, hb, _⟩, _⟩ := h
    simp at hb
  | cons b rest ih =>
    intro i m t h
    obtain ⟨⟨bt, hbt, hl⟩, huniq⟩ := h
    simp only [labelToBlock]
    cases t with
    | zero =>
      simp only [List.getElem?_cons_zero, Option.some.injEq] at hbt
      subst hbt
      have hrest : ∀ y ∈ rest, ¬ hasLabel y L := by
        intro y hy hc
        obtain ⟨j, hj, hjy⟩ := List.getElem_of_mem hy
        have := huniq (j + 1) y (by simp [← hjy]) hc
        omega
      rw [labelToBlock_miss rest L _ _ hrest]
      exact labelFold_hit _ i L m hl
    | succ t =>
      simp only [List.getElem?_cons_succ] at hbt
      have h2 : LabelAt rest L t := by
        refine ⟨⟨bt, hbt, hl⟩, ?_⟩
        intro t2 b2 hb2 hl2
        have := huniq (t2 + 1) b2 (by simpa using hb2) hl2
        omega
      rw [ih (i + 1) _ t h2]
      congr 1
      omega

/-- The instruction lists of the blocks `buildCFG` builds are the segments of the
function's instruction list cut in front of every leader. -/
theorem buildCFG_instructions (func : Function) :
    (buildCFG func).blocks.map (fun b => b.instructions) =
      (flatten func).splitBy continuesBlock := by
  have h := (buildCFGEdges_spec
    { func with blocks := partitionBlocks [] none (flatten func) }).2.1
  simp only [buildCFG]
  rw [h]
  exact partitionBlocks_splitBy (flatten func)

/-- C35. `buildCFG` segments the instruction list of a function at leaders without
reordering or dropping anything: the blocks concatenated in order give the instruction
list back; every block is non-empty; inside a block no instruction but the first is a
leader (it is neither a LABEL nor a FUNC_ENTRY and does not follow a JUMP, BEQZ or RET);
the first instruction of every block after the first one is a leader with respect to the
last instruction of the block before it; hence a JUMP, BEQZ or RET is the last
instruction of its block and a LABEL or FUNC_ENTRY the first. -/
theorem C35_buildCFG_segments_at_leaders (func : Function) :
    flatten (buildCFG func) = flatten func ∧
    (∀ b ∈ (buildCFG func).blocks, b.instructions ≠ []) ∧
    (∀ b ∈ (buildCFG func).blocks, ∀ (pre : List IRInstruction) (p x : IRInstruction)
      (post : List IRInstruction),
      b.instructions = pre ++ p :: x :: post → isLeaderAfter p x = false) ∧
    (∀ (pre : List BasicBlock) (b1 b2 : BasicBlock) (post : List BasicBlock),
      (buildCFG func).blocks = pre ++ b1 :: b2 :: post →
      ∃ p x, b1.instructions.getLast? = some p ∧ b2.instructions.head? = some x ∧
        isLeaderAfter p x = true) ∧
    (∀ b ∈ (buildCFG func).blocks, ∀ (pre : List IRInstruction) (x : IRInstruction)
      (post : List IRInstruction), b.instructions = pre ++ x :: post →
      (endsBlock x = true → post = []) ∧
      ((x.op = IROp.LABEL ∨ x.op = IROp.FUNC_ENTRY) → pre = [])) := by
  have hmap := buildCFG_instructions func
  have hin : ∀ b ∈ (buildCFG func).blocks,
      b.instructions ∈ (flatten func).splitBy continuesBlock := by
    intro b hb
    rw [← hmap]
    exact List.mem_map_of_mem _ hb
  have hpair : ∀ b ∈ (buildCFG func).blocks, ∀ (pre : List IRInstruction)
      (p x : IRInstruction) (post : List IRInstruction),
      b.instructions = pre ++ p :: x :: post → isLeaderAfter p x = false := by
    intro b hb pre p x post he
    have hc := List.chain'_of_mem_splitBy (hin b hb)
    rw [he, List.chain'_split, List.chain'_cons] at hc
    have := hc.2.1
    simpa [continuesBlock] using this
  refine ⟨?_, ?_, hpair, ?_, ?_⟩
  · have h1 : flatten (buildCFG func) =
        ((buildCFG func).blocks.map (fun b => b.instructions)).flatten := by
      simp [flatten, List.flatMap]
    rw [h1, hmap]
    exact List.flatten_splitBy _ _
  · intro b hb
    exact List.ne_nil_of_mem_splitBy _ (hin b hb)
  · intro pre b1 b2 post he
    have hc := List.chain'_getLast_head_splitBy continuesBlock (flatten func)
    rw [← hmap, he] at hc
    simp only [List.map_append, List.map_cons] at hc
    rw [List.chain'_split, List.chain'_cons] at hc
    obtain ⟨ha, hb, hr⟩ := hc.2.1
    refine ⟨b1.instructions.getLast ha, b2.instructions.head hb,
      List.getLast?_eq_getLast _ ha, List.head?_eq_head hb, ?_⟩
    simpa [continuesBlock] using hr
  · intro b hb pre x post he
    constructor
    · intro hx
      cases post with
      | nil => rfl
      | cons y post2 =>
        have := hpair b hb pre x y post2 he
        simp [isLeaderAfter, hx] at this
    · intro hx
      rcases List.eq_nil_or_concat pre with h0 | ⟨pre2, p, hp⟩
      · exact h0
      · exfalso
        have := hpair b hb pre2 p x post (by rw [he, hp]; simp)
        rcases hx with hx | hx <;> simp [isLeaderAfter, hx] at this

/-- The blocks `buildCFG` hands to `buildCFGEdges` have no successors yet. -/
theorem partitionBlocks_fresh (xs : List IRInstruction) :
    ∀ (done : List BasicBlock) (curr : Option BasicBlock),
      (∀ x ∈ done, x.succs = []) → (∀ b, curr = some b → b.succs = []) →
      ∀ x ∈ partitionBlocks done curr xs, x.succs = [] := by
  induction xs with
  | nil =>
    intro done curr hd hc x hx
    cases curr with
    | none => exact hd x (by simpa [partitionBlocks] using hx)
    | some b =>
      simp only [partitionBlocks, List.mem_append, List.mem_singleton] at hx
      rcases hx with h | h
      · exact hd x h
      · rw [h]; exact hc b rfl
  | cons a rest ih =>
    intro done curr hd hc x hx
    cases curr with
    | none =>
      simp only [partitionBlocks, ite_self] at hx
      exact ih _ _ hd (by intro b hb; cases hb; rfl) x hx
    | some b =>
      simp only [partitionBlocks] at hx
      split_ifs at hx
      · refine ih _ _ ?_ (by intro b2 hb; cases hb; rfl) x hx
        intro y hy
        rcases List.mem_append.1 hy with h | h
        · exact hd y h
        · rw [List.mem_singleton.1 h]; exact hc b rfl
      · exact ih _ _ hd (by intro b2 hb; cases hb; exact hc b rfl) x hx

/-- C36. `buildCFGEdges` on blocks without successors (the blocks `buildCFG` has just
created): the block at position `i` keeps its instructions, and its successors are: for
a last instruction `JUMP L` whose label occurs in the block at position `t` and no other,
exactly `t`; for `BEQZ L`, `t` and the next position `i + 1` when there is a next block;
for RET none; for any other last instruction, and for an empty block, the next position
when there is a next block and none otherwise. -/
theorem C36_buildCFGEdges_successors (func : Function) (i : Nat) (b : BasicBlock)
    (hfresh : ∀ x ∈ func.blocks, x.succs = [])
    (hb : func.blocks[i]? = some b) :
    ∃ b2, (buildCFGEdges func).blocks[i]? = some b2 ∧ b2.instructions = b.instructions ∧
      (∀ last, b.instructions.getLast? = some last →
        (last.op = IROp.JUMP → ∀ (r : Operand) (t : Nat), last.result = some r →
          LabelAt func.blocks r.name t → b2.succs = [t]) ∧
        (last.op = IROp.BEQZ → ∀ (r : Operand) (t : Nat), last.result = some r →
          LabelAt func.blocks r.name t →
          b2.succs = if i + 1 < func.blocks.length ∧ t ≠ i + 1 then [t, i + 1] else [t]) ∧
        (last.op = IROp.RET → b2.succs = []) ∧
        (last.op ≠ IROp.JUMP → last.op ≠ IROp.BEQZ → last.op ≠ IROp.RET →
          b2.succs = if i + 1 < func.blocks.length then [i + 1] else [])) ∧
      (b.instructions = [] →
        b2.succs = if i + 1 < func.blocks.length then [i + 1] else []) := by
  obtain ⟨hlen, hins, hsucc⟩ := buildCFGEdges_spec func
  have hi : i < func.blocks.length := by
    by_contra hc
    rw [List.getElem?_eq_none (by omega)] at hb
    simp at hb
  have hi2 : i < (buildCFGEdges func).blocks.length := by rw [hlen]; exact hi
  have hb2 : (buildCFGEdges func).blocks[i]? = some ((buildCFGEdges func).blocks[i]) :=
    List.getElem?_eq_getElem hi2
  have hs := hsucc i b hb
  rw [hb2] at hs
  simp only [Option.map_some', Option.some.injEq] at hs
  have hin : ((buildCFGEdges func).blocks[i]).instructions = b.instructions := by
    have h1 : ((buildCFGEdges func).blocks.map (fun b => b.instructions))[i]? =
        (func.blocks.map (fun b => b.instructions))[i]? := by rw [hins]
    rw [List.getElem?_map, List.getElem?_map, hb2, hb] at h1
    simpa using h1
  have hbs : b.succs = [] := hfresh b (List.getElem?_mem hb)
  refine ⟨_, hb2, hin, ?_, ?_⟩
  · intro last hlast
    refine ⟨?_, ?_, ?_, ?_⟩
    · intro hop r t hr hL
      have hfind := labelToBlock_unique func.blocks r.name 0 [] t hL
      rw [Nat.zero_add] at hfind
      rw [hs]
      simp only [succsAfter, hlast, hop, if_true, hr, hfind, hbs, addTo]
      simp
    · intro hop r t hr hL
      have hfind := labelToBlock_unique func.blocks r.name 0 [] t hL
      rw [Nat.zero_add] at hfind
      rw [hs]
      have hne : last.op ≠ IROp.JUMP := by rw [hop]; decide
      simp only [succsAfter, hlast, hop, hr, hfind, hbs, addTo]
      by_cases h1 : i + 1 < func.blocks.length
      · by_cases h2 : t = i + 1
        · subst h2
          simp [h1]
        · have h3 : i + 1 ≠ t := fun e => h2 e.symm
          simp [h1, h2, h3]
      · simp [h1]
    · intro hop
      rw [hs]
      simp only [succsAfter, hlast, hop, hbs]
      simp
    · intro h1 h2 h3
      rw [hs]
      simp only [succsAfter, hlast, hbs, addTo, if_neg h1, if_neg h2, if_neg h3]
      simp
  · intro he
    rw [hs]
    simp only [succsAfter, he, List.getLast?_nil, hbs, addTo]
    simp

/-- The label `L0` of `exBranchFunc` occurs in the block at position 3 and in no other. -/
theorem exBranch_labelAt : LabelAt exBranchFunc.blocks (labelName 0) 3 := by
  refine ⟨⟨_, rfl, by decide⟩, ?_⟩
  intro t2 b2 hb2 hl
  match t2, hb2 with
  | 0, hb2 => cases hb2; revert hl; decide
  | 1, hb2 => cases hb2; revert hl; decide
  | 2, hb2 => cases hb2; revert hl; decide
  | 3, _ => rfl
  | 4, hb2 => cases hb2; revert hl; decide
  | n + 5, hb2 =>
    have hlen : exBranchFunc.blocks.length = 5 := by decide
    rw [List.getElem?_eq_none (by rw [hlen]; omega)] at hb2
    cases hb2

/-- C36 at the function `exBranchFunc`: the block `FUNC_ENTRY; BEQZ L0, t0` at position
1 gets the successors 3 (the block of `L0`) and 2 (the next block). -/
theorem C36_buildCFGEdges_successors_witness :
    (∀ x ∈ exBranchFunc.blocks, x.succs = []) ∧
    exBranchFunc.blocks[1]? = some exBranchBlock1 ∧
    (buildCFGEdges exBranchFunc).blocks.map (fun b => b.succs) = [[1], [3, 2], [4], [4], []] ∧
    ∃ b2, (buildCFGEdges exBranchFunc).blocks[1]? = some b2 ∧ b2.succs = [3, 2] := by
  refine ⟨by decide, by decide, by decide, ?_⟩
  obtain ⟨b2, h1, _, h2, _⟩ :=
    C36_buildCFGEdges_successors exBranchFunc 1 exBranchBlock1 (by decide) (by decide)
  refine ⟨b2, h1, ?_⟩
  have h := (h2 (mkBeqz (labelOperand 0) exT0) rfl).2.1 rfl (labelOperand 0) 3 rfl
    exBranch_labelAt
  rw [h]
  decide

/-! ### Temporaries: names and frame slots -/

theorem tempName_nat (n : Nat) : tempName (n : Int) = "t" ++ Nat.repr n := rfl

theorem tempName_injective (a b : Nat) (h : tempName (a : Int) = tempName (b : Int)) :
    a = b := by
  rw [tempName_nat, tempName_nat] at h
  have h2 := congrArg String.data h
  simp only [String.data_append, List.append_cancel_left_eq] at h2
  apply natRepr_injective
  exact String.ext h2

theorem runGenOps_append (xs ys : List GenOp) :
    ∀ s : TempState,
      runGenOps (xs ++ ys) s =
        ((runGenOps xs s).1 ++ (runGenOps ys (runGenOps xs s).2).1,
          (runGenOps ys (runGenOps xs s).2).2) := by
  induction xs with
  | nil => intro s; simp [runGenOps]
  | cons x rest ih =>
    intro s
    show runGenOps (x :: (rest ++ ys)) s = _
    simp only [runGenOps, ih, List.append_assoc]

theorem tempCalls_append (xs ys : List GenOp) :
    tempCalls (xs ++ ys) = tempCalls xs + tempCalls ys := by
  induction xs with
  | nil => simp [tempCalls]
  | cons x rest ih =>
    show tempCalls (x :: (rest ++ ys)) = _
    cases x <;> simp only [tempCalls, ih]
    omega

/-- The temporaries a run returns are numbered consecutively from the counter on, as long
as the counter stays in the range of `int`. -/
theorem runGenOps_temps (ops : List GenOp) :
    ∀ (s : TempState) (c : Nat), s.tempCounter = wrap32 c → c + tempCalls ops ≤ 2147483648 →
      (runGenOps ops s).1 = (List.range (tempCalls ops)).map (fun j => tempOperand (c + j)) ∧
      (runGenOps ops s).2.tempCounter = wrap32 ((c + tempCalls ops : Nat) : Int) := by
  induction ops with
  | nil =>
    intro s c hs _
    simp [runGenOps, tempCalls, hs]
  | cons op rest ih =>
    intro s c hs hc
    cases op with
    | newTemp =>
      simp only [tempCalls] at hc ⊢
      have hw : wrap32 (c : Int) = c := wrap32_small _ (by omega) (by omega)
      have h1 : (genStep GenOp.newTemp s).2.tempCounter = wrap32 ((c + 1 : Nat) : Int) := by
        simp only [genStep, newTemp, hs, hw]
        norm_num
      obtain ⟨i1, i2⟩ := ih _ (c + 1) h1 (by omega)
      constructor
      · simp only [runGenOps, i1]
        rw [List.range_succ_eq_map]
        simp only [genStep, newTemp, hs, hw, List.map_cons, List.map_map, List.singleton_append,
          tempOperand]
        refine congrArg₂ _ (by simp) ?_
        apply List.map_congr_left
        intro j _
        simp only [Function.comp]
        have : c + 1 + j = c + (j + 1) := by omega
        rw [this]
      · simp only [runGenOps, i2]
        have : c + 1 + tempCalls rest = c + (tempCalls rest + 1) := by omega
        rw [this]
    | declare entry =>
      simp only [tempCalls] at hc ⊢
      obtain ⟨i1, i2⟩ := ih (genStep (GenOp.declare entry) s).2 c (by simpa [genStep] using hs) hc
      exact ⟨by simp only [runGenOps, i1]; simp [genStep], by simp only [runGenOps, i2]⟩
    | enterFunc kp fn syms fs =>
      simp only [tempCalls] at hc ⊢
      obtain ⟨i1, i2⟩ := ih (genStep (GenOp.enterFunc kp fn syms fs) s).2 c
        (by simpa [genStep] using hs) hc
      exact ⟨by simp only [runGenOps, i1]; simp [genStep], by simp only [runGenOps, i2]⟩
    | leaveFunc =>
      simp only [tempCalls] at hc ⊢
      obtain ⟨i1, i2⟩ := ih (genStep GenOp.leaveFunc s).2 c (by simpa [genStep] using hs) hc
      exact ⟨by simp only [runGenOps, i1]; simp [genStep], by simp only [runGenOps, i2]⟩

theorem newTemp_info (s : TempState) (info : CodeGenFunctionInfo)
    (hs : s.currentCodeGenInfo = some info) :
    (newTemp s).2.currentCodeGenInfo =
      some { info with
        symbolMap := mapSet info.symbolMap (tempName s.tempCounter)
          (tempEntry (tempName s.tempCounter) info.frameSize),
        frameSize := wrap32 (info.frameSize + 4) } := by
  simp only [newTemp, hs, tempEntry]

theorem registerLocal_keeps (entry : SymbolEntry) (info : CodeGenFunctionInfo) (name : String)
    (e : CodeGenSymbolEntry) (h : mapFind info.symbolMap name = some e) :
    mapFind (registerLocal entry info).symbolMap name = some e ∧
      (registerLocal entry info).frameSize = info.frameSize := by
  unfold registerLocal
  split_ifs with hc
  · refine ⟨?_, rfl⟩
    have hne : (getVarOperand entry).name ≠ name := by
      intro heq
      rw [heq, h] at hc
      simp at hc
    simp only []
    rw [mapFind_mapSet_ne _ _ _ _ hne]
    exact h
  · exact ⟨h, rfl⟩

theorem registerLocal_frameSize (entry : SymbolEntry) (info : CodeGenFunctionInfo) :
    (registerLocal entry info).frameSize = info.frameSize := by
  unfold registerLocal
  split_ifs <;> rfl

/-- The events of a function body keep the layout entry of every name that is not the
name of a temporary they create. -/
theorem runGenOps_keeps (ops : List GenOp) (name : String) (e : CodeGenSymbolEntry) :
    ∀ (s : TempState) (info : CodeGenFunctionInfo), (∀ op ∈ ops, isBodyOp op = true) →
      s.currentCodeGenInfo = some info → mapFind info.symbolMap name = some e →
      (∀ o ∈ (runGenOps ops s).1, o.name ≠ name) →
      ∃ info2, (runGenOps ops s).2.currentCodeGenInfo = some info2 ∧
        mapFind info2.symbolMap name = some e := by
  induction ops with
  | nil =>
    intro s info _ hs he _
    exact ⟨info, hs, he⟩
  | cons op rest ih =>
    intro s info hb hs he hn
    have hrest : ∀ op ∈ rest, isBodyOp op = true := fun o ho => hb o (List.mem_cons_of_mem _ ho)
    have hop := hb op (List.mem_cons_self _ _)
    cases op with
    | newTemp =>
      have hne : tempName s.tempCounter ≠ name := by
        have := hn (newTemp s).1 (by simp [runGenOps, genStep])
        simpa [newTemp, Operand.named] using this
      refine ih _ _ hrest (by simp only [genStep]; exact newTemp_info s info hs) ?_ ?_
      · simp only []
        rw [mapFind_mapSet_ne _ _ _ _ hne]
        exact he
      · intro o ho
        exact hn o (by simp only [runGenOps]; exact List.mem_append_right _ ho)
    | declare entry =>
      refine ih _ (registerLocal entry info) hrest
        (by simp only [genStep, hs, Option.map_some']) ?_ ?_
      · exact (registerLocal_keeps entry info name e he).1
      · intro o ho
        exact hn o (by simp only [runGenOps]; exact List.mem_append_right _ ho)
    | enterFunc kp fn syms fs => simp [isBodyOp] at hop
    | leaveFunc => simp [isBodyOp] at hop

/-- The temporaries created in the body of one function get consecutive slots from the
frame size at the start of the body on, and the frame size grows by 4 for each. -/
theorem runGenOps_slots (ops : List GenOp) :
    ∀ (s : TempState) (info : CodeGenFunctionInfo) (c : Nat),
      (∀ op ∈ ops, isBodyOp op = true) → s.currentCodeGenInfo = some info →
      s.tempCounter = wrap32 c → c + tempCalls ops ≤ 2147483648 →
      0 ≤ info.frameSize → info.frameSize + 4 * (tempCalls ops : Int) ≤ 2147483647 →
      ∃ info2, (runGenOps ops s).2.currentCodeGenInfo = some info2 ∧
        info2.frameSize = info.frameSize + 4 * (tempCalls ops : Int) ∧
        ∀ j : Nat, j < tempCalls ops →
          mapFind info2.symbolMap (tempOperand (c + j)).name =
            some (tempEntry (tempOperand (c + j)).name (info.frameSize + 4 * (j : Int))) := by
  induction ops with
  | nil =>
    intro s info c _ hs _ _ _ _
    refine ⟨info, hs, by simp [tempCalls], ?_⟩
    intro j hj
    simp [tempCalls] at hj
  | cons op rest ih =>
    intro s info c hb hs hcnt hc h0 hfit
    have hrest : ∀ op ∈ rest, isBodyOp op = true := fun o ho => hb o (List.mem_cons_of_mem _ ho)
    have hop := hb op (List.mem_cons_self _ _)
    cases op with
    | newTemp =>
      simp only [tempCalls, Nat.cast_add, Nat.cast_one] at hc hfit ⊢
      have hw : wrap32 (c : Int) = c := wrap32_small _ (by omega) (by omega)
      have hfs : wrap32 (info.frameSize + 4) = info.frameSize + 4 :=
        wrap32_small _ (by omega) (by omega)
      have hst := newTemp_info s info hs
      rw [hcnt, hw, hfs] at hst
      have hcnt2 : (genStep GenOp.newTemp s).2.tempCounter = wrap32 ((c + 1 : Nat) : Int) := by
        simp only [genStep, newTemp, hcnt, hw]
        norm_num
      obtain ⟨info2, k1, k2, k3⟩ := ih (genStep GenOp.newTemp s).2 _ (c + 1) hrest
        (by simp only [genStep]; exact hst) hcnt2 (by omega) (by simp only []; omega)
        (by simp only []; omega)
      simp only [] at k2 k3
      have hnames := (runGenOps_temps rest (genStep GenOp.newTemp s).2 (c + 1) hcnt2
        (by omega)).1
      obtain ⟨info3, m1, m2⟩ := runGenOps_keeps rest (tempName (c : Int))
        (tempEntry (tempName (c : Int)) info.frameSize) (genStep GenOp.newTemp s).2 _ hrest
        (by simp only [genStep]; exact hst) (by simp only []; exact mapFind_mapSet_self _ _ _)
        (by
          intro o ho
          rw [hnames] at ho
          obtain ⟨j, _, hj⟩ := List.mem_map.1 ho
          rw [← hj]
          intro heq
          have := tempName_injective _ _ heq
          omega)
      have hsame : info3 = info2 := by
        rw [k1] at m1
        exact (Option.some.inj m1).symm
      subst hsame
      refine ⟨info3, by simp only [runGenOps]; exact k1, by rw [k2]; ring, ?_⟩
      intro j hj
      cases j with
      | zero =>
        simp only [Nat.add_zero, Nat.cast_zero, mul_zero, add_zero]
        exact m2
      | succ j =>
        have := k3 j (by omega)
        have e1 : c + (j + 1) = c + 1 + j := by omega
        have e2 : info.frameSize + 4 + 4 * (j : Int) =
            info.frameSize + 4 * ((j + 1 : Nat) : Int) := by
          push_cast
          ring
        rw [e1, this, e2]
    | declare entry =>
      simp only [tempCalls] at hc hfit ⊢
      obtain ⟨info2, k1, k2, k3⟩ := ih (genStep (GenOp.declare entry) s).2
        (registerLocal entry info) c hrest (by simp only [genStep, hs, Option.map_some'])
        (by simpa [genStep] using hcnt) hc
        (by rw [registerLocal_frameSize]; exact h0)
        (by rw [registerLocal_frameSize]; exact hfit)
      rw [registerLocal_frameSize] at k2 k3
      exact ⟨info2, by simp only [runGenOps]; exact k1, k2, k3⟩
    | enterFunc kp fn syms fs => simp [isBodyOp] at hop
    | leaveFunc => simp [isBodyOp] at hop

/-- The layout update of `newTemp` at a counter value `n ≥ 0` is `registerTemp n`. -/
theorem newTemp_registerTemp (n : Nat) (info : CodeGenFunctionInfo) :
    (newTemp { tempCounter := (n : Int), currentCodeGenInfo := some info }).2.currentCodeGenInfo =
      some (registerTemp n info) := rfl

/-- C37. Temporaries are unique and have their own slots. In a run of the generator from
its creation (events `pre`, then the events `body` inside one function whose layout at
the start of the body is `info0`), with at most 2^31 calls of `newTemp` and a frame that
stays in the range of `int`: the k-th call returns `t<k-1>`, so the temporaries returned
are `t0, t1, ...` in order, across functions, and different indices give different
names; inside the function the j-th temporary of the body is stored in the layout at
offset `info0.frameSize + 4 * j`, the frame size each call found, so the offsets are
pairwise distinct and at least the initial frame size; the frame size ends at
`info0.frameSize + 4 * (number of calls)` and stays a multiple of 4 when it was one.
A single call stores its temporary at the frame size it finds and adds 4 to it, and the
frame size a function definition starts with is the stack-frame size of the function
symbol plus 12. -/
theorem C37_temporaries_unique_with_own_slots (pre body : List GenOp)
    (info0 : CodeGenFunctionInfo)
    (hbody : ∀ op ∈ body, isBodyOp op = true)
    (hcur : (runGenOps pre {}).2.currentCodeGenInfo = some info0)
    (hcount : tempCalls pre + tempCalls body ≤ 2147483648)
    (hfs : 0 ≤ info0.frameSize ∧ info0.frameSize + 4 * (tempCalls body : Int) ≤ 2147483647) :
    (runGenOps (pre ++ body) {}).1 =
      (List.range (tempCalls pre + tempCalls body)).map tempOperand ∧
    (∀ i j : Nat, (tempOperand i).name = (tempOperand j).name → i = j) ∧
    (∃ info, (runGenOps (pre ++ body) {}).2.currentCodeGenInfo = some info ∧
      info.frameSize = info0.frameSize + 4 * (tempCalls body : Int) ∧
      (info0.frameSize % 4 = 0 → info.frameSize % 4 = 0) ∧
      ∀ j : Nat, j < tempCalls body →
        mapFind info.symbolMap (tempOperand (tempCalls pre + j)).name =
          some (tempEntry (tempOperand (tempCalls pre + j)).name
            (info0.frameSize + 4 * (j : Int)))) ∧
    (∀ (s : TempState) (info : CodeGenFunctionInfo), s.currentCodeGenInfo = some info →
      (newTemp s).1 = Operand.named (tempName s.tempCounter) OperandType.TEMP ∧
      ∃ info2, (newTemp s).2.currentCodeGenInfo = some info2 ∧
        mapFind info2.symbolMap (newTemp s).1.name =
          some (tempEntry (newTemp s).1.name info.frameSize) ∧
        info2.frameSize = wrap32 (info.frameSize + 4)) ∧
    (∀ (keepParam : Bool) (funcName : String) (scopeSyms : List SymbolEntry)
      (funcSym : Option SymbolEntry) (s : TempState),
      ∃ info, (genStep (GenOp.enterFunc keepParam funcName scopeSyms funcSym) s).2.currentCodeGenInfo
          = some info ∧
        info.frameSize = wrap32 (frameBase funcSym + 12)) := by
  have hinit : ({} : TempState).tempCounter = wrap32 ((0 : Nat) : Int) := by decide
  have hall := runGenOps_temps (pre ++ body) {} 0 hinit
    (by rw [tempCalls_append]; omega)
  have hpre := runGenOps_temps pre {} 0 hinit (by omega)
  simp only [Nat.zero_add] at hall hpre
  refine ⟨?_, ?_, ?_, ?_, ?_⟩
  · rw [hall.1, tempCalls_append]
  · intro i j h
    exact tempName_injective i j h
  · obtain ⟨info, k1, k2, k3⟩ := runGenOps_slots body (runGenOps pre {}).2 info0
      (tempCalls pre) hbody hcur hpre.2 hcount hfs.1 hfs.2
    refine ⟨info, ?_, k2, ?_, k3⟩
    · rw [runGenOps_append]
      exact k1
    · intro h4
      rw [k2]
      omega
  · intro s info hs
    refine ⟨rfl, _, newTemp_info s info hs, ?_, rfl⟩
    exact mapFind_mapSet_self _ _ _
  · intro kp fn syms fs s
    refine ⟨_, rfl, ?_⟩
    simp only [buildLayout, runLayoutOps]
    exact initFrameSize_frameSize _ _

/-- C37 on a run over two functions: one temporary in the first, then in the second
function, whose frame starts at 20 bytes, two temporaries around a declaration; the run
returns `t0, t1, t2`, and `t1` and `t2` get the offsets 20 and 24 of a frame that
ends at 28 bytes. -/
theorem C37_temporaries_unique_with_own_slots_witness :
    (∀ op ∈ exGenBody, isBodyOp op = true) ∧
    (runGenOps exGenPre {}).2.currentCodeGenInfo = some exGenInfo ∧
    (runGenOps (exGenPre ++ exGenBody) {}).1 = [tempOperand 0, tempOperand 1, tempOperand 2] ∧
    ∃ info, (runGenOps (exGenPre ++ exGenBody) {}).2.currentCodeGenInfo = some info ∧
      info.frameSize = 28 ∧
      mapFind info.symbolMap "t1" = some (tempEntry "t1" 20) ∧
      mapFind info.symbolMap "t2" = some (tempEntry "t2" 24) := by
  obtain ⟨h1, _, ⟨info, h2, h3, _, h4⟩, _, _⟩ :=
    C37_temporaries_unique_with_own_slots exGenPre exGenBody exGenInfo (by decide) (by decide)
      (by decide) (by decide)
  refine ⟨by decide, by decide, ?_, info, h2, ?_, ?_, ?_⟩
  · rw [h1]
    decide
  · rw [h3]
    decide
  · have e : (tempOperand (tempCalls exGenPre + 0)).name = "t1" := by decide
    have := h4 0 (by decide)
    rw [e] at this
    rw [this]
    decide
  · have e : (tempOperand (tempCalls exGenPre + 1)).name = "t2" := by decide
    have := h4 1 (by decide)
    rw [e] at this
    rw [this]
    decide

/-! ### Declaration before use -/

/-- What `getVar` returns is the operand of an entry of `activeSymbols`. -/
theorem getVarLoop_active (active : List SymbolEntry) (name : String) (scopes : List Scope)
    (o : Operand) (h : getVarLoop active name scopes = some o) :
    ∃ s ∈ active, o = getVarOperand s := by
  induction scopes with
  | nil => simp [getVarLoop] at h
  | cons sc rest ih =>
    simp only [getVarLoop] at h
    cases hf : sc.findSymbol name with
    | none =>
      rw [hf] at h
      exact ih h
    | some entry =>
      rw [hf] at h
      simp only [] at h
      split_ifs at h with hin
      · exact ⟨entry, hin, (Option.some.inj h).symm⟩
      · exact ih h

theorem getVar_symbol_active (scopes : List Scope) (active : List SymbolEntry) (name : String)
    (o : Operand) (h : getVar scopes active name = some o) (s : SymbolEntry)
    (hs : o.symbol = some s) : s ∈ active := by
  obtain ⟨s2, hin, ho⟩ := getVarLoop_active active name scopes.reverse o h
  rw [ho, (getVarOperand_type_symbol s2).2] at hs
  rw [← Option.some.inj hs]
  exact hin

/-- The lookup of a name whose innermost entry is not active yet continues in the
enclosing scopes; once the entry is active it is the one returned. -/
theorem getVar_inner (outer : List Scope) (inner : Scope) (active : List SymbolEntry)
    (name : String) (entry : SymbolEntry) (hfind : inner.findSymbol name = some entry) :
    getVar (outer ++ [inner]) active name =
      if entry ∈ active then some (getVarOperand entry) else getVar outer active name := by
  simp only [getVar, List.reverse_append, List.reverse_singleton, List.singleton_append,
    getVarLoop, hfind]

theorem lookupSymbol_inner (outer : List Scope) (inner : Scope) (name : String)
    (entry : SymbolEntry) (hfind : inner.findSymbol name = some entry) :
    lookupSymbol (outer ++ [inner]) name = some entry := by
  simp only [lookupSymbol, List.reverse_append, List.reverse_singleton, List.singleton_append,
    lookupLoop, hfind]

theorem symbolsIn_nil (active : List SymbolEntry) : SymbolsIn active [] := by
  intro i hi
  simp at hi

theorem symbolsIn_append (active : List SymbolEntry) (c1 c2 : List IRInstruction)
    (h1 : SymbolsIn active c1) (h2 : SymbolsIn active c2) : SymbolsIn active (c1 ++ c2) := by
  intro i hi
  rcases List.mem_append.1 hi with h | h
  · exact h1 i h
  · exact h2 i h

theorem symbolsIn_single (active : List SymbolEntry) (op : IROp) (r a b : Option Operand)
    (hr : SymbolIn active r) (ha : SymbolIn active a) (hb : SymbolIn active b) :
    SymbolsIn active [{ op := op, result := r, arg1 := a, arg2 := b }] := by
  intro i hi o ho s hs
  rw [List.mem_singleton] at hi
  subst hi
  simp only [operandsOf, List.mem_append, Option.mem_toList, Option.mem_def] at ho
  rcases ho with (h | h) | h
  · exact hr o h s hs
  · exact ha o h s hs
  · exact hb o h s hs

theorem symbolIn_none (active : List SymbolEntry) : SymbolIn active none := by
  intro x hx
  cases hx

theorem symbolIn_imm (active : List SymbolEntry) (v : Int) :
    SymbolIn active (some (Operand.imm v)) := by
  intro x hx s hs
  cases hx
  simp [Operand.imm] at hs

theorem symbolIn_temp (active : List SymbolEntry) (g : DeclState) :
    SymbolIn active (some g.newTemp.1) := by
  intro x hx s hs
  cases hx
  simp [DeclState.newTemp, newTemp, Operand.named] at hs

theorem symbolIn_getVar (scopes : List Scope) (active : List SymbolEntry) (name : String) :
    SymbolIn active (getVar scopes active name) := by
  intro x hx s hs
  exact getVar_symbol_active scopes active name x hx s hs

theorem symbolIn_label (active : List SymbolEntry) (name : String) :
    SymbolIn active (some (Operand.named name OperandType.LABEL)) := by
  intro x hx s hs
  cases hx
  simp [Operand.named] at hs

theorem continues_refl (active : List SymbolEntry) (g : DeclState) : Continues active g g :=
  ⟨rfl, rfl, [], by simp, symbolsIn_nil _⟩

theorem continues_trans (active : List SymbolEntry) (g g2 g3 : DeclState)
    (h1 : Continues active g g2) (h2 : Continues active g2 g3) : Continues active g g3 := by
  obtain ⟨a1, a2, c1, a3, a4⟩ := h1
  obtain ⟨b1, b2, c2, b3, b4⟩ := h2
  exact ⟨b1.trans a1, b2.trans a2, c1 ++ c2, by rw [b3, a3, List.append_assoc],
    symbolsIn_append _ _ _ a4 b4⟩

theorem continues_newTemp (active : List SymbolEntry) (g : DeclState) :
    Continues active g g.newTemp.2 :=
  ⟨rfl, rfl, [], by simp [DeclState.newTemp], symbolsIn_nil _⟩

theorem continues_emit (active : List SymbolEntry) (g : DeclState) (op : IROp)
    (r a b : Option Operand) (hr : SymbolIn active r) (ha : SymbolIn active a)
    (hb : SymbolIn active b) : Continues active g (g.emit op r a b) :=
  ⟨rfl, rfl, _, rfl, symbolsIn_single active op r a b hr ha hb⟩

/-- A new temporary followed by an instruction that defines it. -/
theorem continues_tempEmit (active : List SymbolEntry) (g : DeclState) (op : IROp)
    (a b : Option Operand) (ha : SymbolIn active a) (hb : SymbolIn active b) :
    Continues active g (g.newTemp.2.emit op (some g.newTemp.1) a b) :=
  continues_trans _ _ _ _ (continues_newTemp active g)
    (continues_emit active _ op _ a b (symbolIn_temp active g) ha hb)

mutual
/-- The lowering of an expression leaves the scopes and the active set as they are, only
appends instructions, and every symbol entry its operands carry is active. -/
theorem visitAddExp_frame :
    ∀ (e : Exp) (g : DeclState) (v : Operand) (g2 : DeclState), visitAddExp e g = some (v, g2) →
      Continues g.activeSymbols g g2 ∧ SymbolIn g.activeSymbols (some v)
  | .number v0, g, v, g2, h => by
    simp only [visitAddExp, Option.some.injEq, Prod.mk.injEq] at h
    obtain ⟨h1, h2⟩ := h
    subst h1 h2
    exact ⟨continues_refl _ _, symbolIn_imm _ _⟩
  | .lval name, g, v, g2, h => by
    simp only [visitAddExp] at h
    cases hv : getVar g.scopeStack g.activeSymbols name with
    | none => rw [hv] at h; simp at h
    | some symOp =>
      rw [hv] at h
      simp only [] at h
      have hsym : SymbolIn g.activeSymbols (some symOp) := by
        rw [← hv]
        exact symbolIn_getVar _ _ _
      split_ifs at h with harr
      · simp only [Option.some.injEq, Prod.mk.injEq] at h
        obtain ⟨h1, h2⟩ := h
        subst h1 h2
        exact ⟨continues_tempEmit _ g _ _ _ hsym (symbolIn_imm _ _), symbolIn_temp _ g⟩
      · simp only [Option.some.injEq, Prod.mk.injEq] at h
        obtain ⟨h1, h2⟩ := h
        subst h1 h2
        exact ⟨continues_refl _ _, hsym⟩
  | .lvalIndex name index, g, v, g2, h => by
    simp only [visitAddExp] at h
    cases hi : visitAddExp index g with
    | none => rw [hi] at h; simp at h
    | some r =>
      obtain ⟨idx, g1⟩ := r
      rw [hi] at h
      simp only [Option.some.injEq, Prod.mk.injEq] at h
      obtain ⟨h1, h2⟩ := h
      subst h1 h2
      obtain ⟨a1, a2⟩ := visitAddExp_frame index g idx g1 hi
      refine ⟨?_, symbolIn_temp _ _⟩
      let gA := g1.newTemp.2.emit IROp.MUL (some g1.newTemp.1) (some idx) (some (Operand.imm 4))
      let gB := gA.newTemp.2.emit IROp.GET_ADDR (some gA.newTemp.1)
        (getVar g.scopeStack g.activeSymbols name) (some g1.newTemp.1)
      have s1 : Continues g.activeSymbols g1 gA :=
        continues_tempEmit _ g1 IROp.MUL _ _ a2 (symbolIn_imm _ 4)
      have s2 : Continues g.activeSymbols gA gB :=
        continues_tempEmit _ gA IROp.GET_ADDR (getVar g.scopeStack g.activeSymbols name)
          (some g1.newTemp.1) (symbolIn_getVar _ _ _) (symbolIn_temp _ g1)
      have s3 : Continues g.activeSymbols gB
          (gB.newTemp.2.emit IROp.LOAD (some gB.newTemp.1) (some gA.newTemp.1)
            (some (Operand.imm 0))) :=
        continues_tempEmit _ gB IROp.LOAD _ _ (symbolIn_temp _ gA) (symbolIn_imm _ 0)
      exact continues_trans _ _ _ _ a1
        (continues_trans _ _ _ _ s1 (continues_trans _ _ _ _ s2 s3))
  | .binary op left right, g, v, g2, h => by
    simp only [visitAddExp] at h
    cases hl : visitAddExp left g with
    | none => rw [hl] at h; simp at h
    | some r1 =>
      obtain ⟨l, g1⟩ := r1
      rw [hl] at h
      simp only [] at h
      cases hr : visitAddExp right g1 with
      | none => rw [hr] at h; simp at h
      | some r2 =>
        obtain ⟨r, g3⟩ := r2
        rw [hr] at h
        simp only [Option.some.injEq, Prod.mk.injEq] at h
        obtain ⟨h1, h2⟩ := h
        subst h1 h2
        obtain ⟨a1, a2⟩ := visitAddExp_frame left g l g1 hl
        obtain ⟨b1, b2⟩ := visitAddExp_frame right g1 r g3 hr
        rw [a1.2.1] at b1 b2
        refine ⟨?_, symbolIn_temp _ _⟩
        refine continues_trans _ _ _ _ a1 (continues_trans _ _ _ _ b1 ?_)
        exact continues_tempEmit _ g3 op _ _ a2 b2
  | .unaryPlus e, g, v, g2, h => by
    simp only [visitAddExp] at h
    exact visitAddExp_frame e g v g2 h
  | .unary op e, g, v, g2, h => by
    simp only [visitAddExp] at h
    cases he : visitAddExp e g with
    | none => rw [he] at h; simp at h
    | some r =>
      obtain ⟨src, g1⟩ := r
      rw [he] at h
      simp only [Option.some.injEq, Prod.mk.injEq] at h
      obtain ⟨h1, h2⟩ := h
      subst h1 h2
      obtain ⟨a1, a2⟩ := visitAddExp_frame e g src g1 he
      refine ⟨?_, symbolIn_temp _ _⟩
      exact continues_trans _ _ _ _ a1 (continues_tempEmit _ g1 op _ _ a2 (symbolIn_none _))
  | .paren e, g, v, g2, h => by
    simp only [visitAddExp] at h
    exact visitAddExp_frame e g v g2 h
  | .call funcName args, g, v, g2, h => by
    simp only [visitAddExp] at h
    split_ifs at h with hget
    · simp only [Option.some.injEq, Prod.mk.injEq] at h
      obtain ⟨h1, h2⟩ := h
      subst h1 h2
      exact ⟨continues_tempEmit _ g IROp.GETINT _ _ (symbolIn_none _) (symbolIn_none _),
        symbolIn_temp _ g⟩
    · cases hp : visitParams args g with
      | none => rw [hp] at h; simp at h
      | some g1 =>
        rw [hp] at h
        simp only [Option.some.injEq, Prod.mk.injEq] at h
        obtain ⟨h1, h2⟩ := h
        subst h1 h2
        have a1 := visitParams_frame args g g1 hp
        refine ⟨?_, symbolIn_temp _ _⟩
        exact continues_trans _ _ _ _ a1
          (continues_tempEmit _ g1 IROp.CALL _ _ (symbolIn_label _ funcName) (symbolIn_none _))

/-- The lowering of the arguments of a call does the same. -/
theorem visitParams_frame :
    ∀ (es : List Exp) (g g2 : DeclState), visitParams es g = some g2 →
      Continues g.activeSymbols g g2
  | [], g, g2, h => by
    simp only [visitParams, Option.some.injEq] at h
    subst h
    exact continues_refl _ _
  | e :: rest, g, g2, h => by
    simp only [visitParams] at h
    cases he : visitAddExp e g with
    | none => rw [he] at h; simp at h
    | some r =>
      obtain ⟨v, g1⟩ := r
      rw [he] at h
      simp only [] at h
      obtain ⟨a1, a2⟩ := visitAddExp_frame e g v g1 he
      have b1 := visitParams_frame rest _ g2 h
      have hact : (g1.emit IROp.PARAM none (some v) none).activeSymbols = g.activeSymbols :=
        a1.2.1
      rw [hact] at b1
      exact continues_trans _ _ _ _ a1
        (continues_trans _ _ _ _
          (continues_emit _ g1 IROp.PARAM none (some v) none (symbolIn_none _) a2
            (symbolIn_none _)) b1)
end

mutual
/-- The lowering of an expression returns when `getVar` finds every name without
subscript that it looks up. -/
theorem visitAddExp_total :
    ∀ (e : Exp) (g : DeclState), e.resolvable g.scopeStack g.activeSymbols = true →
      ∃ r, visitAddExp e g = some r
  | .number v0, g, _ => ⟨_, rfl⟩
  | .lval name, g, h => by
    simp only [Exp.resolvable, Option.isSome_iff_exists] at h
    obtain ⟨o, ho⟩ := h
    simp only [visitAddExp, ho]
    split_ifs
    · exact ⟨_, rfl⟩
    · exact ⟨_, rfl⟩
  | .lvalIndex name index, g, h => by
    simp only [Exp.resolvable] at h
    obtain ⟨r, hr⟩ := visitAddExp_total index g h
    simp only [visitAddExp, hr]
    exact ⟨_, rfl⟩
  | .binary op left right, g, h => by
    simp only [Exp.resolvable, Bool.and_eq_true] at h
    obtain ⟨r1, h1⟩ := visitAddExp_total left g h.1
    obtain ⟨⟨a1, a2, _⟩, _⟩ := visitAddExp_frame left g r1.1 r1.2 h1
    obtain ⟨r2, h2⟩ := visitAddExp_total right r1.2 (by rw [a1, a2]; exact h.2)
    simp only [visitAddExp, h1, h2]
    exact ⟨_, rfl⟩
  | .unaryPlus e, g, h => by
    simp only [Exp.resolvable] at h
    simp only [visitAddExp]
    exact visitAddExp_total e g h
  | .unary op e, g, h => by
    simp only [Exp.resolvable] at h
    obtain ⟨r, hr⟩ := visitAddExp_total e g h
    simp only [visitAddExp, hr]
    exact ⟨_, rfl⟩
  | .paren e, g, h => by
    simp only [Exp.resolvable] at h
    simp only [visitAddExp]
    exact visitAddExp_total e g h
  | .call funcName args, g, h => by
    simp only [Exp.resolvable, Bool.or_eq_true, decide_eq_true_eq] at h
    simp only [visitAddExp]
    split_ifs with hget
    · exact ⟨_, rfl⟩
    · rcases h with h | h
      · exact absurd h hget
      · obtain ⟨g1, h1⟩ := visitParams_total args g h
        simp only [h1]
        exact ⟨_, rfl⟩

/-- The lowering of the arguments of a call returns when they are resolvable. -/
theorem visitParams_total :
    ∀ (es : List Exp) (g : DeclState), resolvableAll g.scopeStack g.activeSymbols es = true →
      ∃ g2, visitParams es g = some g2
  | [], g, _ => ⟨g, rfl⟩
  | e :: rest, g, h => by
    simp only [resolvableAll, Bool.and_eq_true] at h
    obtain ⟨r, hr⟩ := visitAddExp_total e g h.1
    obtain ⟨⟨a1, a2, _⟩, _⟩ := visitAddExp_frame e g r.1 r.2 hr
    obtain ⟨g2, h2⟩ := visitParams_total rest (r.2.emit IROp.PARAM none (some r.1) none)
      (by
        have e1 : (r.2.emit IROp.PARAM none (some r.1) none).scopeStack = g.scopeStack := a1
        have e2 : (r.2.emit IROp.PARAM none (some r.1) none).activeSymbols = g.activeSymbols :=
          a2
        rw [e1, e2]
        exact h.2)
    simp only [visitParams, hr]
    exact ⟨g2, h2⟩
end

/-- C38. Declaration precedes use. A local scalar `name` whose entry lies in the innermost
scope and is not active yet is defined with an initializer `e` all of whose names
`getVar` finds. During the initializer `getVar` skips the new entry and resolves `name`
in the enclosing scopes, to the nearest entry that is already active; `visitVarDef`
returns, and the instructions it appends are those of the lowering of `e` in the state
before activation, none of whose operands carries the new entry (every symbol entry
they carry is active already), followed by `ASSIGN <new entry>, <value of e>`; only
then the entry joins the active set, and from then on `getVar` returns it for `name`. -/
theorem C38_declaration_precedes_use (g : DeclState) (outer : List Scope) (inner : Scope)
    (name : String) (entry : SymbolEntry) (e : Exp) (rest : List Exp)
    (hstack : g.scopeStack = outer ++ [inner])
    (hfind : inner.findSymbol name = some entry)
    (hlocal : entry.scope ≠ 1 ∧ isStaticSymbol entry = false ∧ entry.isArray = false)
    (hnew : entry ∉ g.activeSymbols)
    (hres : e.resolvable g.scopeStack g.activeSymbols = true) :
    getVar g.scopeStack g.activeSymbols name = getVar outer g.activeSymbols name ∧
    ∃ (valOp : Operand) (code : List IRInstruction) (g1 g2 : DeclState),
      visitAddExp e { g with temps := { g.temps with
        currentCodeGenInfo := g.temps.currentCodeGenInfo.map (registerLocal entry) } } =
          some (valOp, g1) ∧
      g1.instructions = g.instructions ++ code ∧
      visitVarDef name (some (e :: rest)) g = some g2 ∧
      g2.instructions = g.instructions ++ code ++
        [{ op := IROp.ASSIGN, result := some (getVarOperand entry), arg1 := some valOp }] ∧
      SymbolsIn g.activeSymbols code ∧
      (∀ i ∈ code, ∀ o ∈ operandsOf i, o.symbol ≠ some entry) ∧
      valOp.symbol ≠ some entry ∧
      g2.scopeStack = g.scopeStack ∧
      g2.activeSymbols = g.activeSymbols ++ [entry] ∧
      getVar g2.scopeStack g2.activeSymbols name = some (getVarOperand entry) := by
  have hlook : lookupSymbol g.scopeStack name = some entry := by
    rw [hstack]
    exact lookupSymbol_inner outer inner name entry hfind
  constructor
  · rw [hstack, getVar_inner outer inner g.activeSymbols name entry hfind, if_neg hnew]
  · obtain ⟨r, hr⟩ := visitAddExp_total e
      { g with temps := { g.temps with
        currentCodeGenInfo := g.temps.currentCodeGenInfo.map (registerLocal entry) } } hres
    obtain ⟨valOp, g1⟩ := r
    obtain ⟨⟨c1, c2, code, c3, c4⟩, c5⟩ := visitAddExp_frame e _ valOp g1 hr
    simp only [] at c1 c2 c3 c4 c5
    have hglob : ¬ (entry.scope = 1 ∨ isStaticSymbol entry = true) := by
      rintro (h | h)
      · exact hlocal.1 h
      · rw [hlocal.2.1] at h
        cases h
    have hnew1 : entry ∉ g1.activeSymbols := by rw [c2]; exact hnew
    have hdef : visitVarDef name (some (e :: rest)) g =
        some { g1.emit IROp.ASSIGN (some (getVarOperand entry)) (some valOp) none with
          activeSymbols := g1.activeSymbols ++ [entry] } := by
      simp only [visitVarDef, hlook, if_neg hglob, hlocal.2.2, Bool.false_eq_true, if_false, hr,
        activate, DeclState.emit, if_neg hnew1]
    refine ⟨valOp, code, g1, _, hr, c3, hdef, ?_, c4, ?_, ?_, c1, ?_, ?_⟩
    · simp only [DeclState.emit, c3]
    · intro i hi o ho hs
      exact hnew (c4 i hi o ho entry hs)
    · intro hs
      exact hnew (c5 valOp rfl entry hs)
    · simp only [DeclState.emit, c2]
    · simp only [DeclState.emit, c1, c2]
      rw [hstack, getVar_inner outer inner _ name entry hfind, if_pos (by simp)]

/-- C38 on `int a = a + 1;` in a block nested in a function body that has declared
`int a`: the initializer reads the `a` of scope 2, the listing is
`ADD t0, a_2, #1; ASSIGN a_3, t0`, and afterwards `a` is the `a` of scope 3. For
`int a = f(a);` in the same place the listing is `PARAM a_2; CALL t0, f; ASSIGN a_3, t0`. -/
theorem C38_declaration_precedes_use_witness :
    exDeclState.scopeStack = exOuterScopes ++ [exInnerScope] ∧
    exInnerScope.findSymbol "a" = some exSymA3 ∧
    exSymA3 ∉ exDeclState.activeSymbols ∧
    getVar exDeclState.scopeStack exDeclState.activeSymbols "a" = some (getVarOperand exSymA2) ∧
    (visitVarDef "a" (some [exInitAPlus1]) exDeclState).map (fun g => g.instructions) =
      some [{ op := IROp.ADD, result := some (tempOperand 0),
              arg1 := some (getVarOperand exSymA2), arg2 := some (Operand.imm 1) },
            { op := IROp.ASSIGN, result := some (getVarOperand exSymA3),
              arg1 := some (tempOperand 0) }] ∧
    (visitVarDef "a" (some [exInitCallF]) exDeclState).map (fun g => g.instructions) =
      some [{ op := IROp.PARAM, arg1 := some (getVarOperand exSymA2) },
            { op := IROp.CALL, result := some (tempOperand 0),
              arg1 := some (Operand.named "f" OperandType.LABEL) },
            { op := IROp.ASSIGN, result := some (getVarOperand exSymA3),
              arg1 := some (tempOperand 0) }] ∧
    ∃ g2, visitVarDef "a" (some [exInitAPlus1]) exDeclState = some g2 ∧
      getVar g2.scopeStack g2.activeSymbols "a" = some (getVarOperand exSymA3) := by
  obtain ⟨h1, _, _, _, g2, _, _, h2, _, _, _, _, _, _, h3⟩ :=
    C38_declaration_precedes_use exDeclState exOuterScopes exInnerScope "a" exSymA3
      exInitAPlus1 [] (by decide) (by decide) (by decide) (by decide) (by decide)
  exact ⟨by decide, by decide, by decide, by decide, by decide, by decide, g2, h2, h3⟩

/-! ### Statements and loops -/

theorem advance_zero_nil (s : LoopState) : s.advance 0 [] = s := by
  simp [LoopState.advance]

theorem advance_advance (s : LoopState) (k1 k2 : Nat) (c1 c2 : List IRInstruction) :
    (s.advance k1 c1).advance k2 c2 = s.advance (k1 + k2) (c1 ++ c2) := by
  simp [LoopState.advance, Nat.add_assoc]

theorem loopNewLabel_eq (s : LoopState) :
    s.newLabel = (labelOperand s.gen.labelCounter, s.advance 1 []) := by
  simp [LoopState.newLabel, newLabel, LoopState.advance, labelOperand]

theorem loopEmit_eq (s : LoopState) (op : IROp) (r a b : Option Operand) :
    s.emit op r a b = s.advance 0 [{ op := op, result := r, arg1 := a, arg2 := b }] := by
  simp [LoopState.emit, emit, LoopState.advance]

theorem loopEmitLabel_eq (s : LoopState) (l : Operand) :
    s.emitLabel l = s.advance 0 [mkLabel l] := by
  simp [LoopState.emitLabel, emitLabel, emit, LoopState.advance, mkLabel]

theorem loopAppend_eq (s : LoopState) (code : List IRInstruction) :
    s.append code = s.advance 0 code := by
  simp [LoopState.append, LoopState.advance]

theorem loopVisitCond_eq (s : LoopState) (c : LOrExp) (lt lf : Operand) :
    s.visitCond c lt lf = s.advance c.labels (orCode c lt lf s.gen.labelCounter) := by
  simp [LoopState.visitCond, visitCond, visitLOrExp_eq, LoopState.advance]

/-- The lowering of a statement appends the listing of the statement, allocates its
labels, and leaves the break and continue stacks as they were. -/
theorem visitStmt_eq (st : Stmt) :
    ∀ s : LoopState,
      visitStmt st s =
        s.advance st.labels (st.code s.gen.labelCounter s.breakStack s.continueStack) := by
  induction st with
  | empty =>
    intro s
    simp only [visitStmt, Stmt.labels, Stmt.code, advance_zero_nil]
  | straight code =>
    intro s
    simp only [visitStmt, Stmt.labels, Stmt.code, loopAppend_eq]
  | seq first rest ih1 ih2 =>
    intro s
    simp only [visitStmt, Stmt.labels, Stmt.code, ih1, ih2, advance_advance]
    simp [LoopState.advance]
  | block items ih =>
    intro s
    simp only [visitStmt, Stmt.labels, Stmt.code, ih]
  | ifThen cond trueStmt ih =>
    intro s
    simp only [visitStmt, Stmt.labels, Stmt.code, ih, loopNewLabel_eq, loopEmitLabel_eq,
      loopVisitCond_eq, advance_advance]
    simp [LoopState.advance, Nat.add_assoc, Nat.add_comm, Nat.add_left_comm]
  | ifElse cond trueStmt falseStmt ih1 ih2 =>
    intro s
    simp only [visitStmt, Stmt.labels, Stmt.code, ih1, ih2, loopNewLabel_eq, loopEmitLabel_eq,
      loopEmit_eq, loopVisitCond_eq, advance_advance]
    simp [LoopState.advance, Nat.add_assoc, Nat.add_comm, Nat.add_left_comm, mkJump]
  | forLoop init cond step body ih =>
    intro s
    cases cond with
    | none =>
      simp only [visitStmt, Stmt.labels, Stmt.code, ih, loopNewLabel_eq, loopEmitLabel_eq,
        loopEmit_eq, loopAppend_eq, advance_advance, forListing, condLabels]
      simp [LoopState.advance, Nat.add_assoc, Nat.add_comm, Nat.add_left_comm, mkJump]
    | some c =>
      simp only [visitStmt, Stmt.labels, Stmt.code, ih, loopNewLabel_eq, loopEmitLabel_eq,
        loopEmit_eq, loopAppend_eq, loopVisitCond_eq, advance_advance, forListing, condLabels]
      simp [LoopState.advance, Nat.add_assoc, Nat.add_comm, Nat.add_left_comm, mkJump]
  | breakStmt =>
    intro s
    cases hb : s.breakStack with
    | nil => simp only [visitStmt, hb, Stmt.labels, Stmt.code, advance_zero_nil]
    | cons top rest =>
      simp only [visitStmt, hb, Stmt.labels, Stmt.code, loopEmit_eq, mkJump]
  | continueStmt =>
    intro s
    cases hb : s.continueStack with
    | nil => simp only [visitStmt, hb, Stmt.labels, Stmt.code, advance_zero_nil]
    | cons top rest =>
      simp only [visitStmt, hb, Stmt.labels, Stmt.code, loopEmit_eq, mkJump]

/-- The listing of a statement inside a loop depends on the labels of the innermost loop
only. -/
theorem code_head (st : Stmt) :
    ∀ (n : Nat) (l t : Operand) (e1 e2 s1 s2 : List Operand),
      st.code n (l :: e1) (t :: s1) = st.code n (l :: e2) (t :: s2) := by
  induction st with
  | empty => intros; rfl
  | straight code => intros; rfl
  | seq first rest ih1 ih2 =>
    intro n l t e1 e2 s1 s2
    simp only [Stmt.code]
    rw [ih1 n l t e1 e2 s1 s2, ih2 _ l t e1 e2 s1 s2]
  | block items ih =>
    intro n l t e1 e2 s1 s2
    simp only [Stmt.code]
    exact ih n l t e1 e2 s1 s2
  | ifThen cond trueStmt ih =>
    intro n l t e1 e2 s1 s2
    simp only [Stmt.code]
    rw [ih _ l t e1 e2 s1 s2]
  | ifElse cond trueStmt falseStmt ih1 ih2 =>
    intro n l t e1 e2 s1 s2
    simp only [Stmt.code]
    rw [ih1 _ l t e1 e2 s1 s2, ih2 _ l t e1 e2 s1 s2]
  | forLoop init cond step body ih =>
    intro n l t e1 e2 s1 s2
    simp only [Stmt.code]
    rw [ih _ _ _ (l :: e1) (l :: e2) (t :: s1) (t :: s2)]
  | breakStmt => intros; rfl
  | continueStmt => intros; rfl

theorem withJumps_labels (l t : Operand) (st : Stmt) : (st.withJumps l t).labels = st.labels := by
  induction st with
  | empty => rfl
  | straight code => rfl
  | seq first rest ih1 ih2 => simp only [Stmt.withJumps, Stmt.labels, ih1, ih2]
  | block items ih => simp only [Stmt.withJumps, Stmt.labels, ih]
  | ifThen cond trueStmt ih => simp only [Stmt.withJumps, Stmt.labels, ih]
  | ifElse cond trueStmt falseStmt ih1 ih2 => simp only [Stmt.withJumps, Stmt.labels, ih1, ih2]
  | forLoop init cond step body ih => rfl
  | breakStmt => rfl
  | continueStmt => rfl

/-- Inside a loop with end label `l` and step label `t` the listing of a statement is the
listing of the statement with its own breaks and continues replaced by `JUMP l` and
`JUMP t`. -/
theorem code_withJumps (st : Stmt) :
    ∀ (n : Nat) (l t : Operand) (ends steps ends2 steps2 : List Operand),
      st.code n (l :: ends) (t :: steps) = (st.withJumps l t).code n ends2 steps2 := by
  induction st with
  | empty => intros; rfl
  | straight code => intros; rfl
  | seq first rest ih1 ih2 =>
    intro n l t ends steps ends2 steps2
    simp only [Stmt.code, Stmt.withJumps, withJumps_labels]
    rw [ih1 n l t ends steps ends2 steps2, ih2 _ l t ends steps ends2 steps2]
  | block items ih =>
    intro n l t ends steps ends2 steps2
    simp only [Stmt.code, Stmt.withJumps]
    exact ih n l t ends steps ends2 steps2
  | ifThen cond trueStmt ih =>
    intro n l t ends steps ends2 steps2
    simp only [Stmt.code, Stmt.withJumps]
    rw [ih _ l t ends steps ends2 steps2]
  | ifElse cond trueStmt falseStmt ih1 ih2 =>
    intro n l t ends steps ends2 steps2
    simp only [Stmt.code, Stmt.withJumps, withJumps_labels]
    rw [ih1 _ l t ends steps ends2 steps2, ih2 _ l t ends steps ends2 steps2]
  | forLoop init cond step body _ =>
    intro n l t ends steps ends2 steps2
    simp only [Stmt.code, Stmt.withJumps]
    rw [code_head body _ _ _ (l :: ends) ends2 (t :: steps) steps2]
  | breakStmt => intros; rfl
  | continueStmt => intros; rfl

/-- C39. Lowering of `for (init; C; step) body`. With the label counter at `n`,
`visitStmt` appends `forListing`: the lowering of `init`; `L_start:`; the lowering of
`C` with targets (`L_body`, `L_end`), or `JUMP L_body` when `C` is absent; `L_body:`;
the lowering of the body; `L_step:`; the lowering of `step`; `JUMP L_start`, or
`JUMP L_body` when `C` is absent; `L_end:`. The part for the body is what `visitStmt`
appends for the body in a state with `L_end` and `L_step` on top of the stacks, and it is
the listing of the body in which every `break` not nested in an inner loop is
`JUMP L_end` and every such `continue` is `JUMP L_step`. Every statement leaves the
break and continue stacks exactly as it found them, so a `break` that follows an inner
loop targets the end label of the enclosing loop, as in
`for (;;) { for (; x;) { continue; } break; }`. -/
theorem C39_for_loop_lowering :
    (∀ (init : List IRInstruction) (cond : Option LOrExp) (step : List IRInstruction)
      (body : Stmt) (s : LoopState),
      (visitStmt (Stmt.forLoop init cond step body) s).gen.instructions =
        s.gen.instructions ++
          forListing init cond step
            (body.code (s.gen.labelCounter + 5 + condLabels cond)
              (labelOperand (s.gen.labelCounter + 4) :: s.breakStack)
              (labelOperand (s.gen.labelCounter + 3) :: s.continueStack))
            s.gen.labelCounter) ∧
    (∀ (body : Stmt) (s : LoopState),
      (visitStmt body s).gen.instructions =
        s.gen.instructions ++ body.code s.gen.labelCounter s.breakStack s.continueStack) ∧
    (∀ (body : Stmt) (n : Nat) (endLabel stepLabel : Operand) (ends steps : List Operand),
      body.code n (endLabel :: ends) (stepLabel :: steps) =
        (body.withJumps endLabel stepLabel).code n [] []) ∧
    (∀ (st : Stmt) (s : LoopState),
      (visitStmt st s).breakStack = s.breakStack ∧
        (visitStmt st s).continueStack = s.continueStack) ∧
    (∀ (s : LoopState) (top : Operand) (rest : List Operand), s.breakStack = top :: rest →
      (visitStmt Stmt.breakStmt s).gen.instructions = s.gen.instructions ++ [mkJump top]) ∧
    (∀ (s : LoopState) (top : Operand) (rest : List Operand), s.continueStack = top :: rest →
      (visitStmt Stmt.continueStmt s).gen.instructions = s.gen.instructions ++ [mkJump top]) ∧
    (visitStmt exNestedLoops { gen := exGenEmpty }).gen.instructions =
      [mkLabel (labelOperand 0), mkJump (labelOperand 2), mkLabel (labelOperand 2),
       mkLabel (labelOperand 5), mkBeqz (labelOperand 9) exVarX, mkJump (labelOperand 7),
       mkLabel (labelOperand 7), mkJump (labelOperand 8), mkLabel (labelOperand 8),
       mkJump (labelOperand 5), mkLabel (labelOperand 9),
       mkJump (labelOperand 4),
       mkLabel (labelOperand 3), mkJump (labelOperand 2), mkLabel (labelOperand 4)] := by
  refine ⟨?_, ?_, ?_, ?_, ?_, ?_, by decide⟩
  · intro init cond step body s
    rw [visitStmt_eq]
    rfl
  · intro body s
    rw [visitStmt_eq]
    rfl
  · intro body n endLabel stepLabel ends steps
    exact code_withJumps body n endLabel stepLabel ends steps [] []
  · intro st s
    rw [visitStmt_eq]
    exact ⟨rfl, rfl⟩
  · intro s top rest h
    rw [visitStmt_eq]
    simp only [LoopState.advance, Stmt.code, h]
  · intro s top rest h
    rw [visitStmt_eq]
    simp only [LoopState.advance, Stmt.code, h]

/-! ### Names of locals, globals and temporaries -/

theorem digitChar_plain (d : Nat) (h : d < 10) :
    Nat.digitChar d ≠ '_' ∧ Nat.digitChar d ≠ '-' := by
  interval_cases d <;> decide

theorem toDigitsCore_plain (fuel : Nat) :
    ∀ (n : Nat) (ds : List Char), (∀ c ∈ ds, c ≠ '_' ∧ c ≠ '-') →
      ∀ c ∈ Nat.toDigitsCore 10 fuel n ds, c ≠ '_' ∧ c ≠ '-' := by
  induction fuel with
  | zero => intro n ds h c hc; exact h c (by simpa [Nat.toDigitsCore] using hc)
  | succ f ih =>
    intro n ds h c hc
    simp only [Nat.toDigitsCore] at hc
    have hd : ∀ c ∈ Nat.digitChar (n % 10) :: ds, c ≠ '_' ∧ c ≠ '-' := by
      intro c2 hc2
      rcases List.mem_cons.1 hc2 with e | e
      · rw [e]
        exact digitChar_plain _ (Nat.mod_lt _ (by norm_num))
      · exact h c2 e
    split at hc
    · exact hd c hc
    · exact ih _ _ hd c hc

/-- The decimal text of a natural number has neither an underscore nor a minus sign. -/
theorem natRepr_plain (n : Nat) : ∀ c ∈ (Nat.repr n).data, c ≠ '_' ∧ c ≠ '-' := by
  intro c hc
  have hc2 : c ∈ Nat.toDigitsCore 10 (n + 1) n [] := by
    simpa [Nat.repr, Nat.toDigits, List.asString] using hc
  exact toDigitsCore_plain (n + 1) n [] (by intro c h; simp at h) c hc2

theorem intToString_ofNat (n : Nat) : ToString.toString (Int.ofNat n) = Nat.repr n := rfl

theorem intToString_negSucc (n : Nat) :
    ToString.toString (Int.negSucc n) = "-" ++ Nat.repr (n + 1) := rfl

/-- The decimal text of an integer has no underscore. -/
theorem intToString_plain (i : Int) : '_' ∉ (ToString.toString i).data := by
  intro h
  cases i with
  | ofNat n =>
    rw [intToString_ofNat] at h
    exact (natRepr_plain n _ h).1 rfl
  | negSucc n =>
    rw [intToString_negSucc, String.data_append] at h
    rcases List.mem_append.1 h with e | e
    · revert e; decide
    · exact (natRepr_plain _ _ e).1 rfl

theorem intToString_injective (a b : Int)
    (h : (ToString.toString a : String) = ToString.toString b) : a = b := by
  cases a with
  | ofNat m =>
    cases b with
    | ofNat n =>
      rw [intToString_ofNat, intToString_ofNat] at h
      rw [natRepr_injective m n h]
    | negSucc n =>
      exfalso
      rw [intToString_ofNat, intToString_negSucc] at h
      have hmem : '-' ∈ (Nat.repr m).data := by
        rw [h, String.data_append]
        exact List.mem_append_left _ (by decide)
      exact (natRepr_plain m _ hmem).2 rfl
  | negSucc m =>
    cases b with
    | ofNat n =>
      exfalso
      rw [intToString_ofNat, intToString_negSucc] at h
      have hmem : '-' ∈ (Nat.repr n).data := by
        rw [← h, String.data_append]
        exact List.mem_append_left _ (by decide)
      exact (natRepr_plain n _ hmem).2 rfl
    | negSucc n =>
      rw [intToString_negSucc, intToString_negSucc] at h
      have h2 := congrArg String.data h
      simp only [String.data_append, List.append_cancel_left_eq] at h2
      have := natRepr_injective _ _ (String.ext h2)
      have hmn : m = n := by omega
      rw [hmn]

/-- A list is cut in one way only at the last occurrence of an element. -/
theorem split_at_last {α : Type} (a : α) (l1 : List α) :
    ∀ (l2 r1 r2 : List α), l1 ++ a :: r1 = l2 ++ a :: r2 → a ∉ r1 → a ∉ r2 →
      l1 = l2 ∧ r1 = r2 := by
  induction l1 with
  | nil =>
    intro l2 r1 r2 h h1 h2
    cases l2 with
    | nil =>
      simp only [List.nil_append, List.cons.injEq, true_and] at h
      exact ⟨rfl, h⟩
    | cons b l2 =>
      exfalso
      simp only [List.nil_append, List.cons_append, List.cons.injEq] at h
      apply h1
      rw [h.2]
      simp
  | cons x l1 ih =>
    intro l2 r1 r2 h h1 h2
    cases l2 with
    | nil =>
      exfalso
      simp only [List.nil_append, List.cons_append, List.cons.injEq] at h
      apply h2
      rw [← h.2]
      simp
    | cons y l2 =>
      simp only [List.cons_append, List.cons.injEq] at h
      obtain ⟨e1, e2⟩ := ih l2 r1 r2 h.2 h1 h2
      exact ⟨by rw [h.1, e1], e2⟩

/-- The name `<name>_<scope>` determines the source name and the scope. -/
theorem uniqueName_injective (a b : SymbolEntry) (h : uniqueName a = uniqueName b) :
    a.name = b.name ∧ a.scope = b.scope := by
  unfold uniqueName at h
  have h2 := congrArg String.data h
  simp only [String.data_append] at h2
  have h3 : a.name.data ++ '_' :: (ToString.toString a.scope : String).data =
      b.name.data ++ '_' :: (ToString.toString b.scope : String).data := by
    simpa using h2
  obtain ⟨e1, e2⟩ := split_at_last '_' _ _ _ _ h3 (intToString_plain _) (intToString_plain _)
  exact ⟨String.ext e1, intToString_injective _ _ (String.ext e2)⟩

/-- The operand of a local that is not static carries the name `<name>_<scope>`. -/
theorem getVarOperand_local (e : SymbolEntry) (h1 : e.scope ≠ 1) (h2 : isStaticSymbol e = false) :
    (getVarOperand e).name = uniqueName e := by
  simp only [isStaticSymbol] at h2
  simp [getVarOperand, uniqueName, h1, h2]

/-- The name of a temporary has no underscore, the name of a local has one. -/
theorem uniqueName_ne_tempName (e : SymbolEntry) (c : Int) : uniqueName e ≠ tempName c := by
  intro h
  have h2 := congrArg String.data h
  simp only [uniqueName, tempName, String.data_append] at h2
  have hmem : '_' ∈ ("t" : String).data ++ (ToString.toString c : String).data := by
    rw [← h2]
    simp
  rcases List.mem_append.1 hmem with e1 | e1
  · revert e1; decide
  · exact intToString_plain c e1

/-- C40. The names are not unambiguous: a global keeps its source name, so the global
`a_2` and the local `a` of scope 2 both carry the IR name `a_2`. In `main` of
`int a_2; int main() { int a; ... a_2 + a ... }` the layout has the key `a_2` for the
local at offset 12; `getAddress` looks the name of an operand up in the layout first and
returns the slot `-12($fp)` for the global too, whose home outside a function is the
label `_a_2`; and `ADD t0, a_2, a_2` with the global as first and the local as second
operand is translated to `lw $t0, -12($fp); addu $t1, $t0, $t0`, the allocator finding
the name of the local already in `$t0`. What does hold: two locals that are not static
carry the same name only if they have the same source name and the same scope, and
the name of such a local is never the name `t<n>` of a temporary. -/
theorem C40_global_named_like_local_shares_slot :
    (getVarOperand exSymA2).name = "a_2" ∧
    (getVarOperand exGlobalA2).name = "a_2" ∧
    getVarOperand exSymA2 ≠ getVarOperand exGlobalA2 ∧
    (getAddress (some exMainLayout) (getVarOperand exSymA2) MipsReg.T9).toOption =
      some ([], Address.frame 12) ∧
    (getAddress (some exMainLayout) (getVarOperand exGlobalA2) MipsReg.T9).toOption =
      some ([], Address.frame 12) ∧
    (getAddress none (getVarOperand exGlobalA2) MipsReg.T9).toOption =
      some ([MipsInstr.la MipsReg.T9 "_a_2"], Address.atReg MipsReg.T9) ∧
    (visitBinaryOp (some exMainLayout) RegisterManager.construct exAddGlobalLocal
        "addu").toOption.map (fun r => r.1.map MipsInstr.text) =
      some ["lw $t0, -12($fp)", "addu $t1, $t0, $t0"] ∧
    (∀ a b : SymbolEntry, a.scope ≠ 1 → isStaticSymbol a = false → b.scope ≠ 1 →
      isStaticSymbol b = false → (getVarOperand a).name = (getVarOperand b).name →
      a.name = b.name ∧ a.scope = b.scope) ∧
    (∀ (a : SymbolEntry) (c : Int), a.scope ≠ 1 → isStaticSymbol a = false →
      (getVarOperand a).name ≠ tempName c) := by
  refine ⟨by decide, by decide, by decide, by decide, by decide, by decide, by decide, ?_, ?_⟩
  · intro a b ha1 ha2 hb1 hb2 h
    rw [getVarOperand_local a ha1 ha2, getVarOperand_local b hb1 hb2] at h
    exact uniqueName_injective a b h
  · intro a c ha1 ha2
    rw [getVarOperand_local a ha1 ha2]
    exact uniqueName_ne_tempName a c

end SysY
